import Mathlib

/-!
Replicated secret sharing runtime `frn`: embedding and verification.

The definitions of the first part follow the C++ sources (rep.h, additive.h, shr.h, shr.cc,
corr.h, corr.cc, mult.h, mult.cc, input_corr.h, input_corr.cc, input.h, input.cc, arithmetic.h,
arithmetic.cc, p.h, fp.h, tools.h, vec.h, check.h, hash.h, connector.h, connector.cc,
builder.h, builder.cc, exp_check.cc, exp_input.cc) function by function.

* `std::size_t` values are natural numbers; where the source multiplies them
  (`Binom`) the product is reduced modulo `2 ^ 64`.
* `int` and `unsigned` values that index parties and slots are natural numbers (they are
  never negative).  The `int` counter `share_idx` of `Replicator::Init` counts the
  combinations and can reach `INT_MAX`; the increment that would pass it is reported as
  `Fault.signed_overflow`.  Every other index is bounded by that counter or by `n`.
* `std::uint64_t` and `__uint128_t` values of the modular arithmetic are natural numbers, every
  operation reduced modulo `2 ^ 64` or `2 ^ 128`; `std::int64_t` values are integers, and an
  operation whose result leaves the range of the type is reported as `Fault.signed_overflow`.
* A byte buffer is a list of natural numbers below 256 and a pointer into it is the buffer
  with an offset; a `std::uint64_t` lies in memory with its lowest byte first.
* The system calls behind `SystemInterface` are given to a method as the list of their
  answers.
* `std::vector` is `List`; reading or writing past the end of a vector is reported as
  `Fault.out_of_bounds`, a thrown exception as the matching `Fault`.
* `Replicator<T>` is a template over the ring `T`; the higher layers use the alias
  `Field`.  Both are a type `F` with a commutative ring structure here.
* A method that changes its object returns the new object; a method that uses the network
  takes the state of the channels and returns the new one.
* The sponge state of `Hash` is a list of 25 words of 64 bits; the bytes that wait for their
  word are kept in `mSaved`.
* A port number is an integer; the connectors that `Network::Builder::Build` creates are
  recorded with their kind, port and host name, no socket is opened.
* `Replicator::ErrorCorrection` is declared in rep.h and has no body in the sources; its
  definition follows the specification.

The second part holds the auxiliary definitions of the proofs, the third part the theorems.
-/

namespace frn

/-! Definitions -/

/-- Reasons for which a call returns no value. -/
inductive Fault where
  | invalid_argument : Fault
  | inconsistent_shares : Fault
  | out_of_range : Fault
  | out_of_bounds : Fault
  | blocked : Fault
  | logic_error : Fault
  | signed_overflow : Fault
  | diverged : Fault
  | division_by_zero : Fault
  | system_error : Fault
  | runtime_error : Fault
  | bad_optional_access : Fault
  | assertion_failed : Fault
  deriving DecidableEq, Repr

/-- Number of values of `std::size_t`. -/
def SIZE : Nat := 2 ^ 64

/-- The `for` loop of `Binom`: the pair `(top, bot)` after `i` iterations. -/
def Binom.loop (m : Nat) : Nat → Nat × Nat
  | 0 => (1, 1)
  | i + 1 =>
    let r := Binom.loop m i
    ((r.1 * ((m + 1 + SIZE - (i + 1)) % SIZE)) % SIZE, (r.2 * (i + 1)) % SIZE)

/-- Embeds `Binom(m, k)` of rep.h, on 64-bit `std::size_t`. -/
def Binom (m k : Nat) : Nat :=
  let d := (m + SIZE - k) % SIZE
  let e := if k > d then d else k
  let r := Binom.loop m e
  r.1 / r.2

/-- The divisor `bot` of the division `top / bot` that ends `Binom(m, k)`. -/
def Binom.divisor (m k : Nat) : Nat :=
  let d := (m + SIZE - k) % SIZE
  let e := if k > d then d else k
  (Binom.loop m e).2

/-- The call `Binom(m, k)`: when `bot` is 0 the division `top / bot` has no value, otherwise
the call returns `Binom m k`. -/
def Binom.call (m k : Nat) : Except Fault Nat :=
  if Binom.divisor m k = 0 then .error Fault.division_by_zero else .ok (Binom m k)

/-- The inner loop of `NextCombination`: `for (j = i + 1; j < k; ++j) c[j] = c[j - 1] + 1`,
with `r` the number of iterations left. -/
def NextCombination.fill : Nat → Nat → List Nat → List Nat
  | 0, _, c => c
  | r + 1, j, c => NextCombination.fill r (j + 1) (c.set j (c.getD (j - 1) 0 + 1))

/-- The outer loop of `NextCombination`, about to look at index `i - 1`. -/
def NextCombination.scan (c : List Nat) (m k : Nat) : Nat → Option (List Nat)
  | 0 => none
  | i + 1 =>
    if c.getD i 0 + k < m + i then
      some (NextCombination.fill (k - (i + 1)) (i + 1) (c.set i (c.getD i 0 + 1)))
    else NextCombination.scan c m k i

/-- Embeds `NextCombination(c, m, k)`: `some c'` when the call returns `true` and leaves `c'` in `c`,
`none` when it returns `false` (and `c` is untouched). -/
def NextCombination (c : List Nat) (m k : Nat) : Option (List Nat) :=
  NextCombination.scan c m k k

/-- The `while` loop of `NthCombination`. -/
def NthCombination.loop (m k : Nat) : Nat → List Nat → List Nat
  | 0, c => c
  | n + 1, c =>
    match NextCombination c m k with
    | some c' => NthCombination.loop m k n c'
    | none => c

/-- Embeds `NthCombination(c, n, m)`; only the size of `c` is read. -/
def NthCombination (c : List Nat) (n m : Nat) : List Nat :=
  NthCombination.loop m c.length n (List.range c.length)

/-- Embeds `Intersection(set, other, cb)`: the list of the indices passed to `cb`, in call order.
Each turn of the loop advances one of the two iterators, so `fuel = |set| + |other|`
turns are enough. -/
def Intersection.go : Nat → List Nat → List Nat → Nat → List Nat
  | 0, _, _, _ => []
  | _ + 1, [], _, _ => []
  | _ + 1, _ :: _, [], _ => []
  | fuel + 1, x :: xs, y :: ys, i =>
    if x < y then Intersection.go fuel xs (y :: ys) (i + 1)
    else if ¬ (y < x) then i :: Intersection.go fuel (x :: xs) ys i
    else Intersection.go fuel (x :: xs) ys i

/-- Embeds `Intersection(set, other, cb)`. -/
def Intersection (set other : List Nat) : List Nat :=
  Intersection.go (set.length + other.length) set other 0

/-- Embeds `Difference(set, other, cb)`: the list of the indices passed to `cb`, in call order. -/
def Difference.go : Nat → List Nat → List Nat → Nat → List Nat
  | 0, _, _, _ => []
  | _ + 1, [], _, _ => []
  | fuel + 1, _ :: xs, [], i => i :: Difference.go fuel xs [] (i + 1)
  | fuel + 1, x :: xs, y :: ys, i =>
    if x < y then i :: Difference.go fuel xs (y :: ys) (i + 1)
    else if ¬ (y < x) then Difference.go fuel xs ys (i + 1)
    else Difference.go fuel (x :: xs) ys i

/-- Embeds `Difference(set, other, cb)`. -/
def Difference (set other : List Nat) : List Nat :=
  Difference.go (set.length + other.length) set other 0

/-- The three tables filled by the `do ... while` loop of `Replicator::Init`. -/
structure Tables where
  mCombinations : List (List Nat)
  mRevComb : List (List Nat × Nat)
  mLookup : List (List Nat)
  deriving DecidableEq, Repr

/-- Embeds `mLookup[party_idx].emplace_back(share_idx)`. -/
def pushAt (lk : List (List Nat)) (party_idx share_idx : Nat) : Except Fault (List (List Nat)) :=
  if party_idx < lk.length then
    .ok (lk.set party_idx (lk.getD party_idx [] ++ [share_idx]))
  else .error Fault.out_of_bounds

/-- Embeds `for (auto party_idx : combination) mLookup[party_idx].emplace_back(share_idx)`. -/
def pushAll : List Nat → Nat → List (List Nat) → Except Fault (List (List Nat))
  | [], _, lk => .ok lk
  | p :: ps, share_idx, lk =>
    match pushAt lk p share_idx with
    | .ok lk' => pushAll ps share_idx lk'
    | .error e => .error e

/-- Embeds `std::map::insert`: an existing key keeps its value. -/
def mapInsert (mp : List (List Nat × Nat)) (key : List Nat) (v : Nat) : List (List Nat × Nat) :=
  match mp.lookup key with
  | some _ => mp
  | none => mp ++ [(key, v)]

/-- The body of the `do ... while` loop of `Replicator::Init`. -/
def Init.body (combination : List Nat) (share_idx : Nat) (tb : Tables) : Except Fault Tables :=
  if share_idx < tb.mCombinations.length then
    match pushAll combination share_idx tb.mLookup with
    | .ok lk =>
      .ok { mCombinations := tb.mCombinations.set share_idx combination
            mRevComb := mapInsert tb.mRevComb combination share_idx
            mLookup := lk }
    | .error e => .error e
  else .error Fault.out_of_bounds

/-- The largest value of an `int`. -/
def INT_MAX : Nat := 2 ^ 31 - 1

/-- The `do ... while` loop of `Replicator::Init`.  The counter `share_idx` is an `int`
(rep.h:474): `share_idx++` at the end of a turn is a signed overflow when the counter holds
`INT_MAX`.  Every turn writes `mCombinations[share_idx]` and `share_idx` grows by one, so the
loop stops or faults within `mAdditiveShareSize + 1` turns; that number is the fuel. -/
def Init.loop (m k : Nat) : Nat → List Nat → Nat → Tables → Except Fault Tables
  | 0, _, _, _ => .error Fault.out_of_bounds
  | fuel + 1, combination, share_idx, tb =>
    match Init.body combination share_idx tb with
    | .error e => .error e
    | .ok tb' =>
      if INT_MAX ≤ share_idx then .error Fault.signed_overflow
      else
        match NextCombination combination m k with
        | some c' => Init.loop m k fuel c' (share_idx + 1) tb'
        | none => .ok tb'

/-- The members of `Replicator<T>`. -/
structure Replicator where
  mSize : Nat
  mThreshold : Nat
  mShareSize : Nat
  mAdditiveShareSize : Nat
  mCombinations : List (List Nat)
  mRevComb : List (List Nat × Nat)
  mLookup : List (List Nat)
  mDifferenceSize : Nat
  deriving DecidableEq, Repr

/-- Embeds `Replicator::Init`, run on the members set by the constructor's initialiser list. -/
def Replicator.Init (mSize mThreshold mShareSize mAdditiveShareSize : Nat) :
    Except Fault Replicator :=
  let k := mSize - mThreshold
  let m := mSize
  let combination := NthCombination (List.replicate k 0) 0 m
  match Init.loop m k (mAdditiveShareSize + 1) combination 0
      { mCombinations := List.replicate mAdditiveShareSize []
        mRevComb := []
        mLookup := List.replicate mSize [] } with
  | .error e => .error e
  | .ok tb =>
    match tb.mLookup with
    | l0 :: l1 :: _ =>
      .ok { mSize := mSize
            mThreshold := mThreshold
            mShareSize := mShareSize
            mAdditiveShareSize := mAdditiveShareSize
            mCombinations := tb.mCombinations
            mRevComb := tb.mRevComb
            mLookup := tb.mLookup
            mDifferenceSize := (Difference l0 l1).length }
    | _ => .error Fault.out_of_bounds

/-- The constructor `Replicator::Replicator(n, t)`: the member initialisers, which call
`Binom(n - 1, t)` and `Binom(n, t)`, then the two tests of the body, then `Init()`. -/
def Replicator.ctor (n t : Nat) : Except Fault Replicator :=
  match Binom.call ((n + SIZE - 1) % SIZE) t with
  | .error e => .error e
  | .ok mShareSize =>
    match Binom.call n t with
    | .error e => .error e
    | .ok mAdditiveShareSize =>
      if n ≤ t then .error Fault.invalid_argument
      else if t = 0 then .error Fault.invalid_argument
      else Replicator.Init n t mShareSize mAdditiveShareSize

/-- Reading `v[i]`; past the end of the vector the behaviour is undefined. -/
def getE {α : Type} (v : List α) (i : Nat) : Except Fault α :=
  match v.get? i with
  | some x => .ok x
  | none => .error Fault.out_of_bounds

/-- Runs the calls of a list in order and stops at the first one that fails. -/
def allOk {α : Type} : List (Except Fault α) → Except Fault (List α)
  | [] => .ok []
  | x :: xs =>
    match x with
    | .error e => .error e
    | .ok a =>
      match allOk xs with
      | .error e => .error e
      | .ok as => .ok (a :: as)

/-- Embeds `Replicator::IndexSetFor(id)`. -/
def Replicator.IndexSetFor (R : Replicator) (id : Nat) : Except Fault (List Nat) :=
  getE R.mLookup id

/-- Embeds `Replicator::Combination(idx)`. -/
def Replicator.Combination (R : Replicator) (idx : Nat) : Except Fault (List Nat) :=
  getE R.mCombinations idx

/-- Embeds `Replicator::RevComb(combination)`, that is `mRevComb.at(combination)`. -/
def Replicator.RevComb (R : Replicator) (combination : List Nat) : Except Fault Nat :=
  match R.mRevComb.lookup combination with
  | some idx => .ok idx
  | none => .error Fault.out_of_range

/-- Embeds `Replicator::ShareSize()`. -/
def Replicator.ShareSize (R : Replicator) : Nat := R.mShareSize

/-- Embeds `Replicator::AdditiveShareSize()`. -/
def Replicator.AdditiveShareSize (R : Replicator) : Nat := R.mAdditiveShareSize

/-- The interface of the class `PRG` of frn/lib/primitives/prg.h, a keyed deterministic byte
stream.  The file is not among the sources, so the generator is a parameter: the theorems hold
for every type with these operations.  `Next g len` fills a buffer of `len` bytes and leaves
the generator in its next state, `ofSeed` is the constructor from a seed buffer and `init` the
default constructor. -/
class PRG (G : Type) where
  Next : G → Nat → List Nat × G
  ofSeed : List Nat → G
  init : G
  SeedSize : Nat

/-- The byte interface of the ring type `T` (`T::ByteSize`, `T::FromBytes`, `T::ToBytes`);
`FromBytes` is handed the buffer from the pointer on. -/
class FieldBytes (F : Type) where
  ByteSize : Nat
  FromBytes : List Nat → F
  ToBytes : F → List Nat

section generic

variable {F : Type} [CommRing F] [DecidableEq F] [FieldBytes F] {G : Type} [PRG G]

/-- Embeds `vector::Sum(values)`. -/
def vector.Sum (values : List F) : F :=
  values.foldl (fun result v => result + v) 0

/-- Embeds `ShareAdditive(secret, n, prg)`; the generator is passed by reference, so its next state is
returned with the shares. -/
def ShareAdditive (secret : F) (n : Nat) (prg : G) : Except Fault (List F × G) :=
  if n = 0 then .error Fault.invalid_argument
  else
    let element_size := FieldBytes.ByteSize F
    let r := PRG.Next prg (element_size * n)
    let shares := (List.range (n - 1)).foldl
      (fun (sh : List F) i => sh.set i (FieldBytes.FromBytes (r.1.drop (i * element_size))))
      (List.replicate n (0 : F))
    .ok (shares.set (n - 1) (secret - vector.Sum shares), r.2)

/-- The body of the loop of `Replicator::Share`: the share handed to party `i`. -/
def Share.body (R : Replicator) (additive_shares : List F) (i : Nat) : Except Fault (List F) :=
  match R.IndexSetFor i with
  | .error e => .error e
  | .ok is => allOk (is.map (fun index => getE additive_shares index))

/-- Embeds `Replicator::Share(secret, prg)`. -/
def Replicator.Share (R : Replicator) (secret : F) (prg : G) :
    Except Fault (List (List F) × G) :=
  match ShareAdditive secret R.mAdditiveShareSize prg with
  | .error e => .error e
  | .ok (additive_shares, prg') =>
    match allOk ((List.range R.mSize).map (Share.body R additive_shares)) with
    | .error e => .error e
    | .ok shares => .ok (shares, prg')

/-- The statement `redundant[shr_idx].emplace_back(shares[party_idx][j])` of
`ComputeRedundantAddShares`, with the two reads before it. -/
def ComputeRedundantAddShares.step (R : Replicator) (shares : List (List F))
    (party_idx : Nat) (redundant : List (List F)) (j : Nat) : Except Fault (List (List F)) :=
  match getE R.mLookup party_idx with
  | .error e => .error e
  | .ok row =>
    match getE row j with
    | .error e => .error e
    | .ok shr_idx =>
      match getE shares party_idx with
      | .error e => .error e
      | .ok share =>
        match getE share j with
        | .error e => .error e
        | .ok v =>
          if shr_idx < redundant.length then
            .ok (redundant.set shr_idx (redundant.getD shr_idx [] ++ [v]))
          else .error Fault.out_of_bounds

/-- The inner loop of `ComputeRedundantAddShares`, over `j < mShareSize`. -/
def ComputeRedundantAddShares.inner (R : Replicator) (shares : List (List F))
    (redundant : List (List F)) (party_idx : Nat) : Except Fault (List (List F)) :=
  (List.range R.mShareSize).foldlM (ComputeRedundantAddShares.step R shares party_idx) redundant

/-- Embeds `Replicator::ComputeRedundantAddShares(shares)`. -/
def Replicator.ComputeRedundantAddShares (R : Replicator) (shares : List (List F)) :
    Except Fault (List (List F)) :=
  (List.range R.mSize).foldlM (ComputeRedundantAddShares.inner R shares)
    (List.replicate R.mAdditiveShareSize [])

/-- The body of the loop of `Replicator::Reconstruct`: `secret += redundant[i][0]`. -/
def Reconstruct.body (redundant : List (List F)) (secret : F) (i : Nat) : Except Fault F :=
  match getE redundant i with
  | .error e => .error e
  | .ok row =>
    match getE row 0 with
    | .error e => .error e
    | .ok v => .ok (secret + v)

/-- Embeds `Replicator::Reconstruct(shares)`. -/
def Replicator.Reconstruct (R : Replicator) (shares : List (List F)) : Except Fault F :=
  match R.ComputeRedundantAddShares shares with
  | .error e => .error e
  | .ok redundant =>
    (List.range R.mAdditiveShareSize).foldlM (Reconstruct.body redundant) 0

/-- The body of the loop of `Replicator::ErrorDetection`: compare every copy of slot `i` with
the first one, throw on a difference, otherwise add the first copy to `secret`. -/
def ErrorDetection.body (redundant : List (List F)) (secret : F) (i : Nat) : Except Fault F :=
  match getE redundant i with
  | .error e => .error e
  | .ok row =>
    match getE row 0 with
    | .error e => .error e
    | .ok comparison =>
      if row.any (fun elt => decide (elt ≠ comparison)) then
        .error Fault.inconsistent_shares
      else .ok (secret + comparison)

/-- Embeds `Replicator::ErrorDetection(shares)`. -/
def Replicator.ErrorDetection (R : Replicator) (shares : List (List F)) : Except Fault F :=
  match R.ComputeRedundantAddShares shares with
  | .error e => .error e
  | .ok redundant =>
    (List.range R.mAdditiveShareSize).foldlM (ErrorDetection.body redundant) 0

end generic

/-- An entry of `mTableMult` (shr.h). -/
structure MultEntry where
  src_a : Nat
  src_b : Nat
  dest_c : Nat
  first_party : Nat
  deriving DecidableEq, Repr

/-- The flag of a reconstruction entry (shr.h). -/
inductive RecType where
  | VALUE : RecType
  | HASH : RecType
  deriving DecidableEq, Repr

/-- An entry of `mTableRec` (shr.h). -/
structure RecEntry where
  value_or_hash : RecType
  party_set : List Nat
  deriving DecidableEq, Repr

/-- The members of `ShrManipulator`; `mIndexForConstantOps` is an `int` that may be `-1`. -/
structure ShrManipulator where
  mPartyId : Nat
  mParties : Nat
  mThreshold : Nat
  mTableMult : List MultEntry
  mTableRec : List RecEntry
  mReplicator : Replicator
  mDoubleReplicator : Replicator
  mIndexForConstantOps : Int
  deriving DecidableEq, Repr

/-- Embeds `std::find(v.begin(), v.end(), x) - v.begin()` when the element is found, `none` when
`find` returns `v.end()`. -/
def find : List Nat → Nat → Option Nat
  | [], _ => none
  | y :: ys, x =>
    if y = x then some 0
    else
      match find ys x with
      | some i => some (i + 1)
      | none => none

/-- Embeds `std::vector::resize(k)` on a vector of `int`: cut after `k` elements or pad with `0`. -/
def resize (v : List Nat) (k : Nat) : List Nat :=
  v.take k ++ List.replicate (k - v.length) 0

/-- Embeds `ShrManipulator::IndexForConstantOperations()`, with `INDEX_SHARE_FOR_CNST = 0`. -/
def IndexForConstantOperations (mPartyId : Nat) (mReplicator : Replicator) : Except Fault Int :=
  match mReplicator.IndexSetFor mPartyId with
  | .error e => .error e
  | .ok set =>
    match find set 0 with
    | some idx => .ok (idx : Int)
    | none => .ok (-1)

/-- The intersection computed for a pair of local slot indexes in `ShrManipulator::Init` and in
`ComputeIndexForDoubleMultiplication`: the members of `SetA` that `Intersection` reports, then
`resize(mParties - 2 * mThreshold)`. -/
def firstCommon (mPartyId mParties mThreshold : Nat) (mReplicator : Replicator) (a b : Nat) :
    Except Fault (List Nat) :=
  match mReplicator.IndexSetFor mPartyId with
  | .error e => .error e
  | .ok is =>
    match getE is a with
    | .error e => .error e
    | .ok a_ =>
      match getE is b with
      | .error e => .error e
      | .ok b_ =>
        match mReplicator.Combination a_ with
        | .error e => .error e
        | .ok SetA =>
          match mReplicator.Combination b_ with
          | .error e => .error e
          | .ok SetB =>
            match allOk ((Intersection SetA SetB).map (fun i => getE SetA i)) with
            | .error e => .error e
            | .ok intersection => .ok (resize intersection (mParties - 2 * mThreshold))

/-- The body of the double loop that fills `mTableMult`: the entry appended for the local
slot indexes `(a, b)`, if any. -/
def tableMultEntry (mPartyId mParties mThreshold : Nat) (mReplicator mDoubleReplicator : Replicator)
    (a b : Nat) : Except Fault (Option MultEntry) :=
  match firstCommon mPartyId mParties mThreshold mReplicator a b with
  | .error e => .error e
  | .ok intersection =>
    match mDoubleReplicator.RevComb intersection with
    | .error e => .error e
    | .ok target_set =>
      match mDoubleReplicator.IndexSetFor mPartyId with
      | .error e => .error e
      | .ok index_set =>
        match find index_set target_set with
        | none => .ok none
        | some idx =>
          match getE intersection 0 with
          | .error e => .error e
          | .ok first =>
            .ok (some { src_a := a, src_b := b, dest_c := idx, first_party := first })

/-- The first half of `ShrManipulator::Init`: `mTableMult`. -/
def tableMult (mPartyId mParties mThreshold : Nat) (mReplicator mDoubleReplicator : Replicator) :
    Except Fault (List MultEntry) :=
  match allOk ((List.range mReplicator.ShareSize).flatMap (fun a =>
      (List.range mReplicator.ShareSize).map (fun b =>
        tableMultEntry mPartyId mParties mThreshold mReplicator mDoubleReplicator a b))) with
  | .error e => .error e
  | .ok entries => .ok (entries.filterMap id)

/-- The body of the loop that fills `mTableRec`.  The variable `entry` is declared before the
loop, so its `party_set` is carried from one turn to the next; the state is that `party_set`
and the table built so far. -/
def tableRecStep (mPartyId mParties : Nat) (mDoubleReplicator : Replicator)
    (st : List Nat × List RecEntry) (shr_id : Nat) : Except Fault (List Nat × List RecEntry) :=
  match mDoubleReplicator.IndexSetFor mPartyId with
  | .error e => .error e
  | .ok is =>
    match getE is shr_id with
    | .error e => .error e
    | .ok shr_id_ =>
      match mDoubleReplicator.Combination shr_id_ with
      | .error e => .error e
      | .ok Set =>
        let party_set := st.1 ++ (List.range mParties).filter (fun party_id => find Set party_id = none)
        match getE Set 0 with
        | .error e => .error e
        | .ok first =>
          .ok (party_set,
            st.2 ++ [{ value_or_hash := if mPartyId = first then RecType.VALUE else RecType.HASH
                       party_set := party_set }])

/-- The second half of `ShrManipulator::Init`: `mTableRec`. -/
def tableRec (mPartyId mParties : Nat) (mDoubleReplicator : Replicator) :
    Except Fault (List RecEntry) :=
  match (List.range mDoubleReplicator.ShareSize).foldlM
      (tableRecStep mPartyId mParties mDoubleReplicator) ([], []) with
  | .error e => .error e
  | .ok st => .ok st.2

/-- The constructor `ShrManipulator::ShrManipulator(id, d, n)`: the member initialisers in
declaration order, then `Init()`. -/
def ShrManipulator.ctor (id d n : Nat) : Except Fault ShrManipulator :=
  match Replicator.ctor n d with
  | .error e => .error e
  | .ok mReplicator =>
    match Replicator.ctor n ((2 * d) % SIZE) with
    | .error e => .error e
    | .ok mDoubleReplicator =>
      match IndexForConstantOperations id mReplicator with
      | .error e => .error e
      | .ok mIndexForConstantOps =>
        match tableMult id n d mReplicator mDoubleReplicator with
        | .error e => .error e
        | .ok mTableMult =>
          match tableRec id n mDoubleReplicator with
          | .error e => .error e
          | .ok mTableRec =>
            .ok { mPartyId := id
                  mParties := n
                  mThreshold := d
                  mTableMult := mTableMult
                  mTableRec := mTableRec
                  mReplicator := mReplicator
                  mDoubleReplicator := mDoubleReplicator
                  mIndexForConstantOps := mIndexForConstantOps }

/-- Embeds `ShrManipulator::ComputeIndexForDoubleMultiplication(a, b)`. -/
def ShrManipulator.ComputeIndexForDoubleMultiplication (M : ShrManipulator) (a b : Nat) :
    Except Fault Int :=
  match firstCommon M.mPartyId M.mParties M.mThreshold M.mReplicator a b with
  | .error e => .error e
  | .ok intersection =>
    match M.mDoubleReplicator.RevComb intersection with
    | .error e => .error e
    | .ok target_set =>
      match M.mDoubleReplicator.IndexSetFor M.mPartyId with
      | .error e => .error e
      | .ok index_set =>
        match find index_set target_set with
        | some idx => .ok (idx : Int)
        | none => .ok (-1)

section manipulator

variable {F : Type} [CommRing F] [DecidableEq F]

/-- The body of the loops of `Add` and `Subtract`: both operands are read at index `i`. -/
def zipAt (op : F → F → F) (a b : List F) (i : Nat) : Except Fault F :=
  match getE a i with
  | .error e => .error e
  | .ok x =>
    match getE b i with
    | .error e => .error e
    | .ok y => .ok (op x y)

/-- Embeds `ShrManipulator::Add(a, b)`. -/
def ShrManipulator.Add (_M : ShrManipulator) (a b : List F) : Except Fault (List F) :=
  allOk ((List.range a.length).map (zipAt (fun x y => x + y) a b))

/-- Embeds `ShrManipulator::Subtract(a, b)`. -/
def ShrManipulator.Subtract (_M : ShrManipulator) (a b : List F) : Except Fault (List F) :=
  allOk ((List.range a.length).map (zipAt (fun x y => x - y) a b))

/-- Embeds `r[mIndexForConstantOps] = f(r[mIndexForConstantOps])` on a copy `r` of a share. -/
def updateAt (r : List F) (idx : Int) (f : F → F) : Except Fault (List F) :=
  match getE r idx.toNat with
  | .error e => .error e
  | .ok x => .ok (r.set idx.toNat (f x))

/-- Embeds `ShrManipulator::AddConstant(a, c)`. -/
def ShrManipulator.AddConstant (M : ShrManipulator) (a : List F) (c : F) :
    Except Fault (List F) :=
  if M.mIndexForConstantOps = -1 then .ok a
  else updateAt a M.mIndexForConstantOps (fun x => x + c)

/-- Embeds `ShrManipulator::SubtractConstant(a, c)`, share minus constant. -/
def ShrManipulator.SubtractConstant (M : ShrManipulator) (a : List F) (c : F) :
    Except Fault (List F) :=
  if M.mIndexForConstantOps = -1 then .ok a
  else updateAt a M.mIndexForConstantOps (fun x => x - c)

/-- Embeds `ShrManipulator::SubtractConstant(c, a)`, constant minus share. -/
def ShrManipulator.SubtractConstantFrom (M : ShrManipulator) (c : F) (a : List F) :
    Except Fault (List F) :=
  let r := a.map (fun s => -s)
  if M.mIndexForConstantOps = -1 then .ok r
  else updateAt r M.mIndexForConstantOps (fun x => x + c)

/-- Embeds `ShrManipulator::MultiplyConstant(a, c)`. -/
def ShrManipulator.MultiplyConstant (_M : ShrManipulator) (a : List F) (c : F) : List F :=
  a.map (fun s => c * s)

/-- The body of the loop of `MultiplyToDoubleDegree`:
`c[dest_c] += a[src_a] * b[src_b]`. -/
def MultiplyToDoubleDegree.step (a b : List F) (c : List F) (triple : MultEntry) :
    Except Fault (List F) :=
  match getE a triple.src_a with
  | .error e => .error e
  | .ok x =>
    match getE b triple.src_b with
    | .error e => .error e
    | .ok y =>
      match getE c triple.dest_c with
      | .error e => .error e
      | .ok z => .ok (c.set triple.dest_c (z + x * y))

/-- Embeds `ShrManipulator::MultiplyToDoubleDegree(a, b)`. -/
def ShrManipulator.MultiplyToDoubleDegree (M : ShrManipulator) (a b : List F) :
    Except Fault (List F) :=
  M.mTableMult.foldlM (MultiplyToDoubleDegree.step a b)
    (List.replicate M.mDoubleReplicator.ShareSize 0)

/-- The body of the loop of `MultiplyToAdditive`:
`if (mPartyId == first_party) c += a[src_a] * b[src_b]`. -/
def MultiplyToAdditive.step (mPartyId : Nat) (a b : List F) (c : F) (tuple : MultEntry) :
    Except Fault F :=
  if mPartyId = tuple.first_party then
    match getE a tuple.src_a with
    | .error e => .error e
    | .ok x =>
      match getE b tuple.src_b with
      | .error e => .error e
      | .ok y => .ok (c + x * y)
  else .ok c

/-- Embeds `ShrManipulator::MultiplyToAdditive(a, b)`. -/
def ShrManipulator.MultiplyToAdditive (M : ShrManipulator) (a b : List F) : Except Fault F :=
  M.mTableMult.foldlM (MultiplyToAdditive.step M.mPartyId a b) 0

end manipulator

/-! Correlated randomness (corr.h, corr.cc) -/

/-- Embeds `struct RandomShare`. -/
structure RandomShare (F : Type) where
  rep_share : List F
  add_share : F
  rep_add_shares : List (List F)

/-- The members of `Correlator`. -/
structure Correlator (G : Type) where
  mReplicator : Replicator
  mId : Nat
  mThreshold : Nat
  mSize : Nat
  mOwnPRGs : List G
  mRandPRGs : List (List G)
  mZeroPRGs : List G

/-- The constructor `Correlator::Correlator(id, replicator)`, with `Init()`: every generator
is default constructed. -/
def Correlator.ctor {G : Type} [PRG G] (id : Nat) (replicator : Replicator) : Correlator G :=
  { mReplicator := replicator
    mId := id
    mThreshold := replicator.mThreshold
    mSize := replicator.mSize
    mOwnPRGs := List.replicate replicator.AdditiveShareSize PRG.init
    mRandPRGs := List.replicate (2 * replicator.mThreshold + 1)
      (List.replicate replicator.ShareSize PRG.init)
    mZeroPRGs := [] }

section correlator

variable {F : Type} [CommRing F] [DecidableEq F] [FieldBytes F] {G : Type} [PRG G]

/-- One turn of the first loop of `GenRandomShare`:
`mOwnPRGs[i].Next(buf); output.add_share += Field::FromBytes(buf.data())`. -/
def GenRandomShare.ownStep (st : F × List G) (i : Nat) : Except Fault (F × List G) :=
  match getE st.2 i with
  | .error e => .error e
  | .ok g =>
    let r := PRG.Next g (FieldBytes.ByteSize F)
    .ok (st.1 + FieldBytes.FromBytes r.1, st.2.set i r.2)

/-- The state of the second loop of `GenRandomShare`. -/
structure GenState (F G : Type) where
  rep_share : List F
  rep_add_shares : List (List F)
  mRandPRGs : List (List G)

/-- One turn of the innermost loop of `GenRandomShare`, for `shr_idx` and `idx_in_U`. -/
def GenRandomShare.randStep (shr_idx : Nat) (st : GenState F G) (idx_in_U : Nat) :
    Except Fault (GenState F G) :=
  match getE st.mRandPRGs idx_in_U with
  | .error e => .error e
  | .ok row =>
    match getE row shr_idx with
    | .error e => .error e
    | .ok g =>
      let r := PRG.Next g (FieldBytes.ByteSize F)
      match getE st.rep_add_shares idx_in_U with
      | .error e => .error e
      | .ok adds =>
        let adds' := adds ++ [FieldBytes.FromBytes r.1]
        match getE adds' shr_idx with
        | .error e => .error e
        | .ok v =>
          match getE st.rep_share shr_idx with
          | .error e => .error e
          | .ok s =>
            .ok { rep_share := st.rep_share.set shr_idx (s + v)
                  rep_add_shares := st.rep_add_shares.set idx_in_U adds'
                  mRandPRGs := st.mRandPRGs.set idx_in_U (row.set shr_idx r.2) }

/-- One turn of the outer loop of the second part of `GenRandomShare`. -/
def GenRandomShare.shareStep (mThreshold : Nat) (st : GenState F G) (shr_idx : Nat) :
    Except Fault (GenState F G) :=
  if shr_idx < st.rep_share.length then
    (List.range (2 * mThreshold + 1)).foldlM (GenRandomShare.randStep shr_idx)
      { st with rep_share := st.rep_share.set shr_idx 0 }
  else .error Fault.out_of_bounds

/-- Embeds `Correlator::GenRandomShare()`; the correlator's generators advance, so the new
correlator is returned with the share. -/
def Correlator.GenRandomShare (c : Correlator G) : Except Fault (RandomShare F × Correlator G) :=
  match (if c.mId < 2 * c.mThreshold + 1 then
      (List.range c.mReplicator.AdditiveShareSize).foldlM GenRandomShare.ownStep
        ((0 : F), c.mOwnPRGs)
    else .ok ((0 : F), c.mOwnPRGs)) with
  | .error e => .error e
  | .ok own =>
    match (List.range c.mReplicator.ShareSize).foldlM (GenRandomShare.shareStep c.mThreshold)
        ({ rep_share := List.replicate c.mReplicator.ShareSize 0
           rep_add_shares := List.replicate (2 * c.mThreshold + 1) []
           mRandPRGs := c.mRandPRGs } : GenState F G) with
    | .error e => .error e
    | .ok st =>
      .ok ({ rep_share := st.rep_share
             add_share := own.1
             rep_add_shares := st.rep_add_shares },
           { c with mOwnPRGs := own.2, mRandPRGs := st.mRandPRGs })

end correlator

/-! The network (network.h) -/

/-- The state of the transport behind the abstract class `Network` when it delivers
faithfully: for every ordered pair of parties an ordered reliable channel, as the connections
of tcp_network.h are.  `net s r` holds the elements that `s` has sent to `r` and that `r` has
not received yet. -/
abbrev Net (F : Type) : Type := Nat → Nat → List F

/-- The network before anything is sent. -/
def Net.empty {F : Type} : Net F := fun _ _ => []

/-- Embeds `Network::Send(id, values)` called by party `me`. -/
def Net.Send {F : Type} (net : Net F) (me id : Nat) (values : List F) : Net F :=
  fun s r => if s = me ∧ r = id then net s r ++ values else net s r

/-- Embeds `Network::Recv(id, n)` called by party `me`: the next `n` elements sent by `id`.  The call
blocks while fewer than `n` elements have arrived; in a sequential run that is a call that
never returns. -/
def Net.Recv {F : Type} (net : Net F) (me id n : Nat) : Except Fault (List F × Net F) :=
  if n ≤ (net id me).length then
    .ok ((net id me).take n,
      fun s r => if s = id ∧ r = me then (net id me).drop n else net s r)
  else .error Fault.blocked

/-! The multiplication protocol (mult.h, mult.cc) -/

/-- Embeds `struct AddAndMsgs`. -/
structure AddAndMsgs (F : Type) where
  add_share : F
  msgs : List (List F)

/-- Embeds `struct CheckData`. -/
structure CheckData (F : Type) where
  shares_sent_to_p1 : List F
  shares_recv_by_p1 : List (List F)
  values_recv_from_p1 : List F
  msgs : List (List (List F))
  counter : Nat

/-- The constructor `CheckData::CheckData(threshold)`. -/
def CheckData.ctor {F : Type} (threshold : Nat) : CheckData F :=
  { shares_sent_to_p1 := []
    shares_recv_by_p1 := List.replicate (2 * threshold + 1) []
    values_recv_from_p1 := []
    msgs := []
    counter := 0 }

/-- The members of `Mult`.  `mCheckData` is the `CheckData` object that the instance points to;
the network object is passed to the methods that use it. -/
structure Mult (F G : Type) where
  mReplicator : Replicator
  mId : Nat
  mThreshold : Nat
  mSize : Nat
  mManipulator : ShrManipulator
  mCorrelator : Correlator G
  mCount : Nat
  mRandomShares : List (RandomShare F)
  mSharesToSendP1 : List F
  mSharesRecvByP1 : List (List F)
  mValuesRecvFromP1 : List F
  mValuesSentFromP1 : List F
  mCheckData : CheckData F

/-- The constructor `Mult::Mult(network, replicator, manipulator, correlator, cd)`, for a
network object with `Id() = id` and `Size() = size`. -/
def Mult.ctor {F G : Type} (id size : Nat) (replicator : Replicator)
    (manipulator : ShrManipulator) (correlator : Correlator G) (cd : CheckData F) : Mult F G :=
  { mReplicator := replicator
    mId := id
    mThreshold := replicator.mThreshold
    mSize := size
    mManipulator := manipulator
    mCorrelator := correlator
    mCount := 0
    mRandomShares := []
    mSharesToSendP1 := []
    mSharesRecvByP1 := List.replicate (2 * replicator.mThreshold + 1) []
    mValuesRecvFromP1 := []
    mValuesSentFromP1 := []
    mCheckData := cd }

section mult

variable {F : Type} [CommRing F] [DecidableEq F] [FieldBytes F] {G : Type} [PRG G]

/-- One turn of the loop of `MultiplyToAddAndMsgs`. -/
def MultiplyToAddAndMsgs.step (mId : Nat) (a b : List F) (output : AddAndMsgs F)
    (tuple : MultEntry) : Except Fault (AddAndMsgs F) :=
  match getE a tuple.src_a with
  | .error e => .error e
  | .ok x =>
    match getE b tuple.src_b with
    | .error e => .error e
    | .ok y =>
      let prod := x * y
      match getE output.msgs tuple.first_party with
      | .error e => .error e
      | .ok row =>
        match getE row tuple.dest_c with
        | .error e => .error e
        | .ok z =>
          .ok { add_share := if mId = tuple.first_party then output.add_share + prod
                             else output.add_share
                msgs := output.msgs.set tuple.first_party (row.set tuple.dest_c (z + prod)) }

/-- Embeds `Mult::MultiplyToAddAndMsgs(a, b, randomShares)`; it appends `randomShares` to
`mRandomShares`, so the new state is returned with the result. -/
def Mult.MultiplyToAddAndMsgs (m : Mult F G) (a b : List F) (randomShares : RandomShare F) :
    Except Fault (AddAndMsgs F × Mult F G) :=
  let m1 := { m with mRandomShares := m.mRandomShares ++ [randomShares] }
  match m1.mManipulator.mTableMult.foldlM (MultiplyToAddAndMsgs.step m1.mId a b)
      { add_share := 0
        msgs := List.replicate (2 * m1.mThreshold + 1)
          (List.replicate m1.mManipulator.mDoubleReplicator.ShareSize 0) } with
  | .error e => .error e
  | .ok output => .ok ({ output with add_share := output.add_share - randomShares.add_share }, m1)

/-- Embeds `Mult::Prepare(shares_x, shares_y)`. -/
def Mult.Prepare (m : Mult F G) (shares_x shares_y : List F) : Except Fault (Mult F G) :=
  match (m.mCorrelator.GenRandomShare : Except Fault (RandomShare F × Correlator G)) with
  | .error e => .error e
  | .ok (randomShares, corr) =>
    let m1 := { m with mCorrelator := corr, mRandomShares := m.mRandomShares ++ [randomShares] }
    match m1.MultiplyToAddAndMsgs shares_x shares_y randomShares with
    | .error e => .error e
    | .ok (output, m2) =>
      .ok { m2 with
            mSharesToSendP1 := m2.mSharesToSendP1 ++ [output.add_share]
            mCheckData := { m2.mCheckData with
              shares_sent_to_p1 := m2.mCheckData.shares_sent_to_p1 ++ [output.add_share]
              msgs := m2.mCheckData.msgs ++ [output.msgs] }
            mCount := m2.mCount + 1 }

/-- Embeds `Mult::Prepare(xs, ys)` on vectors of shares. -/
def Mult.PrepareMany (m : Mult F G) : List (List F) → List (List F) → Except Fault (Mult F G)
  | [], _ => .ok m
  | x :: xs, ys =>
    match getE ys 0 with
    | .error e => .error e
    | .ok y =>
      match m.Prepare x y with
      | .error e => .error e
      | .ok m1 => Mult.PrepareMany m1 xs (ys.drop 1)

/-- One turn of the receiving loop of `Mult::SendStep`. -/
def SendStep.recvStep (st : Mult F G × Net F) (i : Nat) : Except Fault (Mult F G × Net F) :=
  match st.2.Recv st.1.mId i st.1.mCount with
  | .error e => .error e
  | .ok (values, net) =>
    if i < st.1.mSharesRecvByP1.length then
      match getE st.1.mCheckData.shares_recv_by_p1 i with
      | .error e => .error e
      | .ok old =>
        .ok ({ st.1 with
               mSharesRecvByP1 := st.1.mSharesRecvByP1.set i values
               mCheckData := { st.1.mCheckData with
                 shares_recv_by_p1 := st.1.mCheckData.shares_recv_by_p1.set i (old ++ values) } },
             net)
    else .error Fault.out_of_bounds

/-- Embeds `Mult::SendStep()`. -/
def Mult.SendStep (m : Mult F G) (net : Net F) : Except Fault (Mult F G × Net F) :=
  let net1 := if m.mId < 2 * m.mThreshold + 1 then net.Send m.mId 0 m.mSharesToSendP1 else net
  if m.mId = 0 then
    (List.range (2 * m.mThreshold + 1)).foldlM SendStep.recvStep (m, net1)
  else .ok (m, net1)

/-- One turn of the inner loop of `Mult::ReconstructionStep`:
`v += mSharesRecvByP1[party_id][mult_id]`. -/
def ReconstructionStep.add (mSharesRecvByP1 : List (List F)) (mult_id : Nat) (v : F)
    (party_id : Nat) : Except Fault F :=
  match getE mSharesRecvByP1 party_id with
  | .error e => .error e
  | .ok row =>
    match getE row mult_id with
    | .error e => .error e
    | .ok x => .ok (v + x)

/-- The inner loop of `Mult::ReconstructionStep` for one multiplication. -/
def ReconstructionStep.value (mSharesRecvByP1 : List (List F)) (mThreshold mult_id : Nat) :
    Except Fault F :=
  (List.range (2 * mThreshold + 1)).foldlM (ReconstructionStep.add mSharesRecvByP1 mult_id) 0

/-- Embeds `Mult::ReconstructionStep()`. -/
def Mult.ReconstructionStep (m : Mult F G) (net : Net F) : Except Fault (Mult F G × Net F) :=
  match allOk ((List.range m.mCount).map
      (ReconstructionStep.value m.mSharesRecvByP1 m.mThreshold)) with
  | .error e => .error e
  | .ok values =>
    .ok ({ m with mValuesSentFromP1 := values },
      (List.range (m.mSize - m.mThreshold)).foldl
        (fun (nt : Net F) party_id => nt.Send m.mId party_id values) net)

/-- One turn of the last loop of `Mult::OutputStep`. -/
def OutputStep.share (m : Mult F G) (mult_id : Nat) : Except Fault (List F) :=
  match getE m.mRandomShares mult_id with
  | .error e => .error e
  | .ok r =>
    match getE m.mValuesRecvFromP1 mult_id with
    | .error e => .error e
    | .ok v => m.mManipulator.AddConstant r.rep_share v

/-- The first part of `Mult::OutputStep()`, which fills `mValuesRecvFromP1`. -/
def OutputStep.recv (m : Mult F G) (net : Net F) : Except Fault (Mult F G × Net F) :=
  if m.mId < m.mSize - m.mThreshold then
    match net.Recv m.mId 0 m.mCount with
    | .error e => .error e
    | .ok (values, net1) =>
      .ok ({ m with
             mValuesRecvFromP1 := values
             mCheckData := { m.mCheckData with
               values_recv_from_p1 := m.mCheckData.values_recv_from_p1 ++ values } }, net1)
  else .ok ({ m with mValuesRecvFromP1 := List.replicate m.mCount 0 }, net)

/-- Embeds `Mult::OutputStep()`. -/
def Mult.OutputStep (m : Mult F G) (net : Net F) :
    Except Fault (List (List F) × Mult F G × Net F) :=
  match OutputStep.recv m net with
  | .error e => .error e
  | .ok (m1, net1) =>
    match allOk ((List.range m1.mCount).map (OutputStep.share m1)) with
    | .error e => .error e
    | .ok output => .ok (output, m1, net1)

/-- The first statements of `Mult::Run()`: `mCheckData->counter += mCount; SendStep();`. -/
def Mult.RunSend (m : Mult F G) (net : Net F) : Except Fault (Mult F G × Net F) :=
  Mult.SendStep
    { m with mCheckData := { m.mCheckData with counter := m.mCheckData.counter + m.mCount } } net

/-- All parties but party 0 run the first statements of `Run`, in list order. -/
def runSendOthers : List (Mult F G) → Net F → Except Fault (List (Mult F G) × Net F)
  | [], net => .ok ([], net)
  | m :: ms, net =>
    match m.RunSend net with
    | .error e => .error e
    | .ok (m1, net1) =>
      match runSendOthers ms net1 with
      | .error e => .error e
      | .ok (ms1, net2) => .ok (m1 :: ms1, net2)

/-- All parties run `OutputStep`, in list order. -/
def runOutputs : List (Mult F G) → Net F →
    Except Fault (List (List (List F)) × List (Mult F G) × Net F)
  | [], net => .ok ([], [], net)
  | m :: ms, net =>
    match m.OutputStep net with
    | .error e => .error e
    | .ok (out, m1, net1) =>
      match runOutputs ms net1 with
      | .error e => .error e
      | .ok (outs, ms1, net2) => .ok (out :: outs, m1 :: ms1, net2)

/-- A run of `Mult::Run()` by all parties over the network, party `i` being the `i`-th element
of the list.  The parties run concurrently and a `Recv` waits for its data; the result is the
one of this sequential schedule: the parties `1, 2, ...` send, then party 0 sends, receives and
reconstructs, then every party runs its output step. -/
def runMult (parties : List (Mult F G)) (net : Net F) :
    Except Fault (List (List (List F)) × List (Mult F G) × Net F) :=
  match parties with
  | [] => .ok ([], [], net)
  | p0 :: others =>
    match runSendOthers others net with
    | .error e => .error e
    | .ok (others1, net1) =>
      match p0.RunSend net1 with
      | .error e => .error e
      | .ok (p1, net2) =>
        match p1.ReconstructionStep net2 with
        | .error e => .error e
        | .ok (p2, net3) => runOutputs (p2 :: others1) net3

end mult

/-! Input correlations (input_corr.h, input_corr.cc) -/

section input

variable {F : Type} [CommRing F] [DecidableEq F] [FieldBytes F] {G : Type} [PRG G]

/-- Embeds `GetRandomElement(prg)`; the generator is passed by reference, so its next state is
returned with the element. -/
def GetRandomElement (prg : G) : F × G :=
  let r := PRG.Next prg (FieldBytes.ByteSize F)
  (FieldBytes.FromBytes r.1, r.2)

/-- Embeds `FieldElementToPrg(element)`: the element is written to the front of a zeroed buffer of
`max(SeedSize, ByteSize)` bytes, from which the generator is constructed. -/
def FieldElementToPrg (element : F) : G :=
  let size := max (PRG.SeedSize G) (FieldBytes.ByteSize F)
  PRG.ofSeed ((FieldBytes.ToBytes element ++ List.replicate size 0).take size)

end input

/-- The members of `InputSetup::Correlator`. -/
structure InputSetup.Correlator (G : Type) where
  mPrgs : List (List G)
  mPrg : List G
  mShareSize : Nat

/-- The members of `InputSetup`; `mId` and `mSize` are `Id()` and `Size()` of its network
object. -/
structure InputSetup (G : Type) where
  mId : Nat
  mSize : Nat
  mReplicator : Replicator
  mPrg : G

section inputsetup

variable {F : Type} [CommRing F] [DecidableEq F] [FieldBytes F] {G : Type} [PRG G]

/-- Embeds `InputSetup::Correlator::GetMask()`: the loop runs over references to the generators of
`mPrg`, so each of them advances. -/
def InputSetup.Correlator.GetMask (c : InputSetup.Correlator G) : F × InputSetup.Correlator G :=
  let st := c.mPrg.foldl
    (fun (st : F × List G) prg =>
      let r : F × G := GetRandomElement prg
      (st.1 + r.1, st.2 ++ [r.2]))
    ((0 : F), [])
  (st.1, { c with mPrg := st.2 })

/-- One turn of the loop of `GetMaskShare`, on the local copy `prg_id`. -/
def GetMaskShare.step (st : List F × List G) (i : Nat) : Except Fault (List F × List G) :=
  match getE st.2 i with
  | .error e => .error e
  | .ok g =>
    let r : F × G := GetRandomElement g
    .ok (st.1 ++ [r.1], st.2.set i r.2)

/-- Embeds `InputSetup::Correlator::GetMaskShare(id)`: `auto prg_id = mPrgs[id]` copies the
generators of `id`, the loop advances the copies, and the members stay as they are. -/
def InputSetup.Correlator.GetMaskShare (c : InputSetup.Correlator G) (id : Nat) :
    Except Fault (List F × InputSetup.Correlator G) :=
  match getE c.mPrgs id with
  | .error e => .error e
  | .ok prg_id =>
    match (List.range c.mShareSize).foldlM GetMaskShare.step (([] : List F), prg_id) with
    | .error e => .error e
    | .ok st => .ok (st.1, c)

/-- The values that `InputSetup::Run()` computes before it sends: `shr_k` and `add_k`. -/
def InputSetup.deal (s : InputSetup G) : Except Fault (List (List F) × List F × InputSetup G) :=
  let k : F × G := GetRandomElement s.mPrg
  let copy := k.2
  let size := s.mSize
  match s.mReplicator.Share k.1 k.2 with
  | .error e => .error e
  | .ok (shr_k, prg') =>
    match ShareAdditive k.1 size copy with
    | .error e => .error e
    | .ok (add_k, _) => .ok (shr_k, add_k, { s with mPrg := prg' })

/-- The sending loop of `InputSetup::Run()`: `SendShares(i, {shr_k[i]})` for every party. -/
def InputSetup.sendAll (me size : Nat) (shr_k : List (List F)) (net : Net (List F)) :
    Except Fault (Net (List F)) :=
  (List.range size).foldlM
    (fun (nt : Net (List F)) i =>
      match getE shr_k i with
      | .error e => .error e
      | .ok shr => .ok (nt.Send me i [shr]))
    net

/-- The receiving loop of `InputSetup::Run()`: `shares_k[i] = RecvShares(i, 1)[0]`. -/
def InputSetup.recvAll (me size : Nat) (net : Net (List F)) :
    Except Fault (List (List F) × Net (List F)) :=
  (List.range size).foldlM
    (fun (st : List (List F) × Net (List F)) i =>
      match st.2.Recv me i 1 with
      | .error e => .error e
      | .ok (shares, nt) =>
        match getE shares 0 with
        | .error e => .error e
        | .ok shr => .ok (st.1 ++ [shr], nt))
    ([], net)

/-- The first half of `InputSetup::Run()`, up to the end of the sending loop. -/
def InputSetup.RunSend (s : InputSetup G) (net : Net (List F)) :
    Except Fault (List F × InputSetup G × Net (List F)) :=
  match (s.deal : Except Fault (List (List F) × List F × InputSetup G)) with
  | .error e => .error e
  | .ok (shr_k, add_k, s1) =>
    match InputSetup.sendAll s.mId s.mSize shr_k net with
    | .error e => .error e
    | .ok net1 => .ok (add_k, s1, net1)

/-- The second half of `InputSetup::Run()`, from the receiving loop on, with the `add_k` of the
first half. -/
def InputSetup.RunRecv (s : InputSetup G) (add_k : List F) (net : Net (List F)) :
    Except Fault (InputSetup.Correlator G × Net (List F)) :=
  match InputSetup.recvAll s.mId s.mSize net with
  | .error e => .error e
  | .ok (shares_k, net1) =>
    .ok ({ mPrgs := shares_k.map (fun share_from_i => share_from_i.map FieldElementToPrg)
           mPrg := add_k.map FieldElementToPrg
           mShareSize := s.mReplicator.ShareSize }, net1)

/-- Every party of the list runs the first half of `InputSetup::Run()`, in list order. -/
def setupSendAll : List (InputSetup G) → Net (List F) →
    Except Fault (List (List F × InputSetup G) × Net (List F))
  | [], net => .ok ([], net)
  | s :: ss, net =>
    match s.RunSend net with
    | .error e => .error e
    | .ok (add_k, s1, net1) =>
      match setupSendAll ss net1 with
      | .error e => .error e
      | .ok (rest, net2) => .ok ((add_k, s1) :: rest, net2)

/-- Every party of the list runs the second half of `InputSetup::Run()`, in list order. -/
def setupRecvAll : List (List F × InputSetup G) → Net (List F) →
    Except Fault (List (InputSetup.Correlator G) × Net (List F))
  | [], net => .ok ([], net)
  | p :: ps, net =>
    match p.2.RunRecv p.1 net with
    | .error e => .error e
    | .ok (c, net1) =>
      match setupRecvAll ps net1 with
      | .error e => .error e
      | .ok (cs, net2) => .ok (c :: cs, net2)

/-- A run of `InputSetup::Run()` by all parties over the network.  The parties run
concurrently and a `RecvShares` waits for its data; the result is the one of this sequential
schedule: every party runs up to the end of its sending loop, then every party runs the
rest. -/
def runInputSetup (parties : List (InputSetup G)) (net : Net (List F)) :
    Except Fault (List (InputSetup.Correlator G) × Net (List F)) :=
  match setupSendAll parties net with
  | .error e => .error e
  | .ok (halves, net1) => setupRecvAll halves net1

end inputsetup

/-! The input protocol (input.h, input.cc) -/

/-- The members of `Input`; the network object is passed to the methods that use it. -/
structure Input (F G : Type) where
  mManipulator : ShrManipulator
  mCorrelator : InputSetup.Correlator G
  mId : Nat
  mSize : Nat
  mSharesToReceive : List (List (List F))
  mSharesToDistibute : List F

/-- The constructor `Input::Input(network, manipulator, correlator)`, for a network object
with `Id() = id` and `Size() = size`. -/
def Input.ctor {F G : Type} (id size : Nat) (manipulator : ShrManipulator)
    (correlator : InputSetup.Correlator G) : Input F G :=
  { mManipulator := manipulator
    mCorrelator := correlator
    mId := id
    mSize := size
    mSharesToReceive := List.replicate size []
    mSharesToDistibute := [] }

section inputprotocol

variable {F : Type} [CommRing F] [DecidableEq F] [FieldBytes F] {G : Type} [PRG G]

/-- Embeds `Input::PrepareToReceive(id)`. -/
def Input.PrepareToReceive (inp : Input F G) (id : Nat) : Except Fault (Input F G) :=
  match (inp.mCorrelator.GetMaskShare id : Except Fault (List F × InputSetup.Correlator G)) with
  | .error e => .error e
  | .ok (share, c) =>
    match getE inp.mSharesToReceive id with
    | .error e => .error e
    | .ok old =>
      .ok { inp with
            mCorrelator := c
            mSharesToReceive := inp.mSharesToReceive.set id (old ++ [share]) }

/-- Embeds `Input::Prepare(secret)`. -/
def Input.Prepare (inp : Input F G) (secret : F) : Except Fault (Input F G) :=
  let mask : F × InputSetup.Correlator G := inp.mCorrelator.GetMask
  Input.PrepareToReceive
    { inp with
      mCorrelator := mask.2
      mSharesToDistibute := inp.mSharesToDistibute ++ [secret - mask.1] }
    inp.mId

/-- The sending loop of `Input::Run()`. -/
def Input.RunSend (inp : Input F G) (net : Net F) : Net F :=
  (List.range inp.mSize).foldl
    (fun (nt : Net F) i =>
      if inp.mSharesToDistibute.length ≠ 0 then nt.Send inp.mId i inp.mSharesToDistibute
      else nt)
    net

/-- The inner loop of `Input::Run()` for the sender `i`:
`output[i].emplace_back(AddConstant(masked_shares[j], masked[j]))`. -/
def Input.outputs (M : ShrManipulator) (masked_shares : List (List F)) (masked : List F) :
    Except Fault (List (List F)) :=
  allOk ((List.range masked.length).map (fun j =>
    match getE masked_shares j with
    | .error e => .error e
    | .ok shr =>
      match getE masked j with
      | .error e => .error e
      | .ok v => M.AddConstant shr v))

/-- One turn of the receiving loop of `Input::Run()`. -/
def Input.recvStep (inp : Input F G) (st : List (List (List F)) × Net F) (i : Nat) :
    Except Fault (List (List (List F)) × Net F) :=
  match getE inp.mSharesToReceive i with
  | .error e => .error e
  | .ok masked_shares =>
    match st.2.Recv inp.mId i masked_shares.length with
    | .error e => .error e
    | .ok (masked, nt) =>
      match Input.outputs inp.mManipulator masked_shares masked with
      | .error e => .error e
      | .ok out => .ok (st.1 ++ [out], nt)

/-- The receiving loop of `Input::Run()`, which builds `output`. -/
def Input.RunRecv (inp : Input F G) (net : Net F) :
    Except Fault (List (List (List F)) × Net F) :=
  (List.range inp.mSize).foldlM (Input.recvStep inp) ([], net)

/-- Every party of the list runs the receiving loop of `Input::Run()`, in list order. -/
def inputRecvAll : List (Input F G) → Net F →
    Except Fault (List (List (List (List F))) × Net F)
  | [], net => .ok ([], net)
  | p :: ps, net =>
    match p.RunRecv net with
    | .error e => .error e
    | .ok (out, net1) =>
      match inputRecvAll ps net1 with
      | .error e => .error e
      | .ok (outs, net2) => .ok (out :: outs, net2)

/-- A run of `Input::Run()` by all parties over the network, in the sequential schedule in
which every party runs its sending loop and then every party runs its receiving loop. -/
def runInput (parties : List (Input F G)) (net : Net F) :
    Except Fault (List (List (List (List F))) × Net F) :=
  inputRecvAll parties (parties.foldl (fun nt p => p.RunSend nt) net)

end inputprotocol

/-! Notions used to state and prove the properties -/

/-- The successor of a combination, by recursion on the list: advance the tail when that is
possible, otherwise advance the head and restart the tail right after it. -/
def nextSpec (m : Nat) : List Nat → Option (List Nat)
  | [] => none
  | a :: rest =>
    match nextSpec m rest with
    | some rest' => some (a :: rest')
    | none =>
      if a + (rest.length + 1) < m then some (List.range' (a + 1) (rest.length + 1)) else none

/-- The relation `Visits m c R`: starting from `c`, repeated calls of the successor function visit exactly
the combinations of `R`, in this order, and the call on the last one reports that none is left. -/
inductive Visits (m : Nat) : List Nat → List (List Nat) → Prop
  | last (c : List Nat) : nextSpec m c = none → Visits m c [c]
  | step (c c' : List Nat) (R : List (List Nat)) :
      nextSpec m c = some c' → Visits m c' R → Visits m c (c :: R)

/-- The strictly increasing lists of length `k` with entries in `[lo, m)`, in lexicographic
order. -/
def combs (m : Nat) : Nat → Nat → List (List Nat)
  | 0, _ => [[]]
  | k + 1, lo =>
    (List.range' lo (m - k - lo)).flatMap (fun a => (combs m k (a + 1)).map (fun r => a :: r))

/-- The constructor `Replicator(n, t)` computes its two sizes `Binom(n, t)` and `Binom(n - 1, t)` without
wrapping around, `n` fits the `int` parameters of `NextCombination`, and the number of
combinations fits the `int` counter `share_idx` of `Init`. -/
def BinomExact (n t : Nat) : Prop :=
  n < 2 ^ 31 ∧ Binom n t = Nat.choose n t ∧ Binom (n - 1) t = Nat.choose (n - 1) t ∧
    Nat.choose n t ≤ INT_MAX

/-- The slots held by party `p`: the positions of `L` whose combination contains `p`, in
increasing order. -/
def slotsOf (L : List (List Nat)) (p : Nat) : List Nat :=
  (List.range L.length).filter (fun idx => decide (p ∈ L.getD idx []))

/-- The tables of `Replicator::Init` after the combinations of `P` have been entered, for
`mAdditiveShareSize = A` and `mSize = n`. -/
def tablesOf (A n : Nat) (P : List (List Nat)) : Tables :=
  { mCombinations := P ++ List.replicate (A - P.length) []
    mRevComb := P.zip (List.range P.length)
    mLookup := (List.range n).map (slotsOf P) }

/-- What a successfully constructed `Replicator(n, t)` holds. -/
structure Replicator.WF (R : Replicator) (n t : Nat) : Prop where
  size : R.mSize = n
  threshold : R.mThreshold = t
  combinations : R.mCombinations = combs n (n - t) 0
  additive : R.mAdditiveShareSize = (combs n (n - t) 0).length
  additive_choose : R.mAdditiveShareSize = Nat.choose n t
  revcomb : R.mRevComb = (combs n (n - t) 0).zip (List.range (combs n (n - t) 0).length)
  lookup : R.mLookup = (List.range n).map (slotsOf (combs n (n - t) 0))
  share : ∀ p, p < n → (slotsOf (combs n (n - t) 0) p).length = R.mShareSize
  share_choose : R.mShareSize = Nat.choose (n - 1) t
  difference : R.mDifferenceSize =
    (Difference (slotsOf (combs n (n - t) 0) 0) (slotsOf (combs n (n - t) 0) 1)).length

/-- The slot values obtained by combining two lists of slot values slot by slot. -/
def zipAdds {F : Type} [CommRing F] (op : F → F → F) (A : Nat) (α β : List F) : List F :=
  (List.range A).map (fun i => op (α.getD i 0) (β.getD i 0))

/-- The shares that the parties `0 .. n-1` hold when the additive slots carry the values
`adds`: party `p` lists the values of its slots in increasing slot order. -/
def dealt {F : Type} [Zero F] (L : List (List Nat)) (n : Nat) (adds : List F) : List (List F) :=
  (List.range n).map (fun p => (slotsOf L p).map (fun idx => adds.getD idx 0))

/-- The predicate `IsSharing n t shares v`: `shares` is a valid `(n, t)` sharing of `v`: there is one value
per additive slot, these values add up to `v`, and every party holds the values of its own
slots in increasing slot order. -/
def IsSharing {F : Type} [CommRing F] (n t : Nat) (shares : List (List F)) (v : F) : Prop :=
  ∃ adds : List F, adds.length = (combs n (n - t) 0).length ∧ adds.sum = v ∧
    shares = dealt (combs n (n - t) 0) n adds

/-- The facts about a replicator and a list of shares under which
`ComputeRedundantAddShares` stays inside all its vectors. -/
structure Fits {F : Type} (R : Replicator) (sh : List (List F)) (n S A : Nat)
    (lkf : Nat → List Nat) : Prop where
  size : R.mSize = n
  shareSize : R.mShareSize = S
  additive : R.mAdditiveShareSize = A
  lookup : R.mLookup = (List.range n).map lkf
  rows : ∀ p, p < n → (lkf p).length = S
  bound : ∀ p, p < n → ∀ x ∈ lkf p, x < A
  parties : sh.length = n
  lengths : ∀ p, p < n → (sh.getD p []).length = S

/-- A table of copies in which every slot below `A` has at least one copy and all copies of
slot `i` equal `adds[i]`. -/
def Agrees {F : Type} [CommRing F] (red : List (List F)) (adds : List F) (A : Nat) : Prop :=
  red.length = A ∧ ∀ i, i < A → red.getD i [] ≠ [] ∧ ∀ v ∈ red.getD i [], v = adds.getD i 0

/-- The members that the combinations of the slots `x` and `y` have in common, in increasing
order. -/
def common (L : List (List Nat)) (x y : Nat) : List Nat :=
  (L.getD x []).filter (fun q => decide (q ∈ L.getD y []))

/-- The degree-`2t` combination that receives the product of the slots `x` and `y`: the first
`n - 2t` common members of their combinations. -/
def destSet (n t x y : Nat) : List Nat :=
  (common (combs n (n - t) 0) x y).take (n - 2 * t)

/-- The position that the reverse table records for the combination `c`. -/
def slotIndex (P : List (List Nat)) (c : List Nat) : Nat :=
  ((P.zip (List.range P.length)).lookup c).getD 0

/-- The degree-`2t` slot that receives the product of the degree-`t` slots `x` and `y`. -/
def destSlot (n t x y : Nat) : Nat :=
  slotIndex (combs n (n - 2 * t) 0) (destSet n t x y)

/-- The entry of `mTableMult` of party `id` for the local slot indexes `(a, b)`, if any. -/
def entrySpec (n t id a b : Nat) : Option MultEntry :=
  let x := (slotsOf (combs n (n - t) 0) id).getD a 0
  let y := (slotsOf (combs n (n - t) 0) id).getD b 0
  if id ∈ destSet n t x y then
    some { src_a := a
           src_b := b
           dest_c := (find (slotsOf (combs n (n - 2 * t) 0) id) (destSlot n t x y)).getD 0
           first_party := (destSet n t x y).getD 0 0 }
  else none

/-- The value of the degree-`2t` slot `d` of the product: the sum of the products of all pairs
of degree-`t` slot values that are sent to `d`. -/
def prodSlot {F : Type} [CommRing F] (n t : Nat) (α β : List F) (d : Nat) : F :=
  ∑ x in Finset.range (combs n (n - t) 0).length,
    ∑ y in Finset.range (combs n (n - t) 0).length,
      if destSlot n t x y = d then α.getD x 0 * β.getD y 0 else 0

/-- The slot values of the degree-`2t` sharing of the product. -/
def prodAdds {F : Type} [CommRing F] (n t : Nat) (α β : List F) : List F :=
  (List.range (combs n (n - 2 * t) 0).length).map (prodSlot n t α β)

/-- What a successfully constructed `ShrManipulator(id, t, n)` holds (the reconstruction
table apart). -/
structure ShrManipulator.WF (M : ShrManipulator) (pid t n : Nat) : Prop where
  party : M.mPartyId = pid
  parties : M.mParties = n
  threshold : M.mThreshold = t
  rep : M.mReplicator.WF n t
  drep : M.mDoubleReplicator.WF n (2 * t)
  tableMult : M.mTableMult =
    ((List.range M.mReplicator.mShareSize).flatMap (fun a =>
      (List.range M.mReplicator.mShareSize).map (fun b => entrySpec n t pid a b))).filterMap id
  indexConst : M.mIndexForConstantOps = if pid < n - t then 0 else -1

/-- The contribution of a possible table entry to the element `d` of the output of
`MultiplyToDoubleDegree`. -/
def termDD {F : Type} [CommRing F] (xs ys : List F) (d : Nat) (o : Option MultEntry) : F :=
  match o with
  | some e => if e.dest_c = d then xs.getD e.src_a 0 * ys.getD e.src_b 0 else 0
  | none => 0

/-- The contribution of a possible table entry to the output of `MultiplyToAdditive` of
party `pid`. -/
def termAdd {F : Type} [CommRing F] (xs ys : List F) (pid : Nat) (o : Option MultEntry) : F :=
  match o with
  | some e => if pid = e.first_party then xs.getD e.src_a 0 * ys.getD e.src_b 0 else 0
  | none => 0

/-- The additive share of the product that party `p` computes: the sum of the products of all
pairs of slot values whose common members start with `p`. -/
def prodShare {F : Type} [CommRing F] (n t : Nat) (α β : List F) (p : Nat) : F :=
  ∑ x in Finset.range (combs n (n - t) 0).length,
    ∑ y in Finset.range (combs n (n - t) 0).length,
      if (destSet n t x y).getD 0 0 = p then α.getD x 0 * β.getD y 0 else 0

/-! A concrete field and generator, to run the definitions on explicit inputs -/

/-- The Mersenne prime of `Mp61`. -/
abbrev p61 : Nat := 2 ^ 61 - 1

/-- The integers modulo `2 ^ 61 - 1`, the value set of `FpElement<Mp61>`. -/
abbrev Fp61 : Type := ZMod p61

/-- The value of a little-endian byte string. -/
def leValue : List Nat → Nat
  | [] => 0
  | b :: bs => b + 256 * leValue bs

instance : FieldBytes Fp61 where
  ByteSize := 8
  FromBytes := fun buffer => ((leValue (buffer.take 8) : Nat) : Fp61)
  ToBytes := fun x => (List.range 8).map (fun i => (ZMod.val x / 256 ^ i) % 256)

/-- A sample generator: its state is a position in one fixed byte sequence. -/
structure CounterPRG where
  pos : Nat
  deriving DecidableEq, Repr

instance : PRG CounterPRG where
  Next := fun g len => ((List.range len).map (fun i => (31 * (g.pos + i) + 7) % 256),
    { pos := g.pos + len })
  ofSeed := fun seed => { pos := leValue seed }
  init := { pos := 0 }
  SeedSize := 16

/-- The predicate `Prepared P pid t n M rs a`: the state of party `pid` after one call of `Prepare`, with
random share `rs` and additive share `a` to send. -/
structure Prepared {F G : Type} (P : Mult F G) (pid t n : Nat) (M : ShrManipulator)
    (rs : RandomShare F) (a : F) : Prop where
  id : P.mId = pid
  threshold : P.mThreshold = t
  size : P.mSize = n
  manipulator : P.mManipulator = M
  count : P.mCount = 1
  random : P.mRandomShares = [rs, rs]
  send : P.mSharesToSendP1 = [a]
  recv : P.mSharesRecvByP1.length = 2 * t + 1
  check : P.mCheckData.shares_recv_by_p1.length = 2 * t + 1

/-- The state after `mCheckData->counter += mCount`. -/
def Mult.bumped {F G : Type} (m : Mult F G) : Mult F G :=
  { m with mCheckData := { m.mCheckData with counter := m.mCheckData.counter + m.mCount } }

/-- The replicator for `n = 4`, `t = 1`, as the constructor builds it. -/
def sampleReplicator : Replicator :=
  match Replicator.ctor 4 1 with
  | .ok R => R
  | .error _ => ⟨0, 0, 0, 0, [], [], [], 0⟩

/-- The random share and the next state that party `i` gets from a freshly constructed
correlator for `n = 4`, `t = 1`. -/
def sampleGen (i : Nat) : RandomShare Fp61 × Correlator CounterPRG :=
  match (Correlator.ctor i sampleReplicator : Correlator CounterPRG).GenRandomShare with
  | .ok v => v
  | .error _ => (⟨[], 0, []⟩, Correlator.ctor i sampleReplicator)

/-- The manipulator of party `i` for `n = 4`, `t = 1`, as the constructor builds it. -/
def sampleManipulator (i : Nat) : ShrManipulator :=
  match ShrManipulator.ctor i 1 4 with
  | .ok M => M
  | .error _ => ⟨0, 0, 0, [], [], sampleReplicator, sampleReplicator, 0⟩

/-- The second random share of party `i`: the result of `GenRandomShare` in the state that the
first call left. -/
def sampleGen2 (i : Nat) : RandomShare Fp61 × Correlator CounterPRG :=
  match (sampleGen i).2.GenRandomShare with
  | .ok v => v
  | .error _ => (⟨[], 0, []⟩, (sampleGen i).2)

/-- Party `i` of a batch of two multiplications for `n = 4`, `t = 1`: a fresh `Mult` object on
which `Prepare` is called with the shares of `10` and `26` (slot values `1, 2, 3, 4` and
`5, 6, 7, 8`) and then with the shares of `3` and `5` (slot values `1, 1, 1, 0` and
`2, 1, 1, 1`). -/
def sampleParty (i : Nat) : Except Fault (Mult Fp61 CounterPRG) :=
  (Mult.ctor i 4 sampleReplicator (sampleManipulator i) (Correlator.ctor i sampleReplicator)
      (CheckData.ctor 1) : Mult Fp61 CounterPRG).PrepareMany
    [(dealt (combs 4 3 0) 4 ([1, 2, 3, 4] : List Fp61)).getD i [],
      (dealt (combs 4 3 0) 4 ([1, 1, 1, 0] : List Fp61)).getD i []]
    [(dealt (combs 4 3 0) 4 ([5, 6, 7, 8] : List Fp61)).getD i [],
      (dealt (combs 4 3 0) 4 ([2, 1, 1, 1] : List Fp61)).getD i []]

/-- The state of party 0 after the two calls of `Prepare`. -/
def samplePrepared : Mult Fp61 CounterPRG :=
  match sampleParty 0 with
  | .ok m => m
  | .error _ =>
    Mult.ctor 0 4 sampleReplicator (sampleManipulator 0) (Correlator.ctor 0 sampleReplicator)
      (CheckData.ctor 1)

/-- The result of `OutputStep` of party 0 after the two calls of `Prepare`, when the values
`5` and `7` wait on the channel from party 0. -/
def sampleOutput : List (List Fp61) × Mult Fp61 CounterPRG × Net Fp61 :=
  match samplePrepared.OutputStep (Net.empty.Send 0 0 [5, 7]) with
  | .ok r => r
  | .error _ => ([], samplePrepared, Net.empty)

/-- The run of the batch of two multiplications by the four parties. -/
def sampleBatch :
    Except Fault (List (List (List Fp61)) × List (Mult Fp61 CounterPRG) × Net Fp61) :=
  match allOk ((List.range 4).map sampleParty) with
  | .error e => .error e
  | .ok parties => runMult parties Net.empty

/-- The value that `Reconstruct` opens from the shares that the parties return for
multiplication `mu` of the batch. -/
def sampleOpen (mu : Nat) : Option Fp61 :=
  match sampleBatch with
  | .error _ => none
  | .ok r => (sampleReplicator.Reconstruct (r.1.map (fun o => o.getD mu []))).toOption

/-- The seed buffer of party `i` in the test of the input protocol: `seed[0] = my_id`, the
other bytes zero. -/
def sampleSeed (i : Nat) : List Nat := i :: List.replicate 15 0

/-- Party `i` of the input protocol after its preparation: the inputter calls `Prepare`, the
other parties call `PrepareToReceive`. -/
def sampleInputParty (n t inputter : Nat) (secret : Fp61)
    (corrs : List (InputSetup.Correlator CounterPRG)) (i : Nat) :
    Except Fault (Input Fp61 CounterPRG) :=
  match ShrManipulator.ctor i t n with
  | .error e => .error e
  | .ok M =>
    match getE corrs i with
    | .error e => .error e
    | .ok c =>
      if i = inputter then (Input.ctor i n M c : Input Fp61 CounterPRG).Prepare secret
      else (Input.ctor i n M c : Input Fp61 CounterPRG).PrepareToReceive inputter

/-- The input protocol as the test runs it: `n` parties with the seeds `sampleSeed i` run
`InputSetup::Run`, prepare for one input of `inputter` and run `Input::Run`; the result is the
list of the shares that the parties hold for that input. -/
def sampleInput (n t inputter : Nat) (secret : Fp61) : Except Fault (List (List Fp61)) :=
  match Replicator.ctor n t with
  | .error e => .error e
  | .ok R =>
    match runInputSetup ((List.range n).map (fun i =>
        ({ mId := i, mSize := n, mReplicator := R, mPrg := PRG.ofSeed (sampleSeed i) } :
          InputSetup CounterPRG))) (Net.empty : Net (List Fp61)) with
    | .error e => .error e
    | .ok (corrs, _) =>
      match allOk ((List.range n).map (sampleInputParty n t inputter secret corrs)) with
      | .error e => .error e
      | .ok inps =>
        match runInput inps Net.empty with
        | .error e => .error e
        | .ok (outs, _) => .ok (outs.map (fun o => (o.getD inputter []).getD 0 []))

/-- The value that `Reconstruct` opens from the shares of `sampleInput`. -/
def sampleInputOpen (n t inputter : Nat) (secret : Fp61) : Option Fp61 :=
  match Replicator.ctor n t with
  | .error _ => none
  | .ok R =>
    match sampleInput n t inputter secret with
    | .error _ => none
    | .ok shares => (R.Reconstruct shares).toOption

/-! Further parts of the program -/

/-- Embeds `Replicator::DifferenceSize()`. -/
def Replicator.DifferenceSize (R : Replicator) : Nat := R.mDifferenceSize

/-- The overload `ShrManipulator::AddConstant(c, a)`, which calls `AddConstant(a, c)`. -/
def ShrManipulator.AddConstantLeft {F : Type} [CommRing F] (M : ShrManipulator) (c : F)
    (a : List F) : Except Fault (List F) :=
  M.AddConstant a c

/-- The overload `ShrManipulator::MultiplyConstant(c, a)`, which calls
`MultiplyConstant(a, c)`. -/
def ShrManipulator.MultiplyConstantLeft {F : Type} [CommRing F] (M : ShrManipulator) (c : F)
    (a : List F) : List F :=
  M.MultiplyConstant a c

/-- The sizes of the generator tables of a correlator as its constructor sets them: one own
generator per additive slot and, for each of the `2t + 1` parties of `U`, one generator per
element of a share. -/
structure Correlator.Sized {G : Type} (c : Correlator G) : Prop where
  own : c.mOwnPRGs.length = c.mReplicator.AdditiveShareSize
  rand : c.mRandPRGs.length = 2 * c.mThreshold + 1
  rows : ∀ u, u < 2 * c.mThreshold + 1 →
    (c.mRandPRGs.getD u []).length = c.mReplicator.ShareSize

/-- The state of the second loop of `GenRandomShare` when the outer loop has completed `k`
turns and the inner loop `u` turns of the next one (`u = 0` between two outer turns): sizes,
and the sum relation for the elements completed so far. -/
structure GenInv {F G : Type} [CommRing F] (S T k u : Nat) (st : GenState F G) : Prop where
  share : st.rep_share.length = S
  adds : st.rep_add_shares.length = T
  addrows : ∀ v, v < T → (st.rep_add_shares.getD v []).length = if v < u then k + 1 else k
  prgs : st.mRandPRGs.length = T
  prgrows : ∀ v, v < T → (st.mRandPRGs.getD v []).length = S
  done : ∀ j, j < k → st.rep_share.getD j 0 =
    ∑ v in Finset.range T, (st.rep_add_shares.getD v []).getD j 0
  part : u = 0 ∨ st.rep_share.getD k 0 =
    ∑ v in Finset.range u, (st.rep_add_shares.getD v []).getD k 0

/-! Modular arithmetic (arithmetic.h, arithmetic.cc, p.h) -/

/-- Number of values of `std::uint64_t`. -/
def U64 : Nat := 2 ^ 64

/-- Number of values of `__uint128_t`. -/
def U128 : Nat := 2 ^ 128

/-- The constant `Mp61::kPrime`. -/
def Mp61.kPrime : Nat := 0x1FFFFFFFFFFFFFFF

/-- The constant `Mp127::kPrime`. -/
def Mp127.kPrime : Nat := ((0x7FFFFFFFFFFFFFFF <<< 64) % U128) ||| 0xFFFFFFFFFFFFFFFF

/-- Embeds `addm(x, y, n)` for an unsigned type `T` with `W` values: the sum `x + y` wraps
around, and `z - n` is computed only when `z >= n`. -/
def addm (W x y n : Nat) : Nat :=
  let z := (x + y) % W
  if z ≥ n then z - n else z

/-- The two summands that `mod_mul_mersenne61` hands to `addm`: `a` after `a |= b >> 61` and
`b` after `b &= n`. -/
def mod_mul_mersenne61.fold (x y n : Nat) : Nat × Nat :=
  let z := (x * y) % U128
  let a := (z >>> 61) % U64
  let b := z % U64
  (a ||| (b >>> 61), b &&& n)

/-- Embeds `mod_mul_mersenne61(x, y, n)`. -/
def mod_mul_mersenne61 (x y n : Nat) : Nat :=
  addm U64 (mod_mul_mersenne61.fold x y n).1 (mod_mul_mersenne61.fold x y n).2 n

/-- The specialisation `mulm<u64>(x, y, n)`. -/
def mulm_u64 (x y n : Nat) : Nat := mod_mul_mersenne61 x y n

/-- The type `struct u256`. -/
structure u256 where
  high : Nat
  low : Nat
  deriving DecidableEq, Repr

/-- Embeds `mul_u128(x, y)`; every sum, product and shift is one of `u128` values and wraps
around at `2 ^ 128`. -/
def mul_u128 (x y : Nat) : u256 :=
  let a := (x >>> 64) % U64
  let b := x % U64
  let c := (y >>> 64) % U64
  let d := y % U64
  let ac := (a * c) % U128
  let ad := (a * d) % U128
  let bc := (b * c) % U128
  let bd := (b * d) % U128
  let carry := ((ad % U64 + bc % U64) % U128 + (bd >>> 64)) % U128
  let high := (((ac + (ad >>> 64)) % U128 + (bc >>> 64)) % U128 + (carry >>> 64)) % U128
  let low := (((ad <<< 64) % U128 + (bc <<< 64) % U128) % U128 + bd) % U128
  { high := high, low := low }

/-- The sum `c = a + b` of `mod_mul_mersenne127` before it wraps around: `a` after
`a |= b >> 127` and `b` after `b &= n`. -/
def mod_mul_mersenne127.fold (x y n : Nat) : Nat × Nat :=
  let z := mul_u128 x y
  let a := (z.high <<< 1) % U128
  let b := z.low
  (a ||| (b >>> 127), b &&& n)

/-- Embeds `mod_mul_mersenne127(x, y, n)`. -/
def mod_mul_mersenne127 (x y n : Nat) : Nat :=
  let c := ((mod_mul_mersenne127.fold x y n).1 + (mod_mul_mersenne127.fold x y n).2) % U128
  if c ≥ n then c - n else c

/-- The specialisation `mulm<u128>(x, y, n)`. -/
def mulm_u128 (x y n : Nat) : Nat := mod_mul_mersenne127 x y n

/-- Embeds `Mp61::Multiply(x, y)`. -/
def Mp61.Multiply (x y : Nat) : Nat := mulm_u64 x y Mp61.kPrime

/-- Embeds `Mp127::Multiply(x, y)`. -/
def Mp127.Multiply (x y : Nat) : Nat := mulm_u128 x y Mp127.kPrime

/-- Number of non-negative values of `std::int64_t`. -/
def S64 : Int := 2 ^ 63

/-- A value of the signed type `S = std::int64_t` computed by an arithmetic operation: outside
the range of the type the operation overflows. -/
def chk (z : Int) : Except Fault Int :=
  if -S64 ≤ z ∧ z < S64 then .ok z else .error .signed_overflow

/-- The conversion of a `std::uint64_t` to `std::int64_t`. -/
def toS (x : Nat) : Int := if (x : Int) < S64 then x else (x : Int) - 2 ^ 64

/-- The conversion of a `std::int64_t` to `std::uint64_t`. -/
def toU (z : Int) : Nat := (z % 2 ^ 64).toNat

/-- The statement `PAR_ASSIGN(v1, v2, q)` of `invp`; returns the new `(v1, v2)`. -/
def PAR_ASSIGN (v1 v2 q : Int) : Except Fault (Int × Int) := do
  let temp := v2
  let m ← chk (q * temp)
  let v2 ← chk (v1 - m)
  pure (temp, v2)

/-- The loop `while (newr != 0)` of `invp`, run for at most `fuel` rounds; returns the final
`(t, newt, r, newr)`. The quotient `r / newr` of C++ rounds towards zero. -/
def invp.loop : Nat → Int → Int → Int → Int → Except Fault (Int × Int × Int × Int)
  | 0, t, newt, r, newr => if newr ≠ 0 then .error .diverged else .ok (t, newt, r, newr)
  | fuel + 1, t, newt, r, newr =>
    if newr ≠ 0 then do
      let q ← chk (r.tdiv newr)
      let (t, newt) ← PAR_ASSIGN t newt q
      let (r, newr) ← PAR_ASSIGN r newr q
      invp.loop fuel t newt r newr
    else .ok (t, newt, r, newr)

/-- Embeds `invp<T, S>(v, n)` for `T = std::uint64_t` and `S = std::int64_t`. The absolute value
of `newr` goes down in every round, so `v` rounds are enough fuel. In `t = t + n` the signed `t`
is converted to the unsigned type of `n`, the sum wraps around there and is converted back. -/
def invp (v n : Nat) : Except Fault Nat :=
  if v = 0 then .error .logic_error
  else do
    let (t, _, r, _) ← invp.loop v 0 1 (toS n) (toS v)
    if r ≠ 1 then .error .logic_error
    else
      let t := if t < 0 then toS ((toU t + n) % U64) else t
      pure (toU t)

/-- Embeds `Mp61::Invert(v)`. -/
def Mp61.Invert (v : Nat) : Except Fault Nat := invp v Mp61.kPrime

/-! Byte encodings (fp.h, vec.h, rep.h) -/

/-- Embeds `Prime::Reduce(x)` for `Mp61`, which is `details::red(x, kPrime)`. -/
def Mp61.Reduce (x : Nat) : Nat := x % Mp61.kPrime

/-- Embeds `FpElement<Mp61>::ByteSize()`, the size of `std::uint64_t`. -/
def FpElement.ByteSize : Nat := 8

/-- The `std::uint64_t` that the first 8 bytes of a buffer hold, on a little-endian machine:
the value of `*((ValueType *)buffer)`. -/
def load_u64 (buffer : List Nat) : Nat := leValue (buffer.take 8)

/-- The 8 bytes of a `std::uint64_t` in memory, on a little-endian machine. -/
def store_u64 (x : Nat) : List Nat := (List.range 8).map (fun i => (x / 256 ^ i) % 256)

/-- Embeds `FpElement<Mp61>::FromBytes(buffer)`; the result is the member `mValue` of the new
element, which the constructor reduces. -/
def FpElement.FromBytes (buffer : List Nat) : Nat := Mp61.Reduce (load_u64 buffer)

/-- Embeds `FpElement<Mp61>::ToBytes(dest)` for the element with member `mValue`; the result is
the `ByteSize()` bytes that `std::memcpy` writes to `dest`. -/
def FpElement.ToBytes (mValue : Nat) : List Nat := store_u64 mValue

instance : NeZero p61 := ⟨by decide⟩

/-- A buffer of bytes. -/
def IsBytes (b : List Nat) : Prop := ∀ x ∈ b, x < 256

instance (b : List Nat) : Decidable (IsBytes b) := by
  unfold IsBytes
  infer_instance

/-- Embeds `std::memcpy(buffer + offset, bytes, bytes.size())`; writing past the end of the
buffer is undefined. -/
def writeAt (buffer : List Nat) (offset : Nat) (bytes : List Nat) : Except Fault (List Nat) :=
  if offset + bytes.length ≤ buffer.length then
    .ok (buffer.take offset ++ bytes ++ buffer.drop (offset + bytes.length))
  else .error Fault.out_of_bounds

section bytes

variable {F : Type} [FieldBytes F]

/-- Embeds `vector::ToBytes(buffer + offset, vector)`: one `memcpy` of
`vector.size() * T::ByteSize()` bytes; the elements lie in memory one after the other, each as
the bytes that its `ToBytes` writes. -/
def vector.ToBytes (buffer : List Nat) (offset : Nat) (vector : List F) :
    Except Fault (List Nat) :=
  writeAt buffer offset (vector.flatMap FieldBytes.ToBytes)

/-- The call `T::FromBytes(buffer + offset)`; reading past the end of the buffer is
undefined. -/
def readElement (buffer : List Nat) (offset : Nat) : Except Fault F :=
  if offset + FieldBytes.ByteSize F ≤ buffer.length then
    .ok (FieldBytes.FromBytes (buffer.drop offset))
  else .error Fault.out_of_bounds

/-- Embeds `vector::FromBytes<T>(buffer + offset, size)`. -/
def vector.FromBytes (buffer : List Nat) (offset size : Nat) : Except Fault (List F) :=
  allOk ((List.range size).map
    (fun i => readElement buffer (offset + i * FieldBytes.ByteSize F)))

/-- Embeds `Replicator::ShareSizeBytes()`. -/
def Replicator.ShareSizeBytes (F : Type) [FieldBytes F] (R : Replicator) : Nat :=
  R.ShareSize * FieldBytes.ByteSize F

/-- Embeds `Replicator::ShareFromBytes(buffer + offset)`. -/
def Replicator.ShareFromBytes (R : Replicator) (buffer : List Nat) (offset : Nat) :
    Except Fault (List F) :=
  vector.FromBytes buffer offset R.ShareSize

/-- The loop of `Replicator::SharesFromBytes`, with `amount` shares left to read. -/
def SharesFromBytes.loop (R : Replicator) (buffer : List Nat) :
    Nat → Nat → List (List F) → Except Fault (List (List F))
  | 0, _, shares => .ok shares
  | amount + 1, offset, shares =>
    match R.ShareFromBytes buffer offset with
    | .error e => .error e
    | .ok share =>
      SharesFromBytes.loop R buffer amount (offset + R.ShareSizeBytes F) (shares ++ [share])

/-- Embeds `Replicator::SharesFromBytes(buffer, amount)`. -/
def Replicator.SharesFromBytes (R : Replicator) (buffer : List Nat) (amount : Nat) :
    Except Fault (List (List F)) :=
  SharesFromBytes.loop R buffer amount 0 []

/-- Embeds `Replicator::ShareToBytes(share, buffer + offset)`. -/
def Replicator.ShareToBytes (_R : Replicator) (share : List F) (buffer : List Nat)
    (offset : Nat) : Except Fault (List Nat) :=
  vector.ToBytes buffer offset share

/-- One turn of the loop of `Replicator::SharesToBytes`; the state is the buffer and
`offset`. -/
def SharesToBytes.step (R : Replicator) (st : List Nat × Nat) (share : List F) :
    Except Fault (List Nat × Nat) :=
  match R.ShareToBytes share st.1 st.2 with
  | .error e => .error e
  | .ok buffer => .ok (buffer, st.2 + R.ShareSizeBytes F)

/-- Embeds `Replicator::SharesToBytes(shares, buffer)`; the result is the buffer after the
call. -/
def Replicator.SharesToBytes (R : Replicator) (shares : List (List F)) (buffer : List Nat) :
    Except Fault (List Nat) :=
  match shares.foldlM (SharesToBytes.step R) (buffer, 0) with
  | .error e => .error e
  | .ok st => .ok st.1

end bytes

/-- The bytes of a list of shares of `Field` elements: share after share, element after
element, each element as the 8 bytes of its value, lowest byte first. -/
def wireBytes (shares : List (List Fp61)) : List Nat :=
  shares.flatMap (fun share => share.flatMap (fun x => store_u64 (ZMod.val x)))

/-! The factory `CreateReplicator` (shr.h) -/

/-- Embeds `CreateReplicator(n)`: the threshold `(n - 1) / 3` is computed on `int`, where the
quotient rounds towards zero, and both arguments are converted to `std::size_t`. -/
def CreateReplicator (n : Int) : Except Fault Replicator :=
  if n - 1 < -(2 ^ 31) then .error Fault.signed_overflow
  else Replicator.ctor (n % 2 ^ 64).toNat (((n - 1).tdiv 3) % 2 ^ 64).toNat

/-! The check protocol (check.h) -/

/-- The type `struct CompressedCheckData`. -/
structure CompressedCheckData (F : Type) where
  shares_sent_to_p1 : F
  shares_recv_by_p1 : List F
  values_recv_from_p1 : F
  msgs : List (List F)

/-- The constructor `CompressedCheckData::CompressedCheckData(m)`. -/
def CompressedCheckData.ctor {F : Type} [CommRing F] (m : ShrManipulator) :
    CompressedCheckData F :=
  { shares_sent_to_p1 := 0
    shares_recv_by_p1 := List.replicate (2 * m.mReplicator.mThreshold + 1) 0
    values_recv_from_p1 := 0
    msgs := List.replicate (2 * m.mReplicator.mThreshold + 1)
      (List.replicate m.mDoubleReplicator.ShareSize 0) }

/-- The members of `Check`; the network object is used by the constructor for `Id()` and
`Size()` only in the methods embedded here. -/
structure Check (F G : Type) where
  mReplicator : Replicator
  mId : Nat
  mThreshold : Nat
  mSize : Nat
  mManipulator : ShrManipulator
  mCount : Nat
  mCheckData : CheckData F
  mPRG : G
  mRandomCoefficients : List F
  mCompressedCD : CompressedCheckData F
  mValuesToSend : List (List F)
  mDigestsToSend : List (List F)
  mValuesReceived : List (List F)
  mDigestsReceived : List (List F)

/-- The constructor `Check::Check(network, replicator, manipulator, cd)`, for a network object
with `Id() = id` and `Size() = size`; `mPRG` is default-constructed. -/
def Check.ctor {F G : Type} [CommRing F] [PRG G] (id size : Nat) (replicator : Replicator)
    (manipulator : ShrManipulator) (cd : CheckData F) : Check F G :=
  { mReplicator := replicator
    mId := id
    mThreshold := replicator.mThreshold
    mSize := size
    mManipulator := manipulator
    mCount := cd.counter
    mCheckData := cd
    mPRG := PRG.init
    mRandomCoefficients := []
    mCompressedCD := CompressedCheckData.ctor manipulator
    mValuesToSend := List.replicate size []
    mDigestsToSend := List.replicate size []
    mValuesReceived := List.replicate size []
    mDigestsReceived := List.replicate size [] }

section check

variable {F : Type} [CommRing F] [DecidableEq F] [FieldBytes F] {G : Type} [PRG G]

/-- One turn of the loop of `Check::ComputeRandomCoefficients`. -/
def ComputeRandomCoefficients.step (st : G × List F) (_mult_idx : Nat) : G × List F :=
  let r := PRG.Next st.1 (FieldBytes.ByteSize F)
  (r.2, st.2 ++ [FieldBytes.FromBytes r.1])

/-- Embeds `Check::ComputeRandomCoefficients()`. -/
def Check.ComputeRandomCoefficients (c : Check F G) : Check F G :=
  let st := (List.range c.mCheckData.counter).foldl ComputeRandomCoefficients.step
    (c.mPRG, c.mRandomCoefficients)
  { c with mPRG := st.1, mRandomCoefficients := st.2 }

/-- One turn of the loop of the first branch of `Check::PrepareLinearCombinations`. -/
def PrepareLinearCombinations.own (c : Check F G) (cd : CompressedCheckData F)
    (mult_idx : Nat) : Except Fault (CompressedCheckData F) :=
  match getE c.mRandomCoefficients mult_idx with
  | .error e => .error e
  | .ok coeff =>
    match getE c.mCheckData.shares_sent_to_p1 mult_idx with
    | .error e => .error e
    | .ok s =>
      match getE c.mCheckData.values_recv_from_p1 mult_idx with
      | .error e => .error e
      | .ok v =>
        .ok { cd with
              shares_sent_to_p1 := cd.shares_sent_to_p1 + coeff * s
              values_recv_from_p1 := cd.values_recv_from_p1 + coeff * v }

/-- One turn of the inner loop of the second branch of `Check::PrepareLinearCombinations`. -/
def PrepareLinearCombinations.p0 (c : Check F G) (mult_idx : Nat) (cd : CompressedCheckData F)
    (party_idx : Nat) : Except Fault (CompressedCheckData F) :=
  match getE c.mRandomCoefficients mult_idx with
  | .error e => .error e
  | .ok coeff =>
    match getE c.mCheckData.shares_recv_by_p1 party_idx with
    | .error e => .error e
    | .ok row =>
      match getE row mult_idx with
      | .error e => .error e
      | .ok s =>
        match getE cd.shares_recv_by_p1 party_idx with
        | .error e => .error e
        | .ok old =>
          .ok { cd with shares_recv_by_p1 := cd.shares_recv_by_p1.set party_idx (old + coeff * s) }

/-- Embeds `Check::PrepareLinearCombinations()`.  The bound `2 * mThreshold - 1` of the first
test is computed on `std::size_t`. -/
def Check.PrepareLinearCombinations (c : Check F G) : Except Fault (Check F G) :=
  if 0 < c.mId ∧ c.mId < ((2 * c.mThreshold) % SIZE + SIZE - 1) % SIZE then
    match (List.range c.mCheckData.counter).foldlM (PrepareLinearCombinations.own c)
        c.mCompressedCD with
    | .error e => .error e
    | .ok cd => .ok { c with mCompressedCD := cd }
  else if c.mId = 0 then
    match (List.range c.mCheckData.counter).foldlM
        (fun cd mult_idx => (List.range (2 * c.mThreshold + 1)).foldlM
          (PrepareLinearCombinations.p0 c mult_idx) cd) c.mCompressedCD with
    | .error e => .error e
    | .ok cd => .ok { c with mCompressedCD := cd }
  else .ok c

/-- One turn of the inner loop of the first part of `Check::PrepareMsgs`, on the compressed
`msgs`. -/
def PrepareMsgs.compress (c : Check F G) (mult_idx : Nat) (msgs : List (List F))
    (party_idx : Nat) : Except Fault (List (List F)) :=
  match getE c.mRandomCoefficients mult_idx with
  | .error e => .error e
  | .ok coeff =>
    match getE c.mCheckData.msgs mult_idx with
    | .error e => .error e
    | .ok row =>
      match getE row party_idx with
      | .error e => .error e
      | .ok share =>
        let shr := c.mManipulator.MultiplyConstantLeft coeff share
        match getE msgs party_idx with
        | .error e => .error e
        | .ok acc =>
          match c.mManipulator.Add acc shr with
          | .error e => .error e
          | .ok sum => .ok (msgs.set party_idx sum)

/-- The vector `batched_add_share` of `Check::PrepareMsgs` for the slot `shr_id`. -/
def PrepareMsgs.batched (msgs : List (List F)) (mThreshold shr_id : Nat) :
    Except Fault (List F) :=
  allOk ((List.range (2 * mThreshold + 1)).map (fun i =>
    match getE msgs i with
    | .error e => .error e
    | .ok row => getE row shr_id))

/-- One turn of the loop over the receivers of a slot with the flag `VALUE`. -/
def PrepareMsgs.value (msgs : List (List F)) (mThreshold shr_id : Nat)
    (mValuesToSend : List (List F)) (recv_idx : Nat) : Except Fault (List (List F)) :=
  match PrepareMsgs.batched msgs mThreshold shr_id with
  | .error e => .error e
  | .ok batched_add_share =>
    match getE mValuesToSend recv_idx with
    | .error e => .error e
    | .ok old => .ok (mValuesToSend.set recv_idx (old ++ batched_add_share))

/-- One turn of the loop over the receivers of a slot with the flag `HASH`: the vector
`batched_add_share` is filled, `hash = Field(0)` is appended. -/
def PrepareMsgs.hash (msgs : List (List F)) (mThreshold shr_id : Nat)
    (mDigestsToSend : List (List F)) (recv_idx : Nat) : Except Fault (List (List F)) :=
  match PrepareMsgs.batched msgs mThreshold shr_id with
  | .error e => .error e
  | .ok _batched_add_share =>
    let hash : F := 0
    match getE mDigestsToSend recv_idx with
    | .error e => .error e
    | .ok old => .ok (mDigestsToSend.set recv_idx (old ++ [hash]))

/-- One turn of the loop over the slots in `Check::PrepareMsgs`; the state is
`(mValuesToSend, mDigestsToSend)`. -/
def PrepareMsgs.slot (c : Check F G) (msgs : List (List F))
    (st : List (List F) × List (List F)) (shr_id : Nat) :
    Except Fault (List (List F) × List (List F)) :=
  match getE c.mManipulator.mTableRec shr_id with
  | .error e => .error e
  | .ok entry =>
    match entry.value_or_hash with
    | RecType.VALUE =>
      match entry.party_set.foldlM (PrepareMsgs.value msgs c.mThreshold shr_id) st.1 with
      | .error e => .error e
      | .ok v => .ok (v, st.2)
    | RecType.HASH =>
      match entry.party_set.foldlM (PrepareMsgs.hash msgs c.mThreshold shr_id) st.2 with
      | .error e => .error e
      | .ok d => .ok (st.1, d)

/-- Embeds `Check::PrepareMsgs()`. -/
def Check.PrepareMsgs (c : Check F G) : Except Fault (Check F G) :=
  match (List.range c.mCheckData.counter).foldlM
      (fun msgs mult_idx => (List.range (2 * c.mThreshold + 1)).foldlM
        (PrepareMsgs.compress c mult_idx) msgs) c.mCompressedCD.msgs with
  | .error e => .error e
  | .ok msgs =>
    match (List.range c.mManipulator.mDoubleReplicator.ShareSize).foldlM
        (PrepareMsgs.slot c msgs) (c.mValuesToSend, c.mDigestsToSend) with
    | .error e => .error e
    | .ok st =>
      .ok { c with
            mCompressedCD := { c.mCompressedCD with msgs := msgs }
            mValuesToSend := st.1
            mDigestsToSend := st.2 }

end check

/-! The TCP connector (connector.h, connector.cc) -/

/-- The type `enum class Connector::State`. -/
inductive Connector.State where
  | eIdle : Connector.State
  | eActive : Connector.State
  | eClosed : Connector.State
  | eError : Connector.State
  | eUnknown : Connector.State
  deriving DecidableEq, Repr

/-- One call of `SystemInterface::read(fd, buf, count)` as the system answers it: the return
value `n` and the bytes stored at `buf`. -/
structure ReadCall where
  n : Int
  data : List Nat
  deriving DecidableEq, Repr

/-- The members of `TCPConnector`; the system behind `mSystem` is given to `Recv` as the list
of the answers to the coming calls of `read`. -/
structure TCPConnector where
  mState : Connector.State
  mSocket : Int
  deriving DecidableEq, Repr

/-- The outcome of a call of `TCPConnector::Recv`: the connector after the call, the answers of
the system not yet used, and either the exception thrown or the value returned together with
the buffer. -/
structure RecvOutcome where
  connector : TCPConnector
  reads : List ReadCall
  result : Except Fault (Int × List Nat)

/-- The loop of `TCPConnector::Recv(buffer, size)` and the `return size` after it, with `rem`
and `offset` as in the source.  A call of `read` that the system never answers blocks. -/
def TCPConnector.Recv.loop (c : TCPConnector) (size : Nat) :
    List ReadCall → List Nat → Nat → Nat → RecvOutcome
  | [], buffer, rem, _ =>
    if rem > 0 then { connector := c, reads := [], result := .error Fault.blocked }
    else { connector := c, reads := [], result := .ok (toS size, buffer) }
  | r :: reads, buffer, rem, offset =>
    if rem > 0 then
      if r.n = 0 then { connector := c, reads := reads, result := .ok (toS size, buffer) }
      else if r.n < 0 then
        { connector := { c with mState := Connector.State.eError }, reads := reads,
          result := .error Fault.system_error }
      else
        match writeAt buffer offset r.data with
        | .error e => { connector := c, reads := reads, result := .error e }
        | .ok buffer1 =>
          TCPConnector.Recv.loop c size reads buffer1
            ((rem + SIZE - r.n.toNat % SIZE) % SIZE) ((offset + r.n.toNat) % SIZE)
    else { connector := c, reads := r :: reads, result := .ok (toS size, buffer) }

/-- Embeds `TCPConnector::Recv(buffer, size)`. -/
def TCPConnector.Recv (c : TCPConnector) (reads : List ReadCall) (buffer : List Nat)
    (size : Nat) : RecvOutcome :=
  TCPConnector.Recv.loop c size reads buffer size 0

/-! Auxiliary definitions -/

/-- The subset of parties of the local double-degree slot `k` of party `id`. -/
def slotSet (n t id k : Nat) : List Nat :=
  (combs n (n - 2 * t) 0).getD ((slotsOf (combs n (n - 2 * t) 0) id).getD k 0) []

/-- The entry that the loop of `ShrManipulator::Init` appends to `mTableRec` for the local slot
`k` of party `id`. -/
def recEntrySpec (n t id k : Nat) : RecEntry :=
  { value_or_hash := if id = (slotSet n t id k).getD 0 0 then RecType.VALUE else RecType.HASH
    party_set := (List.range (k + 1)).flatMap (fun j =>
      (List.range n).filter (fun p => find (slotSet n t id j) p = none)) }

/-- Every element of every vector of `d` is `Field(0)`. -/
def AllZero {F : Type} [CommRing F] (d : List (List F)) : Prop := ∀ l ∈ d, ∀ x ∈ l, x = 0

instance {F : Type} [CommRing F] [DecidableEq F] (d : List (List F)) : Decidable (AllZero d) := by
  unfold AllZero
  infer_instance

/-! Sample data for the check protocol -/

/-- A transcript of one multiplication of party `i` for `n = 4`, `t = 1`: the share `5` sent to
party 0, the value `9` received from it, and the shares `msgs` given. -/
def sampleCheckData (msgs : List (List Fp61)) : CheckData Fp61 :=
  { shares_sent_to_p1 := [5]
    shares_recv_by_p1 := [[], [], []]
    values_recv_from_p1 := [9]
    msgs := [msgs]
    counter := 1 }

/-- The check object of party `i` for `n = 4`, `t = 1` on the transcript `sampleCheckData msgs`,
after `ComputeRandomCoefficients`. -/
def sampleCheck (i : Nat) (msgs : List (List Fp61)) : Check Fp61 CounterPRG :=
  (Check.ctor i 4 sampleReplicator (sampleManipulator i) (sampleCheckData msgs) :
    Check Fp61 CounterPRG).ComputeRandomCoefficients

/-- Party 0 of the batch of two multiplications for `n = 4`, `t = 1` when it has received the
shares `1, 2` of party 0, `3, 4` of party 1 and `5, 6` of party 2. -/
def sampleReceived : Mult Fp61 CounterPRG :=
  { samplePrepared with mSharesRecvByP1 := [[1, 2], [3, 4], [5, 6]] }

/-- The check object `sampleCheck i msgs` after `PrepareMsgs`. -/
def sampleCheckMsgs (i : Nat) (msgs : List (List Fp61)) : Check Fp61 CounterPRG :=
  match (sampleCheck i msgs).PrepareMsgs with
  | .ok c => c
  | .error _ => sampleCheck i msgs

/-! Front ends (exp_check.cc, exp_input.cc) -/

/-- Embeds `ValidateN(n)`, defined alike in exp_check.cc and in exp_input.cc:
`assert(n > 3 || n < 17); return n;`.  A failed assertion ends the program. -/
def ValidateN (n : Nat) : Except Fault Nat :=
  if n > 3 ∨ n < 17 then .ok n else .error Fault.assertion_failed

/-! The hash function (hash.h) -/

/-- Embeds `compute_capacity(bit_size)`, with `sizeof(uint64_t) = 8`. -/
def compute_capacity (bit_size : Nat) : Nat := 2 * bit_size / (8 * 8)

/-- The constant `SHA3_256::kCapacity`. -/
def SHA3_256.kCapacity : Nat := compute_capacity 256

/-- The constant `Hash::kStateSize`. -/
def Hash.kStateSize : Nat := 25

/-- The constant `Hash<SHA3_256>::kCuttoff`, which is
`kStateSize - (Tag::kCapacity & (~0x80000000))` on 32-bit unsigned values. -/
def Hash.kCuttoff : Nat := Hash.kStateSize - (SHA3_256.kCapacity &&& (2 ^ 32 - 1 - 0x80000000))

/-- The table `keccakf_rndc`. -/
def keccakf_rndc : List Nat :=
  [0x0000000000000001, 0x0000000000008082, 0x800000000000808a,
   0x8000000080008000, 0x000000000000808b, 0x0000000080000001,
   0x8000000080008081, 0x8000000000008009, 0x000000000000008a,
   0x0000000000000088, 0x0000000080008009, 0x000000008000000a,
   0x000000008000808b, 0x800000000000008b, 0x8000000000008089,
   0x8000000000008003, 0x8000000000008002, 0x8000000000000080,
   0x000000000000800a, 0x800000008000000a, 0x8000000080008081,
   0x8000000000008080, 0x0000000080000001, 0x8000000080008008]

/-- The table `keccakf_rotc`. -/
def keccakf_rotc : List Nat :=
  [1, 3, 6, 10, 15, 21, 28, 36, 45, 55, 2, 14, 27, 41, 56, 8, 25, 43, 62, 18, 39, 61, 20, 44]

/-- The table `keccakf_piln`. -/
def keccakf_piln : List Nat :=
  [10, 7, 11, 17, 18, 3, 5, 16, 8, 21, 24, 4, 15, 23, 19, 13, 12, 2, 20, 14, 22, 9, 6, 1]

/-- Embeds `rotl64(x, y)` on 64-bit values. -/
def rotl64 (x y : Nat) : Nat := ((x <<< y) % U64) ||| (x >>> (8 * 8 - y))

/-- The first two loops of a round of `keccakf`: the column parities `bc`, then
`state[j + i] ^= t` for every column `i`. -/
def keccakf.theta (state : List Nat) : List Nat :=
  let bc := (List.range 5).map (fun i =>
    state.getD i 0 ^^^ state.getD (i + 5) 0 ^^^ state.getD (i + 10) 0 ^^^
      state.getD (i + 15) 0 ^^^ state.getD (i + 20) 0)
  (List.range 5).foldl (fun st i =>
    let t := bc.getD ((i + 4) % 5) 0 ^^^ rotl64 (bc.getD ((i + 1) % 5) 0) 1
    [0, 5, 10, 15, 20].foldl (fun st j => st.set (j + i) (st.getD (j + i) 0 ^^^ t)) st) state

/-- The third loop of a round of `keccakf`, which starts at `t = state[1]`. -/
def keccakf.rhopi (state : List Nat) : List Nat :=
  ((List.range 24).foldl (fun (st : List Nat × Nat) i =>
    let v := keccakf_piln.getD i 0
    let bc0 := st.1.getD v 0
    (st.1.set v (rotl64 st.2 (keccakf_rotc.getD i 0)), bc0)) (state, state.getD 1 0)).1

/-- The fourth loop of a round of `keccakf`; `~x` is the complement of a 64-bit value. -/
def keccakf.chi (state : List Nat) : List Nat :=
  [0, 5, 10, 15, 20].foldl (fun st j =>
    let bc := (List.range 5).map (fun i => st.getD (j + i) 0)
    (List.range 5).foldl (fun st i =>
      st.set (j + i) (st.getD (j + i) 0 ^^^
        ((U64 - 1 - bc.getD ((i + 1) % 5) 0) &&& bc.getD ((i + 2) % 5) 0))) st) state

/-- One round of `keccakf`. -/
def keccakf.round (state : List Nat) (round : Nat) : List Nat :=
  let st := keccakf.chi (keccakf.rhopi (keccakf.theta state))
  st.set 0 (st.getD 0 0 ^^^ keccakf_rndc.getD round 0)

/-- Embeds `keccakf(state)`: 24 rounds on the 25 words of the state. -/
def keccakf (state : List Nat) : List Nat :=
  (List.range 24).foldl keccakf.round state

/-- The members of `Hash<SHA3_256>`. -/
structure Hash where
  mState : List Nat
  mStateBytes : List Nat
  mSaved : Nat
  mByteIndex : Nat
  mWordIndex : Nat
  deriving DecidableEq, Repr

/-- The constructor `Hash()`: every member starts at zero. -/
def Hash.ctor : Hash :=
  { mState := List.replicate Hash.kStateSize 0
    mStateBytes := List.replicate (Hash.kStateSize * 8) 0
    mSaved := 0
    mByteIndex := 0
    mWordIndex := 0 }

/-- The loop `while (k--) mSaved |= (uint64_t)(*(p++)) << ((mByteIndex++) * 8)` of `Update`,
over the `k` bytes handed over. -/
def Hash.save (h : Hash) (bytes : List Nat) : Hash :=
  bytes.foldl (fun h b =>
    { h with mSaved := h.mSaved ||| ((b <<< (h.mByteIndex * 8)) % U64)
             mByteIndex := (h.mByteIndex + 1) % 2 ^ 32 }) h

/-- The statements `mState[mWordIndex] ^= w; if (++mWordIndex == kCuttoff) { keccakf(mState);
mWordIndex = 0; }` of `Update`. -/
def Hash.absorb (h : Hash) (w : Nat) : Hash :=
  let st := h.mState.set h.mWordIndex (h.mState.getD h.mWordIndex 0 ^^^ w)
  if (h.mWordIndex + 1) % 2 ^ 32 = Hash.kCuttoff then
    { h with mState := keccakf st, mWordIndex := 0 }
  else { h with mState := st, mWordIndex := (h.mWordIndex + 1) % 2 ^ 32 }

/-- The word `t` that the loop over full words of `Update` builds from the bytes at `p`:
`p[0] | p[1] << 8 | p[1] << 16 | ... | p[1] << 56`. -/
def Hash.word (p : List Nat) : Nat :=
  p.getD 0 0 ||| ((p.getD 1 0 <<< (8 * 1)) % U64) |||
    ((p.getD 1 0 <<< (8 * 2)) % U64) ||| ((p.getD 1 0 <<< (8 * 3)) % U64) |||
    ((p.getD 1 0 <<< (8 * 4)) % U64) ||| ((p.getD 1 0 <<< (8 * 5)) % U64) |||
    ((p.getD 1 0 <<< (8 * 6)) % U64) ||| ((p.getD 1 0 <<< (8 * 7)) % U64)

/-- The loop `for (i = 0; i < words; ++i)` of `Update`; `p` advances by 8 bytes per turn. -/
def Hash.words : Nat → Hash → List Nat → Hash
  | 0, h, _ => h
  | k + 1, h, p => Hash.words k (h.absorb (Hash.word p)) (p.drop 8)

/-- Embeds `Hash<SHA3_256>::Update(bytes, nbytes)` for a buffer of `nbytes` bytes. -/
def Hash.Update (h : Hash) (bytes : List Nat) : Hash :=
  let old_tail := ((8 + 2 ^ 32 - h.mByteIndex) % 2 ^ 32) &&& 7
  if bytes.length < old_tail then h.save bytes
  else
    let h1 :=
      if old_tail ≠ 0 then
        let hs := h.save (bytes.take old_tail)
        { Hash.absorb hs hs.mSaved with mByteIndex := 0, mSaved := 0 }
      else h
    let p := if old_tail ≠ 0 then bytes.drop old_tail else bytes
    let words := p.length / 8
    let tail := p.length - words * 8
    (Hash.words words h1 p).save ((p.drop (words * 8)).take tail)

/-- Embeds `Hash<SHA3_256>::Finalize()`: the digest and the object after the call. -/
def Hash.Finalize (h : Hash) : List Nat × Hash :=
  let t := ((0x02 ||| (1 <<< 2)) <<< (h.mByteIndex * 8)) % U64
  let st := h.mState.set h.mWordIndex (h.mState.getD h.mWordIndex 0 ^^^ (h.mSaved ^^^ t))
  let st := st.set (Hash.kCuttoff - 1) (st.getD (Hash.kCuttoff - 1) 0 ^^^ 0x8000000000000000)
  let st := keccakf st
  let bytes := (List.range Hash.kStateSize).flatMap (fun i =>
    let t1 := st.getD i 0 % 2 ^ 32
    let t2 := ((st.getD i 0 >>> 16) >>> 16) % 2 ^ 32
    [t1 % 256, (t1 >>> 8) % 256, (t1 >>> 16) % 256, (t1 >>> 24) % 256,
     t2 % 256, (t2 >>> 8) % 256, (t2 >>> 16) % 256, (t2 >>> 24) % 256])
  (bytes.take (256 / 8), { h with mState := st, mStateBytes := bytes })

/-! Field elements (fp.h, p.h, arithmetic.h, tools.h) -/

/-- Embeds `subm(x, y, n)` for an unsigned type `T` with `W` values: `x + n` and the
difference wrap around. -/
def subm (W x y n : Nat) : Nat :=
  let x_ := if x < y then (x + n) % W else x
  (x_ + W - y) % W

/-- Embeds `neg(v, n)` for an unsigned type `T` with `W` values. -/
def neg (W v n : Nat) : Nat := if v ≠ 0 then (n + W - v) % W else v

/-- Embeds `Mp61::Add(x, y)`. -/
def Mp61.Add (x y : Nat) : Nat := addm U64 x y Mp61.kPrime

/-- Embeds `Mp61::Subtract(x, y)`. -/
def Mp61.Subtract (x y : Nat) : Nat := subm U64 x y Mp61.kPrime

/-- Embeds `Mp61::Negate(v)`. -/
def Mp61.Negate (v : Nat) : Nat := neg U64 v Mp61.kPrime

/-- Embeds `Mp61::Equal(x, y)`, which is `details::eq(x, y)`. -/
def Mp61.Equal (x y : Nat) : Bool := decide (x = y)

/-- Embeds `utils::from_string<std::uint64_t>(str)`; the string is the list of the values of
its `char`s, and `c - '0'` is an `int` that `v += ...` converts to the unsigned type. -/
def from_string (str : List Int) : Nat :=
  str.foldl (fun v c => ((v * 10) % U64 + toU (c - 48)) % U64) 0

/-- The constructor `FpElement(const ValueType &value)` of `FpElement<Mp61>`; an element is
represented by its member `mValue`. -/
def FpElement.ctor (value : Nat) : Nat := Mp61.Reduce value

/-- The constructor `FpElement(const std::string value_string)`. -/
def FpElement.ctor_string (value_string : List Int) : Nat :=
  Mp61.Reduce (from_string value_string)

/-- Embeds `FpElement::Negate()`; the result is the new `mValue`. -/
def FpElement.Negate (mValue : Nat) : Nat := Mp61.Negate mValue

/-- Embeds `FpElement::Invert()`; the result is the new `mValue`. -/
def FpElement.Invert (mValue : Nat) : Except Fault Nat := Mp61.Invert mValue

/-- Embeds `FpElement::operator+=`; the result is the new `mValue`. -/
def FpElement.add_assign (mValue other : Nat) : Nat := Mp61.Add mValue other

/-- Embeds `FpElement::operator-=`; the result is the new `mValue`. -/
def FpElement.sub_assign (mValue other : Nat) : Nat := Mp61.Subtract mValue other

/-- Embeds `FpElement::operator*=`; the result is the new `mValue`. -/
def FpElement.mul_assign (mValue other : Nat) : Nat := Mp61.Multiply mValue other

/-- Embeds `FpElement::Equal(other)`. -/
def FpElement.Equal (mValue other : Nat) : Bool := Mp61.Equal mValue other

/-! The network builder (network.h, builder.h, builder.cc, connector.h, connector.cc) -/

/-- The type `enum class Network::TransportType`. -/
inductive Network.TransportType where
  | eTcp : Network.TransportType
  | eFake : Network.TransportType
  deriving DecidableEq, Repr

/-- The constant `Network::kBasePort`. -/
def Network.kBasePort : Int := 9876

/-- Embeds `invalid_port(port)` (connector.h). -/
def invalid_port (port : Int) : Bool := decide (port < 1025) || decide (port > 65536)

/-- The connector that `create_tcp_channels` wraps into a channel, with the members that its
constructor is given. -/
inductive Connector where
  | LocalConnector : Connector
  | TCPClientConnector (mPort : Int) (mHostname : String) : Connector
  | TCPServerConnector (mPort : Int) : Connector
  deriving DecidableEq, Repr

/-- Embeds `read_hostname(system, hostname, addr)`; `system` is the answer of
`SystemInterface::inet_to_int` for a host name. -/
def read_hostname (system : String → Int) (hostname : String) : Except Fault Int :=
  let err := system hostname
  if err = 0 then .error Fault.runtime_error else .ok err

/-- The constructor `TCPClientConnector(system, port, hostname)`. -/
def TCPClientConnector.ctor (system : String → Int) (port : Int) (hostname : String) :
    Except Fault Connector :=
  if invalid_port port then .error Fault.runtime_error
  else
    match read_hostname system hostname with
    | .error e => .error e
    | .ok r =>
      if r = -1 then .error Fault.system_error
      else .ok (Connector.TCPClientConnector port hostname)

/-- The constructor `TCPServerConnector(system, port)`. -/
def TCPServerConnector.ctor (port : Int) : Except Fault Connector :=
  if invalid_port port then .error Fault.runtime_error
  else .ok (Connector.TCPServerConnector port)

/-- The conversion of a `std::size_t` to `int`. -/
def toInt32 (x : Nat) : Int :=
  if x % 2 ^ 32 < 2 ^ 31 then ((x % 2 ^ 32 : Nat) : Int) else ((x % 2 ^ 32 : Nat) : Int) - 2 ^ 32

/-- The lambda `port_picker` of `Build`, which captures `base_port`, `id` and `n`: the sum is
computed on `std::size_t` and returned as an `int`. -/
def port_picker (base_port id : Int) (n : Nat) (is_server : Bool) (other_id : Int) : Int :=
  let server_port := (toU id * n + toU other_id) % U64
  let client_port := (toU other_id * n + toU id) % U64
  toInt32 ((toU base_port + (if is_server then server_port else client_port)) % U64)

/-- The body of the loop of `create_tcp_channels`: the connector made for peer `i`. -/
def create_tcp_channels.connector (system : String → Int) (local_id : Int)
    (get_port : Bool → Int → Int) (ips : List String) (i : Nat) : Except Fault Connector :=
  if toInt32 i = local_id then .ok Connector.LocalConnector
  else if toInt32 i < local_id then
    let port := get_port false (toInt32 i)
    match getE ips i with
    | .error e => .error e
    | .ok ip => TCPClientConnector.ctor system port ip
  else
    let port := get_port true (toInt32 i)
    TCPServerConnector.ctor port

/-- Embeds `create_tcp_channels(local_id, size, get_port, ips)`: one channel per peer, in the
order of the peers. -/
def create_tcp_channels (system : String → Int) (local_id : Int) (size : Nat)
    (get_port : Bool → Int → Int) (ips : List String) : Except Fault (List Connector) :=
  allOk ((List.range size).map (create_tcp_channels.connector system local_id get_port ips))

/-- The members of `Network::Builder`, the logger apart. -/
structure Network.Builder where
  mTransportType : Option Network.TransportType
  mLocalPeerId : Option Int
  mSize : Option Nat
  mBasePort : Option Int
  mAllLocal : Bool
  mIps : Option (List String)
  deriving DecidableEq, Repr

/-- The members of `Network`, the logger apart; a channel is given by its connector. -/
structure Network where
  mId : Int
  mSize : Nat
  mTransportType : Network.TransportType
  mChannels : List Connector
  deriving DecidableEq, Repr

/-- The constructor `Builder()`. -/
def Network.Builder.ctor : Network.Builder :=
  { mTransportType := none
    mLocalPeerId := none
    mSize := none
    mBasePort := none
    mAllLocal := false
    mIps := none }

/-- Embeds `Builder::TransportType(ttype)`. -/
def Network.Builder.TransportType (b : Network.Builder) (ttype : Network.TransportType) :
    Network.Builder :=
  { b with mTransportType := some ttype }

/-- Embeds `Builder::LocalPeerId(id)`. -/
def Network.Builder.LocalPeerId (b : Network.Builder) (id : Int) : Except Fault Network.Builder :=
  if id < 0 then .error Fault.logic_error
  else
    match b.mSize with
    | some n =>
      if toU id ≥ n then .error Fault.logic_error else .ok { b with mLocalPeerId := some id }
    | none => .ok { b with mLocalPeerId := some id }

/-- Embeds `Builder::Size(n)`. -/
def Network.Builder.Size (b : Network.Builder) (n : Nat) : Except Fault Network.Builder :=
  match b.mLocalPeerId with
  | some id =>
    if toU id ≥ n then .error Fault.logic_error else .ok { b with mSize := some n }
  | none => .ok { b with mSize := some n }

/-- Embeds `Builder::BasePort(port)`. -/
def Network.Builder.BasePort (b : Network.Builder) (port : Int) : Except Fault Network.Builder :=
  if invalid_port port then .error Fault.logic_error else .ok { b with mBasePort := some port }

/-- Embeds `Builder::AllPartiesLocal()`. -/
def Network.Builder.AllPartiesLocal (b : Network.Builder) : Network.Builder :=
  { b with mAllLocal := true }

/-- Embeds `Builder::Build()`. -/
def Network.Builder.Build (system : String → Int) (b : Network.Builder) : Except Fault Network :=
  match b.mLocalPeerId with
  | none => .error Fault.logic_error
  | some id =>
    match b.mSize with
    | none => .error Fault.logic_error
    | some n =>
      match b.mTransportType with
      | none => .error Fault.logic_error
      | some ttype =>
        if ttype = Network.TransportType.eTcp then
          match (if b.mAllLocal then Except.ok (List.replicate n "0.0.0.0")
              else
                match b.mIps with
                | some ips => Except.ok ips
                | none => Except.error Fault.bad_optional_access) with
          | .error e => .error e
          | .ok ips =>
            let base_port := b.mBasePort.getD Network.kBasePort
            match create_tcp_channels system id n (port_picker base_port id n) ips with
            | .error e => .error e
            | .ok channels =>
              .ok { mId := id, mSize := n, mTransportType := ttype, mChannels := channels }
        else .error Fault.logic_error

/-- The builder calls of `TcpNetwork::CreateWithLocalParties(id, n, base_port)`
(tcp_network.h), up to `Build()`. -/
def CreateWithLocalParties (system : String → Int) (id : Int) (n : Nat) (base_port : Int) :
    Except Fault Network :=
  match Network.Builder.ctor.LocalPeerId id with
  | .error e => .error e
  | .ok b1 =>
    match (b1.TransportType Network.TransportType.eTcp).Size n with
    | .error e => .error e
    | .ok b2 =>
      match b2.BasePort base_port with
      | .error e => .error e
      | .ok b3 => b3.AllPartiesLocal.Build system

/-! Error correction (rep.h, spec section 4.2) -/

section correction

variable {F : Type} [CommRing F] [DecidableEq F]

/-- Modelled from the spec: the majority vote of `Replicator::ErrorCorrection`, which rep.h
declares and no source file defines.  "Return the most frequent value; tie implies a bug":
the values that no other value outnumbers are collected, and exactly one must remain. -/
def mostFrequent (copies : List F) : Except Fault F :=
  match copies.dedup.filter (fun v =>
      copies.all (fun w => decide (copies.count w ≤ copies.count v))) with
  | [v] => .ok v
  | _ => .error Fault.logic_error

/-- Modelled from the spec: the turn of `Replicator::ErrorCorrection` for slot `i`, the
majority of the copies of the slot is added to `secret`. -/
def ErrorCorrection.body (redundant : List (List F)) (secret : F) (i : Nat) : Except Fault F :=
  match getE redundant i with
  | .error e => .error e
  | .ok row =>
    match mostFrequent row with
    | .error e => .error e
    | .ok v => .ok (secret + v)

/-- Modelled from the spec: `Replicator::ErrorCorrection(shares)`, declared in rep.h without a
body.  "Same gather, then majority-vote each slot": the gather is
`ComputeRedundantAddShares`, as in `ErrorDetection`. -/
def Replicator.ErrorCorrection (R : Replicator) (shares : List (List F)) : Except Fault F :=
  match R.ComputeRedundantAddShares shares with
  | .error e => .error e
  | .ok redundant =>
    (List.range R.mAdditiveShareSize).foldlM (ErrorCorrection.body redundant) 0

end correction

/-- The builder of `CreateWithLocalParties(id, 4, 6677)` before `Build()`. -/
def sampleBuilder (id : Nat) : Network.Builder :=
  { mTransportType := some Network.TransportType.eTcp
    mLocalPeerId := some (id : Int)
    mSize := some 4
    mBasePort := some 6677
    mAllLocal := true
    mIps := none }

/-- The network that party 1 of four builds with base port 6677. -/
def sampleNetwork1 : Network :=
  { mId := 1
    mSize := 4
    mTransportType := Network.TransportType.eTcp
    mChannels := [Connector.TCPClientConnector 6678 "0.0.0.0", Connector.LocalConnector,
      Connector.TCPServerConnector 6683, Connector.TCPServerConnector 6684] }

/-- The network that party 2 of four builds with base port 6677. -/
def sampleNetwork2 : Network :=
  { mId := 2
    mSize := 4
    mTransportType := Network.TransportType.eTcp
    mChannels := [Connector.TCPClientConnector 6679 "0.0.0.0",
      Connector.TCPClientConnector 6683 "0.0.0.0", Connector.LocalConnector,
      Connector.TCPServerConnector 6688] }

/-- The number of positions `j < S` at which the share of party `p` holds a copy of slot `i`
with the value `x`; `lkf p` is the index set of `p`. -/
def copiesOf {F : Type} [CommRing F] [DecidableEq F] (lkf : Nat → List Nat)
    (sh : List (List F)) (S i : Nat) (x : F) (p : Nat) : Nat :=
  (List.range S).countP
    (fun j => decide ((lkf p).getD j 0 = i ∧ (sh.getD p []).getD j 0 = x))

/-- The correlator of party `id` all of whose generators are in the state `g`; with the default
state for `g` this is the correlator that the constructor builds. -/
def uniformCorrelator {G : Type} (id : Nat) (replicator : Replicator) (g : G) : Correlator G :=
  { mReplicator := replicator
    mId := id
    mThreshold := replicator.mThreshold
    mSize := replicator.mSize
    mOwnPRGs := List.replicate replicator.AdditiveShareSize g
    mRandPRGs := List.replicate (2 * replicator.mThreshold + 1)
      (List.replicate replicator.ShareSize g)
    mZeroPRGs := [] }

/-- The state of the second loop of `GenRandomShare` when every generator started in the state
`g`, whose first field element is `v`: the invariant `GenInv`, the generators that were not
used yet are still in the state `g`, and every element drawn so far is `v`. -/
structure GenUniform {F G : Type} [CommRing F] [PRG G] (S T k u : Nat) (g : G) (v : F)
    (st : GenState F G) : Prop where
  inv : GenInv S T k u st
  fresh : ∀ u' j, u' < T → j < S → (k < j ∨ (j = k ∧ u ≤ u')) →
    (st.mRandPRGs.getD u' []).getD j PRG.init = g
  drawn : ∀ u' j, u' < T → j < (if u' < u then k + 1 else k) →
    (st.rep_add_shares.getD u' []).getD j 0 = v

/-- The replicator for `n = 4`, `t = 2`, as the constructor builds it. -/
def sampleReplicator42 : Replicator :=
  match Replicator.ctor 4 2 with
  | .ok R => R
  | .error _ => ⟨0, 0, 0, 0, [], [], [], 0⟩

/-- The random share that party `i` gets from a freshly constructed correlator for `n = 4`,
`t = 2`. -/
def sampleGen42 (i : Nat) : RandomShare Fp61 :=
  match (Correlator.ctor i sampleReplicator42 : Correlator CounterPRG).GenRandomShare with
  | .ok v => v.1
  | .error _ => ⟨[], 0, []⟩

/-! Theorems -/

theorem getD_append_mid (pre suf : List Nat) (x : Nat) :
    (pre ++ x :: suf).getD pre.length 0 = x := by
  induction pre with
  | nil => simp
  | cons p ps ih => simpa using ih

theorem set_append_mid (pre suf : List Nat) (x y : Nat) :
    (pre ++ x :: suf).set pre.length y = pre ++ y :: suf := by
  simp [List.set_append_right]

theorem fill_eq (r : Nat) : ∀ (pre suf : List Nat) (x : Nat), suf.length = r →
    NextCombination.fill r (pre.length + 1) (pre ++ x :: suf) = pre ++ x :: List.range' (x + 1) r := by
  induction r with
  | zero =>
    intro pre suf x h
    have : suf = [] := List.length_eq_zero.mp h
    simp [NextCombination.fill, this]
  | succ r ih =>
    intro pre suf x h
    obtain ⟨y, suf', rfl⟩ : ∃ y s, suf = y :: s := by
      cases suf with
      | nil => simp at h
      | cons y s => exact ⟨y, s, rfl⟩
    have h1 : (pre ++ x :: y :: suf').getD (pre.length + 1 - 1) 0 = x := by
      rw [Nat.add_sub_cancel]; exact getD_append_mid pre (y :: suf') x
    have h2 : (pre ++ x :: y :: suf').set (pre.length + 1) (x + 1) = (pre ++ [x]) ++ (x + 1) :: suf' := by
      have := set_append_mid (pre ++ [x]) suf' y (x + 1)
      simp only [List.length_append, List.length_singleton, List.append_assoc, List.singleton_append] at this
      rw [this]; simp
    rw [NextCombination.fill, h1, h2]
    have := ih (pre ++ [x]) suf' (x + 1) (by simpa using h)
    simp only [List.length_append, List.length_singleton] at this
    rw [this]
    simp [List.range'_succ]

theorem scan_eq_nextSpec (m : Nat) : ∀ (suf pre : List Nat),
    NextCombination.scan (pre ++ suf) m (pre.length + suf.length) (pre.length + suf.length) =
      match nextSpec m suf with
      | some s' => some (pre ++ s')
      | none => NextCombination.scan (pre ++ suf) m (pre.length + suf.length) pre.length := by
  intro suf
  induction suf with
  | nil => intro pre; simp [nextSpec]
  | cons a rest ih =>
    intro pre
    have h := ih (pre ++ [a])
    simp only [List.length_append, List.length_singleton, List.append_assoc, List.singleton_append] at h
    have e : pre.length + (a :: rest).length = pre.length + 1 + rest.length := by simp; omega
    rw [e, h]
    rw [nextSpec]
    cases hn : nextSpec m rest with
    | some r' => simp
    | none =>
      simp only
      rw [NextCombination.scan, getD_append_mid, set_append_mid]
      have hc : (a + (pre.length + 1 + rest.length) < m + pre.length) ↔ (a + (rest.length + 1) < m) := by
        omega
      by_cases hlt : a + (rest.length + 1) < m
      · rw [if_pos (hc.mpr hlt), if_pos hlt]
        have : pre.length + 1 + rest.length - (pre.length + 1) = rest.length := by omega
        rw [this, fill_eq rest.length pre rest (a + 1) rfl]
        simp [List.range'_succ]
      · rw [if_neg (fun h => hlt (hc.mp h)), if_neg hlt]

theorem NextCombination_eq_nextSpec (m : Nat) (c : List Nat) :
    NextCombination c m c.length = nextSpec m c := by
  have := scan_eq_nextSpec m c []
  simp only [List.nil_append, List.length_nil, Nat.zero_add] at this
  rw [NextCombination, this]
  cases nextSpec m c <;> simp [NextCombination.scan]

theorem nextSpec_length (m : Nat) : ∀ (c c' : List Nat), nextSpec m c = some c' →
    c'.length = c.length := by
  intro c
  induction c with
  | nil => intro c' h; simp [nextSpec] at h
  | cons a rest ih =>
    intro c' h
    rw [nextSpec] at h
    cases hn : nextSpec m rest with
    | some r' =>
      rw [hn] at h
      simp only [Option.some.injEq] at h
      subst h
      simp [ih r' hn]
    | none =>
      rw [hn] at h
      simp only at h
      split_ifs at h
      simp only [Option.some.injEq] at h
      subst h
      simp

theorem combs_succ (m k lo : Nat) (h : lo + (k + 1) ≤ m) :
    combs m (k + 1) lo =
      (combs m k (lo + 1)).map (fun r => lo :: r) ++ combs m (k + 1) (lo + 1) := by
  have e : m - k - lo = (m - k - (lo + 1)) + 1 := by omega
  rw [combs, e, List.range'_succ]
  simp only [List.flatMap_cons]
  rw [combs]

theorem combs_empty (m k lo : Nat) (h : m < lo + (k + 1)) : combs m (k + 1) lo = [] := by
  have e : m - k - lo = 0 := by omega
  rw [combs, e]
  simp

theorem Visits_length (m : Nat) (c : List Nat) (R : List (List Nat)) (h : Visits m c R) :
    ∀ d ∈ R, d.length = c.length := by
  induction h with
  | last c _ => intro d hd; simp at hd; rw [hd]
  | step c c' R hn _ ih =>
    intro d hd
    rcases List.mem_cons.mp hd with rfl | hd
    · rfl
    · rw [ih d hd, nextSpec_length m c c' hn]

theorem Visits_cons_stop (m a : Nat) (c : List Nat) (R : List (List Nat)) (h : Visits m c R)
    (hs : ¬ (a + (c.length + 1) < m)) : Visits m (a :: c) (R.map (fun r => a :: r)) := by
  induction h with
  | last c hn =>
    apply Visits.last
    rw [nextSpec, hn]
    simp [hs]
  | step c c' R hn _ ih =>
    simp only [List.map_cons]
    apply Visits.step (a :: c) (a :: c')
    · rw [nextSpec, hn]
    · apply ih
      rw [nextSpec_length m c c' hn]
      exact hs

theorem Visits_cons_go (m a : Nat) (c : List Nat) (R R' : List (List Nat)) (h : Visits m c R)
    (hs : a + (c.length + 1) < m)
    (h' : Visits m (List.range' (a + 1) (c.length + 1)) R') :
    Visits m (a :: c) (R.map (fun r => a :: r) ++ R') := by
  induction h with
  | last c hn =>
    simp only [List.map_cons, List.map_nil, List.singleton_append]
    apply Visits.step (a :: c) _ R' _ h'
    rw [nextSpec, hn]
    simp [hs]
  | step c c' R hn _ ih =>
    simp only [List.map_cons, List.cons_append]
    apply Visits.step (a :: c) (a :: c')
    · rw [nextSpec, hn]
    · have e := nextSpec_length m c c' hn
      apply ih
      · rw [e]; exact hs
      · rw [e]; exact h'

theorem Visits_combs (m : Nat) : ∀ (k lo : Nat), lo + k ≤ m →
    Visits m (List.range' lo k) (combs m k lo) := by
  intro k
  induction k with
  | zero =>
    intro lo _
    simp only [List.range'_zero, combs]
    exact Visits.last [] (by simp [nextSpec])
  | succ k ih =>
    intro lo
    generalize hd : m - (lo + (k + 1)) = d
    induction d generalizing lo with
    | zero =>
      intro h
      rw [combs_succ m k lo h, combs_empty m k (lo + 1) (by omega), List.append_nil,
        List.range'_succ]
      have := Visits_cons_stop m lo _ _ (ih (lo + 1) (by omega)) (by simp; omega)
      exact this
    | succ d ihd =>
      intro h
      rw [combs_succ m k lo h, List.range'_succ]
      have h1 := ih (lo + 1) (by omega)
      have h2 := ihd (lo + 1) (by omega) (by omega)
      apply Visits_cons_go m lo _ _ _ h1
      · simp; omega
      · simpa using h2

theorem sorted_room : ∀ (c : List Nat) (lo m : Nat), c.Sorted (· < ·) →
    (∀ x ∈ c, lo ≤ x ∧ x < m) → c ≠ [] → lo + c.length ≤ m := by
  intro c
  induction c with
  | nil => intro lo m _ _ h; exact absurd rfl h
  | cons a r ih =>
    intro lo m hs hb _
    have ha := hb a (List.mem_cons_self a r)
    by_cases hr : r = []
    · subst hr; simp; omega
    · have hs' := List.sorted_cons.mp hs
      have := ih (a + 1) m hs'.2 (fun x hx => ⟨hs'.1 x hx, (hb x (List.mem_cons_of_mem a hx)).2⟩) hr
      simp only [List.length_cons]
      omega

theorem mem_combs (m : Nat) : ∀ (k lo : Nat) (c : List Nat),
    c ∈ combs m k lo ↔ c.length = k ∧ c.Sorted (· < ·) ∧ ∀ x ∈ c, lo ≤ x ∧ x < m := by
  intro k
  induction k with
  | zero =>
    intro lo c
    simp only [combs, List.mem_singleton]
    constructor
    · rintro rfl; simp
    · rintro ⟨h, _⟩; exact List.length_eq_zero.mp h
  | succ k ih =>
    intro lo c
    simp only [combs, List.mem_flatMap, List.mem_range'_1, List.mem_map]
    constructor
    · rintro ⟨a, ⟨ha1, ha2⟩, r, hr, rfl⟩
      obtain ⟨h1, h2, h3⟩ := (ih (a + 1) r).mp hr
      refine ⟨by simp [h1], ?_, ?_⟩
      · exact List.sorted_cons.mpr ⟨fun x hx => (h3 x hx).1, h2⟩
      · intro x hx
        rcases List.mem_cons.mp hx with rfl | hx
        · omega
        · have := h3 x hx; omega
    · rintro ⟨h1, h2, h3⟩
      cases c with
      | nil => simp at h1
      | cons a r =>
        have hs := List.sorted_cons.mp h2
        have ha := h3 a (List.mem_cons_self a r)
        have hr : r ∈ combs m k (a + 1) :=
          (ih (a + 1) r).mpr ⟨by simpa using h1, hs.2,
            fun x hx => ⟨hs.1 x hx, (h3 x (List.mem_cons_of_mem a hx)).2⟩⟩
        have hroom := sorted_room (a :: r) lo m h2 h3 (by simp)
        simp only [List.length_cons] at hroom h1
        have hroom2 := sorted_room (a :: r) a m h2
          (fun x hx => by
            rcases List.mem_cons.mp hx with rfl | hx
            · exact ⟨le_refl _, ha.2⟩
            · exact ⟨le_of_lt (hs.1 x hx), (h3 x (List.mem_cons_of_mem a hx)).2⟩) (by simp)
        simp only [List.length_cons] at hroom2
        exact ⟨a, ⟨ha.1, by omega⟩, r, hr, rfl⟩

theorem nodup_combs (m : Nat) : ∀ (k lo : Nat), (combs m k lo).Nodup := by
  intro k
  induction k with
  | zero => intro lo; simp [combs]
  | succ k ih =>
    intro lo
    generalize hd : m + 1 - (lo + (k + 1)) = d
    induction d generalizing lo with
    | zero => rw [combs_empty m k lo (by omega)]; exact List.nodup_nil
    | succ d ihd =>
      rw [combs_succ m k lo (by omega)]
      refine List.Nodup.append ?_ (ihd (lo + 1) (by omega)) ?_
      · exact (ih (lo + 1)).map (fun x y h => by simpa using h)
      · intro c h1 h2
        obtain ⟨r, _, rfl⟩ := List.mem_map.mp h1
        have := ((mem_combs m (k + 1) (lo + 1) (lo :: r)).mp h2).2.2 lo (List.mem_cons_self lo r)
        omega

theorem length_combs (m : Nat) : ∀ (k lo : Nat), (combs m k lo).length = Nat.choose (m - lo) k := by
  intro k
  induction k with
  | zero => intro lo; simp [combs]
  | succ k ih =>
    intro lo
    generalize hd : m + 1 - (lo + (k + 1)) = d
    induction d generalizing lo with
    | zero =>
      rw [combs_empty m k lo (by omega), Nat.choose_eq_zero_of_lt (by omega)]
      rfl
    | succ d ihd =>
      rw [combs_succ m k lo (by omega), List.length_append, List.length_map, ih (lo + 1),
        ihd (lo + 1) (by omega)]
      have e : m - lo = (m - (lo + 1)) + 1 := by omega
      rw [e, Nat.choose_succ_succ]

theorem countP_combs_none (m p : Nat) (k lo : Nat) (h : p < lo) :
    (combs m k lo).countP (fun c => decide (p ∈ c)) = 0 := by
  rw [List.countP_eq_zero]
  intro c hc
  have := ((mem_combs m k lo c).mp hc).2.2
  simp only [decide_eq_true_eq]
  intro hp
  have := (this p hp).1
  omega

theorem countP_combs (m p : Nat) (hp : p < m) : ∀ (k lo : Nat), lo ≤ p →
    (combs m (k + 1) lo).countP (fun c => decide (p ∈ c)) = Nat.choose (m - lo - 1) k := by
  intro k
  induction k with
  | zero =>
    intro lo
    generalize hd : p - lo = d
    induction d generalizing lo with
    | zero =>
      intro h
      have e : lo = p := by omega
      subst e
      rw [combs_succ m 0 lo (by omega), List.countP_append, countP_combs_none m lo 1 (lo + 1) (by omega)]
      simp [combs]
    | succ d ihd =>
      intro h
      rw [combs_succ m 0 lo (by omega), List.countP_append, ihd (lo + 1) (by omega) (by omega)]
      have : ¬ (p = lo) := by omega
      simp [combs, this]
  | succ k ih =>
    intro lo
    generalize hd : p - lo = d
    induction d generalizing lo with
    | zero =>
      intro h
      have e : lo = p := by omega
      subst e
      by_cases hroom : lo + (k + 1 + 1) ≤ m
      · rw [combs_succ m (k + 1) lo hroom, List.countP_append,
          countP_combs_none m lo (k + 1 + 1) (lo + 1) (by omega), List.countP_map]
        have : (fun c => decide (lo ∈ c)) ∘ (fun r => lo :: r) = fun _ => true := by
          funext r; simp
        rw [this]
        simp only [List.countP_true, Nat.add_zero]
        rw [length_combs]
        congr 1
      · rw [combs_empty m (k + 1) lo (by omega), Nat.choose_eq_zero_of_lt (by omega)]
        rfl
    | succ d ihd =>
      intro h
      by_cases hroom : lo + (k + 1 + 1) ≤ m
      · rw [combs_succ m (k + 1) lo hroom, List.countP_append, ihd (lo + 1) (by omega) (by omega),
          List.countP_map]
        have : (fun c => decide (p ∈ c)) ∘ (fun r => lo :: r) = fun c => decide (p ∈ c) := by
          funext r
          have : ¬ (p = lo) := by omega
          simp [this]
        rw [this, ih (lo + 1) (by omega)]
        have e : m - lo - 1 = (m - (lo + 1) - 1) + 1 := by omega
        rw [e, Nat.choose_succ_succ]
      · rw [combs_empty m (k + 1) lo (by omega), Nat.choose_eq_zero_of_lt (by omega)]
        rfl

/-! Binom -/

theorem Binom_loop_eq (m : Nat) (hm : m < SIZE) : ∀ i, i ≤ m → m.descFactorial i < SIZE →
    Binom.loop m i = (m.descFactorial i, i.factorial) := by
  intro i
  induction i with
  | zero => intro _ _; simp [Binom.loop]
  | succ i ih =>
    intro hi hb
    have hd : m.descFactorial (i + 1) = (m - i) * m.descFactorial i := Nat.descFactorial_succ m i
    have hpos : 0 < m.descFactorial i := by
      rcases Nat.eq_zero_or_pos (m.descFactorial i) with h | h
      · have := Nat.descFactorial_eq_zero_iff_lt.mp h; omega
      · exact h
    have hpos1 : 0 < m.descFactorial (i + 1) := by
      rcases Nat.eq_zero_or_pos (m.descFactorial (i + 1)) with h | h
      · have := Nat.descFactorial_eq_zero_iff_lt.mp h; omega
      · exact h
    have hle : m.descFactorial i ≤ m.descFactorial (i + 1) := by
      rw [hd]; exact Nat.le_mul_of_pos_left _ (by omega)
    have hf : (i + 1).factorial ≤ m.descFactorial (i + 1) :=
      Nat.le_of_dvd hpos1 (Nat.factorial_dvd_descFactorial m (i + 1))
    have e1 : (m + 1 + SIZE - (i + 1)) % SIZE = m - i := by
      have : m + 1 + SIZE - (i + 1) = (m - i) + SIZE := by omega
      rw [this, Nat.add_mod_right, Nat.mod_eq_of_lt (by omega)]
    rw [Binom.loop, ih (by omega) (by omega)]
    simp only [e1]
    rw [Nat.mul_comm (m.descFactorial i) (m - i), ← hd, Nat.mod_eq_of_lt hb,
      Nat.mul_comm i.factorial (i + 1), ← Nat.factorial_succ, Nat.mod_eq_of_lt (by omega)]

theorem Binom_eq_choose (m k : Nat) (hm : m < SIZE) (hk : k ≤ m)
    (hb : m.descFactorial (min k (m - k)) < SIZE) : Binom m k = Nat.choose m k := by
  have e1 : (m + SIZE - k) % SIZE = m - k := by
    have : m + SIZE - k = (m - k) + SIZE := by omega
    rw [this, Nat.add_mod_right, Nat.mod_eq_of_lt (by omega)]
  unfold Binom
  simp only [e1]
  by_cases h : k > m - k
  · rw [if_pos h]
    have hmin : min k (m - k) = m - k := Nat.min_eq_right (by omega)
    rw [hmin] at hb
    rw [Binom_loop_eq m hm (m - k) (by omega) hb]
    simp only
    rw [← Nat.choose_eq_descFactorial_div_factorial, Nat.choose_symm hk]
  · rw [if_neg h]
    have hmin : min k (m - k) = k := Nat.min_eq_left (by omega)
    rw [hmin] at hb
    rw [Binom_loop_eq m hm k hk hb]
    simp only
    rw [← Nat.choose_eq_descFactorial_div_factorial]

theorem descFactorial_small : ∀ m, m ≤ 29 → ∀ e, e ≤ 14 → m.descFactorial e < SIZE := by
  decide

theorem Binom_small (m k : Nat) (hm : m ≤ 29) (hk : k ≤ m) : Binom m k = Nat.choose m k := by
  apply Binom_eq_choose m k (by unfold SIZE; omega) hk
  apply descFactorial_small m hm
  omega

theorem pushAll_length : ∀ (c : List Nat) (idx : Nat) (lk lk' : List (List Nat)),
    pushAll c idx lk = .ok lk' → lk'.length = lk.length := by
  intro c
  induction c with
  | nil => intro idx lk lk' h; simp [pushAll] at h; rw [h]
  | cons p ps ih =>
    intro idx lk lk' h
    rw [pushAll, pushAt] at h
    split_ifs at h with hp
    · simp only at h
      rw [ih idx _ lk' h]
      simp

theorem pushAll_getD : ∀ (c : List Nat) (idx : Nat) (lk : List (List Nat)),
    (∀ x ∈ c, x < lk.length) →
    ∃ lk', pushAll c idx lk = .ok lk' ∧ lk'.length = lk.length ∧
      ∀ q, lk'.getD q [] = lk.getD q [] ++ List.replicate (c.count q) idx := by
  intro c
  induction c with
  | nil => intro idx lk _; exact ⟨lk, rfl, rfl, by simp⟩
  | cons p ps ih =>
    intro idx lk h
    have hp : p < lk.length := h p (List.mem_cons_self p ps)
    obtain ⟨lk', h1, h2, h3⟩ := ih idx (lk.set p (lk.getD p [] ++ [idx]))
      (fun x hx => by simpa using h x (List.mem_cons_of_mem p hx))
    refine ⟨lk', ?_, by simpa using h2, ?_⟩
    · rw [pushAll, pushAt, if_pos hp]
      exact h1
    · intro q
      rw [h3 q]
      by_cases hq : q = p
      · subst hq
        simp [List.getD_eq_getElem?_getD, List.getElem?_set, hp, List.replicate_succ]
      · have : ¬ (p = q) := fun h => hq h.symm
        simp [List.getD_eq_getElem?_getD, List.getElem?_set, this, List.count_cons, hq]

theorem slotsOf_append (P : List (List Nat)) (c : List Nat) (p : Nat) :
    slotsOf (P ++ [c]) p = slotsOf P p ++ (if p ∈ c then [P.length] else []) := by
  unfold slotsOf
  simp only [List.length_append, List.length_singleton, List.range_succ, List.filter_append]
  congr 1
  · apply List.filter_congr
    intro i hi
    have hi' : i < P.length := List.mem_range.mp hi
    simp [List.getD_eq_getElem?_getD, List.getElem?_append_left hi']
  · by_cases hp : p ∈ c <;> simp [List.getD_eq_getElem?_getD, hp]

theorem getD_map_range (n : Nat) (f : Nat → List Nat) (q : Nat) :
    ((List.range n).map f).getD q [] = if q < n then f q else [] := by
  by_cases h : q < n
  · simp [List.getD_eq_getElem?_getD, h]
  · have : n ≤ q := by omega
    have e : (List.range n)[q]? = none := List.getElem?_eq_none (by simpa using this)
    simp [List.getD_eq_getElem?_getD, h, e]

theorem list_eq_of_getD (l1 l2 : List (List Nat)) (hl : l1.length = l2.length)
    (h : ∀ q, l1.getD q [] = l2.getD q []) : l1 = l2 := by
  apply List.ext_getElem hl
  intro i h1 h2
  have := h i
  simpa [List.getD_eq_getElem?_getD, List.getElem?_eq_getElem h1, List.getElem?_eq_getElem h2]
    using this

theorem lookup_zip_range_none : ∀ (P : List (List Nat)) (s : Nat) (c : List Nat), c ∉ P →
    (P.zip (List.range' s P.length)).lookup c = none := by
  intro P
  induction P with
  | nil => intro s c _; simp
  | cons d P ih =>
    intro s c hc
    have h1 : ¬ (c = d) := fun h => hc (h ▸ List.mem_cons_self _ _)
    have h2 : c ∉ P := fun h => hc (List.mem_cons_of_mem _ h)
    simp only [List.length_cons, List.range'_succ, List.zip_cons_cons, List.lookup_cons]
    have : (c == d) = false := by simpa using h1
    rw [this]
    exact ih (s + 1) c h2

theorem body_tablesOf (A n : Nat) (P : List (List Nat)) (c : List Nat) (hA : P.length < A)
    (hnd : c.Nodup) (hb : ∀ x ∈ c, x < n) (hc : c ∉ P) :
    Init.body c P.length (tablesOf A n P) = .ok (tablesOf A n (P ++ [c])) := by
  unfold Init.body
  have hlen : P.length < (tablesOf A n P).mCombinations.length := by
    simp [tablesOf]; omega
  rw [if_pos hlen]
  obtain ⟨lk', h1, h2, h3⟩ := pushAll_getD c P.length (tablesOf A n P).mLookup
    (by simpa [tablesOf] using hb)
  rw [h1]
  simp only
  congr 1
  have e1 : (tablesOf A n P).mCombinations.set P.length c = (tablesOf A n (P ++ [c])).mCombinations := by
    simp only [tablesOf, List.length_append, List.length_singleton]
    have : A - P.length = (A - (P.length + 1)) + 1 := by omega
    rw [this, List.replicate_succ, List.set_append_right _ _ (le_refl _)]
    simp
  have e2 : mapInsert (tablesOf A n P).mRevComb c P.length = (tablesOf A n (P ++ [c])).mRevComb := by
    unfold mapInsert
    simp only [tablesOf]
    have := lookup_zip_range_none P 0 c hc
    rw [← List.range_eq_range'] at this
    rw [this]
    simp only [List.length_append, List.length_singleton, List.range_succ]
    rw [List.zip_append (by simp)]
    simp
  have e3 : lk' = (tablesOf A n (P ++ [c])).mLookup := by
    apply list_eq_of_getD
    · rw [h2]; simp [tablesOf]
    · intro q
      rw [h3 q]
      simp only [tablesOf, getD_map_range]
      by_cases hq : q < n
      · rw [if_pos hq, if_pos hq, slotsOf_append]
        congr 1
        by_cases hqc : q ∈ c
        · rw [if_pos hqc, List.count_eq_one_of_mem hnd hqc]; rfl
        · rw [if_neg hqc, List.count_eq_zero_of_not_mem hqc]; rfl
      · rw [if_neg hq, if_neg hq]
        have : q ∉ c := fun h => hq (hb q h)
        rw [List.count_eq_zero_of_not_mem this]; rfl
  rw [e1, e2, e3]

theorem loop_tablesOf (m k A n : Nat) (c : List Nat) (R : List (List Nat)) (h : Visits m c R) :
    c.length = k → ∀ (P : List (List Nat)) (fuel : Nat), (P ++ R).Nodup →
    (∀ d ∈ R, d.Nodup ∧ ∀ x ∈ d, x < n) → P.length + R.length ≤ A → R.length ≤ fuel →
    P.length + R.length ≤ INT_MAX →
    Init.loop m k fuel c P.length (tablesOf A n P) = .ok (tablesOf A n (P ++ R)) := by
  induction h with
  | last c hn =>
    intro hk P fuel hnd hv hA hf hint
    cases fuel with
    | zero => simp at hf
    | succ f =>
      have hc := hv c (List.mem_singleton_self c)
      have hcP : c ∉ P := by
        intro hin
        have := List.nodup_append.mp hnd
        exact this.2.2 hin (List.mem_singleton_self c)
      have hN : NextCombination c m k = nextSpec m c := by
        rw [← hk]; exact NextCombination_eq_nextSpec m c
      rw [Init.loop, body_tablesOf A n P c (by simp at hA; omega) hc.1 hc.2 hcP]
      simp only
      rw [if_neg (by simp at hint; omega), hN, hn]
  | step c c' R hn _ ih =>
    intro hk P fuel hnd hv hA hf hint
    cases fuel with
    | zero => simp at hf
    | succ f =>
      have hc := hv c (List.mem_cons_self c R)
      have hcP : c ∉ P := by
        intro hin
        have := List.nodup_append.mp hnd
        exact this.2.2 hin (List.mem_cons_self c R)
      have hN : NextCombination c m k = nextSpec m c := by
        rw [← hk]; exact NextCombination_eq_nextSpec m c
      rw [Init.loop, body_tablesOf A n P c (by simp at hA; omega) hc.1 hc.2 hcP]
      simp only
      rw [if_neg (by simp at hint; omega), hN, hn]
      simp only
      have hk' : c'.length = k := (nextSpec_length m c c' hn).trans hk
      have := ih hk' (P ++ [c]) f (by simpa using hnd)
        (fun d hd => hv d (List.mem_cons_of_mem c hd))
        (by simp at hA ⊢; omega) (by simp at hf; omega) (by simp at hint ⊢; omega)
      simp only [List.length_append, List.length_singleton, List.append_assoc,
        List.singleton_append] at this
      exact this

theorem loop_overflow (m k A : Nat) (c : List Nat) (R : List (List Nat)) (h : Visits m c R) :
    c.length = k → ∀ (fuel idx : Nat) (tb : Tables), tb.mCombinations.length = A →
    A < idx + R.length → ∃ e, Init.loop m k fuel c idx tb = .error e := by
  induction h with
  | last c hn =>
    intro hk fuel idx tb hA hlt
    cases fuel with
    | zero => exact ⟨_, rfl⟩
    | succ f =>
      rw [Init.loop, Init.body, if_neg (by simp at hlt; omega)]
      exact ⟨_, rfl⟩
  | step c c' R hn _ ih =>
    intro hk fuel idx tb hA hlt
    cases fuel with
    | zero => exact ⟨_, rfl⟩
    | succ f =>
      rw [Init.loop]
      cases hb : Init.body c idx tb with
      | error e => exact ⟨e, rfl⟩
      | ok tb' =>
        have hN : NextCombination c m k = nextSpec m c := by
          rw [← hk]; exact NextCombination_eq_nextSpec m c
        simp only
        by_cases hi : INT_MAX ≤ idx
        · rw [if_pos hi]
          exact ⟨_, rfl⟩
        rw [if_neg hi, hN, hn]
        simp only
        have hlen : tb'.mCombinations.length = A := by
          unfold Init.body at hb
          split_ifs at hb
          cases hp : pushAll c idx tb.mLookup with
          | error e => rw [hp] at hb; simp at hb
          | ok lk =>
            rw [hp] at hb
            simp only [Except.ok.injEq] at hb
            rw [← hb]
            simpa using hA
        have hk' : c'.length = k := (nextSpec_length m c c' hn).trans hk
        exact ih hk' f (idx + 1) tb' hlen (by simp at hlt; omega)

/-- The loop of `Init` fails when the combinations still to come take the counter past
`INT_MAX`. -/
theorem loop_int_overflow (m k : Nat) (c : List Nat) (R : List (List Nat)) (h : Visits m c R) :
    c.length = k → ∀ (fuel idx : Nat) (tb : Tables),
    INT_MAX < idx + R.length → ∃ e, Init.loop m k fuel c idx tb = .error e := by
  induction h with
  | last c hn =>
    intro hk fuel idx tb hlt
    cases fuel with
    | zero => exact ⟨_, rfl⟩
    | succ f =>
      rw [Init.loop]
      cases hb : Init.body c idx tb with
      | error e => exact ⟨e, rfl⟩
      | ok tb' =>
        simp only
        rw [if_pos (by simp at hlt; omega)]
        exact ⟨_, rfl⟩
  | step c c' R hn _ ih =>
    intro hk fuel idx tb hlt
    cases fuel with
    | zero => exact ⟨_, rfl⟩
    | succ f =>
      rw [Init.loop]
      cases hb : Init.body c idx tb with
      | error e => exact ⟨e, rfl⟩
      | ok tb' =>
        have hN : NextCombination c m k = nextSpec m c := by
          rw [← hk]; exact NextCombination_eq_nextSpec m c
        simp only
        by_cases hi : INT_MAX ≤ idx
        · rw [if_pos hi]
          exact ⟨_, rfl⟩
        rw [if_neg hi, hN, hn]
        simp only
        have hk' : c'.length = k := (nextSpec_length m c c' hn).trans hk
        exact ih hk' f (idx + 1) tb' (by simp at hlt; omega)

theorem slotsOf_nil (p : Nat) : slotsOf [] p = [] := by
  simp [slotsOf]

theorem tablesOf_nil (A n : Nat) :
    tablesOf A n [] = { mCombinations := List.replicate A []
                        mRevComb := []
                        mLookup := List.replicate n [] } := by
  unfold tablesOf
  congr 1
  apply List.ext_getElem (by simp)
  intro i h1 h2
  simp [slotsOf_nil]

theorem NthCombination_zero (k m : Nat) :
    NthCombination (List.replicate k 0) 0 m = List.range' 0 k := by
  simp [NthCombination, NthCombination.loop, List.range_eq_range']

theorem sorted_nodup (c : List Nat) (h : c.Sorted (· < ·)) : c.Nodup :=
  List.Sorted.nodup h

theorem slotsOf_length (L : List (List Nat)) (p : Nat) :
    (slotsOf L p).length = L.countP (fun c => decide (p ∈ c)) := by
  induction L using List.reverseRecOn with
  | nil => simp [slotsOf]
  | append_singleton P c ih =>
    rw [slotsOf_append, List.length_append, ih, List.countP_append]
    by_cases h : p ∈ c <;> simp [h]

theorem Init_ok (n t S : Nat) (ht : 1 ≤ t) (htn : t < n) (hS : S = Nat.choose (n - 1) t)
    (hint : Nat.choose n t ≤ INT_MAX) :
    ∃ R, Replicator.Init n t S (Nat.choose n t) = .ok R ∧ R.WF n t := by
  have hlen : (combs n (n - t) 0).length = Nat.choose n t := by
    rw [length_combs, Nat.sub_zero, Nat.choose_symm (le_of_lt htn)]
  have hv := Visits_combs n (n - t) 0 (by omega)
  have hloop := loop_tablesOf n (n - t) (Nat.choose n t) n _ _ hv (by simp) [] (Nat.choose n t + 1)
    (by simpa using nodup_combs n (n - t) 0)
    (fun d hd => by
      have := (mem_combs n (n - t) 0 d).mp hd
      exact ⟨sorted_nodup d this.2.1, fun x hx => (this.2.2 x hx).2⟩)
    (by simp [hlen]) (by omega) (by simpa [hlen] using hint)
  simp only [List.length_nil, List.nil_append] at hloop
  rw [tablesOf_nil] at hloop
  unfold Replicator.Init
  simp only
  rw [NthCombination_zero, hloop]
  simp only
  obtain ⟨n', rfl⟩ : ∃ n', n = n' + 2 := ⟨n - 2, by omega⟩
  have hl : (tablesOf (Nat.choose (n' + 2) t) (n' + 2) (combs (n' + 2) (n' + 2 - t) 0)).mLookup =
      slotsOf (combs (n' + 2) (n' + 2 - t) 0) 0 :: slotsOf (combs (n' + 2) (n' + 2 - t) 0) 1 ::
        ((List.range' 2 n').map (slotsOf (combs (n' + 2) (n' + 2 - t) 0))) := by
    simp [tablesOf, List.range_eq_range', List.range'_succ]
  rw [hl]
  refine ⟨_, rfl, ?_⟩
  constructor
  · rfl
  · rfl
  · simp only [tablesOf, hlen]
    simp
  · simp only [hlen]
  · rfl
  · simp only [tablesOf]
  · simp only [tablesOf]
    simp [List.range_eq_range', List.range'_succ]
  · intro p hp
    simp only
    rw [slotsOf_length]
    have hk : n' + 2 - t = (n' + 1 - t) + 1 := by omega
    rw [hk, countP_combs (n' + 2) p hp (n' + 1 - t) 0 (Nat.zero_le _), hS]
    have : n' + 2 - 0 - 1 = n' + 2 - 1 := by omega
    rw [this]
    have e : n' + 1 - t = (n' + 2 - 1) - t := by omega
    rw [e, Nat.choose_symm (by omega)]
  · exact hS
  · rfl

theorem Binom_call_ok (m k : Nat) (h : Binom.divisor m k ≠ 0) :
    Binom.call m k = .ok (Binom m k) := by
  unfold Binom.call
  rw [if_neg h]

theorem divisor_ne_zero (m k : Nat) (h : Binom m k ≠ 0) : Binom.divisor m k ≠ 0 := by
  intro h0
  apply h
  unfold Binom
  unfold Binom.divisor at h0
  simp only at h0 ⊢
  rw [h0, Nat.div_zero]

/-- The constructor when neither call of `Binom` divides by zero. -/
theorem ctor_of_divisors (n t : Nat) (h1 : Binom.divisor ((n + SIZE - 1) % SIZE) t ≠ 0)
    (h2 : Binom.divisor n t ≠ 0) :
    Replicator.ctor n t =
      if n ≤ t then .error Fault.invalid_argument
      else if t = 0 then .error Fault.invalid_argument
      else Replicator.Init n t (Binom ((n + SIZE - 1) % SIZE) t) (Binom n t) := by
  unfold Replicator.ctor
  rw [Binom_call_ok _ _ h1, Binom_call_ok _ _ h2]

/-- The constructor when a call of `Binom` divides by zero. -/
theorem ctor_of_zero_divisor (n t : Nat)
    (h : Binom.divisor ((n + SIZE - 1) % SIZE) t = 0 ∨ Binom.divisor n t = 0) :
    Replicator.ctor n t = .error Fault.division_by_zero := by
  unfold Replicator.ctor Binom.call
  by_cases h1 : Binom.divisor ((n + SIZE - 1) % SIZE) t = 0
  · rw [if_pos h1]
  · rw [if_neg h1]
    simp only
    rw [if_pos (h.resolve_left h1)]

theorem ctor_ok_exact (n t : Nat) (ht : 1 ≤ t) (htn : t < n) (hex : BinomExact n t) :
    ∃ R, Replicator.ctor n t = .ok R ∧ R.WF n t := by
  obtain ⟨h31, hA, hS, hint⟩ := hex
  have e1 : (n + SIZE - 1) % SIZE = n - 1 := by
    have : n + SIZE - 1 = (n - 1) + SIZE := by omega
    rw [this, Nat.add_mod_right, Nat.mod_eq_of_lt (by unfold SIZE; omega)]
  have d1 : Binom.divisor ((n + SIZE - 1) % SIZE) t ≠ 0 := by
    rw [e1]
    apply divisor_ne_zero
    rw [hS]
    exact (Nat.choose_pos (by omega)).ne'
  have d2 : Binom.divisor n t ≠ 0 := by
    apply divisor_ne_zero
    rw [hA]
    exact (Nat.choose_pos (by omega)).ne'
  rw [ctor_of_divisors n t d1 d2, if_neg (by omega), if_neg (by omega)]
  rw [e1, hA, hS]
  exact Init_ok n t _ ht htn rfl hint

theorem Binom_30_15 : Binom 30 15 = 14052247 := by decide

theorem choose_30_15 : Nat.choose 30 15 = 155117520 := by
  rw [Nat.choose_eq_descFactorial_div_factorial]
  decide

/-- For `n ≤ 30` every number of combinations fits an `int`. -/
theorem choose_le_INT_MAX (n k : Nat) (hn : n ≤ 30) : Nat.choose n k ≤ INT_MAX := by
  calc Nat.choose n k ≤ Nat.choose 30 k := Nat.choose_le_choose k hn
    _ ≤ Nat.choose 30 (30 / 2) := Nat.choose_le_middle k 30
    _ = 155117520 := choose_30_15
    _ ≤ INT_MAX := by decide

theorem BinomExact_small (n t : Nat) (ht : t < n) (hn : n ≤ 29) : BinomExact n t :=
  ⟨by omega, Binom_small n t hn (le_of_lt ht), Binom_small (n - 1) t (by omega) (by omega),
    choose_le_INT_MAX n t (by omega)⟩

theorem ctor_ok (n t : Nat) (ht : 1 ≤ t) (htn : t < n) (hn : n ≤ 29) :
    ∃ R, Replicator.ctor n t = .ok R ∧ R.WF n t :=
  ctor_ok_exact n t ht htn (BinomExact_small n t htn hn)

theorem ctor_overflow (n t : Nat) (ht : 1 ≤ t) (htn : t < n) (h : Binom n t < Nat.choose n t) :
    ∃ e, Replicator.ctor n t = .error e := by
  have hv := Visits_combs n (n - t) 0 (by omega)
  have hlen : (combs n (n - t) 0).length = Nat.choose n t := by
    rw [length_combs, Nat.sub_zero, Nat.choose_symm (le_of_lt htn)]
  obtain ⟨e, he⟩ := loop_overflow n (n - t) (Binom n t) _ _ hv (List.length_range' _ _ _)
    (Binom n t + 1) 0
    { mCombinations := List.replicate (Binom n t) []
      mRevComb := []
      mLookup := List.replicate n [] } (List.length_replicate _ _) (by rw [hlen]; omega)
  by_cases hd : Binom.divisor ((n + SIZE - 1) % SIZE) t = 0 ∨ Binom.divisor n t = 0
  · exact ⟨_, ctor_of_zero_divisor n t hd⟩
  · refine ⟨e, ?_⟩
    rw [ctor_of_divisors n t (fun h0 => hd (Or.inl h0)) (fun h0 => hd (Or.inr h0)),
      if_neg (by omega), if_neg (by omega), Replicator.Init, NthCombination_zero, he]

/-- The constructor fails when the number of combinations does not fit the `int` counter of
`Init`. -/
theorem ctor_int_overflow (n t : Nat) (ht : 1 ≤ t) (htn : t < n)
    (h : INT_MAX < Nat.choose n t) : ∃ e, Replicator.ctor n t = .error e := by
  have hv := Visits_combs n (n - t) 0 (by omega)
  have hlen : (combs n (n - t) 0).length = Nat.choose n t := by
    rw [length_combs, Nat.sub_zero, Nat.choose_symm (le_of_lt htn)]
  obtain ⟨e, he⟩ := loop_int_overflow n (n - t) _ _ hv (List.length_range' _ _ _)
    (Binom n t + 1) 0
    { mCombinations := List.replicate (Binom n t) []
      mRevComb := []
      mLookup := List.replicate n [] } (by rw [hlen]; omega)
  by_cases hd : Binom.divisor ((n + SIZE - 1) % SIZE) t = 0 ∨ Binom.divisor n t = 0
  · exact ⟨_, ctor_of_zero_divisor n t hd⟩
  · refine ⟨e, ?_⟩
    rw [ctor_of_divisors n t (fun h0 => hd (Or.inl h0)) (fun h0 => hd (Or.inr h0)),
      if_neg (by omega), if_neg (by omega), Replicator.Init, NthCombination_zero, he]

theorem ctor_30_15 : ∃ e, Replicator.ctor 30 15 = .error e :=
  ctor_overflow 30 15 (by decide) (by decide) (by rw [Binom_30_15, choose_30_15]; decide)

theorem descFactorial_pairs : ∀ n, n ≤ 30 → ∀ e, e ≤ 14 → n.descFactorial e < SIZE := by
  decide

theorem Binom_pairs (n k : Nat) (hn : n ≤ 30) (hk : k ≤ n) (h : min k (n - k) ≤ 14) :
    Binom n k = Nat.choose n k :=
  Binom_eq_choose n k (by unfold SIZE; omega) hk (descFactorial_pairs n hn _ h)

/-- For `n ≤ 30` and `2 t < n` both replicators of a manipulator get exact sizes. -/
theorem BinomExact_pairs (n t : Nat) (h2t : 2 * t < n) (hn : n ≤ 30) :
    BinomExact n t ∧ BinomExact n (2 * t) :=
  ⟨⟨by omega, Binom_pairs n t hn (by omega) (by omega),
      Binom_pairs (n - 1) t (by omega) (by omega) (by omega), choose_le_INT_MAX n t hn⟩,
    ⟨by omega, Binom_pairs n (2 * t) hn (by omega) (by omega),
      Binom_pairs (n - 1) (2 * t) (by omega) (by omega) (by omega),
      choose_le_INT_MAX n (2 * t) hn⟩⟩

theorem Binom_31_14 : Binom 31 14 = 53584616 := by decide

theorem choose_31_14 : Nat.choose 31 14 = 265182525 := by
  rw [Nat.choose_eq_descFactorial_div_factorial]
  decide

theorem ctor_31_14 : ∃ e, Replicator.ctor 31 14 = .error e :=
  ctor_overflow 31 14 (by decide) (by decide) (by rw [Binom_31_14, choose_31_14]; decide)

theorem getE_ok {α : Type} (v : List α) (i : Nat) (h : i < v.length) : getE v i = .ok v[i] := by
  simp [getE, List.get?_eq_getElem?, List.getElem?_eq_getElem h]

theorem getE_ok_getD {α : Type} (v : List α) (i : Nat) (d : α) (h : i < v.length) :
    getE v i = .ok (v.getD i d) := by
  rw [getE_ok v i h]
  simp [List.getD_eq_getElem?_getD, List.getElem?_eq_getElem h]

theorem allOk_map {α β : Type} (l : List α) (f : α → Except Fault β) (g : α → β)
    (h : ∀ x ∈ l, f x = .ok (g x)) : allOk (l.map f) = .ok (l.map g) := by
  induction l with
  | nil => rfl
  | cons a l ih =>
    simp only [List.map_cons, allOk]
    rw [h a (List.mem_cons_self a l), ih (fun x hx => h x (List.mem_cons_of_mem a hx))]

theorem Sum_eq_sum {F : Type} [CommRing F] (l : List F) : vector.Sum l = l.sum := by
  unfold vector.Sum
  rw [List.sum_eq_foldl]

theorem foldl_set_range {F : Type} [CommRing F] (f : Nat → F) (n : Nat) : ∀ j, j ≤ n →
    (List.range j).foldl (fun (sh : List F) i => sh.set i (f i)) (List.replicate n (0 : F)) =
      (List.range j).map f ++ List.replicate (n - j) 0 := by
  intro j
  induction j with
  | zero => intro _; simp
  | succ j ih =>
    intro hj
    rw [List.range_succ, List.foldl_append, ih (by omega)]
    simp only [List.foldl_cons, List.foldl_nil, List.map_append, List.map_cons, List.map_nil]
    have e : n - j = (n - (j + 1)) + 1 := by omega
    rw [e, List.replicate_succ, List.set_append_right _ _ (by simp)]
    simp

theorem ShareAdditive_ok {F : Type} [CommRing F] [FieldBytes F] {G : Type} [PRG G]
    (secret : F) (n : Nat) (prg : G) (hn : n ≠ 0) :
    ∃ adds prg', ShareAdditive secret n prg = .ok (adds, prg') ∧ adds.length = n ∧
      adds.sum = secret := by
  unfold ShareAdditive
  rw [if_neg hn]
  simp only
  refine ⟨_, _, rfl, ?_, ?_⟩
  · rw [List.length_set, foldl_set_range _ n (n - 1) (by omega)]
    simp
  · rw [foldl_set_range _ n (n - 1) (by omega)]
    have e : n - (n - 1) = 1 := by omega
    rw [e]
    simp only [List.replicate_one]
    rw [List.set_append_right _ _ (by simp)]
    simp [Sum_eq_sum]

theorem slotsOf_lt (L : List (List Nat)) (p : Nat) : ∀ x ∈ slotsOf L p, x < L.length := by
  intro x hx
  unfold slotsOf at hx
  exact List.mem_range.mp (List.mem_filter.mp hx).1

theorem Share_ok {F : Type} [CommRing F] [FieldBytes F] {G : Type} [PRG G]
    (R : Replicator) (n t : Nat) (hR : R.WF n t) (hA : R.mAdditiveShareSize ≠ 0)
    (secret : F) (prg : G) :
    ∃ adds prg', adds.length = (combs n (n - t) 0).length ∧ adds.sum = secret ∧
      R.Share secret prg = .ok (dealt (combs n (n - t) 0) n adds, prg') := by
  obtain ⟨adds, prg', h1, h2, h3⟩ := ShareAdditive_ok secret R.mAdditiveShareSize prg hA
  refine ⟨adds, prg', by rw [h2, hR.additive], h3, ?_⟩
  unfold Replicator.Share
  rw [h1]
  simp only
  have hin : ∀ p ∈ List.range R.mSize, Share.body R adds p =
      Except.ok ((slotsOf (combs n (n - t) 0) p).map (fun idx => adds.getD idx 0)) := by
    intro p hp
    have hp' : p < n := by rw [← hR.size]; exact List.mem_range.mp hp
    have e : R.IndexSetFor p = .ok (slotsOf (combs n (n - t) 0) p) := by
      unfold Replicator.IndexSetFor
      rw [hR.lookup, getE_ok _ _ (by simpa using hp')]
      simp
    unfold Share.body
    rw [e]
    simp only
    apply allOk_map
    intro x hx
    apply getE_ok_getD
    rw [h2, hR.additive]
    exact slotsOf_lt _ _ x hx
  rw [allOk_map _ _ _ hin, hR.size]
  rfl

theorem mem_getD_set {F : Type} (red : List (List F)) (idx : Nat) (v x : F) (i : Nat)
    (h : idx < red.length) :
    x ∈ (red.set idx (red.getD idx [] ++ [v])).getD i [] ↔
      (x ∈ red.getD i [] ∨ (idx = i ∧ v = x)) := by
  by_cases hi : idx = i
  · subst hi
    simp [List.getD_eq_getElem?_getD, List.getElem?_set, h, eq_comm]
  · simp [List.getD_eq_getElem?_getD, List.getElem?_set, hi]

theorem step_ok {F : Type} [CommRing F] (R : Replicator) (sh : List (List F)) (n S A : Nat)
    (lkf : Nat → List Nat) (hf : Fits R sh n S A lkf)
    (p j : Nat) (hp : p < n) (hj : j < S) (red : List (List F)) (hred : red.length = A) :
    ComputeRedundantAddShares.step R sh p red j =
      .ok (red.set ((lkf p).getD j 0)
        (red.getD ((lkf p).getD j 0) [] ++ [(sh.getD p []).getD j 0])) ∧
      (lkf p).getD j 0 < red.length := by
  have h1 : getE R.mLookup p = .ok (lkf p) := by
    rw [hf.lookup, getE_ok _ _ (by simpa using hp)]
    simp
  have h2 : getE (lkf p) j = .ok ((lkf p).getD j 0) :=
    getE_ok_getD _ _ _ (by rw [hf.rows p hp]; exact hj)
  have h3 : getE sh p = .ok (sh.getD p []) := getE_ok_getD _ _ _ (by rw [hf.parties]; exact hp)
  have h4 : getE (sh.getD p []) j = .ok ((sh.getD p []).getD j 0) :=
    getE_ok_getD _ _ _ (by rw [hf.lengths p hp]; exact hj)
  have h5 : (lkf p).getD j 0 < red.length := by
    rw [hred]
    apply hf.bound p hp
    have hj' : j < (lkf p).length := by rw [hf.rows p hp]; exact hj
    rw [List.getD_eq_getElem _ _ hj']
    exact List.getElem_mem _
  refine ⟨?_, h5⟩
  unfold ComputeRedundantAddShares.step
  rw [h1]; simp only
  rw [h2]; simp only
  rw [h3]; simp only
  rw [h4]; simp only
  rw [if_pos h5]

theorem inner_spec {F : Type} [CommRing F] (R : Replicator) (sh : List (List F)) (n S A : Nat)
    (lkf : Nat → List Nat) (hf : Fits R sh n S A lkf) (p : Nat) (hp : p < n) :
    ∀ (J : List Nat) (red : List (List F)), (∀ j ∈ J, j < S) → red.length = A →
    ∃ red', J.foldlM (ComputeRedundantAddShares.step R sh p) red = .ok red' ∧ red'.length = A ∧
      ∀ i v, v ∈ red'.getD i [] ↔
        (v ∈ red.getD i [] ∨ ∃ j ∈ J, (lkf p).getD j 0 = i ∧ (sh.getD p []).getD j 0 = v) := by
  intro J
  induction J with
  | nil => intro red _ hred; exact ⟨red, rfl, hred, by simp⟩
  | cons j J ih =>
    intro red hJ hred
    obtain ⟨h1, h2⟩ := step_ok R sh n S A lkf hf p j hp (hJ j (List.mem_cons_self j J)) red hred
    obtain ⟨red', e1, e2, e3⟩ := ih _ (fun x hx => hJ x (List.mem_cons_of_mem j hx))
      (show (red.set ((lkf p).getD j 0)
        (red.getD ((lkf p).getD j 0) [] ++ [(sh.getD p []).getD j 0])).length = A by
        simpa using hred)
    refine ⟨red', ?_, e2, ?_⟩
    · rw [List.foldlM_cons, h1]
      exact e1
    · intro i v
      rw [e3 i v, mem_getD_set red _ _ v i h2]
      constructor
      · rintro ((h | ⟨h, h'⟩) | ⟨j', hj', h⟩)
        · exact Or.inl h
        · exact Or.inr ⟨j, List.mem_cons_self j J, h, h'⟩
        · exact Or.inr ⟨j', List.mem_cons_of_mem j hj', h⟩
      · rintro (h | ⟨j', hj', h⟩)
        · exact Or.inl (Or.inl h)
        · rcases List.mem_cons.mp hj' with rfl | hj''
          · exact Or.inl (Or.inr h)
          · exact Or.inr ⟨j', hj'', h⟩

theorem outer_spec {F : Type} [CommRing F] (R : Replicator) (sh : List (List F)) (n S A : Nat)
    (lkf : Nat → List Nat) (hf : Fits R sh n S A lkf) :
    ∀ (Ps : List Nat) (red : List (List F)), (∀ p ∈ Ps, p < n) → red.length = A →
    ∃ red', Ps.foldlM (ComputeRedundantAddShares.inner R sh) red = .ok red' ∧ red'.length = A ∧
      ∀ i v, v ∈ red'.getD i [] ↔
        (v ∈ red.getD i [] ∨ ∃ p ∈ Ps, ∃ j, j < S ∧
          (lkf p).getD j 0 = i ∧ (sh.getD p []).getD j 0 = v) := by
  intro Ps
  induction Ps with
  | nil => intro red _ hred; exact ⟨red, rfl, hred, by simp⟩
  | cons p Ps ih =>
    intro red hP hred
    have hp : p < n := hP p (List.mem_cons_self p Ps)
    obtain ⟨red1, a1, a2, a3⟩ := inner_spec R sh n S A lkf hf p hp (List.range S) red
      (fun j hj => List.mem_range.mp hj) hred
    obtain ⟨red', e1, e2, e3⟩ := ih red1 (fun x hx => hP x (List.mem_cons_of_mem p hx)) a2
    refine ⟨red', ?_, e2, ?_⟩
    · rw [List.foldlM_cons]
      have : ComputeRedundantAddShares.inner R sh red p = .ok red1 := by
        unfold ComputeRedundantAddShares.inner
        rw [hf.shareSize]
        exact a1
      rw [this]
      exact e1
    · intro i v
      rw [e3 i v, a3 i v]
      constructor
      · rintro ((h | ⟨j, hj, h⟩) | ⟨p', hp', h⟩)
        · exact Or.inl h
        · exact Or.inr ⟨p, List.mem_cons_self p Ps, j, List.mem_range.mp hj, h⟩
        · exact Or.inr ⟨p', List.mem_cons_of_mem p hp', h⟩
      · rintro (h | ⟨p', hp', j, hj, h⟩)
        · exact Or.inl (Or.inl h)
        · rcases List.mem_cons.mp hp' with rfl | hp''
          · exact Or.inl (Or.inr ⟨j, List.mem_range.mpr hj, h⟩)
          · exact Or.inr ⟨p', hp'', j, hj, h⟩

theorem CRAS_spec {F : Type} [CommRing F] (R : Replicator) (sh : List (List F)) (n S A : Nat)
    (lkf : Nat → List Nat) (hf : Fits R sh n S A lkf) :
    ∃ red, R.ComputeRedundantAddShares sh = .ok red ∧ red.length = A ∧
      ∀ i v, v ∈ red.getD i [] ↔
        ∃ p, p < n ∧ ∃ j, j < S ∧ (lkf p).getD j 0 = i ∧ (sh.getD p []).getD j 0 = v := by
  obtain ⟨red, h1, h2, h3⟩ := outer_spec R sh n S A lkf hf (List.range n)
    (List.replicate A []) (fun p hp => List.mem_range.mp hp) (by simp)
  refine ⟨red, ?_, h2, ?_⟩
  · unfold Replicator.ComputeRedundantAddShares
    rw [hf.size, hf.additive]
    exact h1
  · intro i v
    rw [h3 i v]
    have : ¬ (v ∈ (List.replicate A ([] : List F)).getD i []) := by
      by_cases hi : i < A
      · simp [List.getD_eq_getElem?_getD, hi]
      · simp [List.getD_eq_getElem?_getD, List.getElem?_replicate, hi]
    constructor
    · rintro (h | ⟨p, hp, h⟩)
      · exact absurd h this
      · exact ⟨p, List.mem_range.mp hp, h⟩
    · rintro ⟨p, hp, h⟩
      exact Or.inr ⟨p, List.mem_range.mpr hp, h⟩

theorem Agrees_row {F : Type} [CommRing F] (red : List (List F)) (adds : List F) (A : Nat)
    (h : Agrees red adds A) (i : Nat) (hi : i < A) :
    ∃ row, getE red i = .ok row ∧ getE row 0 = .ok (adds.getD i 0) ∧
      ∀ v ∈ row, v = adds.getD i 0 := by
  obtain ⟨h1, h2⟩ := h
  obtain ⟨h3, h4⟩ := h2 i hi
  refine ⟨red.getD i [], getE_ok_getD _ _ _ (by omega), ?_, h4⟩
  cases hrow : red.getD i [] with
  | nil => exact absurd hrow h3
  | cons x xs =>
    have : x = adds.getD i 0 := h4 x (by rw [hrow]; exact List.mem_cons_self x xs)
    rw [← this]
    rfl

theorem fold_Reconstruct {F : Type} [CommRing F] (red : List (List F)) (adds : List F) (A : Nat)
    (h : Agrees red adds A) : ∀ (I : List Nat) (acc : F), (∀ i ∈ I, i < A) →
    I.foldlM (Reconstruct.body red) acc = .ok (acc + (I.map (fun i => adds.getD i 0)).sum) := by
  intro I
  induction I with
  | nil => intro acc _; simp [pure, Except.pure]
  | cons i I ih =>
    intro acc hI
    obtain ⟨row, h1, h2, _⟩ := Agrees_row red adds A h i (hI i (List.mem_cons_self i I))
    have hb : Reconstruct.body red acc i = .ok (acc + adds.getD i 0) := by
      unfold Reconstruct.body
      rw [h1]; simp only
      rw [h2]
    rw [List.foldlM_cons, hb]
    have := ih (acc + adds.getD i 0) (fun x hx => hI x (List.mem_cons_of_mem i hx))
    simp only [bind, Except.bind]
    rw [this, List.map_cons, List.sum_cons, add_assoc]

theorem fold_ErrorDetection {F : Type} [CommRing F] [DecidableEq F] (red : List (List F))
    (adds : List F) (A : Nat)
    (h : Agrees red adds A) : ∀ (I : List Nat) (acc : F), (∀ i ∈ I, i < A) →
    I.foldlM (ErrorDetection.body red) acc = .ok (acc + (I.map (fun i => adds.getD i 0)).sum) := by
  intro I
  induction I with
  | nil => intro acc _; simp [pure, Except.pure]
  | cons i I ih =>
    intro acc hI
    obtain ⟨row, h1, h2, h3⟩ := Agrees_row red adds A h i (hI i (List.mem_cons_self i I))
    have hany : row.any (fun elt => decide (elt ≠ adds.getD i 0)) = false := by
      rw [List.any_eq_false]
      intro x hx
      simp [h3 x hx]
    have hb : ErrorDetection.body red acc i = .ok (acc + adds.getD i 0) := by
      unfold ErrorDetection.body
      rw [h1]; simp only
      rw [h2]; simp only
      rw [hany]
      simp
    rw [List.foldlM_cons, hb]
    have := ih (acc + adds.getD i 0) (fun x hx => hI x (List.mem_cons_of_mem i hx))
    simp only [bind, Except.bind]
    rw [this, List.map_cons, List.sum_cons, add_assoc]

theorem map_getD_range {F : Type} [CommRing F] (adds : List F) :
    (List.range adds.length).map (fun i => adds.getD i 0) = adds := by
  apply List.ext_getElem (by simp)
  intro i h1 h2
  simp [List.getD_eq_getElem?_getD, List.getElem?_eq_getElem h2]

theorem dealt_getD {F : Type} [CommRing F] (L : List (List Nat)) (n : Nat) (adds : List F)
    (p : Nat) (hp : p < n) :
    (dealt L n adds).getD p [] = (slotsOf L p).map (fun idx => adds.getD idx 0) := by
  unfold dealt
  simp [List.getD_eq_getElem?_getD, hp]

theorem dealt_getD_getD {F : Type} [CommRing F] (L : List (List Nat)) (n : Nat) (adds : List F)
    (p j : Nat) (hp : p < n) (hj : j < (slotsOf L p).length) :
    ((dealt L n adds).getD p []).getD j 0 = adds.getD ((slotsOf L p).getD j 0) 0 := by
  rw [dealt_getD L n adds p hp]
  simp [List.getD_eq_getElem?_getD, List.getElem?_eq_getElem hj]

theorem WF_Fits {F : Type} [CommRing F] (R : Replicator) (n t : Nat) (hR : R.WF n t)
    (sh : List (List F)) (h1 : sh.length = n)
    (h2 : ∀ p, p < n → (sh.getD p []).length = R.mShareSize) :
    Fits R sh n R.mShareSize (combs n (n - t) 0).length (slotsOf (combs n (n - t) 0)) where
  size := hR.size
  shareSize := rfl
  additive := hR.additive
  lookup := hR.lookup
  rows := hR.share
  bound := fun p _ => slotsOf_lt _ p
  parties := h1
  lengths := h2

theorem dealt_Fits {F : Type} [CommRing F] (R : Replicator) (n t : Nat) (hR : R.WF n t)
    (adds : List F) :
    Fits R (dealt (combs n (n - t) 0) n adds) n R.mShareSize (combs n (n - t) 0).length
      (slotsOf (combs n (n - t) 0)) := by
  apply WF_Fits R n t hR
  · simp [dealt]
  · intro p hp
    rw [dealt_getD _ _ _ p hp, List.length_map, hR.share p hp]

theorem mem_slotsOf (L : List (List Nat)) (p i : Nat) :
    i ∈ slotsOf L p ↔ i < L.length ∧ p ∈ L.getD i [] := by
  simp [slotsOf]

theorem exists_index_of_mem (l : List Nat) (x : Nat) (h : x ∈ l) :
    ∃ j, j < l.length ∧ l.getD j 0 = x := by
  obtain ⟨j, hj, e⟩ := List.getElem_of_mem h
  exact ⟨j, hj, by rw [List.getD_eq_getElem _ _ hj]; exact e⟩

theorem comb_getD_mem (n k : Nat) (i : Nat) (hi : i < (combs n k 0).length) :
    (combs n k 0).getD i [] ∈ combs n k 0 := by
  rw [List.getD_eq_getElem _ _ hi]
  exact List.getElem_mem _

theorem dealt_Agrees {F : Type} [CommRing F] (R : Replicator) (n t : Nat) (hR : R.WF n t)
    (ht : t < n) (adds : List F) :
    ∃ red, R.ComputeRedundantAddShares (dealt (combs n (n - t) 0) n adds) = .ok red ∧
      Agrees red adds (combs n (n - t) 0).length := by
  obtain ⟨red, h1, h2, h3⟩ := CRAS_spec R _ n R.mShareSize _ _ (dealt_Fits R n t hR adds)
  refine ⟨red, h1, h2, ?_⟩
  intro i hi
  constructor
  · have hc := comb_getD_mem n (n - t) i hi
    obtain ⟨hlen, _, hb⟩ := (mem_combs n (n - t) 0 _).mp hc
    cases hci : (combs n (n - t) 0).getD i [] with
    | nil => rw [hci] at hlen; simp at hlen; omega
    | cons p rest =>
      have hp : p < n := (hb p (by rw [hci]; exact List.mem_cons_self p rest)).2
      have hmem : i ∈ slotsOf (combs n (n - t) 0) p :=
        (mem_slotsOf _ p i).mpr ⟨hi, by rw [hci]; exact List.mem_cons_self p rest⟩
      obtain ⟨j, hj, e⟩ := exists_index_of_mem _ i hmem
      have : adds.getD i 0 ∈ red.getD i [] := by
        rw [h3]
        refine ⟨p, hp, j, by rw [← hR.share p hp]; exact hj, e, ?_⟩
        rw [dealt_getD_getD _ _ _ p j hp hj, e]
      exact List.ne_nil_of_mem this
  · intro v hv
    obtain ⟨p, hp, j, hj, e1, e2⟩ := (h3 i v).mp hv
    rw [dealt_getD_getD _ _ _ p j hp (by rw [hR.share p hp]; exact hj), e1] at e2
    exact e2.symm

theorem Reconstruct_dealt {F : Type} [CommRing F] (R : Replicator) (n t : Nat) (hR : R.WF n t)
    (ht : t < n) (adds : List F) (hl : adds.length = (combs n (n - t) 0).length) :
    R.Reconstruct (dealt (combs n (n - t) 0) n adds) = .ok adds.sum := by
  obtain ⟨red, h1, h2⟩ := dealt_Agrees R n t hR ht adds
  unfold Replicator.Reconstruct
  rw [h1]
  simp only
  rw [hR.additive, fold_Reconstruct red adds _ h2 _ 0 (fun i hi => List.mem_range.mp hi), ← hl,
    map_getD_range, zero_add]

theorem ErrorDetection_dealt {F : Type} [CommRing F] [DecidableEq F] (R : Replicator)
    (n t : Nat) (hR : R.WF n t)
    (ht : t < n) (adds : List F) (hl : adds.length = (combs n (n - t) 0).length) :
    R.ErrorDetection (dealt (combs n (n - t) 0) n adds) = .ok adds.sum := by
  obtain ⟨red, h1, h2⟩ := dealt_Agrees R n t hR ht adds
  unfold Replicator.ErrorDetection
  rw [h1]
  simp only
  rw [hR.additive, fold_ErrorDetection red adds _ h2 _ 0 (fun i hi => List.mem_range.mp hi), ← hl,
    map_getD_range, zero_add]

theorem additive_ne_zero (R : Replicator) (n t : Nat) (hR : R.WF n t) (ht : t < n) :
    R.mAdditiveShareSize ≠ 0 := by
  rw [hR.additive_choose]
  exact Nat.pos_iff_ne_zero.mp (Nat.choose_pos (le_of_lt ht))

theorem Share_IsSharing {F : Type} [CommRing F] [FieldBytes F] {G : Type} [PRG G]
    (R : Replicator) (n t : Nat) (hR : R.WF n t) (ht : t < n) (secret : F) (prg : G) :
    ∃ shares prg', R.Share secret prg = .ok (shares, prg') ∧ IsSharing n t shares secret := by
  obtain ⟨adds, prg', h1, h2, h3⟩ := Share_ok R n t hR (additive_ne_zero R n t hR ht) secret prg
  exact ⟨_, prg', h3, adds, h1, h2, rfl⟩

theorem Reconstruct_IsSharing {F : Type} [CommRing F] (R : Replicator) (n t : Nat)
    (hR : R.WF n t) (ht : t < n) (shares : List (List F)) (v : F)
    (h : IsSharing n t shares v) : R.Reconstruct shares = .ok v := by
  obtain ⟨adds, h1, h2, rfl⟩ := h
  rw [Reconstruct_dealt R n t hR ht adds h1, h2]

theorem ErrorDetection_IsSharing {F : Type} [CommRing F] [DecidableEq F] (R : Replicator)
    (n t : Nat) (hR : R.WF n t) (ht : t < n) (shares : List (List F)) (v : F)
    (h : IsSharing n t shares v) : R.ErrorDetection shares = .ok v := by
  obtain ⟨adds, h1, h2, rfl⟩ := h
  rw [ErrorDetection_dealt R n t hR ht adds h1, h2]

/-- C1 (amended to `n ≤ 29`): reconstructing the shares dealt by `Share` gives back the
secret. -/
theorem C1_Reconstruct_Share {F : Type} [CommRing F] [FieldBytes F] {G : Type} [PRG G]
    (n t : Nat) (ht : 1 ≤ t) (htn : t < n) (hn : n ≤ 29) (s : F) (prg : G) :
    ∃ R shares prg', Replicator.ctor n t = .ok R ∧ R.Share s prg = .ok (shares, prg') ∧
      R.Reconstruct shares = .ok s := by
  obtain ⟨R, h1, hR⟩ := ctor_ok n t ht htn hn
  obtain ⟨shares, prg', h2, h3⟩ := Share_IsSharing R n t hR htn s prg
  exact ⟨R, shares, prg', h1, h2, Reconstruct_IsSharing R n t hR htn shares s h3⟩

/-- C1, an instance: `n = 4`, `t = 1`, the secret `42` and a freshly constructed generator. -/
theorem C1_witness :
    (1 ≤ 1 ∧ 1 < 4 ∧ 4 ≤ 29) ∧
    ∃ R shares prg', Replicator.ctor 4 1 = .ok R ∧
      R.Share (42 : Fp61) (PRG.init : CounterPRG) = .ok (shares, prg') ∧
      R.Reconstruct shares = .ok 42 :=
  ⟨by decide, C1_Reconstruct_Share 4 1 (by decide) (by decide) (by decide) 42 PRG.init⟩

/-- C1 fails for `n = 30`, `t = 15`: the 64-bit evaluation of `Binom(30, 15)` wraps around and
the constructor of the replicator writes outside its table, so nothing can be shared. -/
theorem C1_counterexample :
    ¬ ∃ (R : Replicator) (shares : List (List Fp61)) (prg' : CounterPRG),
      Replicator.ctor 30 15 = .ok R ∧
      R.Share (42 : Fp61) (PRG.init : CounterPRG) = .ok (shares, prg') ∧
      R.Reconstruct shares = .ok 42 := by
  rintro ⟨R, _, _, h, _⟩
  obtain ⟨e, he⟩ := ctor_30_15
  rw [he] at h
  cases h

/-- C2 (amended to `n ≤ 29`): `ErrorDetection` accepts the shares dealt by `Share` and
returns the secret. -/
theorem C2_ErrorDetection_Share {F : Type} [CommRing F] [DecidableEq F] [FieldBytes F]
    {G : Type} [PRG G]
    (n t : Nat) (ht : 1 ≤ t) (htn : t < n) (hn : n ≤ 29) (s : F) (prg : G) :
    ∃ R shares prg', Replicator.ctor n t = .ok R ∧ R.Share s prg = .ok (shares, prg') ∧
      R.ErrorDetection shares = .ok s := by
  obtain ⟨R, h1, hR⟩ := ctor_ok n t ht htn hn
  obtain ⟨shares, prg', h2, h3⟩ := Share_IsSharing R n t hR htn s prg
  exact ⟨R, shares, prg', h1, h2, ErrorDetection_IsSharing R n t hR htn shares s h3⟩

theorem fold_ErrorDetection_bad {F : Type} [CommRing F] [DecidableEq F] (red : List (List F))
    (A : Nat) (hl : red.length = A) (hne : ∀ i, i < A → red.getD i [] ≠ []) :
    ∀ (I : List Nat) (acc : F), (∀ i ∈ I, i < A) →
    (∃ i ∈ I, ∃ x ∈ red.getD i [], ∃ y ∈ red.getD i [], x ≠ y) →
    I.foldlM (ErrorDetection.body red) acc = .error Fault.inconsistent_shares := by
  intro I
  induction I with
  | nil => intro acc _ h; obtain ⟨i, hi, _⟩ := h; simp at hi
  | cons i I ih =>
    intro acc hI hbad
    have hi : i < A := hI i (List.mem_cons_self i I)
    have h1 : getE red i = .ok (red.getD i []) := getE_ok_getD _ _ _ (by omega)
    cases hrow : red.getD i [] with
    | nil => exact absurd hrow (hne i hi)
    | cons x0 xs =>
      have h2 : getE (x0 :: xs) 0 = .ok x0 := rfl
      rw [List.foldlM_cons]
      unfold ErrorDetection.body
      rw [h1, hrow]
      simp only
      rw [h2]
      simp only
      by_cases hany : (x0 :: xs).any (fun elt => decide (elt ≠ x0)) = true
      · rw [if_pos hany]
        rfl
      · rw [if_neg hany]
        simp only [bind, Except.bind]
        apply ih _ (fun x hx => hI x (List.mem_cons_of_mem i hx))
        obtain ⟨i', hi', x, hx, y, hy, hxy⟩ := hbad
        rcases List.mem_cons.mp hi' with rfl | hi''
        · exfalso
          have hall : ∀ z ∈ (x0 :: xs), z = x0 := by
            intro z hz
            by_contra hne'
            apply hany
            rw [List.any_eq_true]
            exact ⟨z, hz, by simpa using hne'⟩
          rw [hrow] at hx hy
          exact hxy ((hall x hx).trans (hall y hy).symm)
        · exact ⟨i', hi'', x, hx, y, hy, hxy⟩

theorem exists_ne_of_nodup (l : List Nat) (h : l.Nodup) (h2 : 2 ≤ l.length) (a : Nat) :
    ∃ b ∈ l, b ≠ a := by
  match l, h, h2 with
  | x :: y :: rest, h, _ =>
    have hxy : x ≠ y := by
      intro e
      have := (List.nodup_cons.mp h).1
      exact this (e ▸ List.mem_cons_self _ _)
    by_cases hx : x = a
    · exact ⟨y, by simp, fun e => hxy (hx.trans e.symm)⟩
    · exact ⟨x, by simp, hx⟩

theorem getD_set_ne {F : Type} (sh : List (List F)) (i : Nat) (row : List F) (p : Nat)
    (h : p ≠ i) : (sh.set i row).getD p [] = sh.getD p [] := by
  have : ¬ (i = p) := fun e => h e.symm
  simp [List.getD_eq_getElem?_getD, List.getElem?_set, this]

theorem getD_set_eq {F : Type} (sh : List (List F)) (i : Nat) (row : List F)
    (h : i < sh.length) : (sh.set i row).getD i [] = row := by
  simp [List.getD_eq_getElem?_getD, List.getElem?_set, h]

theorem getD_set_eq' {F : Type} [CommRing F] (row : List F) (j : Nat) (v : F)
    (h : j < row.length) : (row.set j v).getD j 0 = v := by
  simp [List.getD_eq_getElem?_getD, List.getElem?_set, h]

theorem ErrorDetection_tampered {F : Type} [CommRing F] [DecidableEq F] (R : Replicator)
    (n t : Nat) (hR : R.WF n t) (h2 : 2 ≤ n - t) (adds : List F)
    (i0 j0 : Nat) (hi : i0 < n) (hj : j0 < R.mShareSize) (v' : F)
    (hv : v' ≠ ((dealt (combs n (n - t) 0) n adds).getD i0 []).getD j0 0) :
    R.ErrorDetection ((dealt (combs n (n - t) 0) n adds).set i0
      (((dealt (combs n (n - t) 0) n adds).getD i0 []).set j0 v')) =
      .error Fault.inconsistent_shares := by
  set L := combs n (n - t) 0 with hL
  set sh := dealt L n adds with hsh
  have hshl : sh.length = n := by simp [hsh, dealt]
  have hrow : ∀ p, p < n → (sh.getD p []).length = R.mShareSize := fun p hp =>
    (dealt_Fits R n t hR adds).lengths p hp
  have hj' : j0 < (slotsOf L i0).length := by rw [hR.share i0 hi]; exact hj
  have hfit : Fits R (sh.set i0 ((sh.getD i0 []).set j0 v')) n R.mShareSize L.length
      (slotsOf L) := by
    apply WF_Fits R n t hR
    · simpa using hshl
    · intro p hp
      by_cases hp0 : p = i0
      · subst hp0
        rw [getD_set_eq _ _ _ (by omega)]
        simpa using hrow p hp
      · rw [getD_set_ne _ _ _ _ hp0]
        exact hrow p hp
  obtain ⟨red, h1, hlen, hmem⟩ := CRAS_spec R _ n R.mShareSize _ _ hfit
  -- every slot has a copy
  have hne : ∀ i, i < L.length → red.getD i [] ≠ [] := by
    intro i hi'
    have hc := comb_getD_mem n (n - t) i hi'
    obtain ⟨hlen', _, hb⟩ := (mem_combs n (n - t) 0 _).mp hc
    cases hci : (combs n (n - t) 0).getD i [] with
    | nil => rw [hci] at hlen'; simp at hlen'; omega
    | cons p rest =>
      have hp : p < n := (hb p (by rw [hci]; exact List.mem_cons_self p rest)).2
      have hmem' : i ∈ slotsOf L p :=
        (mem_slotsOf _ p i).mpr ⟨hi', by rw [hL, hci]; exact List.mem_cons_self p rest⟩
      obtain ⟨j, hj1, e⟩ := exists_index_of_mem _ i hmem'
      have : ((sh.set i0 ((sh.getD i0 []).set j0 v')).getD p []).getD j 0 ∈ red.getD i [] := by
        rw [hmem]
        exact ⟨p, hp, j, by rw [← hR.share p hp]; exact hj1, e, rfl⟩
      exact List.ne_nil_of_mem this
  -- the slot of the tampered copy
  have hslot : (slotsOf L i0).getD j0 0 ∈ slotsOf L i0 := by
    rw [List.getD_eq_getElem _ _ hj']
    exact List.getElem_mem _
  obtain ⟨hs1, hs2⟩ := (mem_slotsOf L i0 _).mp hslot
  have hv1 : v' ∈ red.getD ((slotsOf L i0).getD j0 0) [] := by
    rw [hmem]
    refine ⟨i0, hi, j0, hj, rfl, ?_⟩
    rw [getD_set_eq _ _ _ (by omega), getD_set_eq' _ _ _ (by rw [hrow i0 hi]; exact hj)]
  have hc := comb_getD_mem n (n - t) _ hs1
  obtain ⟨hclen, hcs, hcb⟩ := (mem_combs n (n - t) 0 _).mp hc
  obtain ⟨p1, hp1, hp1ne⟩ := exists_ne_of_nodup _ (sorted_nodup _ hcs) (by rw [hclen]; exact h2) i0
  have hp1n : p1 < n := (hcb p1 hp1).2
  have hmem1 : (slotsOf L i0).getD j0 0 ∈ slotsOf L p1 := (mem_slotsOf _ p1 _).mpr ⟨hs1, hp1⟩
  obtain ⟨j1, hj1, e1⟩ := exists_index_of_mem _ _ hmem1
  have hv2 : adds.getD ((slotsOf L i0).getD j0 0) 0 ∈ red.getD ((slotsOf L i0).getD j0 0) [] := by
    rw [hmem]
    refine ⟨p1, hp1n, j1, by rw [← hR.share p1 hp1n]; exact hj1, e1, ?_⟩
    rw [getD_set_ne _ _ _ _ hp1ne, hsh, dealt_getD_getD _ _ _ p1 j1 hp1n hj1, e1]
  have hdiff : v' ≠ adds.getD ((slotsOf L i0).getD j0 0) 0 := by
    rw [hsh, dealt_getD_getD _ _ _ i0 j0 hi hj'] at hv
    exact hv
  unfold Replicator.ErrorDetection
  rw [h1]
  simp only
  rw [hR.additive]
  exact fold_ErrorDetection_bad red L.length hlen hne _ 0 (fun i hi => List.mem_range.mp hi)
    ⟨_, List.mem_range.mpr hs1, v', hv1, _, hv2, hdiff⟩

/-- C3 (amended to `n ≤ 29`): when one element of one party's share of `Share(s, prg)` is
replaced by a different value, `ErrorDetection` throws "Inconsistent shares". -/
theorem C3_ErrorDetection_tampered {F : Type} [CommRing F] [DecidableEq F] [FieldBytes F]
    {G : Type} [PRG G]
    (n t : Nat) (ht : 1 ≤ t) (h2 : 2 ≤ n - t) (hn : n ≤ 29) (s : F) (prg : G) :
    ∃ R shares prg', Replicator.ctor n t = .ok R ∧ R.Share s prg = .ok (shares, prg') ∧
      ∀ i j (v' : F), i < n → j < R.ShareSize → v' ≠ (shares.getD i []).getD j 0 →
        R.ErrorDetection (shares.set i ((shares.getD i []).set j v')) =
          .error Fault.inconsistent_shares := by
  obtain ⟨R, h1, hR⟩ := ctor_ok n t ht (by omega) hn
  obtain ⟨adds, prg', _, _, h3⟩ :=
    Share_ok R n t hR (additive_ne_zero R n t hR (by omega)) s prg
  refine ⟨R, _, prg', h1, h3, ?_⟩
  intro i j v' hi hj hv
  exact ErrorDetection_tampered R n t hR h2 adds i j hi hj v' hv

theorem Intersection_go_bound : ∀ (fuel : Nat) (xs ys : List Nat) (s : Nat),
    ∀ i ∈ Intersection.go fuel xs ys s, s ≤ i ∧ i < s + xs.length := by
  intro fuel
  induction fuel with
  | zero => intro xs ys s i hi; simp [Intersection.go] at hi
  | succ fuel ih =>
    intro xs ys s i hi
    cases xs with
    | nil => simp [Intersection.go] at hi
    | cons x xs =>
      cases ys with
      | nil => simp [Intersection.go] at hi
      | cons y ys =>
        rw [Intersection.go] at hi
        split_ifs at hi with h1 h2
        · have := ih xs (y :: ys) (s + 1) i hi
          simp only [List.length_cons]; omega
        · exact ih (x :: xs) ys s i hi
        · rcases List.mem_cons.mp hi with rfl | hi
          · simp
          · exact ih (x :: xs) ys s i hi

theorem filter_mem_cons_of_lt (xs : List Nat) (y : Nat) (ys : List Nat)
    (h : ∀ x ∈ xs, y < x) :
    xs.filter (fun x => decide (x ∈ y :: ys)) = xs.filter (fun x => decide (x ∈ ys)) := by
  apply List.filter_congr
  intro x hx
  have := h x hx
  have hne : ¬ (x = y) := by omega
  simp [hne]

theorem Intersection_go_spec : ∀ (fuel : Nat) (xs ys pre : List Nat),
    xs.Sorted (· < ·) → ys.Sorted (· < ·) → xs.length + ys.length ≤ fuel →
    (Intersection.go fuel xs ys pre.length).map (fun i => (pre ++ xs).getD i 0) =
      xs.filter (fun x => decide (x ∈ ys)) := by
  intro fuel
  induction fuel with
  | zero =>
    intro xs ys pre _ _ hf
    have : xs = [] := List.length_eq_zero.mp (by omega)
    subst this
    simp [Intersection.go]
  | succ fuel ih =>
    intro xs ys pre hx hy hf
    cases xs with
    | nil => simp [Intersection.go]
    | cons x xs =>
      cases ys with
      | nil => simp [Intersection.go]
      | cons y ys =>
        have hxs := List.sorted_cons.mp hx
        have hys := List.sorted_cons.mp hy
        simp only [List.length_cons] at hf
        rw [Intersection.go]
        split_ifs with h1 h2
        · -- x < y : x is not in y :: ys
          have hnot : x ∉ y :: ys := by
            intro hm
            rcases List.mem_cons.mp hm with rfl | hm
            · omega
            · have := hys.1 x hm; omega
          have := ih xs (y :: ys) (pre ++ [x]) hxs.2 hy (by simp only [List.length_cons]; omega)
          simp only [List.length_append, List.length_singleton, List.append_assoc,
            List.singleton_append] at this
          rw [this, List.filter_cons_of_neg (by simpa using hnot)]
        · -- y < x
          have hlt : y < x := h2
          have := ih (x :: xs) ys pre hx hys.2 (by simp only [List.length_cons]; omega)
          rw [this]
          symm
          apply filter_mem_cons_of_lt
          intro z hz
          rcases List.mem_cons.mp hz with rfl | hz
          · exact hlt
          · have := hxs.1 z hz; omega
        · -- x = y
          have hxy : x = y := by omega
          subst hxy
          have hnot : x ∉ ys := fun hm => by have := hys.1 x hm; omega
          have := ih (x :: xs) ys pre hx hys.2 (by simp only [List.length_cons]; omega)
          rw [List.map_cons, this, getD_append_mid, List.filter_cons_of_neg (by simpa using hnot),
            List.filter_cons_of_pos (by simp), filter_mem_cons_of_lt xs x ys hxs.1]

theorem Intersection_elems (A B : List Nat) (hA : A.Sorted (· < ·)) (hB : B.Sorted (· < ·)) :
    allOk ((Intersection A B).map (fun i => getE A i)) =
      .ok (A.filter (fun x => decide (x ∈ B))) := by
  have h1 := Intersection_go_spec (A.length + B.length) A B [] hA hB (le_refl _)
  simp only [List.length_nil, List.nil_append] at h1
  rw [← h1]
  apply allOk_map
  intro i hi
  have := Intersection_go_bound (A.length + B.length) A B 0 i hi
  exact getE_ok_getD _ _ _ (by omega)

theorem find_none (l : List Nat) (x : Nat) (h : x ∉ l) : find l x = none := by
  induction l with
  | nil => rfl
  | cons y ys ih =>
    have h1 : ¬ (y = x) := fun e => h (e ▸ List.mem_cons_self _ _)
    have h2 : x ∉ ys := fun hm => h (List.mem_cons_of_mem _ hm)
    rw [find, if_neg h1, ih h2]

theorem find_getD_nodup : ∀ (l : List Nat) (j : Nat), l.Nodup → j < l.length →
    find l (l.getD j 0) = some j := by
  intro l
  induction l with
  | nil => intro j _ h; simp at h
  | cons y ys ih =>
    intro j hnd hj
    cases j with
    | zero => simp [find]
    | succ j =>
      have hj' : j < ys.length := by simpa using hj
      have hnd' := List.nodup_cons.mp hnd
      have e : (y :: ys).getD (j + 1) 0 = ys.getD j 0 := by simp
      have hmem : ys.getD j 0 ∈ ys := by
        rw [List.getD_eq_getElem _ _ hj']; exact List.getElem_mem _
      have hne : ¬ (y = ys.getD j 0) := fun e' => hnd'.1 (e' ▸ hmem)
      rw [e, find, if_neg hne, ih j hnd'.2 hj']

theorem find_mem_nodup (l : List Nat) (x : Nat) (hnd : l.Nodup) (h : x ∈ l) :
    ∃ j, find l x = some j ∧ j < l.length ∧ l.getD j 0 = x := by
  obtain ⟨j, hj, e⟩ := exists_index_of_mem l x h
  exact ⟨j, by rw [← e]; exact find_getD_nodup l j hnd hj, hj, e⟩

theorem lookup_zip_range_mem : ∀ (P : List (List Nat)) (s : Nat) (c : List Nat), c ∈ P →
    ∃ idx, (P.zip (List.range' s P.length)).lookup c = some (s + idx) ∧ idx < P.length ∧
      P.getD idx [] = c := by
  intro P
  induction P with
  | nil => intro s c h; simp at h
  | cons d P ih =>
    intro s c hc
    simp only [List.length_cons, List.range'_succ, List.zip_cons_cons, List.lookup_cons]
    by_cases hcd : c = d
    · subst hcd
      exact ⟨0, by simp, by simp, by simp⟩
    · have hc' : c ∈ P := by
        rcases List.mem_cons.mp hc with h | h
        · exact absurd h hcd
        · exact h
      have : (c == d) = false := by simpa using hcd
      rw [this]
      obtain ⟨idx, h1, h2, h3⟩ := ih (s + 1) c hc'
      exact ⟨idx + 1, by rw [h1, Nat.add_assoc, Nat.add_comm 1 idx], by omega,
        by simpa using h3⟩

theorem slotIndex_spec (P : List (List Nat)) (c : List Nat) (h : c ∈ P) :
    (P.zip (List.range P.length)).lookup c = some (slotIndex P c) ∧
      slotIndex P c < P.length ∧ P.getD (slotIndex P c) [] = c := by
  obtain ⟨idx, h1, h2, h3⟩ := lookup_zip_range_mem P 0 c h
  rw [← List.range_eq_range', Nat.zero_add] at h1
  have e : slotIndex P c = idx := by
    unfold slotIndex
    rw [h1]; rfl
  rw [e]
  exact ⟨h1, h2, h3⟩

theorem RevComb_ok (R : Replicator) (n t : Nat) (hR : R.WF n t) (c : List Nat)
    (h : c ∈ combs n (n - t) 0) : R.RevComb c = .ok (slotIndex (combs n (n - t) 0) c) := by
  unfold Replicator.RevComb
  rw [hR.revcomb, (slotIndex_spec _ c h).1]

theorem getD_of_nodup_eq (P : List (List Nat)) (hnd : P.Nodup) (i j : Nat) (hi : i < P.length)
    (hj : j < P.length) (h : P.getD i [] = P.getD j []) : i = j := by
  rw [List.getD_eq_getElem _ _ hi, List.getD_eq_getElem _ _ hj] at h
  exact (List.Nodup.getElem_inj_iff hnd).mp h

theorem slotIndex_getD (P : List (List Nat)) (hnd : P.Nodup) (i : Nat) (hi : i < P.length) :
    slotIndex P (P.getD i []) = i := by
  have hm : P.getD i [] ∈ P := by
    rw [List.getD_eq_getElem _ _ hi]; exact List.getElem_mem _
  obtain ⟨_, h2, h3⟩ := slotIndex_spec P _ hm
  exact getD_of_nodup_eq P hnd _ _ h2 hi h3

/-! The common members of two combinations -/

theorem comb_facts (n k i : Nat) (hi : i < (combs n k 0).length) :
    ((combs n k 0).getD i []).length = k ∧ ((combs n k 0).getD i []).Sorted (· < ·) ∧
      ∀ q ∈ (combs n k 0).getD i [], q < n := by
  obtain ⟨h1, h2, h3⟩ := (mem_combs n k 0 _).mp (comb_getD_mem n k i hi)
  exact ⟨h1, h2, fun q hq => (h3 q hq).2⟩

theorem length_filter_mem_ge (A B : List Nat) (n : Nat) (hA : A.Nodup) (hB : B.Nodup)
    (hAn : ∀ q ∈ A, q < n) (hBn : ∀ q ∈ B, q < n) :
    A.length + B.length ≤ n + (A.filter (fun q => decide (q ∈ B))).length := by
  have h1 := List.length_eq_countP_add_countP (fun q => decide (q ∈ B)) A
  rw [List.countP_eq_length_filter, List.countP_eq_length_filter] at h1
  have hnd : (A.filter (fun a => decide ¬ (decide (a ∈ B)) = true)).Nodup := hA.filter _
  have hsub : (A.filter (fun a => decide ¬ (decide (a ∈ B)) = true)).toFinset ⊆
      Finset.range n \ B.toFinset := by
    intro q hq
    rw [List.mem_toFinset, List.mem_filter] at hq
    rw [Finset.mem_sdiff, Finset.mem_range, List.mem_toFinset]
    exact ⟨hAn q hq.1, by simpa using hq.2⟩
  have h2 := Finset.card_le_card hsub
  rw [List.toFinset_card_of_nodup hnd, Finset.card_sdiff (by
    intro q hq
    rw [List.mem_toFinset] at hq
    exact Finset.mem_range.mpr (hBn q hq)), Finset.card_range,
    List.toFinset_card_of_nodup hB] at h2
  have hBle : B.length ≤ n := by
    have := Finset.card_le_card (show B.toFinset ⊆ Finset.range n from by
      intro q hq
      rw [List.mem_toFinset] at hq
      exact Finset.mem_range.mpr (hBn q hq))
    rwa [List.toFinset_card_of_nodup hB, Finset.card_range] at this
  omega

theorem common_facts (n t x y : Nat) (h2t : 2 * t < n)
    (hx : x < (combs n (n - t) 0).length) (hy : y < (combs n (n - t) 0).length) :
    (common (combs n (n - t) 0) x y).Sorted (· < ·) ∧
    (∀ q ∈ common (combs n (n - t) 0) x y, q < n) ∧
    n - 2 * t ≤ (common (combs n (n - t) 0) x y).length := by
  obtain ⟨a1, a2, a3⟩ := comb_facts n (n - t) x hx
  obtain ⟨b1, b2, b3⟩ := comb_facts n (n - t) y hy
  refine ⟨a2.filter _, fun q hq => a3 q (List.mem_filter.mp hq).1, ?_⟩
  have := length_filter_mem_ge _ _ n (sorted_nodup _ a2) (sorted_nodup _ b2) a3 b3
  unfold common
  omega

theorem mem_common (L : List (List Nat)) (x y q : Nat) :
    q ∈ common L x y ↔ q ∈ L.getD x [] ∧ q ∈ L.getD y [] := by
  simp [common]

theorem destSet_mem (n t x y : Nat) (h2t : 2 * t < n)
    (hx : x < (combs n (n - t) 0).length) (hy : y < (combs n (n - t) 0).length) :
    destSet n t x y ∈ combs n (n - 2 * t) 0 := by
  obtain ⟨h1, h2, h3⟩ := common_facts n t x y h2t hx hy
  rw [mem_combs]
  refine ⟨?_, ?_, ?_⟩
  · unfold destSet
    rw [List.length_take]; omega
  · exact List.Pairwise.sublist (List.take_sublist _ _) h1
  · intro q hq
    exact ⟨Nat.zero_le _, h2 q (List.mem_of_mem_take hq)⟩

theorem destSlot_spec (n t x y : Nat) (h2t : 2 * t < n)
    (hx : x < (combs n (n - t) 0).length) (hy : y < (combs n (n - t) 0).length) :
    destSlot n t x y < (combs n (n - 2 * t) 0).length ∧
      (combs n (n - 2 * t) 0).getD (destSlot n t x y) [] = destSet n t x y :=
  (slotIndex_spec _ _ (destSet_mem n t x y h2t hx hy)).2

theorem mem_destSet (n t x y q : Nat) (h : q ∈ destSet n t x y) :
    q ∈ (combs n (n - t) 0).getD x [] ∧ q ∈ (combs n (n - t) 0).getD y [] :=
  (mem_common _ x y q).mp (List.mem_of_mem_take h)

theorem IndexSetFor_ok (R : Replicator) (n t : Nat) (hR : R.WF n t) (id : Nat) (hid : id < n) :
    R.IndexSetFor id = .ok (slotsOf (combs n (n - t) 0) id) := by
  unfold Replicator.IndexSetFor
  rw [hR.lookup, getE_ok _ _ (by simpa using hid)]
  simp

theorem Combination_ok (R : Replicator) (n t : Nat) (hR : R.WF n t) (x : Nat)
    (hx : x < (combs n (n - t) 0).length) :
    R.Combination x = .ok ((combs n (n - t) 0).getD x []) := by
  unfold Replicator.Combination
  rw [hR.combinations]
  exact getE_ok_getD _ _ _ hx

theorem slotsOf_nodup (L : List (List Nat)) (p : Nat) : (slotsOf L p).Nodup :=
  (List.nodup_range _).filter _

theorem slot_lt (L : List (List Nat)) (p a : Nat) (ha : a < (slotsOf L p).length) :
    (slotsOf L p).getD a 0 < L.length ∧ p ∈ L.getD ((slotsOf L p).getD a 0) [] := by
  have : (slotsOf L p).getD a 0 ∈ slotsOf L p := by
    rw [List.getD_eq_getElem _ _ ha]; exact List.getElem_mem _
  exact (mem_slotsOf L p _).mp this

theorem resize_take (v : List Nat) (k : Nat) (h : k ≤ v.length) : resize v k = v.take k := by
  unfold resize
  have : k - v.length = 0 := by omega
  rw [this]
  simp

theorem firstCommon_ok (R : Replicator) (n t id a b : Nat) (hR : R.WF n t) (h2t : 2 * t < n)
    (hid : id < n) (ha : a < R.mShareSize) (hb : b < R.mShareSize) :
    firstCommon id n t R a b =
      .ok (destSet n t ((slotsOf (combs n (n - t) 0) id).getD a 0)
        ((slotsOf (combs n (n - t) 0) id).getD b 0)) := by
  have hS := hR.share id hid
  obtain ⟨hx, _⟩ := slot_lt (combs n (n - t) 0) id a (by rw [hS]; exact ha)
  obtain ⟨hy, _⟩ := slot_lt (combs n (n - t) 0) id b (by rw [hS]; exact hb)
  obtain ⟨_, a2, _⟩ := comb_facts n (n - t) _ hx
  obtain ⟨_, b2, _⟩ := comb_facts n (n - t) _ hy
  obtain ⟨_, _, c3⟩ := common_facts n t _ _ h2t hx hy
  unfold firstCommon
  rw [IndexSetFor_ok R n t hR id hid]
  simp only
  rw [getE_ok_getD _ a 0 (by rw [hS]; exact ha)]
  simp only
  rw [getE_ok_getD _ b 0 (by rw [hS]; exact hb)]
  simp only
  rw [Combination_ok R n t hR _ hx]
  simp only
  rw [Combination_ok R n t hR _ hy]
  simp only
  rw [Intersection_elems _ _ a2 b2]
  simp only
  rw [resize_take _ _ (by simpa [common] using c3)]
  rfl

theorem tableMultEntry_ok (R DR : Replicator) (n t id a b : Nat) (hR : R.WF n t)
    (hDR : DR.WF n (2 * t)) (h2t : 2 * t < n)
    (hid : id < n) (ha : a < R.mShareSize) (hb : b < R.mShareSize) :
    tableMultEntry id n t R DR a b = .ok (entrySpec n t id a b) := by
  have hS := hR.share id hid
  obtain ⟨hx, _⟩ := slot_lt (combs n (n - t) 0) id a (by rw [hS]; exact ha)
  obtain ⟨hy, _⟩ := slot_lt (combs n (n - t) 0) id b (by rw [hS]; exact hb)
  have hmem := destSet_mem n t _ _ h2t hx hy
  obtain ⟨hd1, hd2⟩ := destSlot_spec n t _ _ h2t hx hy
  have hlen : (destSet n t ((slotsOf (combs n (n - t) 0) id).getD a 0)
      ((slotsOf (combs n (n - t) 0) id).getD b 0)).length = n - 2 * t :=
    ((mem_combs _ _ _ _).mp hmem).1
  unfold tableMultEntry entrySpec
  rw [firstCommon_ok R n t id a b hR h2t hid ha hb]
  simp only
  rw [RevComb_ok DR n (2 * t) hDR _ hmem]
  simp only
  rw [IndexSetFor_ok DR n (2 * t) hDR id hid]
  simp only
  by_cases hin : id ∈ destSet n t ((slotsOf (combs n (n - t) 0) id).getD a 0)
      ((slotsOf (combs n (n - t) 0) id).getD b 0)
  · rw [if_pos hin]
    have hslot : destSlot n t ((slotsOf (combs n (n - t) 0) id).getD a 0)
        ((slotsOf (combs n (n - t) 0) id).getD b 0) ∈ slotsOf (combs n (n - 2 * t) 0) id :=
      (mem_slotsOf _ _ _).mpr ⟨hd1, by rw [hd2]; exact hin⟩
    obtain ⟨j, hj, _, _⟩ := find_mem_nodup _ _ (slotsOf_nodup _ _) hslot
    unfold destSlot at hj ⊢
    rw [hj]
    simp only
    rw [getE_ok_getD _ 0 0 (by rw [hlen]; omega)]
    rfl
  · rw [if_neg hin]
    have hslot : destSlot n t ((slotsOf (combs n (n - t) 0) id).getD a 0)
        ((slotsOf (combs n (n - t) 0) id).getD b 0) ∉ slotsOf (combs n (n - 2 * t) 0) id := by
      intro hm
      have := ((mem_slotsOf _ _ _).mp hm).2
      rw [hd2] at this
      exact hin this
    unfold destSlot at hslot
    rw [find_none _ _ hslot]

theorem allOk_append {α : Type} (u v : List (Except Fault α)) (u' v' : List α)
    (hu : allOk u = .ok u') (hv : allOk v = .ok v') : allOk (u ++ v) = .ok (u' ++ v') := by
  induction u generalizing u' with
  | nil => simp [allOk] at hu; subst hu; simpa using hv
  | cons x xs ih =>
    cases x with
    | error e => simp [allOk] at hu
    | ok a =>
      simp only [allOk] at hu
      cases hxs : allOk xs with
      | error e => rw [hxs] at hu; simp at hu
      | ok as =>
        rw [hxs] at hu
        simp only [Except.ok.injEq] at hu
        subst hu
        show allOk (Except.ok a :: (xs ++ v)) = _
        rw [allOk, ih as hxs]
        rfl

theorem allOk_flatMap {α β γ : Type} (l1 : List α) (l2 : List β)
    (f : α → β → Except Fault γ) (g : α → β → γ)
    (h : ∀ a ∈ l1, ∀ b ∈ l2, f a b = .ok (g a b)) :
    allOk (l1.flatMap (fun a => l2.map (f a))) = .ok (l1.flatMap (fun a => l2.map (g a))) := by
  induction l1 with
  | nil => rfl
  | cons a l1 ih =>
    simp only [List.flatMap_cons]
    apply allOk_append
    · exact allOk_map l2 (f a) (g a) (fun b hb => h a (List.mem_cons_self a l1) b hb)
    · exact ih (fun a' ha' => h a' (List.mem_cons_of_mem a ha'))

theorem tableMult_ok (R DR : Replicator) (n t pid : Nat) (hR : R.WF n t)
    (hDR : DR.WF n (2 * t)) (h2t : 2 * t < n) (hid : pid < n) :
    tableMult pid n t R DR =
      .ok (((List.range R.mShareSize).flatMap (fun a =>
        (List.range R.mShareSize).map (fun b => entrySpec n t pid a b))).filterMap id) := by
  unfold tableMult Replicator.ShareSize
  rw [allOk_flatMap _ _ (fun a b => tableMultEntry pid n t R DR a b)
    (fun a b => entrySpec n t pid a b)
    (fun a ha b hb => tableMultEntry_ok R DR n t pid a b hR hDR h2t hid
      (List.mem_range.mp ha) (List.mem_range.mp hb))]

theorem foldlM_ok {σ α : Type} (f : σ → α → Except Fault σ) (l : List α)
    (h : ∀ x ∈ l, ∀ st, ∃ st', f st x = .ok st') : ∀ st, ∃ st', l.foldlM f st = .ok st' := by
  induction l with
  | nil => intro st; exact ⟨st, rfl⟩
  | cons x xs ih =>
    intro st
    obtain ⟨st1, h1⟩ := h x (List.mem_cons_self x xs) st
    obtain ⟨st2, h2⟩ := ih (fun y hy => h y (List.mem_cons_of_mem x hy)) st1
    exact ⟨st2, by rw [List.foldlM_cons, h1]; exact h2⟩

theorem tableRec_ok (DR : Replicator) (n t id : Nat) (hDR : DR.WF n (2 * t)) (h2t : 2 * t < n)
    (hid : id < n) : ∃ tr, tableRec id n DR = .ok tr := by
  have hS := hDR.share id hid
  obtain ⟨st, hst⟩ := foldlM_ok (tableRecStep id n DR) (List.range DR.ShareSize)
    (fun shr_id hs st => by
      have hs' : shr_id < DR.mShareSize := List.mem_range.mp hs
      obtain ⟨hx, _⟩ := slot_lt (combs n (n - 2 * t) 0) id shr_id (by rw [hS]; exact hs')
      obtain ⟨c1, _, _⟩ := comb_facts n (n - 2 * t) _ hx
      unfold tableRecStep
      rw [IndexSetFor_ok DR n (2 * t) hDR id hid]
      simp only
      rw [getE_ok_getD _ shr_id 0 (by rw [hS]; exact hs')]
      simp only
      rw [Combination_ok DR n (2 * t) hDR _ hx]
      simp only
      rw [getE_ok_getD _ 0 0 (by rw [c1]; omega)]
      exact ⟨_, rfl⟩) ([], [])
  exact ⟨st.2, by unfold tableRec; rw [hst]⟩

theorem Visits_head (m : Nat) (c : List Nat) (R : List (List Nat)) (h : Visits m c R) :
    R.getD 0 [] = c := by
  cases h <;> rfl

theorem combs_head (m k : Nat) (h : k ≤ m) : (combs m k 0).getD 0 [] = List.range' 0 k :=
  Visits_head m _ _ (Visits_combs m k 0 (by omega))

theorem IndexForConstantOperations_ok (R : Replicator) (n t pid : Nat) (hR : R.WF n t)
    (ht : t < n) (hid : pid < n) :
    IndexForConstantOperations pid R = .ok (if pid < n - t then 0 else -1) := by
  unfold IndexForConstantOperations
  rw [IndexSetFor_ok R n t hR pid hid]
  simp only
  have hpos : 0 < (combs n (n - t) 0).length := by
    rw [← hR.additive, hR.additive_choose]
    exact Nat.choose_pos (le_of_lt ht)
  have hhead := combs_head n (n - t) (by omega)
  by_cases h : pid < n - t
  · rw [if_pos h]
    have hcons : ∃ rest, slotsOf (combs n (n - t) 0) pid = 0 :: rest := by
      unfold slotsOf
      obtain ⟨len, hlen⟩ : ∃ len, (combs n (n - t) 0).length = len + 1 :=
        ⟨(combs n (n - t) 0).length - 1, by omega⟩
      rw [hlen, List.range_succ_eq_map, List.filter_cons_of_pos]
      · exact ⟨_, rfl⟩
      · rw [hhead]
        simp [List.mem_range'_1, h]
    obtain ⟨rest, hrest⟩ := hcons
    rw [hrest]
    simp [find]
  · rw [if_neg h]
    have : (0 : Nat) ∉ slotsOf (combs n (n - t) 0) pid := by
      intro hm
      have := ((mem_slotsOf _ _ _).mp hm).2
      rw [hhead] at this
      simp [List.mem_range'_1] at this
      exact h this
    rw [find_none _ _ this]

theorem ShrManipulator_ctor_ok_exact (pid t n : Nat) (ht : 1 ≤ t) (h2t : 2 * t < n)
    (hex : BinomExact n t ∧ BinomExact n (2 * t))
    (hid : pid < n) : ∃ M, ShrManipulator.ctor pid t n = .ok M ∧ M.WF pid t n ∧
      Replicator.ctor n t = .ok M.mReplicator ∧
      Replicator.ctor n (2 * t) = .ok M.mDoubleReplicator := by
  obtain ⟨R, h1, hR⟩ := ctor_ok_exact n t ht (by omega) hex.1
  obtain ⟨DR, h2, hDR⟩ := ctor_ok_exact n (2 * t) (by omega) h2t hex.2
  obtain ⟨tr, h3⟩ := tableRec_ok DR n t pid hDR h2t hid
  have hmod : (2 * t) % SIZE = 2 * t := by
    have := hex.1.1
    exact Nat.mod_eq_of_lt (by unfold SIZE; omega)
  refine ⟨{ mPartyId := pid
            mParties := n
            mThreshold := t
            mTableMult := ((List.range R.mShareSize).flatMap (fun a =>
              (List.range R.mShareSize).map (fun b => entrySpec n t pid a b))).filterMap id
            mTableRec := tr
            mReplicator := R
            mDoubleReplicator := DR
            mIndexForConstantOps := if pid < n - t then 0 else -1 }, ?_, ?_, h1, h2⟩
  · unfold ShrManipulator.ctor
    rw [h1]
    simp only
    rw [hmod, h2]
    simp only
    rw [IndexForConstantOperations_ok R n t pid hR (by omega) hid]
    simp only
    rw [tableMult_ok R DR n t pid hR hDR h2t hid]
    simp only
    rw [h3]
  · exact ⟨rfl, rfl, rfl, hR, hDR, rfl, rfl⟩

theorem ShrManipulator_ctor_ok (pid t n : Nat) (ht : 1 ≤ t) (h2t : 2 * t < n) (hn : n ≤ 30)
    (hid : pid < n) : ∃ M, ShrManipulator.ctor pid t n = .ok M ∧ M.WF pid t n ∧
      Replicator.ctor n t = .ok M.mReplicator ∧
      Replicator.ctor n (2 * t) = .ok M.mDoubleReplicator :=
  ShrManipulator_ctor_ok_exact pid t n ht h2t (BinomExact_pairs n t h2t hn) hid

theorem list_sum_range {F : Type} [CommRing F] (f : Nat → F) (n : Nat) :
    ((List.range n).map f).sum = ∑ i in Finset.range n, f i := by
  induction n with
  | zero => simp
  | succ n ih => rw [List.range_succ, List.map_append, List.sum_append, ih, Finset.sum_range_succ]; simp

theorem list_sum_eq {F : Type} [CommRing F] (l : List F) :
    l.sum = ∑ i in Finset.range l.length, l.getD i 0 := by
  rw [← list_sum_range, map_getD_range]

theorem zipAdds_getD {F : Type} [CommRing F] (op : F → F → F) (A : Nat) (α β : List F)
    (i : Nat) (hi : i < A) : (zipAdds op A α β).getD i 0 = op (α.getD i 0) (β.getD i 0) := by
  unfold zipAdds
  simp [List.getD_eq_getElem?_getD, hi]

theorem zipAdds_sum_add {F : Type} [CommRing F] (α β : List F) (h : α.length = β.length) :
    (zipAdds (fun x y => x + y) α.length α β).sum = α.sum + β.sum := by
  unfold zipAdds
  rw [list_sum_range, Finset.sum_add_distrib, list_sum_eq α, list_sum_eq β, h]

theorem zipAdds_sum_sub {F : Type} [CommRing F] (α β : List F) (h : α.length = β.length) :
    (zipAdds (fun x y => x - y) α.length α β).sum = α.sum - β.sum := by
  unfold zipAdds
  rw [list_sum_range, Finset.sum_sub_distrib, list_sum_eq α, list_sum_eq β, h]

theorem zip_dealt {F : Type} [CommRing F] (op : F → F → F) (L : List (List Nat)) (n : Nat)
    (α β : List F) (p : Nat) (hp : p < n) :
    allOk ((List.range ((dealt L n α).getD p []).length).map
      (zipAt op ((dealt L n α).getD p []) ((dealt L n β).getD p []))) =
      .ok ((dealt L n (zipAdds op L.length α β)).getD p []) := by
  rw [dealt_getD L n (zipAdds op L.length α β) p hp, dealt_getD L n α p hp,
    dealt_getD L n β p hp]
  have hfun : ∀ i ∈ List.range ((slotsOf L p).map (fun idx => α.getD idx 0)).length,
      zipAt op ((slotsOf L p).map (fun idx => α.getD idx 0))
        ((slotsOf L p).map (fun idx => β.getD idx 0)) i =
      .ok (op (α.getD ((slotsOf L p).getD i 0) 0) (β.getD ((slotsOf L p).getD i 0) 0)) := by
    intro i hi
    have hi' : i < (slotsOf L p).length := by simpa using hi
    unfold zipAt
    rw [getE_ok _ i (by simpa using hi')]
    simp only
    rw [getE_ok _ i (by simpa using hi')]
    simp [List.getD_eq_getElem?_getD, List.getElem?_eq_getElem hi']
  rw [allOk_map _ _ _ hfun]
  congr 1
  apply List.ext_getElem (by simp)
  intro i h1 h2
  have hi' : i < (slotsOf L p).length := by simpa using h2
  have hlt := (slot_lt L p i hi').1
  simp only [List.getElem_map, List.getElem_range]
  rw [← zipAdds_getD op L.length α β _ hlt]
  simp [List.getD_eq_getElem?_getD, List.getElem?_eq_getElem hi']

/-- C10 (amended to `n ≤ 30`): for valid sharings of `x` and `y`, the outputs of `Add` of the
`n` parties form a valid sharing of `x + y` and the outputs of `Subtract` a valid sharing of
`x - y`; both work element by element and keep the share length. -/
theorem C10_Add_Subtract {F : Type} [CommRing F] [DecidableEq F]
    (n t : Nat) (ht : 1 ≤ t) (h2t : 2 * t < n) (hn : n ≤ 30) (x y : F)
    (shx shy : List (List F)) (hx : IsSharing n t shx x) (hy : IsSharing n t shy y) :
    ∃ (R : Replicator) (outz outw : List (List F)),
      Replicator.ctor n t = .ok R ∧ outz.length = n ∧ outw.length = n ∧
      (∀ i, i < n → ∃ M, ShrManipulator.ctor i t n = .ok M ∧
        M.Add (shx.getD i []) (shy.getD i []) = .ok (outz.getD i []) ∧
        M.Subtract (shx.getD i []) (shy.getD i []) = .ok (outw.getD i []) ∧
        (outz.getD i []).length = (shx.getD i []).length ∧
        (outw.getD i []).length = (shx.getD i []).length ∧
        ∀ k, k < (shx.getD i []).length →
          (outz.getD i []).getD k 0 = (shx.getD i []).getD k 0 + (shy.getD i []).getD k 0 ∧
          (outw.getD i []).getD k 0 = (shx.getD i []).getD k 0 - (shy.getD i []).getD k 0) ∧
      IsSharing n t outz (x + y) ∧ IsSharing n t outw (x - y) ∧
      R.Reconstruct outz = .ok (x + y) ∧ R.Reconstruct outw = .ok (x - y) := by
  obtain ⟨R, h1, hR⟩ := ctor_ok_exact n t ht (by omega) (BinomExact_pairs n t h2t hn).1
  obtain ⟨α, a1, a2, rfl⟩ := hx
  obtain ⟨β, b1, b2, rfl⟩ := hy
  have hz : IsSharing n t (dealt (combs n (n - t) 0) n
      (zipAdds (fun x y => x + y) (combs n (n - t) 0).length α β)) (x + y) :=
    ⟨_, by simp [zipAdds], by rw [← a1, zipAdds_sum_add α β (a1.trans b1.symm), a2, b2], rfl⟩
  have hw : IsSharing n t (dealt (combs n (n - t) 0) n
      (zipAdds (fun x y => x - y) (combs n (n - t) 0).length α β)) (x - y) :=
    ⟨_, by simp [zipAdds], by rw [← a1, zipAdds_sum_sub α β (a1.trans b1.symm), a2, b2], rfl⟩
  refine ⟨R, _, _, h1, by simp [dealt], by simp [dealt], ?_, hz, hw,
    Reconstruct_IsSharing R n t hR (by omega) _ _ hz,
    Reconstruct_IsSharing R n t hR (by omega) _ _ hw⟩
  intro i hi
  obtain ⟨M, hM, _, _, _⟩ := ShrManipulator_ctor_ok i t n ht h2t hn hi
  have hlen : ∀ γ : List F, ((dealt (combs n (n - t) 0) n γ).getD i []).length =
      (slotsOf (combs n (n - t) 0) i).length := fun γ => by
    rw [dealt_getD _ _ _ i hi, List.length_map]
  refine ⟨M, hM, zip_dealt _ _ n α β i hi, zip_dealt _ _ n α β i hi, ?_, ?_, ?_⟩
  · rw [hlen, hlen]
  · rw [hlen, hlen]
  · intro k hk
    rw [hlen] at hk
    have hlt := (slot_lt _ i k hk).1
    rw [dealt_getD_getD _ _ _ i k hi hk, dealt_getD_getD _ _ _ i k hi hk,
      dealt_getD_getD _ _ _ i k hi hk, dealt_getD_getD _ _ _ i k hi hk,
      zipAdds_getD _ _ _ _ _ hlt, zipAdds_getD _ _ _ _ _ hlt]
    exact ⟨rfl, rfl⟩

theorem getD_set_scalar {F : Type} [CommRing F] (c : List F) (i d : Nat) (v : F)
    (hi : i < c.length) : (c.set i v).getD d 0 = if i = d then v else c.getD d 0 := by
  by_cases h : i = d
  · subst h; simp [List.getD_eq_getElem?_getD, List.getElem?_set, hi]
  · simp [List.getD_eq_getElem?_getD, List.getElem?_set, h]

theorem fold_MultDD {F : Type} [CommRing F] (xs ys : List F) :
    ∀ (E : List MultEntry) (c : List F),
    (∀ e ∈ E, e.src_a < xs.length ∧ e.src_b < ys.length ∧ e.dest_c < c.length) →
    ∃ c', E.foldlM (MultiplyToDoubleDegree.step xs ys) c = .ok c' ∧ c'.length = c.length ∧
      ∀ d, c'.getD d 0 = c.getD d 0 + (E.map (fun e => termDD xs ys d (some e))).sum := by
  intro E
  induction E with
  | nil => intro c _; exact ⟨c, rfl, rfl, by simp⟩
  | cons e E ih =>
    intro c h
    obtain ⟨h1, h2, h3⟩ := h e (List.mem_cons_self e E)
    have hstep : MultiplyToDoubleDegree.step xs ys c e =
        .ok (c.set e.dest_c (c.getD e.dest_c 0 + xs.getD e.src_a 0 * ys.getD e.src_b 0)) := by
      unfold MultiplyToDoubleDegree.step
      rw [getE_ok_getD xs _ 0 h1]; simp only
      rw [getE_ok_getD ys _ 0 h2]; simp only
      rw [getE_ok_getD c _ 0 h3]
    obtain ⟨c', e1, e2, e3⟩ := ih (c.set e.dest_c
      (c.getD e.dest_c 0 + xs.getD e.src_a 0 * ys.getD e.src_b 0))
      (fun e' he' => by
        obtain ⟨a1, a2, a3⟩ := h e' (List.mem_cons_of_mem e he')
        exact ⟨a1, a2, by simpa using a3⟩)
    refine ⟨c', by rw [List.foldlM_cons, hstep]; exact e1, by simpa using e2, ?_⟩
    intro d
    rw [e3 d, getD_set_scalar _ _ _ _ h3, List.map_cons, List.sum_cons]
    unfold termDD
    by_cases hd : e.dest_c = d
    · subst hd; simp only [if_true]; ring
    · simp only [if_neg hd]; ring

theorem fold_MultAdd {F : Type} [CommRing F] (pid : Nat) (xs ys : List F) :
    ∀ (E : List MultEntry) (c : F),
    (∀ e ∈ E, e.src_a < xs.length ∧ e.src_b < ys.length) →
    E.foldlM (MultiplyToAdditive.step pid xs ys) c =
      .ok (c + (E.map (fun e => termAdd xs ys pid (some e))).sum) := by
  intro E
  induction E with
  | nil => intro c _; simp [pure, Except.pure]
  | cons e E ih =>
    intro c h
    obtain ⟨h1, h2⟩ := h e (List.mem_cons_self e E)
    have hstep : MultiplyToAdditive.step pid xs ys c e =
        .ok (c + termAdd xs ys pid (some e)) := by
      unfold MultiplyToAdditive.step termAdd
      by_cases hp : pid = e.first_party
      · rw [if_pos hp, getE_ok_getD xs _ 0 h1]; simp only
        rw [getE_ok_getD ys _ 0 h2]
        simp only [if_pos hp]
      · rw [if_neg hp]; simp only [if_neg hp, add_zero]
    rw [List.foldlM_cons, hstep]
    simp only [bind, Except.bind]
    rw [ih _ (fun e' he' => h e' (List.mem_cons_of_mem e he')), List.map_cons, List.sum_cons,
      add_assoc]

theorem sum_filterMap_id {F : Type} [CommRing F] (g : Option MultEntry → F) (hg : g none = 0) :
    ∀ os : List (Option MultEntry),
    ((os.filterMap id).map (fun e => g (some e))).sum = (os.map g).sum := by
  intro os
  induction os with
  | nil => rfl
  | cons o os ih =>
    cases o with
    | none => simp [ih, hg]
    | some e => simp [ih]

theorem sum_flatMap_map {F : Type} [CommRing F] {β : Type} (l1 l2 : List Nat)
    (h : Nat → Nat → β) (g : β → F) :
    ((l1.flatMap (fun a => l2.map (h a))).map g).sum =
      (l1.map (fun a => (l2.map (fun b => g (h a b))).sum)).sum := by
  induction l1 with
  | nil => rfl
  | cons a l1 ih =>
    simp only [List.flatMap_cons, List.map_append, List.sum_append, List.map_cons, List.sum_cons,
      ih, List.map_map]
    rfl

theorem table_sum {F : Type} [CommRing F] (n t pid S : Nat) (g : Option MultEntry → F)
    (hg : g none = 0) :
    ((((List.range S).flatMap (fun a =>
      (List.range S).map (fun b => entrySpec n t pid a b))).filterMap id).map
        (fun e => g (some e))).sum =
      ∑ a in Finset.range S, ∑ b in Finset.range S, g (entrySpec n t pid a b) := by
  rw [sum_filterMap_id g hg, sum_flatMap_map, list_sum_range]
  apply Finset.sum_congr rfl
  intro a _
  rw [list_sum_range]

theorem sum_map_filter {F : Type} [CommRing F] (q : Nat → Bool) (g : Nat → F) :
    ∀ l : List Nat, ((l.filter q).map g).sum = (l.map (fun x => if q x then g x else 0)).sum := by
  intro l
  induction l with
  | nil => rfl
  | cons x l ih =>
    by_cases h : q x = true
    · rw [List.filter_cons_of_pos h, List.map_cons, List.sum_cons, ih, List.map_cons,
        List.sum_cons, if_pos h]
    · rw [List.filter_cons_of_neg h, ih, List.map_cons, List.sum_cons, if_neg h, zero_add]

theorem map_getD_map {F : Type} [CommRing F] (l : List Nat) (g : Nat → F) :
    (List.range l.length).map (fun a => g (l.getD a 0)) = l.map g := by
  apply List.ext_getElem (by simp)
  intro i h1 h2
  have hi : i < l.length := by simpa using h2
  simp [List.getD_eq_getElem?_getD, List.getElem?_eq_getElem hi]

theorem sum_slots {F : Type} [CommRing F] (L : List (List Nat)) (pid : Nat) (g : Nat → F)
    (hg : ∀ x, x < L.length → pid ∉ L.getD x [] → g x = 0) :
    ∑ a in Finset.range (slotsOf L pid).length, g ((slotsOf L pid).getD a 0) =
      ∑ x in Finset.range L.length, g x := by
  rw [← list_sum_range, map_getD_map]
  unfold slotsOf
  rw [sum_map_filter, list_sum_range]
  apply Finset.sum_congr rfl
  intro x hx
  by_cases h : pid ∈ L.getD x []
  · rw [if_pos (decide_eq_true h)]
  · rw [if_neg (fun hc => h (of_decide_eq_true hc)), hg x (Finset.mem_range.mp hx) h]

theorem termDD_entrySpec {F : Type} [CommRing F] (n t pid a b dloc : Nat) (h2t : 2 * t < n)
    (hid : pid < n) (ha : a < (slotsOf (combs n (n - t) 0) pid).length)
    (hb : b < (slotsOf (combs n (n - t) 0) pid).length)
    (hd : dloc < (slotsOf (combs n (n - 2 * t) 0) pid).length) (α β : List F) :
    termDD ((dealt (combs n (n - t) 0) n α).getD pid [])
      ((dealt (combs n (n - t) 0) n β).getD pid []) dloc (entrySpec n t pid a b) =
    if destSlot n t ((slotsOf (combs n (n - t) 0) pid).getD a 0)
        ((slotsOf (combs n (n - t) 0) pid).getD b 0) =
        (slotsOf (combs n (n - 2 * t) 0) pid).getD dloc 0 then
      α.getD ((slotsOf (combs n (n - t) 0) pid).getD a 0) 0 *
        β.getD ((slotsOf (combs n (n - t) 0) pid).getD b 0) 0
    else 0 := by
  obtain ⟨hx, _⟩ := slot_lt (combs n (n - t) 0) pid a ha
  obtain ⟨hy, _⟩ := slot_lt (combs n (n - t) 0) pid b hb
  obtain ⟨hdl, hdm⟩ := slot_lt (combs n (n - 2 * t) 0) pid dloc hd
  obtain ⟨hd1, hd2⟩ := destSlot_spec n t _ _ h2t hx hy
  unfold entrySpec termDD
  simp only
  by_cases hin : pid ∈ destSet n t ((slotsOf (combs n (n - t) 0) pid).getD a 0)
      ((slotsOf (combs n (n - t) 0) pid).getD b 0)
  · rw [if_pos hin]
    simp only
    have hslot : destSlot n t ((slotsOf (combs n (n - t) 0) pid).getD a 0)
        ((slotsOf (combs n (n - t) 0) pid).getD b 0) ∈ slotsOf (combs n (n - 2 * t) 0) pid :=
      (mem_slotsOf _ _ _).mpr ⟨hd1, by rw [hd2]; exact hin⟩
    obtain ⟨j, hj, hjl, hjv⟩ := find_mem_nodup _ _ (slotsOf_nodup _ _) hslot
    rw [hj, Option.getD_some, dealt_getD_getD _ _ _ pid a hid ha,
      dealt_getD_getD _ _ _ pid b hid hb]
    by_cases hjd : j = dloc
    · subst hjd
      rw [if_pos rfl, if_pos hjv.symm]
    · rw [if_neg hjd, if_neg]
      intro h
      apply hjd
      have e1 := find_getD_nodup _ j (slotsOf_nodup _ _) hjl
      have e2 := find_getD_nodup _ dloc (slotsOf_nodup _ _) hd
      rw [hjv, h, e2] at e1
      exact (Option.some.inj e1).symm
  · rw [if_neg hin]
    simp only
    rw [if_neg]
    intro h
    apply hin
    rw [← hd2, h]
    exact hdm

theorem prod_zero_of_not_mem {F : Type} [CommRing F] (n t pid x y d : Nat) (h2t : 2 * t < n)
    (hx : x < (combs n (n - t) 0).length) (hy : y < (combs n (n - t) 0).length)
    (hd : pid ∈ (combs n (n - 2 * t) 0).getD d [])
    (hnot : pid ∉ (combs n (n - t) 0).getD x [] ∨ pid ∉ (combs n (n - t) 0).getD y [])
    (v : F) : (if destSlot n t x y = d then v else 0) = 0 := by
  rw [if_neg]
  intro h
  obtain ⟨_, hd2⟩ := destSlot_spec n t x y h2t hx hy
  rw [h] at hd2
  rw [hd2] at hd
  obtain ⟨m1, m2⟩ := mem_destSet n t x y pid hd
  rcases hnot with h' | h'
  · exact h' m1
  · exact h' m2

theorem MultDD_sum {F : Type} [CommRing F] (n t pid dloc : Nat) (h2t : 2 * t < n)
    (hid : pid < n) (hd : dloc < (slotsOf (combs n (n - 2 * t) 0) pid).length) (α β : List F) :
    ∑ a in Finset.range (slotsOf (combs n (n - t) 0) pid).length,
      ∑ b in Finset.range (slotsOf (combs n (n - t) 0) pid).length,
        termDD ((dealt (combs n (n - t) 0) n α).getD pid [])
          ((dealt (combs n (n - t) 0) n β).getD pid []) dloc (entrySpec n t pid a b) =
      prodSlot n t α β ((slotsOf (combs n (n - 2 * t) 0) pid).getD dloc 0) := by
  obtain ⟨hdl, hdm⟩ := slot_lt (combs n (n - 2 * t) 0) pid dloc hd
  have h1 : ∀ a ∈ Finset.range (slotsOf (combs n (n - t) 0) pid).length,
      ∑ b in Finset.range (slotsOf (combs n (n - t) 0) pid).length,
        termDD ((dealt (combs n (n - t) 0) n α).getD pid [])
          ((dealt (combs n (n - t) 0) n β).getD pid []) dloc (entrySpec n t pid a b) =
      ∑ y in Finset.range (combs n (n - t) 0).length,
        if destSlot n t ((slotsOf (combs n (n - t) 0) pid).getD a 0) y =
            (slotsOf (combs n (n - 2 * t) 0) pid).getD dloc 0 then
          α.getD ((slotsOf (combs n (n - t) 0) pid).getD a 0) 0 * β.getD y 0
        else 0 := by
    intro a ha
    have ha' := Finset.mem_range.mp ha
    obtain ⟨hx, _⟩ := slot_lt (combs n (n - t) 0) pid a ha'
    rw [← sum_slots (combs n (n - t) 0) pid _ (fun y hy hnot =>
      prod_zero_of_not_mem n t pid _ y _ h2t hx hy hdm (Or.inr hnot) _)]
    apply Finset.sum_congr rfl
    intro b hb
    exact termDD_entrySpec n t pid a b dloc h2t hid ha' (Finset.mem_range.mp hb) hd α β
  rw [Finset.sum_congr rfl h1]
  unfold prodSlot
  rw [← sum_slots (combs n (n - t) 0) pid _ (fun x hx hnot => by
    apply Finset.sum_eq_zero
    intro y hy
    exact prod_zero_of_not_mem n t pid x y _ h2t hx (Finset.mem_range.mp hy) hdm
      (Or.inl hnot) _)]

theorem prodAdds_getD {F : Type} [CommRing F] (n t : Nat) (α β : List F) (d : Nat)
    (hd : d < (combs n (n - 2 * t) 0).length) :
    (prodAdds n t α β).getD d 0 = prodSlot n t α β d := by
  unfold prodAdds
  simp [List.getD_eq_getElem?_getD, hd]

theorem prodAdds_sum {F : Type} [CommRing F] (n t : Nat) (h2t : 2 * t < n) (α β : List F)
    (ha : α.length = (combs n (n - t) 0).length) (hb : β.length = (combs n (n - t) 0).length) :
    (prodAdds n t α β).sum = α.sum * β.sum := by
  unfold prodAdds
  rw [list_sum_range]
  unfold prodSlot
  rw [Finset.sum_comm]
  rw [list_sum_eq α, list_sum_eq β, Finset.sum_mul_sum, ha, hb]
  apply Finset.sum_congr rfl
  intro x hx
  rw [Finset.sum_comm]
  apply Finset.sum_congr rfl
  intro y hy
  rw [Finset.sum_ite_eq]
  rw [if_pos]
  exact Finset.mem_range.mpr
    (destSlot_spec n t x y h2t (Finset.mem_range.mp hx) (Finset.mem_range.mp hy)).1

theorem entrySpec_some (n t pid a b : Nat) (h2t : 2 * t < n)
    (ha : a < (slotsOf (combs n (n - t) 0) pid).length)
    (hb : b < (slotsOf (combs n (n - t) 0) pid).length) (e : MultEntry)
    (h : entrySpec n t pid a b = some e) :
    e.src_a = a ∧ e.src_b = b ∧ e.dest_c < (slotsOf (combs n (n - 2 * t) 0) pid).length := by
  obtain ⟨hx, _⟩ := slot_lt (combs n (n - t) 0) pid a ha
  obtain ⟨hy, _⟩ := slot_lt (combs n (n - t) 0) pid b hb
  obtain ⟨hd1, hd2⟩ := destSlot_spec n t _ _ h2t hx hy
  unfold entrySpec at h
  simp only at h
  split_ifs at h with hin
  have hslot : destSlot n t ((slotsOf (combs n (n - t) 0) pid).getD a 0)
      ((slotsOf (combs n (n - t) 0) pid).getD b 0) ∈ slotsOf (combs n (n - 2 * t) 0) pid :=
    (mem_slotsOf _ _ _).mpr ⟨hd1, by rw [hd2]; exact hin⟩
  obtain ⟨j, hj, hjl, _⟩ := find_mem_nodup _ _ (slotsOf_nodup _ _) hslot
  rw [hj] at h
  simp only [Option.some.injEq, Option.getD_some] at h
  subst h
  exact ⟨rfl, rfl, hjl⟩

theorem mem_table (n t pid S : Nat) (e : MultEntry)
    (h : e ∈ ((List.range S).flatMap (fun a =>
      (List.range S).map (fun b => entrySpec n t pid a b))).filterMap id) :
    ∃ a b, a < S ∧ b < S ∧ entrySpec n t pid a b = some e := by
  rw [List.mem_filterMap] at h
  obtain ⟨o, ho, he⟩ := h
  rw [List.mem_flatMap] at ho
  obtain ⟨a, ha, hb⟩ := ho
  rw [List.mem_map] at hb
  obtain ⟨b, hb, rfl⟩ := hb
  exact ⟨a, b, List.mem_range.mp ha, List.mem_range.mp hb, he⟩

theorem MultDD_dealt {F : Type} [CommRing F] [DecidableEq F] (M : ShrManipulator)
    (n t pid : Nat) (hM : M.WF pid t n)
    (h2t : 2 * t < n) (hid : pid < n) (α β : List F) :
    M.MultiplyToDoubleDegree ((dealt (combs n (n - t) 0) n α).getD pid [])
      ((dealt (combs n (n - t) 0) n β).getD pid []) =
      .ok ((dealt (combs n (n - 2 * t) 0) n (prodAdds n t α β)).getD pid []) := by
  have hS := hM.rep.share pid hid
  have hSD := hM.drep.share pid hid
  have hlen : ∀ γ : List F, ((dealt (combs n (n - t) 0) n γ).getD pid []).length =
      (slotsOf (combs n (n - t) 0) pid).length := fun γ => by
    rw [dealt_getD _ _ _ pid hid, List.length_map]
  obtain ⟨c', h1, h2, h3⟩ := fold_MultDD ((dealt (combs n (n - t) 0) n α).getD pid [])
    ((dealt (combs n (n - t) 0) n β).getD pid []) M.mTableMult
    (List.replicate M.mDoubleReplicator.ShareSize 0)
    (fun e he => by
      rw [hM.tableMult] at he
      obtain ⟨a, b, ha, hb, hab⟩ := mem_table n t pid _ e he
      obtain ⟨e1, e2, e3⟩ := entrySpec_some n t pid a b h2t (by rw [hS]; exact ha)
        (by rw [hS]; exact hb) e hab
      rw [hlen, hlen, e1, e2, hS]
      refine ⟨ha, hb, ?_⟩
      rw [List.length_replicate]
      unfold Replicator.ShareSize
      rw [← hSD]; exact e3)
  unfold ShrManipulator.MultiplyToDoubleDegree
  rw [h1]
  congr 1
  rw [dealt_getD _ _ _ pid hid]
  rw [List.length_replicate] at h2
  unfold Replicator.ShareSize at h2
  apply List.ext_getElem (by rw [h2, List.length_map, hSD])
  intro d hd1 hd2
  have hd : d < (slotsOf (combs n (n - 2 * t) 0) pid).length := by simpa using hd2
  have hget := h3 d
  rw [List.getD_eq_getElem _ _ hd1] at hget
  rw [hget, hM.tableMult, table_sum n t pid _ _ rfl, ← hS, MultDD_sum n t pid d h2t hid hd α β]
  have hz : (List.replicate M.mDoubleReplicator.ShareSize (0 : F)).getD d 0 = 0 := by
    simp only [List.getD_eq_getElem?_getD, List.getElem?_replicate]
    split_ifs <;> rfl
  rw [hz, zero_add, List.getElem_map, ← prodAdds_getD n t α β _ (slot_lt _ pid d hd).1,
    List.getD_eq_getElem _ _ hd]

theorem prodAdds_IsSharing {F : Type} [CommRing F] (n t : Nat) (h2t : 2 * t < n) (α β : List F)
    (ha : α.length = (combs n (n - t) 0).length) (hb : β.length = (combs n (n - t) 0).length) :
    IsSharing n (2 * t) (dealt (combs n (n - 2 * t) 0) n (prodAdds n t α β)) (α.sum * β.sum) :=
  ⟨prodAdds n t α β, by simp [prodAdds], prodAdds_sum n t h2t α β ha hb, rfl⟩

/-- C4 (amended to `n ≤ 30`): when every party applies `MultiplyToDoubleDegree` to its shares
of `Share_t(a)` and `Share_t(b)`, the `n` outputs form a valid `(n, 2t)` sharing of `a * b`:
each has the `(n, 2t)` share size, all copies of every slot agree, and reconstruction with
the `(n, 2t)` replicator returns `a * b`. -/
theorem C4_MultiplyToDoubleDegree {F : Type} [CommRing F] [DecidableEq F] [FieldBytes F]
    {G : Type} [PRG G]
    (n t : Nat) (ht : 1 ≤ t) (h2t : 2 * t < n) (hn : n ≤ 30) (a b : F) (prg : G) :
    ∃ (R DR : Replicator) (sha shb outs : List (List F)) (prg1 prg2 : G),
      Replicator.ctor n t = .ok R ∧ Replicator.ctor n (2 * t) = .ok DR ∧
      R.Share a prg = .ok (sha, prg1) ∧ R.Share b prg1 = .ok (shb, prg2) ∧
      outs.length = n ∧
      (∀ i, i < n → ∃ M, ShrManipulator.ctor i t n = .ok M ∧
        M.MultiplyToDoubleDegree (sha.getD i []) (shb.getD i []) = .ok (outs.getD i []) ∧
        (outs.getD i []).length = DR.ShareSize) ∧
      IsSharing n (2 * t) outs (a * b) ∧
      DR.ErrorDetection outs = .ok (a * b) ∧ DR.Reconstruct outs = .ok (a * b) := by
  obtain ⟨hex1, hex2⟩ := BinomExact_pairs n t h2t hn
  obtain ⟨R, h1, hR⟩ := ctor_ok_exact n t ht (by omega) hex1
  obtain ⟨DR, h2, hDR⟩ := ctor_ok_exact n (2 * t) (by omega) h2t hex2
  obtain ⟨α, prg1, a1, a2, a3⟩ :=
    Share_ok R n t hR (additive_ne_zero R n t hR (by omega)) a prg
  obtain ⟨β, prg2, b1, b2, b3⟩ :=
    Share_ok R n t hR (additive_ne_zero R n t hR (by omega)) b prg1
  have hsh := prodAdds_IsSharing n t h2t α β a1 b1
  rw [a2, b2] at hsh
  refine ⟨R, DR, _, _, dealt (combs n (n - 2 * t) 0) n (prodAdds n t α β), prg1, prg2,
    h1, h2, a3, b3, by simp [dealt], ?_, hsh,
    ErrorDetection_IsSharing DR n (2 * t) hDR h2t _ _ hsh,
    Reconstruct_IsSharing DR n (2 * t) hDR h2t _ _ hsh⟩
  intro i hi
  obtain ⟨M, hM, hW, _, _⟩ := ShrManipulator_ctor_ok i t n ht h2t hn hi
  refine ⟨M, hM, MultDD_dealt M n t i hW h2t hi α β, ?_⟩
  rw [dealt_getD _ _ _ i hi, List.length_map]
  exact hDR.share i hi

theorem destSet_head (n t x y : Nat) (h2t : 2 * t < n)
    (hx : x < (combs n (n - t) 0).length) (hy : y < (combs n (n - t) 0).length) :
    (destSet n t x y).getD 0 0 ∈ destSet n t x y ∧ (destSet n t x y).getD 0 0 ≤ 2 * t := by
  obtain ⟨h1, h2, h3⟩ := (mem_combs _ _ _ _).mp (destSet_mem n t x y h2t hx hy)
  cases hc : destSet n t x y with
  | nil => rw [hc] at h1; simp at h1; omega
  | cons q rest =>
    rw [hc] at h1 h2 h3
    refine ⟨by simp, ?_⟩
    have hs := List.sorted_cons.mp h2
    have := sorted_room (q :: rest) q n h2 (fun z hz => by
      rcases List.mem_cons.mp hz with rfl | hz
      · exact ⟨le_refl _, (h3 z (List.mem_cons_self _ _)).2⟩
      · exact ⟨le_of_lt (hs.1 z hz), (h3 z (List.mem_cons_of_mem _ hz)).2⟩) (by simp)
    rw [h1] at this
    simp only [List.getD_cons_zero]
    omega

theorem termAdd_entrySpec {F : Type} [CommRing F] (n t pid a b : Nat) (h2t : 2 * t < n)
    (hid : pid < n) (ha : a < (slotsOf (combs n (n - t) 0) pid).length)
    (hb : b < (slotsOf (combs n (n - t) 0) pid).length) (α β : List F) :
    termAdd ((dealt (combs n (n - t) 0) n α).getD pid [])
      ((dealt (combs n (n - t) 0) n β).getD pid []) pid (entrySpec n t pid a b) =
    if (destSet n t ((slotsOf (combs n (n - t) 0) pid).getD a 0)
        ((slotsOf (combs n (n - t) 0) pid).getD b 0)).getD 0 0 = pid then
      α.getD ((slotsOf (combs n (n - t) 0) pid).getD a 0) 0 *
        β.getD ((slotsOf (combs n (n - t) 0) pid).getD b 0) 0
    else 0 := by
  obtain ⟨hx, _⟩ := slot_lt (combs n (n - t) 0) pid a ha
  obtain ⟨hy, _⟩ := slot_lt (combs n (n - t) 0) pid b hb
  obtain ⟨hh, _⟩ := destSet_head n t _ _ h2t hx hy
  unfold entrySpec termAdd
  simp only
  by_cases hin : pid ∈ destSet n t ((slotsOf (combs n (n - t) 0) pid).getD a 0)
      ((slotsOf (combs n (n - t) 0) pid).getD b 0)
  · rw [if_pos hin]
    simp only
    rw [dealt_getD_getD _ _ _ pid a hid ha, dealt_getD_getD _ _ _ pid b hid hb]
    by_cases hp : pid = (destSet n t ((slotsOf (combs n (n - t) 0) pid).getD a 0)
        ((slotsOf (combs n (n - t) 0) pid).getD b 0)).getD 0 0
    · rw [if_pos hp, if_pos hp.symm]
    · rw [if_neg hp, if_neg (fun h => hp h.symm)]
  · rw [if_neg hin]
    simp only
    rw [if_neg]
    intro h
    rw [h] at hh
    exact hin hh

theorem share_zero_of_not_mem {F : Type} [CommRing F] (n t pid x y : Nat) (h2t : 2 * t < n)
    (hx : x < (combs n (n - t) 0).length) (hy : y < (combs n (n - t) 0).length)
    (hnot : pid ∉ (combs n (n - t) 0).getD x [] ∨ pid ∉ (combs n (n - t) 0).getD y [])
    (v : F) : (if (destSet n t x y).getD 0 0 = pid then v else 0) = 0 := by
  rw [if_neg]
  intro h
  obtain ⟨hh, _⟩ := destSet_head n t x y h2t hx hy
  rw [h] at hh
  obtain ⟨m1, m2⟩ := mem_destSet n t x y pid hh
  rcases hnot with h' | h'
  · exact h' m1
  · exact h' m2

theorem MultAdd_sum {F : Type} [CommRing F] (n t pid : Nat) (h2t : 2 * t < n)
    (hid : pid < n) (α β : List F) :
    ∑ a in Finset.range (slotsOf (combs n (n - t) 0) pid).length,
      ∑ b in Finset.range (slotsOf (combs n (n - t) 0) pid).length,
        termAdd ((dealt (combs n (n - t) 0) n α).getD pid [])
          ((dealt (combs n (n - t) 0) n β).getD pid []) pid (entrySpec n t pid a b) =
      prodShare n t α β pid := by
  have h1 : ∀ a ∈ Finset.range (slotsOf (combs n (n - t) 0) pid).length,
      ∑ b in Finset.range (slotsOf (combs n (n - t) 0) pid).length,
        termAdd ((dealt (combs n (n - t) 0) n α).getD pid [])
          ((dealt (combs n (n - t) 0) n β).getD pid []) pid (entrySpec n t pid a b) =
      ∑ y in Finset.range (combs n (n - t) 0).length,
        if (destSet n t ((slotsOf (combs n (n - t) 0) pid).getD a 0) y).getD 0 0 = pid then
          α.getD ((slotsOf (combs n (n - t) 0) pid).getD a 0) 0 * β.getD y 0
        else 0 := by
    intro a ha
    have ha' := Finset.mem_range.mp ha
    obtain ⟨hx, _⟩ := slot_lt (combs n (n - t) 0) pid a ha'
    rw [← sum_slots (combs n (n - t) 0) pid _ (fun y hy hnot =>
      share_zero_of_not_mem n t pid _ y h2t hx hy (Or.inr hnot) _)]
    apply Finset.sum_congr rfl
    intro b hb
    exact termAdd_entrySpec n t pid a b h2t hid ha' (Finset.mem_range.mp hb) α β
  rw [Finset.sum_congr rfl h1]
  unfold prodShare
  rw [← sum_slots (combs n (n - t) 0) pid _ (fun x hx hnot => by
    apply Finset.sum_eq_zero
    intro y hy
    exact share_zero_of_not_mem n t pid x y h2t hx (Finset.mem_range.mp hy) (Or.inl hnot) _)]

theorem MultAdd_dealt {F : Type} [CommRing F] [DecidableEq F] (M : ShrManipulator)
    (n t pid : Nat) (hM : M.WF pid t n)
    (h2t : 2 * t < n) (hid : pid < n) (α β : List F) :
    M.MultiplyToAdditive ((dealt (combs n (n - t) 0) n α).getD pid [])
      ((dealt (combs n (n - t) 0) n β).getD pid []) = .ok (prodShare n t α β pid) := by
  have hS := hM.rep.share pid hid
  have hlen : ∀ γ : List F, ((dealt (combs n (n - t) 0) n γ).getD pid []).length =
      (slotsOf (combs n (n - t) 0) pid).length := fun γ => by
    rw [dealt_getD _ _ _ pid hid, List.length_map]
  unfold ShrManipulator.MultiplyToAdditive
  rw [hM.party, fold_MultAdd pid _ _ M.mTableMult 0 (fun e he => by
      rw [hM.tableMult] at he
      obtain ⟨a, b, ha, hb, hab⟩ := mem_table n t pid _ e he
      obtain ⟨e1, e2, _⟩ := entrySpec_some n t pid a b h2t (by rw [hS]; exact ha)
        (by rw [hS]; exact hb) e hab
      rw [hlen, hlen, e1, e2, hS]
      exact ⟨ha, hb⟩)]
  rw [zero_add, hM.tableMult, table_sum n t pid _ _ rfl, ← hS, MultAdd_sum n t pid h2t hid α β]

theorem prodShare_sum {F : Type} [CommRing F] (n t : Nat) (h2t : 2 * t < n) (α β : List F)
    (ha : α.length = (combs n (n - t) 0).length) (hb : β.length = (combs n (n - t) 0).length) :
    ∑ p in Finset.range (2 * t + 1), prodShare n t α β p = α.sum * β.sum := by
  unfold prodShare
  rw [Finset.sum_comm]
  rw [list_sum_eq α, list_sum_eq β, Finset.sum_mul_sum, ha, hb]
  apply Finset.sum_congr rfl
  intro x hx
  rw [Finset.sum_comm]
  apply Finset.sum_congr rfl
  intro y hy
  rw [Finset.sum_ite_eq]
  rw [if_pos]
  have := (destSet_head n t x y h2t (Finset.mem_range.mp hx) (Finset.mem_range.mp hy)).2
  exact Finset.mem_range.mpr (by omega)

theorem table_first_party (n t pid S : Nat) (h2t : 2 * t < n)
    (hS : S = (slotsOf (combs n (n - t) 0) pid).length) (e : MultEntry)
    (h : e ∈ ((List.range S).flatMap (fun a =>
      (List.range S).map (fun b => entrySpec n t pid a b))).filterMap id) :
    e.first_party ≤ 2 * t := by
  obtain ⟨a, b, ha, hb, hab⟩ := mem_table n t pid S e h
  obtain ⟨hx, _⟩ := slot_lt (combs n (n - t) 0) pid a (by rw [← hS]; exact ha)
  obtain ⟨hy, _⟩ := slot_lt (combs n (n - t) 0) pid b (by rw [← hS]; exact hb)
  unfold entrySpec at hab
  simp only at hab
  split_ifs at hab
  simp only [Option.some.injEq] at hab
  subst hab
  exact (destSet_head n t _ _ h2t hx hy).2

/-- C5 (amended to `n ≤ 30`): the outputs of `MultiplyToAdditive` of the parties `0 .. 2t`, on
their shares of `Share_t(a)` and `Share_t(b)`, add up to `a * b`; every table entry names a
first party of index at most `2t`. -/
theorem C5_MultiplyToAdditive {F : Type} [CommRing F] [DecidableEq F] [FieldBytes F]
    {G : Type} [PRG G]
    (n t : Nat) (ht : 1 ≤ t) (h2t : 2 * t < n) (hn : n ≤ 30) (a b : F) (prg : G) :
    ∃ (R : Replicator) (sha shb : List (List F)) (prg1 prg2 : G) (z : Nat → F),
      Replicator.ctor n t = .ok R ∧
      R.Share a prg = .ok (sha, prg1) ∧ R.Share b prg1 = .ok (shb, prg2) ∧
      (∀ i, i < n → ∃ M, ShrManipulator.ctor i t n = .ok M ∧
        M.MultiplyToAdditive (sha.getD i []) (shb.getD i []) = .ok (z i) ∧
        ∀ e ∈ M.mTableMult, e.first_party ≤ 2 * t) ∧
      ∑ i in Finset.range (2 * t + 1), z i = a * b := by
  obtain ⟨hex1, _⟩ := BinomExact_pairs n t h2t hn
  obtain ⟨R, h1, hR⟩ := ctor_ok_exact n t ht (by omega) hex1
  obtain ⟨α, prg1, a1, a2, a3⟩ :=
    Share_ok R n t hR (additive_ne_zero R n t hR (by omega)) a prg
  obtain ⟨β, prg2, b1, b2, b3⟩ :=
    Share_ok R n t hR (additive_ne_zero R n t hR (by omega)) b prg1
  refine ⟨R, _, _, prg1, prg2, prodShare n t α β, h1, a3, b3, ?_, ?_⟩
  · intro i hi
    obtain ⟨M, hM, hW, _, _⟩ := ShrManipulator_ctor_ok i t n ht h2t hn hi
    refine ⟨M, hM, MultAdd_dealt M n t i hW h2t hi α β, ?_⟩
    intro e he
    rw [hW.tableMult] at he
    exact table_first_party n t i _ h2t (hW.rep.share i hi).symm e he
  · rw [prodShare_sum n t h2t α β a1 b1, a2, b2]

theorem AddAndMsgs_step {F : Type} [CommRing F] (pid : Nat) (xs ys : List F) (e : MultEntry)
    (c : F) (msgs : List (List F)) (h1 : e.src_a < xs.length) (h2 : e.src_b < ys.length)
    (h3 : e.first_party < msgs.length)
    (h4 : e.dest_c < (msgs.getD e.first_party []).length) :
    MultiplyToAddAndMsgs.step pid xs ys ⟨c, msgs⟩ e =
      .ok ⟨if pid = e.first_party then c + xs.getD e.src_a 0 * ys.getD e.src_b 0 else c,
        msgs.set e.first_party ((msgs.getD e.first_party []).set e.dest_c
          ((msgs.getD e.first_party []).getD e.dest_c 0 +
            xs.getD e.src_a 0 * ys.getD e.src_b 0))⟩ := by
  unfold MultiplyToAddAndMsgs.step
  rw [getE_ok_getD xs _ 0 h1, getE_ok_getD ys _ 0 h2]
  simp only
  rw [getE_ok_getD msgs _ [] h3]
  simp only
  rw [getE_ok_getD _ _ 0 h4]

theorem fold_AddAndMsgs {F : Type} [CommRing F] (pid S : Nat) (xs ys : List F) :
    ∀ (E : List MultEntry) (c : F) (msgs : List (List F)),
    (∀ e ∈ E, e.src_a < xs.length ∧ e.src_b < ys.length ∧ e.first_party < msgs.length ∧
      e.dest_c < S) →
    (∀ row ∈ msgs, row.length = S) →
    ∃ msgs', E.foldlM (MultiplyToAddAndMsgs.step pid xs ys) ⟨c, msgs⟩ =
      .ok ⟨c + (E.map (fun e => termAdd xs ys pid (some e))).sum, msgs'⟩ := by
  intro E
  induction E with
  | nil => intro c msgs _ _; exact ⟨msgs, by simp [pure, Except.pure]⟩
  | cons e E ih =>
    intro c msgs h hrow
    obtain ⟨h1, h2, h3, h4⟩ := h e (List.mem_cons_self e E)
    have hr : (msgs.getD e.first_party []).length = S :=
      hrow _ (by rw [List.getD_eq_getElem _ _ h3]; exact List.getElem_mem h3)
    obtain ⟨msgs', hm⟩ := ih (if pid = e.first_party then c + xs.getD e.src_a 0 * ys.getD e.src_b 0
        else c)
      (msgs.set e.first_party ((msgs.getD e.first_party []).set e.dest_c
        ((msgs.getD e.first_party []).getD e.dest_c 0 + xs.getD e.src_a 0 * ys.getD e.src_b 0)))
      (fun e' he' => by
        obtain ⟨a1, a2, a3, a4⟩ := h e' (List.mem_cons_of_mem e he')
        exact ⟨a1, a2, by rw [List.length_set]; exact a3, a4⟩)
      (fun row hr' => by
        rcases List.mem_or_eq_of_mem_set hr' with h' | h'
        · exact hrow row h'
        · rw [h', List.length_set]; exact hr)
    refine ⟨msgs', ?_⟩
    rw [List.foldlM_cons, AddAndMsgs_step pid xs ys e c msgs h1 h2 h3 (by rw [hr]; exact h4)]
    show List.foldlM _ _ E = _
    rw [hm]
    congr 2
    rw [List.map_cons, List.sum_cons]
    unfold termAdd
    simp only
    split_ifs <;> ring

theorem Prepare_ok {F : Type} [CommRing F] [DecidableEq F] [FieldBytes F] {G : Type} [PRG G]
    (R M : _) (n t pid : Nat) (hR : R.WF n t) (hM : M.WF pid t n) (h2t : 2 * t < n)
    (hid : pid < n) (α β : List F) (c c' : Correlator G) (rs : RandomShare F)
    (hgen : c.GenRandomShare = .ok (rs, c')) :
    ∃ P, (Mult.ctor pid n R M c (CheckData.ctor t) : Mult F G).Prepare
        ((dealt (combs n (n - t) 0) n α).getD pid [])
        ((dealt (combs n (n - t) 0) n β).getD pid []) = .ok P ∧
      Prepared P pid t n M rs (prodShare n t α β pid - rs.add_share) := by
  have hS := hM.rep.share pid hid
  have hSD := hM.drep.share pid hid
  have hlen : ∀ γ : List F, ((dealt (combs n (n - t) 0) n γ).getD pid []).length =
      (slotsOf (combs n (n - t) 0) pid).length := fun γ => by
    rw [dealt_getD _ _ _ pid hid, List.length_map]
  obtain ⟨msgs', hm⟩ := fold_AddAndMsgs pid M.mDoubleReplicator.ShareSize
    ((dealt (combs n (n - t) 0) n α).getD pid [])
    ((dealt (combs n (n - t) 0) n β).getD pid []) M.mTableMult 0
    (List.replicate (2 * t + 1) (List.replicate M.mDoubleReplicator.ShareSize 0))
    (fun e he => by
      have hf : e.first_party ≤ 2 * t := by
        rw [hM.tableMult] at he
        exact table_first_party n t pid _ h2t hS.symm e he
      rw [hM.tableMult] at he
      obtain ⟨a, b, ha, hb, hab⟩ := mem_table n t pid _ e he
      obtain ⟨e1, e2, e3⟩ := entrySpec_some n t pid a b h2t (by rw [hS]; exact ha)
        (by rw [hS]; exact hb) e hab
      rw [hlen, hlen, e1, e2, hS]
      refine ⟨ha, hb, ?_, ?_⟩
      · rw [List.length_replicate]; omega
      · unfold Replicator.ShareSize
        rw [← hSD]; exact e3)
    (fun row hrow => by rw [List.eq_of_mem_replicate hrow, List.length_replicate])
  have hsum : (M.mTableMult.map (fun e => termAdd ((dealt (combs n (n - t) 0) n α).getD pid [])
      ((dealt (combs n (n - t) 0) n β).getD pid []) pid (some e))).sum = prodShare n t α β pid := by
    rw [hM.tableMult, table_sum n t pid _ _ rfl, ← hS, MultAdd_sum n t pid h2t hid α β]
  rw [zero_add, hsum] at hm
  unfold Mult.Prepare
  simp only [Mult.ctor]
  rw [hgen]
  simp only [Mult.MultiplyToAddAndMsgs, hR.threshold]
  rw [hm]
  simp only
  refine ⟨_, rfl, ?_⟩
  constructor <;> simp [CheckData.ctor, hR.threshold]

theorem foldlM_range_inv {σ : Type} (f : σ → Nat → Except Fault σ) (Inv : Nat → σ → Prop) :
    ∀ (n : Nat) (init : σ), Inv 0 init →
    (∀ k st, k < n → Inv k st → ∃ st', f st k = .ok st' ∧ Inv (k + 1) st') →
    ∃ st', (List.range n).foldlM f init = .ok st' ∧ Inv n st' := by
  intro n
  induction n with
  | zero => intro init h0 _; exact ⟨init, rfl, h0⟩
  | succ n ih =>
    intro init h0 hstep
    obtain ⟨st1, h1, i1⟩ := ih init h0 (fun k st hk hi => hstep k st (by omega) hi)
    obtain ⟨st2, h2, i2⟩ := hstep n st1 (by omega) i1
    refine ⟨st2, ?_, i2⟩
    rw [List.range_succ, List.foldlM_append, h1]
    show List.foldlM f st1 [n] = _
    rw [List.foldlM_cons, h2]
    rfl

theorem Prepared_bumped {F G : Type} (P : Mult F G) (pid t n : Nat) (M : ShrManipulator)
    (rs : RandomShare F) (a : F) (h : Prepared P pid t n M rs a) :
    Prepared P.bumped pid t n M rs a :=
  ⟨h.id, h.threshold, h.size, h.manipulator, h.count, h.random, h.send, h.recv, h.check⟩

theorem RunSend_other {F : Type} [CommRing F] [DecidableEq F] [FieldBytes F] {G : Type} [PRG G]
    (P : Mult F G) (pid t n : Nat) (M : ShrManipulator) (rs : RandomShare F) (a : F)
    (h : Prepared P pid t n M rs a) (hpid : pid ≠ 0) (net : Net F) :
    P.RunSend net = .ok (P.bumped, if pid < 2 * t + 1 then net.Send pid 0 [a] else net) := by
  have hb := Prepared_bumped P pid t n M rs a h
  show Mult.SendStep P.bumped net = _
  unfold Mult.SendStep
  rw [hb.id, hb.threshold, hb.send, if_neg hpid]

theorem runSendOthers_spec {F : Type} [CommRing F] [DecidableEq F] [FieldBytes F] {G : Type}
    [PRG G] (t n : Nat) (P : Nat → Mult F G) (M : Nat → ShrManipulator)
    (rs : Nat → RandomShare F) (a : Nat → F) :
    ∀ (k s : Nat) (net : Net F), 1 ≤ s →
    (∀ i, s ≤ i → i < s + k → Prepared (P i) i t n (M i) (rs i) (a i)) →
    ∃ net', runSendOthers ((List.range' s k).map P) net =
        .ok ((List.range' s k).map (fun i => (P i).bumped), net') ∧
      ∀ x r, net' x r =
        if r = 0 ∧ s ≤ x ∧ x < s + k ∧ x < 2 * t + 1 then net x r ++ [a x] else net x r := by
  intro k
  induction k with
  | zero =>
    intro s net _ _
    refine ⟨net, rfl, ?_⟩
    intro x r
    rw [if_neg (by omega)]
  | succ k ih =>
    intro s net hs hP
    obtain ⟨net', h1, h2⟩ := ih (s + 1) (if s < 2 * t + 1 then net.Send s 0 [a s] else net)
      (by omega) (fun i hi1 hi2 => hP i (by omega) (by omega))
    refine ⟨net', ?_, ?_⟩
    · rw [List.range'_succ, List.map_cons, List.map_cons]
      unfold runSendOthers
      rw [RunSend_other (P s) s t n (M s) (rs s) (a s) (hP s (le_refl _) (by omega)) (by omega)]
      simp only
      rw [h1]
    · intro x r
      rw [h2 x r]
      by_cases hc : s < 2 * t + 1
      · rw [if_pos hc]
        unfold Net.Send
        by_cases hx : x = s
        · subst hx
          by_cases hr : r = 0
          · subst hr
            rw [if_neg (by omega), if_pos ⟨rfl, rfl⟩, if_pos ⟨rfl, le_refl _, by omega, hc⟩]
          · rw [if_neg (by omega), if_neg (by tauto), if_neg (by tauto)]
        · by_cases hc2 : r = 0 ∧ s + 1 ≤ x ∧ x < s + 1 + k ∧ x < 2 * t + 1
          · rw [if_pos hc2, if_neg (by tauto), if_pos (by omega)]
          · rw [if_neg hc2, if_neg (by tauto), if_neg (by omega)]
      · rw [if_neg hc]
        by_cases hc2 : r = 0 ∧ s + 1 ≤ x ∧ x < s + 1 + k ∧ x < 2 * t + 1
        · rw [if_pos hc2, if_pos (by omega)]
        · rw [if_neg hc2, if_neg (by omega)]

theorem recvStep_ok {F : Type} [CommRing F] [DecidableEq F] [FieldBytes F] {G : Type} [PRG G]
    (m : Mult F G) (net : Net F) (i : Nat) (v : F) (hid : m.mId = 0) (hc : m.mCount = 1)
    (hnet : net i 0 = [v]) (h1 : i < m.mSharesRecvByP1.length)
    (h2 : i < m.mCheckData.shares_recv_by_p1.length) :
    SendStep.recvStep (m, net) i =
      .ok ({ m with
             mSharesRecvByP1 := m.mSharesRecvByP1.set i [v]
             mCheckData := { m.mCheckData with
               shares_recv_by_p1 := m.mCheckData.shares_recv_by_p1.set i
                 (m.mCheckData.shares_recv_by_p1.getD i [] ++ [v]) } },
           fun s r => if s = i ∧ r = 0 then [] else net s r) := by
  unfold SendStep.recvStep Net.Recv
  simp only
  rw [hid, hc, hnet, if_pos (by simp)]
  simp only
  rw [if_pos h1, getE_ok_getD _ i [] h2]
  rfl

theorem RunSend_zero {F : Type} [CommRing F] [DecidableEq F] [FieldBytes F] {G : Type} [PRG G]
    (P0 : Mult F G) (t n : Nat) (M : ShrManipulator) (rs : RandomShare F) (a : Nat → F)
    (h : Prepared P0 0 t n M rs (a 0)) (net : Net F)
    (hnet : ∀ i, 1 ≤ i → i < 2 * t + 1 → net i 0 = [a i]) (h00 : net 0 0 = []) :
    ∃ P1 net1, P0.RunSend net = .ok (P1, net1) ∧ Prepared P1 0 t n M rs (a 0) ∧
      (∀ i, i < 2 * t + 1 → P1.mSharesRecvByP1.getD i [] = [a i]) ∧
      ∀ x r, net1 x r = if r = 0 ∧ x < 2 * t + 1 then [] else net x r := by
  have hb := Prepared_bumped P0 0 t n M rs (a 0) h
  have hS : ∀ i, i < 2 * t + 1 → (net.Send 0 0 [a 0]) i 0 = [a i] := by
    intro i hi
    unfold Net.Send
    by_cases h0 : i = 0
    · subst h0; rw [if_pos ⟨rfl, rfl⟩, h00]; rfl
    · rw [if_neg (by tauto)]; exact hnet i (by omega) hi
  obtain ⟨st, h1, h2, h3, h4⟩ := foldlM_range_inv SendStep.recvStep
    (fun k (st : Mult F G × Net F) => Prepared st.1 0 t n M rs (a 0) ∧
      (∀ i, i < k → st.1.mSharesRecvByP1.getD i [] = [a i]) ∧
      ∀ x r, st.2 x r = if r = 0 ∧ x < k then [] else (net.Send 0 0 [a 0]) x r)
    (2 * t + 1) (P0.bumped, net.Send 0 0 [a 0])
    ⟨hb, fun i hi => by omega, fun x r => by rw [if_neg (by omega)]⟩
    (fun k st hk hI => by
      obtain ⟨i1, i2, i3⟩ := hI
      obtain ⟨m, nt⟩ := st
      have hk0 : nt k 0 = [a k] := by
        have := i3 k 0
        simp only at this
        rw [this, if_neg (by omega)]; exact hS k hk
      refine ⟨_, recvStep_ok m nt k (a k) i1.id i1.count hk0 (by rw [i1.recv]; exact hk)
        (by rw [i1.check]; exact hk), ?_, ?_, ?_⟩
      · exact ⟨i1.id, i1.threshold, i1.size, i1.manipulator, i1.count, i1.random, i1.send,
          by simp only [List.length_set]; exact i1.recv,
          by simp only [List.length_set]; exact i1.check⟩
      · intro i hi
        simp only
        by_cases hik : i = k
        · subst hik
          exact getD_set_eq _ _ _ (by rw [i1.recv]; exact hk)
        · rw [getD_set_ne _ _ _ _ hik]
          exact i2 i (by omega)
      · intro x r
        simp only
        by_cases hx : x = k ∧ r = 0
        · rw [if_pos hx, if_pos (by omega)]
        · rw [if_neg hx]
          have := i3 x r
          simp only at this
          rw [this]
          by_cases hc : r = 0 ∧ x < k
          · rw [if_pos hc, if_pos (by omega)]
          · rw [if_neg hc, if_neg (by omega)])
  refine ⟨st.1, st.2, ?_, h2, h3, ?_⟩
  · show Mult.SendStep P0.bumped net = _
    unfold Mult.SendStep
    rw [hb.id, hb.threshold, hb.send, if_pos (show 0 < 2 * t + 1 by omega), if_pos rfl]
    exact h1
  · intro x r
    rw [h4 x r]
    by_cases hc : r = 0 ∧ x < 2 * t + 1
    · rw [if_pos hc, if_pos hc]
    · rw [if_neg hc, if_neg hc]
      unfold Net.Send
      rw [if_neg (by omega)]

theorem value_ok {F : Type} [CommRing F] (rows : List (List F)) (t : Nat) (a : Nat → F)
    (hlen : rows.length = 2 * t + 1) (hrows : ∀ i, i < 2 * t + 1 → rows.getD i [] = [a i]) :
    ReconstructionStep.value rows t 0 = .ok (∑ i in Finset.range (2 * t + 1), a i) := by
  obtain ⟨v, h1, h2⟩ := foldlM_range_inv (ReconstructionStep.add rows 0)
    (fun k v => v = ∑ i in Finset.range k, a i) (2 * t + 1) 0 (by simp)
    (fun k v hk hv => by
      refine ⟨v + a k, ?_, ?_⟩
      · unfold ReconstructionStep.add
        rw [getE_ok_getD rows k [] (by omega), hrows k hk]
        rfl
      · show v + a k = _
        rw [Finset.sum_range_succ, hv])
  unfold ReconstructionStep.value
  rw [h1, h2]

theorem Send_apply {F : Type} (net : Net F) (me id : Nat) (vals : List F) (s r : Nat) :
    net.Send me id vals s r = if s = me ∧ r = id then net s r ++ vals else net s r := rfl

theorem foldl_Send {F : Type} (me : Nat) (vals : List F) :
    ∀ (k : Nat) (net : Net F) (x r : Nat),
    ((List.range k).foldl (fun (nt : Net F) p => nt.Send me p vals) net) x r =
      if x = me ∧ r < k then net x r ++ vals else net x r := by
  intro k
  induction k with
  | zero => intro net x r; rw [if_neg (by omega)]; rfl
  | succ k ih =>
    intro net x r
    rw [List.range_succ, List.foldl_append]
    show Net.Send _ me k vals x r = _
    rw [Send_apply, ih net x r]
    by_cases h1 : x = me ∧ r = k
    · rw [if_pos h1, if_neg (by omega), if_pos (by omega)]
    · rw [if_neg h1]
      by_cases h2 : x = me ∧ r < k
      · rw [if_pos h2, if_pos (by omega)]
      · rw [if_neg h2, if_neg (by omega)]

theorem ReconstructionStep_ok {F : Type} [CommRing F] [DecidableEq F] [FieldBytes F] {G : Type}
    [PRG G] (P1 : Mult F G) (t n : Nat) (M : ShrManipulator) (rs : RandomShare F) (a : Nat → F)
    (h : Prepared P1 0 t n M rs (a 0))
    (hrows : ∀ i, i < 2 * t + 1 → P1.mSharesRecvByP1.getD i [] = [a i]) (net : Net F) :
    ∃ P2 net2, P1.ReconstructionStep net = .ok (P2, net2) ∧ Prepared P2 0 t n M rs (a 0) ∧
      ∀ x r, net2 x r =
        if x = 0 ∧ r < n - t then net x r ++ [∑ i in Finset.range (2 * t + 1), a i]
        else net x r := by
  have hv : allOk ((List.range P1.mCount).map
      (ReconstructionStep.value P1.mSharesRecvByP1 P1.mThreshold)) =
      .ok [∑ i in Finset.range (2 * t + 1), a i] := by
    rw [h.threshold, h.count]
    show allOk [ReconstructionStep.value P1.mSharesRecvByP1 t 0] = _
    unfold allOk
    rw [value_ok _ t a h.recv hrows]
    rfl
  unfold Mult.ReconstructionStep
  rw [hv]
  refine ⟨_, _, rfl, ?_, ?_⟩
  · exact ⟨h.id, h.threshold, h.size, h.manipulator, h.count, h.random, h.send, h.recv, h.check⟩
  · intro x r
    rw [foldl_Send, h.id, h.size, h.threshold]

theorem share_ok {F : Type} [CommRing F] [DecidableEq F] [FieldBytes F] {G : Type} [PRG G]
    (P : Mult F G) (M : ShrManipulator) (rs : RandomShare F) (v : F) (o : List F)
    (h1 : P.mRandomShares = [rs, rs]) (h2 : P.mManipulator = M) (h3 : P.mValuesRecvFromP1 = [v])
    (h4 : P.mCount = 1) (ho : M.AddConstant rs.rep_share v = .ok o) :
    allOk ((List.range P.mCount).map (OutputStep.share P)) = .ok [o] := by
  have : OutputStep.share P 0 = .ok o := by
    unfold OutputStep.share
    rw [h1, h2, h3]
    exact ho
  rw [h4]
  show allOk [OutputStep.share P 0] = _
  unfold allOk
  rw [this]
  rfl

theorem OutputStep_of {F : Type} [CommRing F] [DecidableEq F] [FieldBytes F] {G : Type} [PRG G]
    (P P1 : Mult F G) (net net1 : Net F) (out : List (List F))
    (h1 : OutputStep.recv P net = .ok (P1, net1))
    (h2 : allOk ((List.range P1.mCount).map (OutputStep.share P1)) = .ok out) :
    P.OutputStep net = .ok (out, P1, net1) := by
  unfold Mult.OutputStep
  rw [h1]
  simp only
  rw [h2]

theorem OutputStep_ok {F : Type} [CommRing F] [DecidableEq F] [FieldBytes F] {G : Type} [PRG G]
    (P : Mult F G) (pid t n : Nat) (M : ShrManipulator) (rs : RandomShare F) (a e : F)
    (o : List F) (h : Prepared P pid t n M rs a) (net : Net F)
    (hnet : pid < n - t → net 0 pid = [e])
    (ho : M.AddConstant rs.rep_share (if pid < n - t then e else 0) = .ok o) :
    ∃ P' net', P.OutputStep net = .ok ([o], P', net') ∧
      ∀ x r, r ≠ pid → net' x r = net x r := by
  by_cases hc : pid < n - t
  · rw [if_pos hc] at ho
    have hr : OutputStep.recv P net = .ok
        (({ P with
            mValuesRecvFromP1 := [e]
            mCheckData := { P.mCheckData with
              values_recv_from_p1 := P.mCheckData.values_recv_from_p1 ++ [e] } } : Mult F G),
          fun s r => if s = 0 ∧ r = pid then [] else net s r) := by
      unfold OutputStep.recv Net.Recv
      rw [h.id, h.size, h.threshold, h.count, if_pos hc, hnet hc, if_pos (by simp)]
      rfl
    refine ⟨_, _, OutputStep_of _ _ _ _ _ hr
      (share_ok _ M rs e o h.random h.manipulator rfl h.count ho), ?_⟩
    intro x r hr
    show (if x = 0 ∧ r = pid then [] else net x r) = _
    rw [if_neg (by tauto)]
  · rw [if_neg hc] at ho
    have hr : OutputStep.recv P net = .ok
        (({ P with mValuesRecvFromP1 := [0] } : Mult F G), net) := by
      unfold OutputStep.recv
      rw [h.id, h.size, h.threshold, h.count, if_neg hc]
      rfl
    exact ⟨_, _, OutputStep_of _ _ _ _ _ hr
      (share_ok _ M rs 0 o h.random h.manipulator rfl h.count ho), fun x r _ => rfl⟩

theorem runOutputs_spec {F : Type} [CommRing F] [DecidableEq F] [FieldBytes F] {G : Type}
    [PRG G] (t n : Nat) (P : Nat → Mult F G) (M : Nat → ShrManipulator)
    (rs : Nat → RandomShare F) (a : Nat → F) (e : F) (o : Nat → List F) :
    ∀ (k s : Nat) (net : Net F),
    (∀ i, s ≤ i → i < s + k → Prepared (P i) i t n (M i) (rs i) (a i)) →
    (∀ i, s ≤ i → i < s + k → i < n - t → net 0 i = [e]) →
    (∀ i, s ≤ i → i < s + k →
      (M i).AddConstant (rs i).rep_share (if i < n - t then e else 0) = .ok (o i)) →
    ∃ ps' net', runOutputs ((List.range' s k).map P) net =
        .ok ((List.range' s k).map (fun i => [o i]), ps', net') := by
  intro k
  induction k with
  | zero => intro s net _ _ _; exact ⟨[], net, rfl⟩
  | succ k ih =>
    intro s net hP hnet ho
    obtain ⟨P', net', h1, h2⟩ := OutputStep_ok (P s) s t n (M s) (rs s) (a s) e (o s)
      (hP s (le_refl _) (by omega)) net (hnet s (le_refl _) (by omega))
      (ho s (le_refl _) (by omega))
    obtain ⟨ps', net'', h3⟩ := ih (s + 1) net' (fun i hi1 hi2 => hP i (by omega) (by omega))
      (fun i hi1 hi2 hi3 => by
        rw [h2 0 i (by omega)]; exact hnet i (by omega) (by omega) hi3)
      (fun i hi1 hi2 => ho i (by omega) (by omega))
    refine ⟨P' :: ps', net'', ?_⟩
    rw [List.range'_succ, List.map_cons, List.map_cons]
    unfold runOutputs
    rw [h1]
    simp only
    rw [h3]

theorem slotsOf_head (n t pid : Nat) (ht : t < n) (h : pid < n - t) :
    ∃ rest, slotsOf (combs n (n - t) 0) pid = 0 :: rest ∧ (0 : Nat) ∉ rest := by
  have hpos : 0 < (combs n (n - t) 0).length := by
    rw [length_combs]
    exact Nat.choose_pos (by omega)
  have hhead := combs_head n (n - t) (by omega)
  have hcons : ∃ rest, slotsOf (combs n (n - t) 0) pid = 0 :: rest := by
    unfold slotsOf
    rw [show (combs n (n - t) 0).length = ((combs n (n - t) 0).length - 1) + 1 by omega,
      List.range_succ_eq_map, List.filter_cons_of_pos]
    · exact ⟨_, rfl⟩
    · rw [hhead]
      simp [List.mem_range'_1, h]
  obtain ⟨rest, hrest⟩ := hcons
  refine ⟨rest, hrest, ?_⟩
  have := slotsOf_nodup (combs n (n - t) 0) pid
  rw [hrest] at this
  exact (List.nodup_cons.mp this).1

theorem slotsOf_no_zero (n t pid : Nat) (ht : t < n) (h : ¬ pid < n - t) :
    (0 : Nat) ∉ slotsOf (combs n (n - t) 0) pid := by
  intro hm
  have := ((mem_slotsOf _ _ _).mp hm).2
  rw [combs_head n (n - t) (by omega)] at this
  simp [List.mem_range'_1] at this
  exact h this

theorem AddConstant_dealt {F : Type} [CommRing F] [DecidableEq F] (M : ShrManipulator)
    (n t pid : Nat) (hM : M.WF pid t n) (ht : t < n) (hid : pid < n) (ρ : List F)
    (hρ : ρ.length = (combs n (n - t) 0).length) (e : F) :
    M.AddConstant ((dealt (combs n (n - t) 0) n ρ).getD pid []) (if pid < n - t then e else 0) =
      .ok ((dealt (combs n (n - t) 0) n (ρ.set 0 (ρ.getD 0 0 + e))).getD pid []) := by
  have hpos : 0 < ρ.length := by
    rw [hρ, length_combs]
    exact Nat.choose_pos (by omega)
  have hne : ∀ s ∈ slotsOf (combs n (n - t) 0) pid, s ≠ 0 →
      (ρ.set 0 (ρ.getD 0 0 + e)).getD s 0 = ρ.getD s 0 := by
    intro s _ hs
    rw [getD_set_scalar ρ 0 s _ hpos, if_neg (fun h => hs h.symm)]
  unfold ShrManipulator.AddConstant
  rw [hM.indexConst, dealt_getD _ _ _ pid hid, dealt_getD _ _ _ pid hid]
  by_cases h : pid < n - t
  · obtain ⟨rest, hrest, hnot⟩ := slotsOf_head n t pid ht h
    rw [if_pos h, if_pos h, if_neg (by decide)]
    unfold updateAt
    rw [hrest] at hne ⊢
    rw [List.map_cons, List.map_cons]
    show Except.ok (_ :: _) = _
    congr 2
    · rw [getD_set_scalar ρ 0 0 _ hpos, if_pos rfl]
    · apply List.map_congr_left
      intro s hs
      rw [hne s (List.mem_cons_of_mem 0 hs) (fun h0 => hnot (h0 ▸ hs))]
  · rw [if_neg h, if_neg h, if_pos rfl]
    congr 1
    apply List.map_congr_left
    intro s hs
    rw [hne s hs (fun h0 => slotsOf_no_zero n t pid ht h (h0 ▸ hs))]

theorem sum_set_zero {F : Type} [CommRing F] (l : List F) (e : F) (h : 0 < l.length) :
    (l.set 0 (l.getD 0 0 + e)).sum = l.sum + e := by
  cases l with
  | nil => simp at h
  | cons a l =>
    simp only [List.set_cons_zero, List.sum_cons, List.getD_cons_zero]
    ring

theorem getD_map_range_lt {α : Type} (n : Nat) (f : Nat → α) (q : Nat) (d : α) (h : q < n) :
    ((List.range n).map f).getD q d = f q := by
  simp [List.getD_eq_getElem?_getD, h]

theorem range_map_cons {α : Type} (n : Nat) (f : Nat → α) :
    (List.range (n + 1)).map f = f 0 :: (List.range' 1 n).map f := by
  rw [List.range_eq_range', List.range'_succ, List.map_cons]

/-- One multiplication run by all parties: from consistent random shares the outputs are the
shares dealt from the random slots with `x * y - r` added to slot 0. -/
theorem runMult_single {F : Type} [CommRing F] [DecidableEq F] [FieldBytes F] {G : Type}
    [PRG G] (n t : Nat) (ht : 1 ≤ t) (h2t : 2 * t < n) (R : Replicator) (hR : R.WF n t)
    (M : Nat → ShrManipulator) (hM : ∀ i, i < n → (M i).WF i t n)
    (x y r : F) (shx shy : List (List F)) (hx : IsSharing n t shx x) (hy : IsSharing n t shy y)
    (corr corr' : Nat → Correlator G) (rs : Nat → RandomShare F)
    (hgen : ∀ i, i < n → (corr i).GenRandomShare = .ok (rs i, corr' i))
    (hrep : IsSharing n t ((List.range n).map (fun i => (rs i).rep_share)) r)
    (hadd : ∑ i in Finset.range (2 * t + 1), (rs i).add_share = r) :
    ∃ parties outs parties' net',
      allOk ((List.range n).map (fun i =>
        (Mult.ctor i n R (M i) (corr i) (CheckData.ctor t) : Mult F G).Prepare
          (shx.getD i []) (shy.getD i []))) = .ok parties ∧
      runMult parties Net.empty = .ok (outs, parties', net') ∧
      outs.length = n ∧ (∀ o ∈ outs, o.length = 1) ∧
      IsSharing n t (outs.map (fun o => o.getD 0 [])) (x * y) := by
  obtain ⟨α, ha1, ha2, rfl⟩ := hx
  obtain ⟨β, hb1, hb2, rfl⟩ := hy
  obtain ⟨ρ, hr1, hr2, hr3⟩ := hrep
  have hrs : ∀ i, i < n → (rs i).rep_share = (dealt (combs n (n - t) 0) n ρ).getD i [] := by
    intro i hi
    rw [← hr3, getD_map_range_lt n _ i [] hi]
  have hP : ∀ i, ∃ P : Mult F G, i < n →
      ((Mult.ctor i n R (M i) (corr i) (CheckData.ctor t) : Mult F G).Prepare
        ((dealt (combs n (n - t) 0) n α).getD i [])
        ((dealt (combs n (n - t) 0) n β).getD i []) = .ok P ∧
      Prepared P i t n (M i) (rs i) (prodShare n t α β i - (rs i).add_share)) := by
    intro i
    by_cases hi : i < n
    · obtain ⟨P, h1, h2⟩ := Prepare_ok R (M i) n t i hR (hM i hi) h2t hi α β (corr i) (corr' i)
        (rs i) (hgen i hi)
      exact ⟨P, fun _ => ⟨h1, h2⟩⟩
    · exact ⟨Mult.ctor i n R (M i) (corr i) (CheckData.ctor t), fun h => absurd h hi⟩
  choose P hP using hP
  have he : ∑ i in Finset.range (2 * t + 1), (prodShare n t α β i - (rs i).add_share) =
      x * y - r := by
    rw [Finset.sum_sub_distrib, prodShare_sum n t h2t α β ha1 hb1, ha2, hb2, hadd]
  obtain ⟨n', rfl⟩ : ∃ n', n = n' + 1 := ⟨n - 1, by omega⟩
  -- the sending phase of the parties 1, 2, ...
  obtain ⟨net1, s1, s2⟩ := runSendOthers_spec t (n' + 1) P M rs
    (fun i => prodShare (n' + 1) t α β i - (rs i).add_share) n' 1 Net.empty (le_refl _)
    (fun i _ hi2 => (hP i (by omega)).2)
  -- party 0 sends and receives
  obtain ⟨P1, net2, z1, z2, z3, z4⟩ := RunSend_zero (P 0) t (n' + 1) (M 0) (rs 0)
    (fun i => prodShare (n' + 1) t α β i - (rs i).add_share) (hP 0 (by omega)).2 net1
    (fun i hi1 hi2 => by
      rw [s2 i 0, if_pos ⟨rfl, hi1, by omega, hi2⟩]; rfl)
    (by rw [s2 0 0, if_neg (by omega)]; rfl)
  -- party 0 reconstructs
  obtain ⟨P2, net3, c1, c2, c3⟩ := ReconstructionStep_ok P1 t (n' + 1) (M 0) (rs 0)
    (fun i => prodShare (n' + 1) t α β i - (rs i).add_share) z2 z3 net2
  rw [he] at c3
  have hnet2 : ∀ i, net2 0 i = [] := by
    intro i
    rw [z4 0 i]
    by_cases hc : i = 0 ∧ 0 < 2 * t + 1
    · rw [if_pos hc]
    · rw [if_neg hc, s2 0 i, if_neg (by omega)]; rfl
  -- the output steps
  obtain ⟨ps', net4, o1⟩ := runOutputs_spec t (n' + 1)
    (fun i => if i = 0 then P2 else (P i).bumped) M rs
    (fun i => prodShare (n' + 1) t α β i - (rs i).add_share) (x * y - r)
    (fun i => (dealt (combs (n' + 1) (n' + 1 - t) 0) (n' + 1)
      (ρ.set 0 (ρ.getD 0 0 + (x * y - r)))).getD i [])
    (n' + 1) 0 net3
    (fun i _ hi => by
      beta_reduce
      by_cases h0 : i = 0
      · subst h0; rw [if_pos rfl]; exact c2
      · rw [if_neg h0]
        exact Prepared_bumped _ _ _ _ _ _ _ (hP i (by omega)).2)
    (fun i _ _ hi => by
      rw [c3 0 i, if_pos ⟨rfl, hi⟩, hnet2 i]; rfl)
    (fun i _ hi => by
      rw [hrs i (by omega)]
      exact AddConstant_dealt (M i) (n' + 1) t i (hM i (by omega)) (by omega) (by omega) ρ hr1 _)
  have hparties : allOk ((List.range (n' + 1)).map (fun i =>
      (Mult.ctor i (n' + 1) R (M i) (corr i) (CheckData.ctor t) : Mult F G).Prepare
        ((dealt (combs (n' + 1) (n' + 1 - t) 0) (n' + 1) α).getD i [])
        ((dealt (combs (n' + 1) (n' + 1 - t) 0) (n' + 1) β).getD i []))) =
      .ok ((List.range (n' + 1)).map P) :=
    allOk_map _ _ P (fun i hi => (hP i (List.mem_range.mp hi)).1)
  have hlist : (P2 :: (List.range' 1 n').map (fun i => (P i).bumped)) =
      (List.range' 0 (n' + 1)).map (fun i => if i = 0 then P2 else (P i).bumped) := by
    rw [List.range'_succ, List.map_cons, if_pos rfl]
    congr 1
    apply List.map_congr_left
    intro i hi
    have : 1 ≤ i := (List.mem_range'_1.mp hi).1
    rw [if_neg (by omega)]
  refine ⟨_, (List.range' 0 (n' + 1)).map (fun i =>
    [(dealt (combs (n' + 1) (n' + 1 - t) 0) (n' + 1)
      (ρ.set 0 (ρ.getD 0 0 + (x * y - r)))).getD i []]), ps', net4, hparties, ?_, ?_, ?_, ?_⟩
  · rw [range_map_cons]
    unfold runMult
    simp only
    rw [s1]
    simp only
    rw [z1]
    simp only
    rw [c1]
    simp only
    rw [hlist]
    exact o1
  · rw [List.length_map, List.length_range']
  · intro o ho
    obtain ⟨i, _, rfl⟩ := List.mem_map.mp ho
    rfl
  · refine ⟨ρ.set 0 (ρ.getD 0 0 + (x * y - r)), ?_, ?_, ?_⟩
    · rw [List.length_set]; exact hr1
    · rw [sum_set_zero _ _ (by
        rw [hr1, length_combs]; exact Nat.choose_pos (by omega)), hr2]
      ring
    · rw [List.map_map, ← List.range_eq_range']
      unfold dealt
      apply List.map_congr_left
      intro i hi
      show (List.map _ (List.range (n' + 1))).getD i [] = _
      rw [getD_map_range_lt _ _ i [] (List.mem_range.mp hi)]

theorem descFactorial_37_12 : ∀ m, m ≤ 37 → ∀ e, e ≤ 12 → m.descFactorial e < SIZE := by
  decide

theorem Binom_37_12 (m k : Nat) (hm : m ≤ 37) (hk : k ≤ m) (h : min k (m - k) ≤ 12) :
    Binom m k = Nat.choose m k :=
  Binom_eq_choose m k (by unfold SIZE; omega) hk (descFactorial_37_12 m hm _ h)

theorem choose_family : ∀ t, t ≤ 11 →
    (3 * t + 1).descFactorial t / t.factorial ≤ INT_MAX ∧
      (3 * t + 1).descFactorial (2 * t) / (2 * t).factorial ≤ INT_MAX := by
  decide

/-- For `n = 3 t + 1` and `t ≤ 11` both replicators of a manipulator get exact sizes. -/
theorem BinomExact_family (t : Nat) (ht : t ≤ 11) :
    BinomExact (3 * t + 1) t ∧ BinomExact (3 * t + 1) (2 * t) :=
  ⟨⟨by omega, Binom_37_12 _ t (by omega) (by omega) (by omega),
      Binom_37_12 _ t (by omega) (by omega) (by omega),
      by rw [Nat.choose_eq_descFactorial_div_factorial]; exact (choose_family t ht).1⟩,
    ⟨by omega, Binom_37_12 _ (2 * t) (by omega) (by omega) (by omega),
      Binom_37_12 _ (2 * t) (by omega) (by omega) (by omega),
      by rw [Nat.choose_eq_descFactorial_div_factorial]; exact (choose_family t ht).2⟩⟩

theorem Binom_37_24 : Binom 37 24 = 600096582 := by decide

theorem choose_37_24 : Nat.choose 37 24 = 3562467300 := by
  rw [Nat.choose_eq_descFactorial_div_factorial]
  decide

theorem ctor_37_24 : ∃ e, Replicator.ctor 37 24 = .error e :=
  ctor_overflow 37 24 (by decide) (by decide) (by rw [Binom_37_24, choose_37_24]; decide)

theorem ShrManipulator_ctor_error (pid d n : Nat)
    (h : ∃ e, Replicator.ctor n ((2 * d) % SIZE) = .error e) :
    ∃ e, ShrManipulator.ctor pid d n = .error e := by
  obtain ⟨e, he⟩ := h
  unfold ShrManipulator.ctor
  cases h1 : Replicator.ctor n d with
  | error e1 => exact ⟨e1, rfl⟩
  | ok R =>
    simp only
    rw [he]
    exact ⟨e, rfl⟩

/-- The multiplication protocol for any `n` and `t` with exact replicator sizes. -/
theorem Mult_single_exact {F : Type} [CommRing F] [DecidableEq F] [FieldBytes F] {G : Type}
    [PRG G] (n t : Nat) (ht : 1 ≤ t) (h2t : 2 * t < n)
    (hex : BinomExact n t ∧ BinomExact n (2 * t)) (x y r : F) (shx shy : List (List F))
    (hx : IsSharing n t shx x) (hy : IsSharing n t shy y)
    (corr corr' : Nat → Correlator G) (rs : Nat → RandomShare F)
    (hgen : ∀ i, i < n → (corr i).GenRandomShare = .ok (rs i, corr' i))
    (hrep : IsSharing n t ((List.range n).map (fun i => (rs i).rep_share)) r)
    (hadd : ∑ i in Finset.range (2 * t + 1), (rs i).add_share = r) :
    ∃ (R : Replicator) (M : Nat → ShrManipulator) (parties : List (Mult F G))
      (outs : List (List (List F))) (parties' : List (Mult F G)) (net' : Net F),
      Replicator.ctor n t = .ok R ∧
      (∀ i, i < n → ShrManipulator.ctor i t n = .ok (M i)) ∧
      allOk ((List.range n).map (fun i =>
        (Mult.ctor i n R (M i) (corr i) (CheckData.ctor t) : Mult F G).Prepare
          (shx.getD i []) (shy.getD i []))) = .ok parties ∧
      runMult parties Net.empty = .ok (outs, parties', net') ∧
      outs.length = n ∧ (∀ o ∈ outs, o.length = 1) ∧
      IsSharing n t (outs.map (fun o => o.getD 0 [])) (x * y) ∧
      R.ErrorDetection (outs.map (fun o => o.getD 0 [])) = .ok (x * y) ∧
      R.Reconstruct (outs.map (fun o => o.getD 0 [])) = .ok (x * y) := by
  obtain ⟨R, h1, hR⟩ := ctor_ok_exact n t ht (by omega) hex.1
  have hM : ∀ i, ∃ M : ShrManipulator, i < n →
      (ShrManipulator.ctor i t n = .ok M ∧ M.WF i t n) := by
    intro i
    by_cases hi : i < n
    · obtain ⟨M, m1, m2, _, _⟩ := ShrManipulator_ctor_ok_exact i t n ht h2t hex hi
      exact ⟨M, fun _ => ⟨m1, m2⟩⟩
    · exact ⟨⟨0, 0, 0, [], [], R, R, 0⟩, fun h => absurd h hi⟩
  choose M hM using hM
  obtain ⟨parties, outs, parties', net', p1, p2, p3, p4, p5⟩ :=
    runMult_single n t ht h2t R hR M (fun i hi => (hM i hi).2) x y r shx shy hx hy corr corr' rs
      hgen hrep hadd
  exact ⟨R, M, parties, outs, parties', net', h1, fun i hi => (hM i hi).1, p1, p2, p3, p4, p5,
    ErrorDetection_IsSharing R n t hR (by omega) _ _ p5,
    Reconstruct_IsSharing R n t hR (by omega) _ _ p5⟩

/-- C6 (amended to `t ≤ 11`): single multiplication.  For `n = 3 t + 1`, valid sharings of `x`
and `y` and random shares that are consistent across the parties, when every party calls
`Prepare` once and all parties then run `Run` over the network, every party returns one share
and the `n` returned shares form a valid `(n, t)` sharing of `x * y`, which `ErrorDetection`
and `Reconstruct` both open to `x * y`. -/
theorem C6_single_multiplication {F : Type} [CommRing F] [DecidableEq F] [FieldBytes F]
    {G : Type} [PRG G] (t : Nat) (ht : 1 ≤ t) (ht' : t ≤ 11) (x y r : F)
    (shx shy : List (List F))
    (hx : IsSharing (3 * t + 1) t shx x) (hy : IsSharing (3 * t + 1) t shy y)
    (corr corr' : Nat → Correlator G) (rs : Nat → RandomShare F)
    (hgen : ∀ i, i < 3 * t + 1 → (corr i).GenRandomShare = .ok (rs i, corr' i))
    (hrep : IsSharing (3 * t + 1) t ((List.range (3 * t + 1)).map (fun i => (rs i).rep_share)) r)
    (hadd : ∑ i in Finset.range (2 * t + 1), (rs i).add_share = r) :
    ∃ (R : Replicator) (M : Nat → ShrManipulator) (parties : List (Mult F G))
      (outs : List (List (List F))) (parties' : List (Mult F G)) (net' : Net F),
      Replicator.ctor (3 * t + 1) t = .ok R ∧
      (∀ i, i < 3 * t + 1 → ShrManipulator.ctor i t (3 * t + 1) = .ok (M i)) ∧
      allOk ((List.range (3 * t + 1)).map (fun i =>
        (Mult.ctor i (3 * t + 1) R (M i) (corr i) (CheckData.ctor t) : Mult F G).Prepare
          (shx.getD i []) (shy.getD i []))) = .ok parties ∧
      runMult parties Net.empty = .ok (outs, parties', net') ∧
      outs.length = 3 * t + 1 ∧ (∀ o ∈ outs, o.length = 1) ∧
      IsSharing (3 * t + 1) t (outs.map (fun o => o.getD 0 [])) (x * y) ∧
      R.ErrorDetection (outs.map (fun o => o.getD 0 [])) = .ok (x * y) ∧
      R.Reconstruct (outs.map (fun o => o.getD 0 [])) = .ok (x * y) :=
  Mult_single_exact (3 * t + 1) t ht (by omega) (BinomExact_family t ht') x y r shx shy hx hy
    corr corr' rs hgen hrep hadd

/-- C6, an instance: `n = 4`, `t = 1`, the sharings of `10` and `26` dealt from the slot values
`1, 2, 3, 4` and `5, 6, 7, 8`, and the random shares of freshly constructed correlators. -/
theorem C6_witness :
    (1 ≤ 1 ∧ 1 ≤ 11 ∧
      IsSharing (3 * 1 + 1) 1 (dealt (combs 4 3 0) 4 ([1, 2, 3, 4] : List Fp61)) 10 ∧
      IsSharing (3 * 1 + 1) 1 (dealt (combs 4 3 0) 4 ([5, 6, 7, 8] : List Fp61)) 26 ∧
      (∀ i, i < 3 * 1 + 1 →
        (Correlator.ctor i sampleReplicator : Correlator CounterPRG).GenRandomShare =
          .ok ((sampleGen i).1, (sampleGen i).2)) ∧
      IsSharing (3 * 1 + 1) 1 ((List.range (3 * 1 + 1)).map (fun i => (sampleGen i).1.rep_share))
        (List.replicate 4 ((sampleGen 0).1.rep_share.getD 0 0)).sum ∧
      ∑ i in Finset.range (2 * 1 + 1), (sampleGen i).1.add_share =
        (List.replicate 4 ((sampleGen 0).1.rep_share.getD 0 0)).sum) ∧
    ∃ (R : Replicator) (M : Nat → ShrManipulator) (parties : List (Mult Fp61 CounterPRG))
      (outs : List (List (List Fp61))) (parties' : List (Mult Fp61 CounterPRG))
      (net' : Net Fp61),
      Replicator.ctor (3 * 1 + 1) 1 = .ok R ∧
      (∀ i, i < 3 * 1 + 1 → ShrManipulator.ctor i 1 (3 * 1 + 1) = .ok (M i)) ∧
      allOk ((List.range (3 * 1 + 1)).map (fun i =>
        (Mult.ctor i (3 * 1 + 1) R (M i) (Correlator.ctor i sampleReplicator)
          (CheckData.ctor 1) : Mult Fp61 CounterPRG).Prepare
          ((dealt (combs 4 3 0) 4 ([1, 2, 3, 4] : List Fp61)).getD i [])
          ((dealt (combs 4 3 0) 4 ([5, 6, 7, 8] : List Fp61)).getD i []))) = .ok parties ∧
      runMult parties Net.empty = .ok (outs, parties', net') ∧
      outs.length = 3 * 1 + 1 ∧ (∀ o ∈ outs, o.length = 1) ∧
      IsSharing (3 * 1 + 1) 1 (outs.map (fun o => o.getD 0 [])) (10 * 26) ∧
      R.ErrorDetection (outs.map (fun o => o.getD 0 [])) = .ok (10 * 26) ∧
      R.Reconstruct (outs.map (fun o => o.getD 0 [])) = .ok (10 * 26) :=
  have hx : IsSharing (3 * 1 + 1) 1 (dealt (combs 4 3 0) 4 ([1, 2, 3, 4] : List Fp61)) 10 :=
    ⟨[1, 2, 3, 4], by decide, by decide, rfl⟩
  have hy : IsSharing (3 * 1 + 1) 1 (dealt (combs 4 3 0) 4 ([5, 6, 7, 8] : List Fp61)) 26 :=
    ⟨[5, 6, 7, 8], by decide, by decide, rfl⟩
  have hgen : ∀ i, i < 3 * 1 + 1 →
      (Correlator.ctor i sampleReplicator : Correlator CounterPRG).GenRandomShare =
        .ok ((sampleGen i).1, (sampleGen i).2) := by
    intro i hi
    interval_cases i <;> rfl
  have hrep : IsSharing (3 * 1 + 1) 1
      ((List.range (3 * 1 + 1)).map (fun i => (sampleGen i).1.rep_share))
      (List.replicate 4 ((sampleGen 0).1.rep_share.getD 0 0)).sum :=
    ⟨List.replicate 4 ((sampleGen 0).1.rep_share.getD 0 0), by decide, rfl, by rfl⟩
  have hadd : ∑ i in Finset.range (2 * 1 + 1), (sampleGen i).1.add_share =
      (List.replicate 4 ((sampleGen 0).1.rep_share.getD 0 0)).sum := by decide
  ⟨⟨by decide, by decide, hx, hy, hgen, hrep, hadd⟩,
    C6_single_multiplication 1 (by decide) (by decide) 10 26 _ _ _ hx hy
      (fun i => Correlator.ctor i sampleReplicator) (fun i => (sampleGen i).2)
      (fun i => (sampleGen i).1) hgen hrep hadd⟩

/-- C6 fails for `t = 12`, `n = 37`: the double-degree replicator needs `Binom(37, 24)`, whose
64-bit evaluation wraps around, so no party can construct its manipulator and there is no run
of the protocol, whatever the inputs. -/
theorem C6_counterexample :
    ¬ ∃ (R : Replicator) (M : Nat → ShrManipulator),
      Replicator.ctor (3 * 12 + 1) 12 = .ok R ∧
      (∀ i, i < 3 * 12 + 1 → ShrManipulator.ctor i 12 (3 * 12 + 1) = .ok (M i)) := by
  rintro ⟨R, M, _, h⟩
  obtain ⟨e, he⟩ := ShrManipulator_ctor_error 0 12 37 ctor_37_24
  have := h 0 (by decide)
  rw [show 3 * 12 + 1 = 37 from rfl, he] at this
  cases this

theorem Prepare_inv {F : Type} [CommRing F] [DecidableEq F] [FieldBytes F] {G : Type} [PRG G]
    (m m' : Mult F G) (x y : List F) (r : RandomShare F) (c' : Correlator G)
    (hg : m.mCorrelator.GenRandomShare = .ok (r, c')) (h : m.Prepare x y = .ok m') :
    m'.mRandomShares = m.mRandomShares ++ [r, r] ∧ m'.mCorrelator = c' ∧
      m'.mCount = m.mCount + 1 ∧ m'.mManipulator = m.mManipulator := by
  unfold Mult.Prepare at h
  rw [hg] at h
  simp only [Mult.MultiplyToAddAndMsgs] at h
  split at h
  · cases h
  · rename_i out hout
    split at hout
    · cases hout
    · cases hout
      cases h
      refine ⟨?_, rfl, rfl, rfl⟩
      show (m.mRandomShares ++ [r]) ++ [r] = _
      rw [List.append_assoc]
      rfl

theorem allOk_two {α : Type} (a b : Except Fault α) (out : List α)
    (h : allOk [a, b] = .ok out) : ∃ x y, a = .ok x ∧ b = .ok y ∧ out = [x, y] := by
  cases a with
  | error e => simp [allOk] at h
  | ok x =>
    cases b with
    | error e => simp [allOk] at h
    | ok y =>
      simp [allOk] at h
      exact ⟨x, y, rfl, rfl, h.symm⟩

theorem recv_inv {F : Type} [CommRing F] [DecidableEq F] [FieldBytes F] {G : Type} [PRG G]
    (m m1 : Mult F G) (net net1 : Net F) (h : OutputStep.recv m net = .ok (m1, net1)) :
    m1.mRandomShares = m.mRandomShares ∧ m1.mCount = m.mCount ∧
      m1.mManipulator = m.mManipulator := by
  unfold OutputStep.recv at h
  split at h
  · split at h
    · cases h
    · cases h; exact ⟨rfl, rfl, rfl⟩
  · cases h; exact ⟨rfl, rfl, rfl⟩

theorem share_inv {F : Type} [CommRing F] [DecidableEq F] [FieldBytes F] {G : Type} [PRG G]
    (m : Mult F G) (mu : Nat) (r : RandomShare F) (o : List F)
    (hr : getE m.mRandomShares mu = .ok r) (h : OutputStep.share m mu = .ok o) :
    ∃ e, getE m.mValuesRecvFromP1 mu = .ok e ∧ m.mManipulator.AddConstant r.rep_share e = .ok o := by
  unfold OutputStep.share at h
  rw [hr] at h
  simp only at h
  split at h
  · cases h
  · rename_i v hv
    exact ⟨v, hv, h⟩

/-- C7, the behaviour of the code: after two calls of `Prepare` on a fresh `Mult` object, the
vector `mRandomShares` holds every random share twice, `r0, r0, r1, r1`, because `Prepare` and
`MultiplyToAddAndMsgs` both append it; `OutputStep` reads `mRandomShares[mu]`, so the share
returned for the second multiplication is `AddConstant(r0.rep_share, e1)`: it is built from the
random share of the first multiplication, not from `r1` as the claim states. -/
theorem C7_second_output_uses_first_share {F : Type} [CommRing F] [DecidableEq F]
    [FieldBytes F] {G : Type} [PRG G] (id size : Nat) (R : Replicator) (M : ShrManipulator)
    (c c0 c1 : Correlator G) (cd : CheckData F) (x0 y0 x1 y1 : List F) (r0 r1 : RandomShare F)
    (m2 m3 : Mult F G) (net net' : Net F) (out : List (List F))
    (hg0 : c.GenRandomShare = .ok (r0, c0)) (hg1 : c0.GenRandomShare = .ok (r1, c1))
    (hp : (Mult.ctor id size R M c cd : Mult F G).PrepareMany [x0, x1] [y0, y1] = .ok m2)
    (hout : m2.OutputStep net = .ok (out, m3, net')) :
    m2.mRandomShares = [r0, r0, r1, r1] ∧
    ∃ e0 e1 o0 o1, getE m3.mValuesRecvFromP1 0 = .ok e0 ∧ getE m3.mValuesRecvFromP1 1 = .ok e1 ∧
      out = [o0, o1] ∧ M.AddConstant r0.rep_share e0 = .ok o0 ∧
      M.AddConstant r0.rep_share e1 = .ok o1 := by
  unfold Mult.PrepareMany at hp
  simp only [getE, List.get?_cons_zero] at hp
  split at hp
  · cases hp
  · rename_i m1 h1
    unfold Mult.PrepareMany at hp
    simp only [getE, List.drop_succ_cons, List.drop_zero, List.get?_cons_zero] at hp
    split at hp
    · cases hp
    · rename_i m2' h2
      unfold Mult.PrepareMany at hp
      cases hp
      obtain ⟨a1, a2, a3, a4⟩ := Prepare_inv _ m1 x0 y0 r0 c0 hg0 h1
      obtain ⟨b1, b2, b3, b4⟩ := Prepare_inv m1 m2 x1 y1 r1 c1 (by rw [a2]; exact hg1) h2
      have hrs : m2.mRandomShares = [r0, r0, r1, r1] := by
        rw [b1, a1]; rfl
      have hcount : m2.mCount = 2 := by rw [b3, a3]; rfl
      have hman : m2.mManipulator = M := by rw [b4, a4]; rfl
      refine ⟨hrs, ?_⟩
      unfold Mult.OutputStep at hout
      split at hout
      · cases hout
      · rename_i m3' net1 hrecv
        obtain ⟨d1, d2, d3⟩ := recv_inv _ _ _ _ hrecv
        split at hout
        · cases hout
        · rename_i out' hall
          cases hout
          rw [d2, hcount] at hall
          obtain ⟨o0, o1, s0, s1, rfl⟩ := allOk_two _ _ _ hall
          obtain ⟨e0, g0, k0⟩ := share_inv m3 0 r0 o0 (by rw [d1, hrs]; rfl) s0
          obtain ⟨e1, g1, k1⟩ := share_inv m3 1 r0 o1 (by rw [d1, hrs]; rfl) s1
          rw [d3, hman] at k0 k1
          exact ⟨e0, e1, o0, o1, g0, g1, rfl, k0, k1⟩

/-- C7, an instance: party 0 of `n = 4`, `t = 1` prepares two multiplications and runs its
output step with the values `5` and `7` waiting on the channel from party 0.  The second
returned share is not `AddConstant(r1.rep_share, 7)`, the value that the claim states. -/
theorem C7_witness :
    ((Correlator.ctor 0 sampleReplicator : Correlator CounterPRG).GenRandomShare =
        .ok ((sampleGen 0).1, (sampleGen 0).2) ∧
      (sampleGen 0).2.GenRandomShare = .ok ((sampleGen2 0).1, (sampleGen2 0).2) ∧
      (Mult.ctor 0 4 sampleReplicator (sampleManipulator 0) (Correlator.ctor 0 sampleReplicator)
          (CheckData.ctor 1) : Mult Fp61 CounterPRG).PrepareMany
        [(dealt (combs 4 3 0) 4 ([1, 2, 3, 4] : List Fp61)).getD 0 [],
          (dealt (combs 4 3 0) 4 ([1, 1, 1, 0] : List Fp61)).getD 0 []]
        [(dealt (combs 4 3 0) 4 ([5, 6, 7, 8] : List Fp61)).getD 0 [],
          (dealt (combs 4 3 0) 4 ([2, 1, 1, 1] : List Fp61)).getD 0 []] = .ok samplePrepared ∧
      samplePrepared.OutputStep (Net.empty.Send 0 0 [5, 7]) =
        .ok (sampleOutput.1, sampleOutput.2.1, sampleOutput.2.2)) ∧
    (samplePrepared.mRandomShares =
        [(sampleGen 0).1, (sampleGen 0).1, (sampleGen2 0).1, (sampleGen2 0).1] ∧
      ∃ e0 e1 o0 o1, getE sampleOutput.2.1.mValuesRecvFromP1 0 = .ok e0 ∧
        getE sampleOutput.2.1.mValuesRecvFromP1 1 = .ok e1 ∧
        sampleOutput.1 = [o0, o1] ∧
        (sampleManipulator 0).AddConstant (sampleGen 0).1.rep_share e0 = .ok o0 ∧
        (sampleManipulator 0).AddConstant (sampleGen 0).1.rep_share e1 = .ok o1) ∧
    ((sampleManipulator 0).AddConstant (sampleGen2 0).1.rep_share 7).toOption ≠
      some (sampleOutput.1.getD 1 []) :=
  have hg0 : (Correlator.ctor 0 sampleReplicator : Correlator CounterPRG).GenRandomShare =
      .ok ((sampleGen 0).1, (sampleGen 0).2) := rfl
  have hg1 : (sampleGen 0).2.GenRandomShare = .ok ((sampleGen2 0).1, (sampleGen2 0).2) := rfl
  have hp : (Mult.ctor 0 4 sampleReplicator (sampleManipulator 0)
      (Correlator.ctor 0 sampleReplicator) (CheckData.ctor 1) : Mult Fp61 CounterPRG).PrepareMany
      [(dealt (combs 4 3 0) 4 ([1, 2, 3, 4] : List Fp61)).getD 0 [],
        (dealt (combs 4 3 0) 4 ([1, 1, 1, 0] : List Fp61)).getD 0 []]
      [(dealt (combs 4 3 0) 4 ([5, 6, 7, 8] : List Fp61)).getD 0 [],
        (dealt (combs 4 3 0) 4 ([2, 1, 1, 1] : List Fp61)).getD 0 []] = .ok samplePrepared := rfl
  have hout : samplePrepared.OutputStep (Net.empty.Send 0 0 [5, 7]) =
      .ok (sampleOutput.1, sampleOutput.2.1, sampleOutput.2.2) := rfl
  ⟨⟨hg0, hg1, hp, hout⟩,
    C7_second_output_uses_first_share 0 4 sampleReplicator (sampleManipulator 0) _ _ _ _ _ _ _ _
      _ _ _ _ _ _ _ hg0 hg1 hp hout,
    by decide!⟩

/-- The batch of two multiplications run by all four parties: the shares returned for the first
multiplication open to `10 * 26`, the shares returned for the second one do not open to
`3 * 5`. -/
theorem batch_opens_wrong :
    sampleOpen 0 = some (10 * 26) ∧ ∃ v, sampleOpen 1 = some v ∧ v ≠ 3 * 5 :=
  ⟨by decide!, 27127564814275698, by decide!, by decide⟩

/-- C9, the behaviour of the code: `GetMaskShare(id)` leaves the correlator as it was, because
its loop advances a local copy of the generators of `id`; a second call therefore returns the
share of the first call again, not the next outputs of the streams. -/
theorem C9_GetMaskShare_repeats {F : Type} [CommRing F] [DecidableEq F] [FieldBytes F]
    {G : Type} [PRG G] (c c1 : InputSetup.Correlator G) (id : Nat) (share : List F)
    (h : c.GetMaskShare id = .ok (share, c1)) :
    c1 = c ∧ c1.GetMaskShare id = .ok (share, c1) := by
  have hc : c1 = c := by
    unfold InputSetup.Correlator.GetMaskShare at h
    split at h
    · cases h
    · split at h
      · cases h
      · cases h; rfl
  subst hc
  exact ⟨rfl, h⟩

/-- C9, an instance: a correlator with one peer and three freshly constructed generators of
that peer.  `GetMaskShare` returns the first element of each stream at every call, while two
successive calls of `GetMask` on a correlator with one own generator return different
values. -/
theorem C9_witness :
    ((⟨[[PRG.init, PRG.init, PRG.init]], [PRG.init], 3⟩ :
        InputSetup.Correlator CounterPRG).GetMaskShare 0 =
      .ok ([(GetRandomElement (PRG.init : CounterPRG)).1,
          (GetRandomElement (PRG.init : CounterPRG)).1,
          ((GetRandomElement (PRG.init : CounterPRG)).1 : Fp61)],
        ⟨[[PRG.init, PRG.init, PRG.init]], [PRG.init], 3⟩)) ∧
    ((⟨[[PRG.init, PRG.init, PRG.init]], [PRG.init], 3⟩ : InputSetup.Correlator CounterPRG) =
        ⟨[[PRG.init, PRG.init, PRG.init]], [PRG.init], 3⟩ ∧
      (⟨[[PRG.init, PRG.init, PRG.init]], [PRG.init], 3⟩ :
          InputSetup.Correlator CounterPRG).GetMaskShare 0 =
        .ok ([(GetRandomElement (PRG.init : CounterPRG)).1,
            (GetRandomElement (PRG.init : CounterPRG)).1,
            ((GetRandomElement (PRG.init : CounterPRG)).1 : Fp61)],
          ⟨[[PRG.init, PRG.init, PRG.init]], [PRG.init], 3⟩)) ∧
    (((⟨[[PRG.init, PRG.init, PRG.init]], [PRG.init], 3⟩ :
        InputSetup.Correlator CounterPRG).GetMask.1 : Fp61) ≠
      ((⟨[[PRG.init, PRG.init, PRG.init]], [PRG.init], 3⟩ :
          InputSetup.Correlator CounterPRG).GetMask :
        Fp61 × InputSetup.Correlator CounterPRG).2.GetMask.1) :=
  have h : (⟨[[PRG.init, PRG.init, PRG.init]], [PRG.init], 3⟩ :
        InputSetup.Correlator CounterPRG).GetMaskShare 0 =
      .ok ([(GetRandomElement (PRG.init : CounterPRG)).1,
          (GetRandomElement (PRG.init : CounterPRG)).1,
          ((GetRandomElement (PRG.init : CounterPRG)).1 : Fp61)],
        ⟨[[PRG.init, PRG.init, PRG.init]], [PRG.init], 3⟩) := rfl
  ⟨h, C9_GetMaskShare_repeats _ _ 0 _ h, by decide⟩

/-- The setup values of one party: `shr_k` is dealt from an additive sharing with one value
per slot, `C(n, t)` values in all, while `add_k`, from which the party derives its own
generators, has `n` values. -/
theorem deal_lengths {F : Type} [CommRing F] [DecidableEq F] [FieldBytes F] {G : Type} [PRG G]
    (s : InputSetup G) (n t : Nat) (hR : s.mReplicator.WF n t) (hs : s.mSize = n)
    (ht : t < n) :
    ∃ (adds add_k : List F) (s1 : InputSetup G),
      s.deal = .ok (dealt (combs n (n - t) 0) n adds, add_k, s1) ∧
      adds.length = Nat.choose n t ∧ add_k.length = n := by
  have hA : s.mReplicator.mAdditiveShareSize ≠ 0 :=
    additive_ne_zero s.mReplicator n t hR (by omega)
  obtain ⟨adds, prg', a1, _, a3⟩ := Share_ok s.mReplicator n t hR hA
    (GetRandomElement s.mPrg : F × G).1 (GetRandomElement s.mPrg : F × G).2
  obtain ⟨add_k, prg'', b1, b2, _⟩ := ShareAdditive_ok (GetRandomElement s.mPrg : F × G).1 n
    (GetRandomElement s.mPrg : F × G).2 (by omega)
  refine ⟨adds, add_k, { s with mPrg := prg' }, ?_, ?_, b2⟩
  · unfold InputSetup.deal
    simp only
    rw [a3]
    simp only
    rw [hs, b1]
  · rw [a1, length_combs, Nat.sub_zero, Nat.choose_symm (le_of_lt ht)]

/-- C8, the behaviour of the code: in the run of the input protocol as the test sets it up,
the shares open to the secret `123456` for `n = 4`, `t = 1`, and to another value for `n = 7`,
`t = 2`. -/
theorem C8_input_seven_parties :
    sampleInputOpen 4 1 3 123456 = some 123456 ∧
    ∃ v, sampleInputOpen 7 2 3 123456 = some v ∧ v ≠ 123456 :=
  ⟨by decide!, 982328133192909500, by decide!, by decide⟩

theorem ShrManipulator_ctor_error_left (pid d n : Nat)
    (h : ∃ e, Replicator.ctor n d = .error e) :
    ∃ e, ShrManipulator.ctor pid d n = .error e := by
  obtain ⟨e, he⟩ := h
  unfold ShrManipulator.ctor
  rw [he]
  exact ⟨e, rfl⟩

/-- C2, an instance: `n = 4`, `t = 1`, the secret `42` and a freshly constructed generator. -/
theorem C2_witness :
    (1 ≤ 1 ∧ 1 < 4 ∧ 4 ≤ 29) ∧
    ∃ R shares prg', Replicator.ctor 4 1 = .ok R ∧
      R.Share (42 : Fp61) (PRG.init : CounterPRG) = .ok (shares, prg') ∧
      R.ErrorDetection shares = .ok 42 :=
  ⟨by decide, C2_ErrorDetection_Share 4 1 (by decide) (by decide) (by decide) 42 PRG.init⟩

/-- C2 fails for `n = 30`, `t = 15`: the 64-bit evaluation of `Binom(30, 15)` wraps around and
the constructor of the replicator writes outside its table, so there are no shares to check. -/
theorem C2_counterexample :
    ¬ ∃ (R : Replicator) (shares : List (List Fp61)) (prg' : CounterPRG),
      Replicator.ctor 30 15 = .ok R ∧
      R.Share (42 : Fp61) (PRG.init : CounterPRG) = .ok (shares, prg') ∧
      R.ErrorDetection shares = .ok 42 := by
  rintro ⟨R, _, _, h, _⟩
  obtain ⟨e, he⟩ := ctor_30_15
  rw [he] at h
  cases h

/-- C3, an instance: `n = 4`, `t = 1`, the secret `42` and a freshly constructed generator. -/
theorem C3_witness :
    (1 ≤ 1 ∧ 2 ≤ 4 - 1 ∧ 4 ≤ 29) ∧
    ∃ R shares prg', Replicator.ctor 4 1 = .ok R ∧
      R.Share (42 : Fp61) (PRG.init : CounterPRG) = .ok (shares, prg') ∧
      ∀ i j (v' : Fp61), i < 4 → j < R.ShareSize → v' ≠ (shares.getD i []).getD j 0 →
        R.ErrorDetection (shares.set i ((shares.getD i []).set j v')) =
          .error Fault.inconsistent_shares :=
  ⟨by decide, C3_ErrorDetection_tampered 4 1 (by decide) (by decide) (by decide) 42 PRG.init⟩

/-- C3 fails for `n = 30`, `t = 15`: the replicator cannot be constructed, so there are no
shares to tamper with and no call of `ErrorDetection`. -/
theorem C3_counterexample :
    ¬ ∃ (R : Replicator) (shares : List (List Fp61)) (prg' : CounterPRG),
      Replicator.ctor 30 15 = .ok R ∧
      R.Share (42 : Fp61) (PRG.init : CounterPRG) = .ok (shares, prg') ∧
      ∀ i j (v' : Fp61), i < 30 → j < R.ShareSize → v' ≠ (shares.getD i []).getD j 0 →
        R.ErrorDetection (shares.set i ((shares.getD i []).set j v')) =
          .error Fault.inconsistent_shares := by
  rintro ⟨R, _, _, h, _⟩
  obtain ⟨e, he⟩ := ctor_30_15
  rw [he] at h
  cases h

/-- C4, an instance: `n = 4`, `t = 1`, the factors `3` and `5`. -/
theorem C4_witness :
    (1 ≤ 1 ∧ 2 * 1 < 4 ∧ 4 ≤ 30) ∧
    ∃ (R DR : Replicator) (sha shb outs : List (List Fp61)) (prg1 prg2 : CounterPRG),
      Replicator.ctor 4 1 = .ok R ∧ Replicator.ctor 4 (2 * 1) = .ok DR ∧
      R.Share 3 PRG.init = .ok (sha, prg1) ∧ R.Share 5 prg1 = .ok (shb, prg2) ∧
      outs.length = 4 ∧
      (∀ i, i < 4 → ∃ M, ShrManipulator.ctor i 1 4 = .ok M ∧
        M.MultiplyToDoubleDegree (sha.getD i []) (shb.getD i []) = .ok (outs.getD i []) ∧
        (outs.getD i []).length = DR.ShareSize) ∧
      IsSharing 4 (2 * 1) outs (3 * 5) ∧
      DR.ErrorDetection outs = .ok (3 * 5) ∧ DR.Reconstruct outs = .ok (3 * 5) :=
  ⟨by decide, C4_MultiplyToDoubleDegree 4 1 (by decide) (by decide) (by decide) 3 5 PRG.init⟩

/-- C4 fails for `n = 31`, `t = 14`: the 64-bit evaluation of `Binom(31, 14)` wraps around, so
the replicator of threshold `t` cannot be constructed and nothing can be shared. -/
theorem C4_counterexample :
    ¬ ∃ (R DR : Replicator) (sha shb outs : List (List Fp61)) (prg1 prg2 : CounterPRG),
      Replicator.ctor 31 14 = .ok R ∧ Replicator.ctor 31 (2 * 14) = .ok DR ∧
      R.Share 3 PRG.init = .ok (sha, prg1) ∧ R.Share 5 prg1 = .ok (shb, prg2) ∧
      outs.length = 31 ∧
      (∀ i, i < 31 → ∃ M, ShrManipulator.ctor i 14 31 = .ok M ∧
        M.MultiplyToDoubleDegree (sha.getD i []) (shb.getD i []) = .ok (outs.getD i []) ∧
        (outs.getD i []).length = DR.ShareSize) ∧
      IsSharing 31 (2 * 14) outs (3 * 5) ∧
      DR.ErrorDetection outs = .ok (3 * 5) ∧ DR.Reconstruct outs = .ok (3 * 5) := by
  rintro ⟨R, _, _, _, _, _, _, h, _⟩
  obtain ⟨e, he⟩ := ctor_31_14
  rw [he] at h
  cases h

/-- C5, an instance: `n = 4`, `t = 1`, the factors `3` and `5`. -/
theorem C5_witness :
    (1 ≤ 1 ∧ 2 * 1 < 4 ∧ 4 ≤ 30) ∧
    ∃ (R : Replicator) (sha shb : List (List Fp61)) (prg1 prg2 : CounterPRG) (z : Nat → Fp61),
      Replicator.ctor 4 1 = .ok R ∧
      R.Share 3 PRG.init = .ok (sha, prg1) ∧ R.Share 5 prg1 = .ok (shb, prg2) ∧
      (∀ i, i < 4 → ∃ M, ShrManipulator.ctor i 1 4 = .ok M ∧
        M.MultiplyToAdditive (sha.getD i []) (shb.getD i []) = .ok (z i) ∧
        ∀ e ∈ M.mTableMult, e.first_party ≤ 2 * 1) ∧
      ∑ i in Finset.range (2 * 1 + 1), z i = 3 * 5 :=
  ⟨by decide, C5_MultiplyToAdditive 4 1 (by decide) (by decide) (by decide) 3 5 PRG.init⟩

/-- C5 fails for `n = 31`, `t = 14`: no party can construct its manipulator, because the
replicator inside it needs `Binom(31, 14)`, whose 64-bit evaluation wraps around. -/
theorem C5_counterexample :
    ¬ ∃ (z : Nat → Fp61) (sha shb : List (List Fp61)),
      (∀ i, i < 31 → ∃ M, ShrManipulator.ctor i 14 31 = .ok M ∧
        M.MultiplyToAdditive (sha.getD i []) (shb.getD i []) = .ok (z i) ∧
        ∀ e ∈ M.mTableMult, e.first_party ≤ 2 * 14) ∧
      ∑ i in Finset.range (2 * 14 + 1), z i = 3 * 5 := by
  rintro ⟨_, _, _, h, _⟩
  obtain ⟨M, hM, _⟩ := h 0 (by decide)
  obtain ⟨e, he⟩ := ShrManipulator_ctor_error_left 0 14 31 ctor_31_14
  rw [he] at hM
  cases hM

/-- C10, an instance: `n = 4`, `t = 1`, the sharing of `10` dealt from the slot values
`1, 2, 3, 4` and the sharing of `26` dealt from `5, 6, 7, 8`. -/
theorem C10_witness :
    (1 ≤ 1 ∧ 2 * 1 < 4 ∧ 4 ≤ 30 ∧
      IsSharing 4 1 (dealt (combs 4 3 0) 4 ([1, 2, 3, 4] : List Fp61)) 10 ∧
      IsSharing 4 1 (dealt (combs 4 3 0) 4 ([5, 6, 7, 8] : List Fp61)) 26) ∧
    ∃ (R : Replicator) (outz outw : List (List Fp61)),
      Replicator.ctor 4 1 = .ok R ∧ outz.length = 4 ∧ outw.length = 4 ∧
      (∀ i, i < 4 → ∃ M, ShrManipulator.ctor i 1 4 = .ok M ∧
        M.Add ((dealt (combs 4 3 0) 4 ([1, 2, 3, 4] : List Fp61)).getD i [])
          ((dealt (combs 4 3 0) 4 ([5, 6, 7, 8] : List Fp61)).getD i []) =
            .ok (outz.getD i []) ∧
        M.Subtract ((dealt (combs 4 3 0) 4 ([1, 2, 3, 4] : List Fp61)).getD i [])
          ((dealt (combs 4 3 0) 4 ([5, 6, 7, 8] : List Fp61)).getD i []) =
            .ok (outw.getD i []) ∧
        (outz.getD i []).length =
          ((dealt (combs 4 3 0) 4 ([1, 2, 3, 4] : List Fp61)).getD i []).length ∧
        (outw.getD i []).length =
          ((dealt (combs 4 3 0) 4 ([1, 2, 3, 4] : List Fp61)).getD i []).length ∧
        ∀ k, k < ((dealt (combs 4 3 0) 4 ([1, 2, 3, 4] : List Fp61)).getD i []).length →
          (outz.getD i []).getD k 0 =
            ((dealt (combs 4 3 0) 4 ([1, 2, 3, 4] : List Fp61)).getD i []).getD k 0 +
              ((dealt (combs 4 3 0) 4 ([5, 6, 7, 8] : List Fp61)).getD i []).getD k 0 ∧
          (outw.getD i []).getD k 0 =
            ((dealt (combs 4 3 0) 4 ([1, 2, 3, 4] : List Fp61)).getD i []).getD k 0 -
              ((dealt (combs 4 3 0) 4 ([5, 6, 7, 8] : List Fp61)).getD i []).getD k 0) ∧
      IsSharing 4 1 outz (10 + 26) ∧ IsSharing 4 1 outw (10 - 26) ∧
      R.Reconstruct outz = .ok (10 + 26) ∧ R.Reconstruct outw = .ok (10 - 26) :=
  have hx : IsSharing 4 1 (dealt (combs 4 3 0) 4 ([1, 2, 3, 4] : List Fp61)) 10 :=
    ⟨[1, 2, 3, 4], by decide, by decide, rfl⟩
  have hy : IsSharing 4 1 (dealt (combs 4 3 0) 4 ([5, 6, 7, 8] : List Fp61)) 26 :=
    ⟨[5, 6, 7, 8], by decide, by decide, rfl⟩
  ⟨⟨by decide, by decide, by decide, hx, hy⟩,
    C10_Add_Subtract 4 1 (by decide) (by decide) (by decide) 10 26 _ _ hx hy⟩

/-- C10 fails for `n = 31`, `t = 14`: no party can construct its manipulator, so no party can
call `Add` or `Subtract`, whatever the shares. -/
theorem C10_counterexample :
    ¬ ∃ (M : ShrManipulator) (a b out : List Fp61),
      ShrManipulator.ctor 0 14 31 = .ok M ∧ M.Add a b = .ok out := by
  rintro ⟨M, _, _, _, hM, _⟩
  obtain ⟨e, he⟩ := ShrManipulator_ctor_error_left 0 14 31 ctor_31_14
  rw [he] at hM
  cases hM

/-- A constant operation on a dealt share: the parties that hold slot 0 apply `f` to their copy
of it, the other parties keep their share; the result is the share dealt from the slot values
with `f` applied to slot 0. -/
theorem constOp_dealt {F : Type} [CommRing F] (M : ShrManipulator)
    (n t pid : Nat) (hM : M.WF pid t n) (ht : t < n) (hid : pid < n) (ρ : List F)
    (hρ : ρ.length = (combs n (n - t) 0).length) (f : F → F) :
    (if M.mIndexForConstantOps = -1 then
        Except.ok ((dealt (combs n (n - t) 0) n ρ).getD pid [])
      else updateAt ((dealt (combs n (n - t) 0) n ρ).getD pid []) M.mIndexForConstantOps f) =
      .ok ((dealt (combs n (n - t) 0) n (ρ.set 0 (f (ρ.getD 0 0)))).getD pid []) := by
  have hpos : 0 < ρ.length := by
    rw [hρ, length_combs]
    exact Nat.choose_pos (by omega)
  have hne : ∀ s ∈ slotsOf (combs n (n - t) 0) pid, s ≠ 0 →
      (ρ.set 0 (f (ρ.getD 0 0))).getD s 0 = ρ.getD s 0 := by
    intro s _ hs
    rw [getD_set_scalar ρ 0 s _ hpos, if_neg (fun h => hs h.symm)]
  rw [hM.indexConst, dealt_getD _ _ _ pid hid, dealt_getD _ _ _ pid hid]
  by_cases h : pid < n - t
  · obtain ⟨rest, hrest, hnot⟩ := slotsOf_head n t pid ht h
    rw [if_pos h, if_neg (by decide)]
    unfold updateAt
    rw [hrest] at hne ⊢
    rw [List.map_cons, List.map_cons]
    show Except.ok (_ :: _) = _
    congr 2
    · rw [getD_set_scalar ρ 0 0 _ hpos, if_pos rfl]
    · apply List.map_congr_left
      intro s hs
      rw [hne s (List.mem_cons_of_mem 0 hs) (fun h0 => hnot (h0 ▸ hs))]
  · rw [if_neg h, if_pos rfl]
    congr 1
    apply List.map_congr_left
    intro s hs
    rw [hne s hs (fun h0 => slotsOf_no_zero n t pid ht h (h0 ▸ hs))]

theorem dealt_map {F : Type} [CommRing F] (L : List (List Nat)) (n : Nat) (ρ : List F)
    (g : F → F) (hg : g 0 = 0) (p : Nat) :
    ((dealt L n ρ).getD p []).map g = (dealt L n (ρ.map g)).getD p [] := by
  have hget : ∀ idx, (ρ.map g).getD idx 0 = g (ρ.getD idx 0) := by
    intro idx
    simp only [List.getD_eq_getElem?_getD, List.getElem?_map]
    cases ρ[idx]? with
    | none => simp [hg]
    | some v => simp
  by_cases hp : p < n
  · rw [dealt_getD _ _ _ p hp, dealt_getD _ _ _ p hp, List.map_map]
    apply List.map_congr_left
    intro idx _
    exact (hget idx).symm
  · have e : ∀ γ : List F, (dealt L n γ).getD p [] = [] := by
      intro γ
      unfold dealt
      have : ((List.range n).map (fun p => (slotsOf L p).map (fun idx => γ.getD idx 0)))[p]? =
          none := List.getElem?_eq_none (by simp; omega)
      rw [List.getD_eq_getElem?_getD, this]
      rfl
    rw [e, e]
    rfl

theorem dealt_eq_map {F : Type} [CommRing F] (L : List (List Nat)) (n : Nat) (ρ : List F) :
    dealt L n ρ = (List.range n).map (fun p => (dealt L n ρ).getD p []) := by
  unfold dealt
  apply List.map_congr_left
  intro i hi
  rw [getD_map_range_lt n _ i [] (List.mem_range.mp hi)]

theorem sum_map_neg {F : Type} [CommRing F] (ρ : List F) :
    (ρ.map (fun s => -s)).sum = -ρ.sum := by
  induction ρ with
  | nil => simp
  | cons a l ih => simp only [List.map_cons, List.sum_cons, ih]; ring

theorem sum_map_mul {F : Type} [CommRing F] (c : F) (ρ : List F) :
    (ρ.map (fun s => c * s)).sum = c * ρ.sum := by
  induction ρ with
  | nil => simp
  | cons a l ih => simp only [List.map_cons, List.sum_cons, ih]; ring

theorem sum_set_zero_fun {F : Type} [CommRing F] (l : List F) (v : F) (h : 0 < l.length) :
    (l.set 0 v).sum = l.sum - l.getD 0 0 + v := by
  cases l with
  | nil => simp at h
  | cons a l =>
    simp only [List.set_cons_zero, List.sum_cons, List.getD_cons_zero]
    ring

/-- The three constant operations by all parties on a valid sharing, for manipulators that are
well formed. -/
theorem constOps_IsSharing {F : Type} [CommRing F] (n t : Nat) (ht : t < n)
    (M : Nat → ShrManipulator) (hM : ∀ i, i < n → (M i).WF i t n) (x c : F)
    (sh : List (List F)) (hx : IsSharing n t sh x) :
    ∃ outa outs outf : List (List F),
      outa.length = n ∧ outs.length = n ∧ outf.length = n ∧
      (∀ i, i < n →
        (M i).AddConstant (sh.getD i []) c = .ok (outa.getD i []) ∧
        (M i).SubtractConstant (sh.getD i []) c = .ok (outs.getD i []) ∧
        (M i).SubtractConstantFrom c (sh.getD i []) = .ok (outf.getD i [])) ∧
      IsSharing n t outa (x + c) ∧ IsSharing n t outs (x - c) ∧ IsSharing n t outf (c - x) := by
  obtain ⟨ρ, h1, h2, rfl⟩ := hx
  have hpos : 0 < ρ.length := by
    rw [h1, length_combs]
    exact Nat.choose_pos (by omega)
  have hlen : ∀ γ : List F, (dealt (combs n (n - t) 0) n γ).length = n := by
    intro γ; unfold dealt; simp
  refine ⟨dealt (combs n (n - t) 0) n (ρ.set 0 (ρ.getD 0 0 + c)),
    dealt (combs n (n - t) 0) n (ρ.set 0 (ρ.getD 0 0 - c)),
    dealt (combs n (n - t) 0) n ((ρ.map (fun s => -s)).set 0
      ((ρ.map (fun s => -s)).getD 0 0 + c)),
    hlen _, hlen _, hlen _, ?_, ?_, ?_, ?_⟩
  · intro i hi
    refine ⟨?_, ?_, ?_⟩
    · exact constOp_dealt (M i) n t i (hM i hi) ht hi ρ h1 (fun v => v + c)
    · exact constOp_dealt (M i) n t i (hM i hi) ht hi ρ h1 (fun v => v - c)
    · unfold ShrManipulator.SubtractConstantFrom
      simp only
      rw [dealt_map _ n ρ (fun s => -s) neg_zero i]
      exact constOp_dealt (M i) n t i (hM i hi) ht hi (ρ.map (fun s => -s))
        (by rw [List.length_map]; exact h1) (fun v => v + c)
  · exact ⟨_, by rw [List.length_set]; exact h1,
      by rw [sum_set_zero_fun _ _ hpos, h2]; ring, rfl⟩
  · exact ⟨_, by rw [List.length_set]; exact h1,
      by rw [sum_set_zero_fun _ _ hpos, h2]; ring, rfl⟩
  · exact ⟨_, by rw [List.length_set, List.length_map]; exact h1,
      by rw [sum_set_zero_fun _ _ (by rw [List.length_map]; exact hpos), sum_map_neg, h2]; ring,
      rfl⟩

/-- C11 (amended to `n ≤ 30`, `2 t < n`): for a valid sharing of `x` and a constant `c`, when every party
applies its own manipulator, the outputs of `AddConstant(share, c)` form a valid sharing of
`x + c`, those of `SubtractConstant(share, c)` a valid sharing of `x - c` and those of
`SubtractConstant(c, share)` a valid sharing of `c - x`; in each case `ErrorDetection` accepts
the outputs and `Reconstruct` returns the stated value. -/
theorem C11_constant_operations {F : Type} [CommRing F] [DecidableEq F]
    (n t : Nat) (ht : 1 ≤ t) (h2t : 2 * t < n) (hn : n ≤ 30) (x c : F)
    (sh : List (List F)) (hx : IsSharing n t sh x) :
    ∃ (R : Replicator) (outa outs outf : List (List F)),
      Replicator.ctor n t = .ok R ∧ outa.length = n ∧ outs.length = n ∧ outf.length = n ∧
      (∀ i, i < n → ∃ M, ShrManipulator.ctor i t n = .ok M ∧
        M.AddConstant (sh.getD i []) c = .ok (outa.getD i []) ∧
        M.SubtractConstant (sh.getD i []) c = .ok (outs.getD i []) ∧
        M.SubtractConstantFrom c (sh.getD i []) = .ok (outf.getD i [])) ∧
      IsSharing n t outa (x + c) ∧ IsSharing n t outs (x - c) ∧ IsSharing n t outf (c - x) ∧
      R.ErrorDetection outa = .ok (x + c) ∧ R.ErrorDetection outs = .ok (x - c) ∧
      R.ErrorDetection outf = .ok (c - x) ∧
      R.Reconstruct outa = .ok (x + c) ∧ R.Reconstruct outs = .ok (x - c) ∧
      R.Reconstruct outf = .ok (c - x) := by
  obtain ⟨hex1, hex2⟩ := BinomExact_pairs n t h2t hn
  obtain ⟨R, h1, hR⟩ := ctor_ok_exact n t ht (by omega) hex1
  have hM : ∀ i, ∃ M : ShrManipulator, i < n →
      (ShrManipulator.ctor i t n = .ok M ∧ M.WF i t n) := by
    intro i
    by_cases hi : i < n
    · obtain ⟨M, m1, m2, _, _⟩ := ShrManipulator_ctor_ok_exact i t n ht h2t ⟨hex1, hex2⟩ hi
      exact ⟨M, fun _ => ⟨m1, m2⟩⟩
    · exact ⟨⟨0, 0, 0, [], [], R, R, 0⟩, fun h => absurd h hi⟩
  choose M hM using hM
  obtain ⟨outa, outs, outf, l1, l2, l3, hops, s1, s2, s3⟩ :=
    constOps_IsSharing n t (by omega) M (fun i hi => (hM i hi).2) x c sh hx
  exact ⟨R, outa, outs, outf, h1, l1, l2, l3,
    fun i hi => ⟨M i, (hM i hi).1, hops i hi⟩, s1, s2, s3,
    ErrorDetection_IsSharing R n t hR (by omega) _ _ s1,
    ErrorDetection_IsSharing R n t hR (by omega) _ _ s2,
    ErrorDetection_IsSharing R n t hR (by omega) _ _ s3,
    Reconstruct_IsSharing R n t hR (by omega) _ _ s1,
    Reconstruct_IsSharing R n t hR (by omega) _ _ s2,
    Reconstruct_IsSharing R n t hR (by omega) _ _ s3⟩

/-- C11, an instance: `n = 4`, `t = 1`, the sharing of `10` dealt from the slot values
`1, 2, 3, 4`, and the constant `7`. -/
theorem C11_witness :
    (1 ≤ 1 ∧ 2 * 1 < 4 ∧ 4 ≤ 30 ∧
      IsSharing 4 1 (dealt (combs 4 3 0) 4 ([1, 2, 3, 4] : List Fp61)) 10) ∧
    ∃ (R : Replicator) (outa outs outf : List (List Fp61)),
      Replicator.ctor 4 1 = .ok R ∧ outa.length = 4 ∧ outs.length = 4 ∧ outf.length = 4 ∧
      (∀ i, i < 4 → ∃ M, ShrManipulator.ctor i 1 4 = .ok M ∧
        M.AddConstant ((dealt (combs 4 3 0) 4 ([1, 2, 3, 4] : List Fp61)).getD i []) 7 =
          .ok (outa.getD i []) ∧
        M.SubtractConstant ((dealt (combs 4 3 0) 4 ([1, 2, 3, 4] : List Fp61)).getD i []) 7 =
          .ok (outs.getD i []) ∧
        M.SubtractConstantFrom 7
          ((dealt (combs 4 3 0) 4 ([1, 2, 3, 4] : List Fp61)).getD i []) =
          .ok (outf.getD i [])) ∧
      IsSharing 4 1 outa (10 + 7) ∧ IsSharing 4 1 outs (10 - 7) ∧
      IsSharing 4 1 outf (7 - 10) ∧
      R.ErrorDetection outa = .ok (10 + 7) ∧ R.ErrorDetection outs = .ok (10 - 7) ∧
      R.ErrorDetection outf = .ok (7 - 10) ∧
      R.Reconstruct outa = .ok (10 + 7) ∧ R.Reconstruct outs = .ok (10 - 7) ∧
      R.Reconstruct outf = .ok (7 - 10) :=
  have hx : IsSharing 4 1 (dealt (combs 4 3 0) 4 ([1, 2, 3, 4] : List Fp61)) 10 :=
    ⟨[1, 2, 3, 4], by decide, by decide, rfl⟩
  ⟨⟨by decide, by decide, by decide, hx⟩,
    C11_constant_operations 4 1 (by decide) (by decide) (by decide) 10 7 _ hx⟩

/-- C11 fails for `n = 31`, `t = 14`: no party can construct its manipulator, because the
64-bit evaluation of `Binom(31, 14)` wraps around, so no party can apply a constant
operation.  It also fails for `n = 4`, `t = 2`: the constructor of the manipulator asks for the
replicator of threshold `2 t`, which does not exist unless `2 t < n`. -/
theorem C11_counterexample :
    (¬ ∃ (M : ShrManipulator) (a out : List Fp61) (c : Fp61),
      ShrManipulator.ctor 0 14 31 = .ok M ∧ M.AddConstant a c = .ok out) ∧
    (¬ ∃ (M : ShrManipulator) (a out : List Fp61) (c : Fp61),
      ShrManipulator.ctor 0 2 4 = .ok M ∧ M.AddConstant a c = .ok out) := by
  constructor
  · rintro ⟨M, _, _, _, hM, _⟩
    obtain ⟨e, he⟩ := ShrManipulator_ctor_error_left 0 14 31 ctor_31_14
    rw [he] at hM
    cases hM
  · rintro ⟨M, _, _, _, hM, _⟩
    obtain ⟨e, he⟩ := ShrManipulator_ctor_error 0 2 4 ⟨Fault.invalid_argument, by
      rw [ctor_of_divisors 4 (2 * 2 % SIZE) (by decide) (by decide), if_pos (by decide)]⟩
    rw [he] at hM
    cases hM

/-- C12: for a valid sharing of `x` and a constant `c`, the outputs of `MultiplyConstant` of the
parties form a valid sharing of `c * x`, each output has the length of its input, and the
overload `MultiplyConstant(c, a)` returns the same share as `MultiplyConstant(a, c)`. -/
theorem C12_MultiplyConstant {F : Type} [CommRing F] (n t : Nat) (x c : F)
    (sh : List (List F)) (hx : IsSharing n t sh x) (M : Nat → ShrManipulator) :
    IsSharing n t ((List.range n).map (fun i => (M i).MultiplyConstant (sh.getD i []) c))
      (c * x) ∧
    ∀ i, ((M i).MultiplyConstant (sh.getD i []) c).length = (sh.getD i []).length ∧
      (M i).MultiplyConstantLeft c (sh.getD i []) = (M i).MultiplyConstant (sh.getD i []) c := by
  obtain ⟨ρ, h1, h2, rfl⟩ := hx
  refine ⟨⟨ρ.map (fun s => c * s), by rw [List.length_map]; exact h1,
    by rw [sum_map_mul, h2], ?_⟩, ?_⟩
  · rw [dealt_eq_map _ n (ρ.map (fun s => c * s))]
    apply List.map_congr_left
    intro i _
    unfold ShrManipulator.MultiplyConstant
    exact dealt_map _ n ρ (fun s => c * s) (mul_zero c) i
  · intro i
    exact ⟨by unfold ShrManipulator.MultiplyConstant; rw [List.length_map], rfl⟩

/-- C12, an instance: `n = 4`, `t = 1`, the sharing of `10` dealt from the slot values
`1, 2, 3, 4`, the constant `20` and the manipulators of the four parties. -/
theorem C12_witness :
    IsSharing 4 1 (dealt (combs 4 3 0) 4 ([1, 2, 3, 4] : List Fp61)) 10 ∧
    (IsSharing 4 1 ((List.range 4).map (fun i => (sampleManipulator i).MultiplyConstant
        ((dealt (combs 4 3 0) 4 ([1, 2, 3, 4] : List Fp61)).getD i []) 20)) (20 * 10) ∧
      ∀ i, ((sampleManipulator i).MultiplyConstant
          ((dealt (combs 4 3 0) 4 ([1, 2, 3, 4] : List Fp61)).getD i []) 20).length =
          ((dealt (combs 4 3 0) 4 ([1, 2, 3, 4] : List Fp61)).getD i []).length ∧
        (sampleManipulator i).MultiplyConstantLeft 20
          ((dealt (combs 4 3 0) 4 ([1, 2, 3, 4] : List Fp61)).getD i []) =
        (sampleManipulator i).MultiplyConstant
          ((dealt (combs 4 3 0) 4 ([1, 2, 3, 4] : List Fp61)).getD i []) 20) :=
  have hx : IsSharing 4 1 (dealt (combs 4 3 0) 4 ([1, 2, 3, 4] : List Fp61)) 10 :=
    ⟨[1, 2, 3, 4], by decide, by decide, rfl⟩
  ⟨hx, C12_MultiplyConstant 4 1 10 20 _ hx sampleManipulator⟩

theorem getD_append_left {F : Type} [CommRing F] (l : List F) (x : F) (j : Nat)
    (h : j < l.length) : (l ++ [x]).getD j 0 = l.getD j 0 := by
  simp [List.getD_eq_getElem?_getD, List.getElem?_append_left h]

theorem getD_append_last {F : Type} [CommRing F] (l : List F) (x : F) :
    (l ++ [x]).getD l.length 0 = x := by
  simp [List.getD_eq_getElem?_getD]

theorem getD_set_ne' {α : Type} (sh : List α) (i : Nat) (row : α) (p : Nat) (d : α)
    (h : p ≠ i) : (sh.set i row).getD p d = sh.getD p d := by
  have : ¬ (i = p) := fun e => h e.symm
  simp [List.getD_eq_getElem?_getD, List.getElem?_set, this]

theorem getD_set_same {α : Type} (sh : List α) (i : Nat) (row : α) (d : α)
    (h : i < sh.length) : (sh.set i row).getD i d = row := by
  simp [List.getD_eq_getElem?_getD, List.getElem?_set, h]

theorem randStep_ok {F : Type} [CommRing F] [DecidableEq F] [FieldBytes F] {G : Type} [PRG G]
    (k u : Nat) (st : GenState F G) (h1 : u < st.mRandPRGs.length)
    (h2 : k < (st.mRandPRGs.getD u []).length) (h3 : u < st.rep_add_shares.length)
    (h4 : (st.rep_add_shares.getD u []).length = k) (h5 : k < st.rep_share.length) :
    GenRandomShare.randStep k st u =
      .ok { rep_share := st.rep_share.set k (st.rep_share.getD k 0 +
              FieldBytes.FromBytes
                (PRG.Next ((st.mRandPRGs.getD u []).getD k PRG.init) (FieldBytes.ByteSize F)).1)
            rep_add_shares := st.rep_add_shares.set u (st.rep_add_shares.getD u [] ++
              [FieldBytes.FromBytes
                (PRG.Next ((st.mRandPRGs.getD u []).getD k PRG.init) (FieldBytes.ByteSize F)).1])
            mRandPRGs := st.mRandPRGs.set u ((st.mRandPRGs.getD u []).set k
              (PRG.Next ((st.mRandPRGs.getD u []).getD k PRG.init)
                (FieldBytes.ByteSize F)).2) } := by
  unfold GenRandomShare.randStep
  rw [getE_ok_getD st.mRandPRGs u [] h1]
  simp only
  rw [getE_ok_getD _ k PRG.init h2]
  simp only
  rw [getE_ok_getD st.rep_add_shares u [] h3]
  simp only
  rw [getE_ok_getD _ k 0 (by rw [List.length_append, h4]; simp)]
  simp only
  rw [getE_ok_getD st.rep_share k 0 h5]
  simp only
  have : (st.rep_add_shares.getD u [] ++
      [(FieldBytes.FromBytes (PRG.Next ((st.mRandPRGs.getD u []).getD k PRG.init)
        (FieldBytes.ByteSize F)).1 : F)]).getD k 0 =
      FieldBytes.FromBytes (PRG.Next ((st.mRandPRGs.getD u []).getD k PRG.init)
        (FieldBytes.ByteSize F)).1 := by
    have := getD_append_last (st.rep_add_shares.getD u [])
      (FieldBytes.FromBytes (PRG.Next ((st.mRandPRGs.getD u []).getD k PRG.init)
        (FieldBytes.ByteSize F)).1 : F)
    rw [h4] at this
    exact this
  rw [this]

theorem randStep_inv {F : Type} [CommRing F] [DecidableEq F] [FieldBytes F] {G : Type} [PRG G]
    (S T k u : Nat) (st : GenState F G) (hk : k < S) (hu : u < T)
    (h : GenInv S T k u st) (h0 : u = 0 → st.rep_share.getD k 0 = 0) :
    ∃ st', GenRandomShare.randStep k st u = .ok st' ∧ GenInv S T k (u + 1) st' := by
  have e1 : (st.rep_add_shares.getD u []).length = k := by
    rw [h.addrows u hu, if_neg (lt_irrefl u)]
  refine ⟨_, randStep_ok k u st (by rw [h.prgs]; exact hu) (by rw [h.prgrows u hu]; exact hk)
    (by rw [h.adds]; exact hu) e1 (by rw [h.share]; exact hk), ?_⟩
  have hrow : ∀ v, v < T → ∀ j, j < k →
      ((st.rep_add_shares.set u (st.rep_add_shares.getD u [] ++
        [(FieldBytes.FromBytes (PRG.Next ((st.mRandPRGs.getD u []).getD k PRG.init)
          (FieldBytes.ByteSize F)).1 : F)])).getD v []).getD j 0 =
      (st.rep_add_shares.getD v []).getD j 0 := by
    intro v _ j hj
    by_cases hvu : v = u
    · subst hvu
      rw [getD_set_same _ _ _ _ (by rw [h.adds]; exact hu)]
      exact getD_append_left _ _ j (by rw [e1]; exact hj)
    · rw [getD_set_ne' _ _ _ _ _ hvu]
  constructor
  · simp only [List.length_set]; exact h.share
  · simp only [List.length_set]; exact h.adds
  · intro v hv
    simp only
    by_cases hvu : v = u
    · subst hvu
      rw [getD_set_same _ _ _ _ (by rw [h.adds]; exact hu), List.length_append, e1,
        if_pos (by omega)]
      rfl
    · rw [getD_set_ne' _ _ _ _ _ hvu, h.addrows v hv]
      by_cases hlt : v < u
      · rw [if_pos hlt, if_pos (by omega)]
      · rw [if_neg hlt, if_neg (by omega)]
  · simp only [List.length_set]; exact h.prgs
  · intro v hv
    simp only
    by_cases hvu : v = u
    · subst hvu
      rw [getD_set_same _ _ _ _ (by rw [h.prgs]; exact hu), List.length_set]
      exact h.prgrows v hv
    · rw [getD_set_ne' _ _ _ _ _ hvu]
      exact h.prgrows v hv
  · intro j hj
    simp only
    rw [getD_set_ne' _ _ _ _ _ (by omega : j ≠ k), h.done j hj]
    apply Finset.sum_congr rfl
    intro v hv
    exact (hrow v (Finset.mem_range.mp hv) j hj).symm
  · right
    simp only
    rw [getD_set_same _ _ _ _ (by rw [h.share]; exact hk), Finset.sum_range_succ]
    have hlast : ((st.rep_add_shares.set u (st.rep_add_shares.getD u [] ++
        [(FieldBytes.FromBytes (PRG.Next ((st.mRandPRGs.getD u []).getD k PRG.init)
          (FieldBytes.ByteSize F)).1 : F)])).getD u []).getD k 0 =
        FieldBytes.FromBytes (PRG.Next ((st.mRandPRGs.getD u []).getD k PRG.init)
          (FieldBytes.ByteSize F)).1 := by
      rw [getD_set_same _ _ _ _ (by rw [h.adds]; exact hu)]
      have := getD_append_last (st.rep_add_shares.getD u [])
        (FieldBytes.FromBytes (PRG.Next ((st.mRandPRGs.getD u []).getD k PRG.init)
          (FieldBytes.ByteSize F)).1 : F)
      rw [e1] at this
      exact this
    rw [hlast]
    congr 1
    have hprev : ∑ v in Finset.range u,
        ((st.rep_add_shares.set u (st.rep_add_shares.getD u [] ++
          [(FieldBytes.FromBytes (PRG.Next ((st.mRandPRGs.getD u []).getD k PRG.init)
            (FieldBytes.ByteSize F)).1 : F)])).getD v []).getD k 0 =
        ∑ v in Finset.range u, (st.rep_add_shares.getD v []).getD k 0 := by
      apply Finset.sum_congr rfl
      intro v hv
      rw [getD_set_ne' _ _ _ _ _ (by have := Finset.mem_range.mp hv; omega)]
    rw [hprev]
    rcases h.part with hz | hp
    · subst hz
      rw [h0 rfl]
      simp
    · exact hp

theorem shareStep_inv {F : Type} [CommRing F] [DecidableEq F] [FieldBytes F] {G : Type}
    [PRG G] (S t k : Nat) (st : GenState F G) (hk : k < S)
    (h : GenInv S (2 * t + 1) k 0 st) :
    ∃ st', GenRandomShare.shareStep t st k = .ok st' ∧ GenInv S (2 * t + 1) (k + 1) 0 st' := by
  unfold GenRandomShare.shareStep
  rw [if_pos (by rw [h.share]; exact hk)]
  have hz : (st.rep_share.set k 0).getD k 0 = 0 :=
    getD_set_same _ _ _ _ (by rw [h.share]; exact hk)
  obtain ⟨st', h1, h2, h3⟩ := foldlM_range_inv (GenRandomShare.randStep k)
    (fun u (s : GenState F G) => GenInv S (2 * t + 1) k u s ∧ (u = 0 → s.rep_share.getD k 0 = 0))
    (2 * t + 1) ({ st with rep_share := st.rep_share.set k 0 } : GenState F G)
    ⟨⟨by simp only [List.length_set]; exact h.share, h.adds, h.addrows, h.prgs, h.prgrows,
        fun j hj => by
          show (st.rep_share.set k 0).getD j 0 = _
          rw [getD_set_ne' _ _ _ _ _ (by omega : j ≠ k)]
          exact h.done j hj,
        Or.inl rfl⟩, fun _ => hz⟩
    (fun u s hu hI => by
      obtain ⟨s', a1, a2⟩ := randStep_inv S (2 * t + 1) k u s hk hu hI.1 hI.2
      exact ⟨s', a1, a2, fun h0 => by omega⟩)
  refine ⟨st', h1, ?_⟩
  constructor
  · exact h2.share
  · exact h2.adds
  · intro v hv
    rw [h2.addrows v hv, if_pos hv, if_neg (Nat.not_lt_zero v)]
  · exact h2.prgs
  · exact h2.prgrows
  · intro j hj
    by_cases hjk : j = k
    · subst hjk
      rcases h2.part with hz' | hp
      · omega
      · exact hp
    · exact h2.done j (by omega)
  · exact Or.inl rfl

theorem ownLoop_ok {F : Type} [CommRing F] [DecidableEq F] [FieldBytes F] {G : Type} [PRG G]
    (A : Nat) (prgs : List G) (h : prgs.length = A) :
    ∃ own : F × List G, (List.range A).foldlM GenRandomShare.ownStep ((0 : F), prgs) = .ok own ∧
      own.2.length = A := by
  obtain ⟨own, h1, h2⟩ := foldlM_range_inv GenRandomShare.ownStep
    (fun _ (s : F × List G) => s.2.length = A) A ((0 : F), prgs) h
    (fun k s hk hI => by
      unfold GenRandomShare.ownStep
      rw [getE_ok_getD s.2 k PRG.init (by rw [hI]; exact hk)]
      exact ⟨_, rfl, by simp only [List.length_set]; exact hI⟩)
  exact ⟨own, h1, h2⟩

/-- C13: for a correlator whose generator tables have the sizes that its constructor sets,
whatever the states of the generators, `GenRandomShare` returns a random share whose
`rep_add_shares` has `2t + 1` entries of `ShareSize` elements each, and every element of
`rep_share` is the sum of the elements at the same position of the `2t + 1` entries; the
generator tables keep their sizes. -/
theorem C13_GenRandomShare {F : Type} [CommRing F] [DecidableEq F] [FieldBytes F] {G : Type}
    [PRG G] (c : Correlator G) (h : c.Sized) :
    ∃ (rs : RandomShare F) (c' : Correlator G), c.GenRandomShare = .ok (rs, c') ∧
      rs.rep_add_shares.length = 2 * c.mThreshold + 1 ∧
      (∀ u, u < 2 * c.mThreshold + 1 →
        (rs.rep_add_shares.getD u []).length = c.mReplicator.ShareSize) ∧
      rs.rep_share.length = c.mReplicator.ShareSize ∧
      (∀ k, k < c.mReplicator.ShareSize → rs.rep_share.getD k 0 =
        ∑ u in Finset.range (2 * c.mThreshold + 1), (rs.rep_add_shares.getD u []).getD k 0) ∧
      c'.Sized := by
  have hown : ∃ own : F × List G,
      (if c.mId < 2 * c.mThreshold + 1 then
        (List.range c.mReplicator.AdditiveShareSize).foldlM GenRandomShare.ownStep
          ((0 : F), c.mOwnPRGs)
      else .ok ((0 : F), c.mOwnPRGs)) = .ok own ∧
      own.2.length = c.mReplicator.AdditiveShareSize := by
    by_cases hid : c.mId < 2 * c.mThreshold + 1
    · rw [if_pos hid]
      exact ownLoop_ok _ _ h.own
    · rw [if_neg hid]
      exact ⟨_, rfl, h.own⟩
  obtain ⟨own, o1, o2⟩ := hown
  obtain ⟨st, s1, s2⟩ := foldlM_range_inv (GenRandomShare.shareStep c.mThreshold)
    (fun k (s : GenState F G) => GenInv c.mReplicator.ShareSize (2 * c.mThreshold + 1) k 0 s)
    c.mReplicator.ShareSize
    ({ rep_share := List.replicate c.mReplicator.ShareSize 0
       rep_add_shares := List.replicate (2 * c.mThreshold + 1) []
       mRandPRGs := c.mRandPRGs } : GenState F G)
    ⟨by simp, by simp, fun v hv => by
        simp [List.getD_eq_getElem?_getD, List.getElem?_replicate, hv],
      h.rand, h.rows, fun j hj => by omega, Or.inl rfl⟩
    (fun k s hk hI => shareStep_inv _ c.mThreshold k s hk hI)
  refine ⟨⟨st.rep_share, own.1, st.rep_add_shares⟩,
    { c with mOwnPRGs := own.2, mRandPRGs := st.mRandPRGs },
    ?_, s2.adds, ?_, s2.share, s2.done, ⟨o2, s2.prgs, s2.prgrows⟩⟩
  · unfold Correlator.GenRandomShare
    rw [o1]
    simp only
    rw [s1]
  · intro u hu
    rw [s2.addrows u hu, if_neg (Nat.not_lt_zero u)]

theorem ctor_Sized {G : Type} [PRG G] (id : Nat) (R : Replicator) :
    (Correlator.ctor id R : Correlator G).Sized := by
  constructor
  · simp [Correlator.ctor]
  · simp [Correlator.ctor]
  · intro u hu
    simp only [Correlator.ctor] at hu ⊢
    simp [List.getD_eq_getElem?_getD, List.getElem?_replicate, hu]

/-- C13, an instance: the freshly constructed correlator of party 0 for `n = 4`, `t = 1`. -/
theorem C13_witness :
    (Correlator.ctor 0 sampleReplicator : Correlator CounterPRG).Sized ∧
    ∃ (rs : RandomShare Fp61) (c' : Correlator CounterPRG),
      (Correlator.ctor 0 sampleReplicator : Correlator CounterPRG).GenRandomShare =
        .ok (rs, c') ∧
      rs.rep_add_shares.length =
        2 * (Correlator.ctor 0 sampleReplicator : Correlator CounterPRG).mThreshold + 1 ∧
      (∀ u, u < 2 * (Correlator.ctor 0 sampleReplicator : Correlator CounterPRG).mThreshold + 1 →
        (rs.rep_add_shares.getD u []).length =
          (Correlator.ctor 0 sampleReplicator : Correlator CounterPRG).mReplicator.ShareSize) ∧
      rs.rep_share.length =
        (Correlator.ctor 0 sampleReplicator : Correlator CounterPRG).mReplicator.ShareSize ∧
      (∀ k, k < (Correlator.ctor 0 sampleReplicator :
          Correlator CounterPRG).mReplicator.ShareSize → rs.rep_share.getD k 0 =
        ∑ u in Finset.range
          (2 * (Correlator.ctor 0 sampleReplicator : Correlator CounterPRG).mThreshold + 1),
          (rs.rep_add_shares.getD u []).getD k 0) ∧
      c'.Sized :=
  ⟨ctor_Sized 0 sampleReplicator, C13_GenRandomShare _ (ctor_Sized 0 sampleReplicator)⟩

theorem combs_lex (m : Nat) : ∀ (k lo : Nat), (combs m k lo).Pairwise (List.Lex (· < ·)) := by
  intro k
  induction k with
  | zero => intro lo; simp [combs]
  | succ k ih =>
    intro lo
    generalize hd : m + 1 - (lo + (k + 1)) = d
    induction d generalizing lo with
    | zero => rw [combs_empty m k lo (by omega)]; exact List.Pairwise.nil
    | succ d ihd =>
      rw [combs_succ m k lo (by omega), List.pairwise_append]
      refine ⟨?_, ihd (lo + 1) (by omega), ?_⟩
      · rw [List.pairwise_map]
        exact (ih (lo + 1)).imp (fun h => List.Lex.cons h)
      · intro a ha b hb
        obtain ⟨r, _, rfl⟩ := List.mem_map.mp ha
        obtain ⟨hl, _, hb3⟩ := (mem_combs m (k + 1) (lo + 1) b).mp hb
        cases b with
        | nil => simp at hl
        | cons b0 b' =>
          have := (hb3 b0 (List.mem_cons_self _ _)).1
          exact List.Lex.rel (by omega)

theorem slotsOf_sorted (L : List (List Nat)) (p : Nat) : (slotsOf L p).Sorted (· < ·) :=
  (List.sorted_lt_range _).filter _

/-- C14 (amended to `n ≤ 29`): the replicator holds the combinations in canonical order: the
calls `Combination(0), ..., Combination(AdditiveShareSize - 1)` return strictly increasing
lists of `n - t` parties, every such list is returned by one of them, the lists come in
strictly increasing lexicographic order (so none is repeated), and their number is
`AdditiveShareSize = Binom(n, t) = C(n, t)`, the size of `mCombinations`. -/
theorem C14_combinations (n t : Nat) (ht : 1 ≤ t) (htn : t < n) (hn : n ≤ 29) :
    ∃ R, Replicator.ctor n t = .ok R ∧
      R.AdditiveShareSize = Binom n t ∧ R.AdditiveShareSize = Nat.choose n t ∧
      R.mCombinations.length = R.AdditiveShareSize ∧
      (∀ k, k < R.AdditiveShareSize → ∃ c, R.Combination k = .ok c ∧ c.length = n - t ∧
        c.Sorted (· < ·) ∧ ∀ x ∈ c, x < n) ∧
      (∀ c : List Nat, c.length = n - t → c.Sorted (· < ·) → (∀ x ∈ c, x < n) →
        ∃ k, k < R.AdditiveShareSize ∧ R.Combination k = .ok c) ∧
      (∀ j k, j < k → k < R.AdditiveShareSize → ∃ cj ck, R.Combination j = .ok cj ∧
        R.Combination k = .ok ck ∧ List.Lex (· < ·) cj ck) := by
  have hex := BinomExact_small n t htn hn
  obtain ⟨R, h1, hR⟩ := ctor_ok_exact n t ht htn hex
  have hA : R.AdditiveShareSize = (combs n (n - t) 0).length := hR.additive
  refine ⟨R, h1, ?_, hR.additive_choose, ?_, ?_, ?_, ?_⟩
  · show R.mAdditiveShareSize = _
    rw [hR.additive_choose, hex.2.1]
  · rw [hR.combinations, hA]
  · intro k hk
    rw [hA] at hk
    obtain ⟨c1, c2, c3⟩ := comb_facts n (n - t) k hk
    exact ⟨_, Combination_ok R n t hR k hk, c1, c2, c3⟩
  · intro c hc1 hc2 hc3
    have hmem : c ∈ combs n (n - t) 0 :=
      (mem_combs n (n - t) 0 c).mpr ⟨hc1, hc2, fun x hx => ⟨Nat.zero_le _, hc3 x hx⟩⟩
    obtain ⟨k, hk, hkc⟩ := List.getElem_of_mem hmem
    refine ⟨k, by rw [hA]; exact hk, ?_⟩
    rw [Combination_ok R n t hR k hk, List.getD_eq_getElem _ _ hk, hkc]
  · intro j k hjk hk
    rw [hA] at hk
    have hj : j < (combs n (n - t) 0).length := by omega
    refine ⟨_, _, Combination_ok R n t hR j hj, Combination_ok R n t hR k hk, ?_⟩
    rw [List.getD_eq_getElem _ _ hj, List.getD_eq_getElem _ _ hk]
    exact List.pairwise_iff_getElem.mp (combs_lex n (n - t) 0) j k hj hk hjk

/-- C14, an instance: `n = 4`, `t = 1`. -/
theorem C14_witness :
    (1 ≤ 1 ∧ 1 < 4 ∧ 4 ≤ 29) ∧
    ∃ R, Replicator.ctor 4 1 = .ok R ∧
      R.AdditiveShareSize = Binom 4 1 ∧ R.AdditiveShareSize = Nat.choose 4 1 ∧
      R.mCombinations.length = R.AdditiveShareSize ∧
      (∀ k, k < R.AdditiveShareSize → ∃ c, R.Combination k = .ok c ∧ c.length = 4 - 1 ∧
        c.Sorted (· < ·) ∧ ∀ x ∈ c, x < 4) ∧
      (∀ c : List Nat, c.length = 4 - 1 → c.Sorted (· < ·) → (∀ x ∈ c, x < 4) →
        ∃ k, k < R.AdditiveShareSize ∧ R.Combination k = .ok c) ∧
      (∀ j k, j < k → k < R.AdditiveShareSize → ∃ cj ck, R.Combination j = .ok cj ∧
        R.Combination k = .ok ck ∧ List.Lex (· < ·) cj ck) :=
  ⟨by decide, C14_combinations 4 1 (by decide) (by decide) (by decide)⟩

/-- C14 fails for `n = 30`, `t = 15`: the 64-bit evaluation of `Binom(30, 15)` is smaller than
the number `C(30, 15)` of combinations, and the constructor writes past `mCombinations`. -/
theorem C14_counterexample :
    Binom 30 15 < Nat.choose 30 15 ∧
    ¬ ∃ R, Replicator.ctor 30 15 = .ok R ∧ R.AdditiveShareSize = Binom 30 15 := by
  refine ⟨by rw [Binom_30_15, choose_30_15]; decide, ?_⟩
  rintro ⟨R, h, _⟩
  obtain ⟨e, he⟩ := ctor_30_15
  rw [he] at h
  cases h

/-- C15 (amended to `n ≤ 29`): for every party `i`, `IndexSetFor(i)` is the strictly increasing
list of exactly those slot indices `k` whose combination contains `i`, and its length is
`ShareSize() = Binom(n - 1, t) = C(n - 1, n - t - 1)`. -/
theorem C15_IndexSetFor (n t : Nat) (ht : 1 ≤ t) (htn : t < n) (hn : n ≤ 29) :
    ∃ R, Replicator.ctor n t = .ok R ∧
      R.ShareSize = Binom (n - 1) t ∧ R.ShareSize = Nat.choose (n - 1) (n - t - 1) ∧
      ∀ i, i < n → ∃ idx, R.IndexSetFor i = .ok idx ∧ idx.Sorted (· < ·) ∧
        idx.length = R.ShareSize ∧
        ∀ k, k ∈ idx ↔ (k < R.AdditiveShareSize ∧ ∃ c, R.Combination k = .ok c ∧ i ∈ c) := by
  have hex := BinomExact_small n t htn hn
  obtain ⟨R, h1, hR⟩ := ctor_ok_exact n t ht htn hex
  refine ⟨R, h1, ?_, ?_, ?_⟩
  · show R.mShareSize = _
    rw [hR.share_choose, hex.2.2.1]
  · show R.mShareSize = _
    rw [hR.share_choose, ← Nat.choose_symm (by omega : t ≤ n - 1)]
    congr 1
    omega
  · intro i hi
    refine ⟨_, IndexSetFor_ok R n t hR i hi, slotsOf_sorted _ _, hR.share i hi, ?_⟩
    intro k
    rw [mem_slotsOf]
    constructor
    · rintro ⟨hk, hm⟩
      exact ⟨by show k < R.mAdditiveShareSize; rw [hR.additive]; exact hk, _,
        Combination_ok R n t hR k hk, hm⟩
    · rintro ⟨hk, c, hc, hm⟩
      have hk' : k < (combs n (n - t) 0).length := by rw [← hR.additive]; exact hk
      rw [Combination_ok R n t hR k hk'] at hc
      cases hc
      exact ⟨hk', hm⟩

/-- C15, an instance: `n = 4`, `t = 1`. -/
theorem C15_witness :
    (1 ≤ 1 ∧ 1 < 4 ∧ 4 ≤ 29) ∧
    ∃ R, Replicator.ctor 4 1 = .ok R ∧
      R.ShareSize = Binom (4 - 1) 1 ∧ R.ShareSize = Nat.choose (4 - 1) (4 - 1 - 1) ∧
      ∀ i, i < 4 → ∃ idx, R.IndexSetFor i = .ok idx ∧ idx.Sorted (· < ·) ∧
        idx.length = R.ShareSize ∧
        ∀ k, k ∈ idx ↔ (k < R.AdditiveShareSize ∧ ∃ c, R.Combination k = .ok c ∧ i ∈ c) :=
  ⟨by decide, C15_IndexSetFor 4 1 (by decide) (by decide) (by decide)⟩

/-- C15 fails for `n = 30`, `t = 15`: the replicator cannot be constructed, so there is no
index set to ask for. -/
theorem C15_counterexample :
    ¬ ∃ (R : Replicator) (idx : List Nat),
      Replicator.ctor 30 15 = .ok R ∧ R.IndexSetFor 0 = .ok idx := by
  rintro ⟨R, _, h, _⟩
  obtain ⟨e, he⟩ := ctor_30_15
  rw [he] at h
  cases h

theorem length_filter_range_mem (c : List Nat) (n : Nat) (hc : c.Nodup)
    (hb : ∀ x ∈ c, x < n) :
    ((List.range n).filter (fun i => decide (i ∈ c))).length = c.length := by
  apply List.Perm.length_eq
  rw [List.perm_ext_iff_of_nodup ((List.nodup_range n).filter _) hc]
  intro a
  simp only [List.mem_filter, List.mem_range, decide_eq_true_eq]
  exact ⟨fun h => h.2, fun h => ⟨hb a h, h⟩⟩

theorem length_filter_range_mem_ne (c : List Nat) (n i : Nat) (hc : c.Nodup)
    (hb : ∀ x ∈ c, x < n) (hi : i ∈ c) :
    ((List.range n).filter (fun j => decide (j ≠ i ∧ j ∈ c))).length = c.length - 1 := by
  rw [← List.length_erase_of_mem hi]
  apply List.Perm.length_eq
  rw [List.perm_ext_iff_of_nodup ((List.nodup_range n).filter _) (hc.erase i)]
  intro a
  simp only [List.mem_filter, List.mem_range, decide_eq_true_eq]
  rw [hc.mem_erase_iff]
  exact ⟨fun h => h.2, fun h => ⟨hb a h.2, h⟩⟩

/-- C16 (amended to `n ≤ 29`): every additive slot index below `AdditiveShareSize` is in the
index sets of exactly `n - t` parties; for a party `i` and a slot of `IndexSetFor(i)`, it is in
the index sets of exactly `n - t - 1` other parties. -/
theorem C16_slot_owners (n t : Nat) (ht : 1 ≤ t) (htn : t < n) (hn : n ≤ 29) :
    ∃ (R : Replicator) (idx : Nat → List Nat), Replicator.ctor n t = .ok R ∧
      (∀ i, i < n → R.IndexSetFor i = .ok (idx i)) ∧
      (∀ k, k < R.AdditiveShareSize →
        ((List.range n).filter (fun i => decide (k ∈ idx i))).length = n - t) ∧
      (∀ i, i < n → ∀ k ∈ idx i,
        ((List.range n).filter (fun j => decide (j ≠ i ∧ k ∈ idx j))).length = n - t - 1) := by
  obtain ⟨R, h1, hR⟩ := ctor_ok n t ht htn hn
  refine ⟨R, slotsOf (combs n (n - t) 0), h1, fun i hi => IndexSetFor_ok R n t hR i hi, ?_, ?_⟩
  · intro k hk
    have hk' : k < (combs n (n - t) 0).length := by rw [← hR.additive]; exact hk
    obtain ⟨c1, c2, c3⟩ := comb_facts n (n - t) k hk'
    refine Eq.trans ?_ c1
    refine Eq.trans ?_ (length_filter_range_mem _ n (sorted_nodup _ c2) c3)
    congr 1
    apply List.filter_congr
    intro i _
    simp only [mem_slotsOf, hk', true_and]
  · intro i hi k hk
    obtain ⟨hk', hm⟩ := (mem_slotsOf _ _ _).mp hk
    obtain ⟨c1, c2, c3⟩ := comb_facts n (n - t) k hk'
    have e : n - t - 1 = ((combs n (n - t) 0).getD k []).length - 1 := by rw [c1]
    refine Eq.trans ?_ e.symm
    refine Eq.trans ?_ (length_filter_range_mem_ne _ n i (sorted_nodup _ c2) c3 hm)
    congr 1
    apply List.filter_congr
    intro j _
    simp only [mem_slotsOf, hk', true_and]

/-- C16, an instance: `n = 4`, `t = 1`. -/
theorem C16_witness :
    (1 ≤ 1 ∧ 1 < 4 ∧ 4 ≤ 29) ∧
    ∃ (R : Replicator) (idx : Nat → List Nat), Replicator.ctor 4 1 = .ok R ∧
      (∀ i, i < 4 → R.IndexSetFor i = .ok (idx i)) ∧
      (∀ k, k < R.AdditiveShareSize →
        ((List.range 4).filter (fun i => decide (k ∈ idx i))).length = 4 - 1) ∧
      (∀ i, i < 4 → ∀ k ∈ idx i,
        ((List.range 4).filter (fun j => decide (j ≠ i ∧ k ∈ idx j))).length = 4 - 1 - 1) :=
  ⟨by decide, C16_slot_owners 4 1 (by decide) (by decide) (by decide)⟩

/-- C16 fails for `n = 30`, `t = 15`: the replicator cannot be constructed, so no slot is in
the index set of any party. -/
theorem C16_counterexample :
    ¬ ∃ (R : Replicator) (idx : Nat → List Nat), Replicator.ctor 30 15 = .ok R ∧
      (∀ i, i < 30 → R.IndexSetFor i = .ok (idx i)) ∧
      ((List.range 30).filter (fun i => decide (0 ∈ idx i))).length = 30 - 15 := by
  rintro ⟨R, _, h, _⟩
  obtain ⟨e, he⟩ := ctor_30_15
  rw [he] at h
  cases h

theorem countP_pair_none (m p q : Nat) (k lo : Nat) (h : p < lo) :
    (combs m k lo).countP (fun c => decide (p ∈ c ∧ q ∈ c)) = 0 := by
  rw [List.countP_eq_zero]
  intro c hc
  have := ((mem_combs m k lo c).mp hc).2.2
  simp only [decide_eq_true_eq]
  intro hp
  have := (this p hp.1).1
  omega

theorem countP_pair_one (m p q : Nat) (hpq : p ≠ q) (lo : Nat) :
    (combs m 1 lo).countP (fun c => decide (p ∈ c ∧ q ∈ c)) = 0 := by
  rw [List.countP_eq_zero]
  intro c hc
  have hl := ((mem_combs m 1 lo c).mp hc).1
  simp only [decide_eq_true_eq]
  intro hp
  match c, hl with
  | [a], _ =>
    simp only [List.mem_singleton] at hp
    exact hpq (hp.1.trans hp.2.symm)

theorem pair_comp_head (p q lo : Nat) (h1 : p ≠ lo) (h2 : q ≠ lo) :
    (fun c => decide (p ∈ c ∧ q ∈ c)) ∘ (fun r => lo :: r) =
      fun c => decide (p ∈ c ∧ q ∈ c) := by
  funext r
  simp [h1, h2]

theorem pair_comp_first (p q : Nat) (h2 : q ≠ p) :
    (fun c => decide (p ∈ c ∧ q ∈ c)) ∘ (fun r => p :: r) = fun c => decide (q ∈ c) := by
  funext r
  simp [h2]

theorem countP_combs_pair (m p q : Nat) (hpq : p < q) (hq : q < m) : ∀ (k lo : Nat), lo ≤ p →
    (combs m (k + 2) lo).countP (fun c => decide (p ∈ c ∧ q ∈ c)) =
      Nat.choose (m - lo - 2) k := by
  intro k
  induction k with
  | zero =>
    intro lo
    generalize hd : p - lo = d
    induction d generalizing lo with
    | zero =>
      intro h
      have e : lo = p := by omega
      subst e
      rw [combs_succ m 1 lo (by omega), List.countP_append,
        countP_pair_none m lo q 2 (lo + 1) (by omega), List.countP_map,
        pair_comp_first lo q (by omega), countP_combs m q hq 0 (lo + 1) (by omega)]
      simp
    | succ d ihd =>
      intro h
      rw [combs_succ m 1 lo (by omega), List.countP_append, ihd (lo + 1) (by omega) (by omega),
        List.countP_map, pair_comp_head p q lo (by omega) (by omega),
        countP_pair_one m p q (by omega) (lo + 1)]
      simp
  | succ k ih =>
    intro lo
    generalize hd : p - lo = d
    induction d generalizing lo with
    | zero =>
      intro h
      have e : lo = p := by omega
      subst e
      by_cases hroom : lo + (k + 2 + 1) ≤ m
      · rw [combs_succ m (k + 2) lo hroom, List.countP_append,
          countP_pair_none m lo q (k + 2 + 1) (lo + 1) (by omega), List.countP_map,
          pair_comp_first lo q (by omega), countP_combs m q hq (k + 1) (lo + 1) (by omega)]
        rw [Nat.add_zero]
        congr 1
      · rw [combs_empty m (k + 2) lo (by omega), Nat.choose_eq_zero_of_lt (by omega)]
        rfl
    | succ d ihd =>
      intro h
      by_cases hroom : lo + (k + 2 + 1) ≤ m
      · rw [combs_succ m (k + 2) lo hroom, List.countP_append,
          ihd (lo + 1) (by omega) (by omega), List.countP_map,
          pair_comp_head p q lo (by omega) (by omega), ih (lo + 1) (by omega)]
        have e : m - lo - 2 = (m - (lo + 1) - 2) + 1 := by omega
        rw [e, Nat.choose_succ_succ]
      · rw [combs_empty m (k + 2) lo (by omega), Nat.choose_eq_zero_of_lt (by omega)]
        rfl

/-- The number of combinations of size `K` out of `m` that contain two given distinct
parties. -/
theorem countP_pair (m K p q : Nat) (hpq : p ≠ q) (hp : p < m) (hq : q < m) :
    (combs m K 0).countP (fun c => decide (p ∈ c ∧ q ∈ c)) =
      if 2 ≤ K then Nat.choose (m - 2) (K - 2) else 0 := by
  match K with
  | 0 => simp [combs]
  | 1 => rw [countP_pair_one m p q hpq 0]; rfl
  | k + 2 =>
    rw [if_pos (by omega)]
    rcases Nat.lt_or_gt_of_ne hpq with h | h
    · exact countP_combs_pair m p q h hq k 0 (Nat.zero_le _)
    · have : (fun c : List Nat => decide (p ∈ c ∧ q ∈ c)) =
          fun c => decide (q ∈ c ∧ p ∈ c) := by
        funext c
        simp only [and_comm]
      rw [this]
      exact countP_combs_pair m q p h hp k 0 (Nat.zero_le _)

theorem map_getD_range_list (L : List (List Nat)) :
    (List.range L.length).map (fun k => L.getD k []) = L := by
  apply List.ext_getElem (by simp)
  intro i h1 h2
  simp [List.getD_eq_getElem?_getD, List.getElem?_eq_getElem h2]

theorem length_filter_range_getD (L : List (List Nat)) (Q : List Nat → Bool) :
    ((List.range L.length).filter (fun k => Q (L.getD k []))).length = L.countP Q := by
  conv_rhs => rw [← map_getD_range_list L]
  rw [List.countP_map, List.countP_eq_length_filter]
  rfl

theorem common_slots_count (L : List (List Nat)) (i j : Nat) :
    ((slotsOf L i).filter (fun k => decide (k ∈ slotsOf L j))).length =
      L.countP (fun c => decide (i ∈ c ∧ j ∈ c)) := by
  rw [← length_filter_range_getD L (fun c => decide (i ∈ c ∧ j ∈ c))]
  unfold slotsOf
  rw [List.filter_filter]
  congr 1
  apply List.filter_congr
  intro k hk
  have hk' : k < L.length := List.mem_range.mp hk
  simp only [List.mem_filter, List.mem_range, hk', true_and, decide_eq_true_eq,
    Bool.decide_and, Bool.and_comm]

theorem filter_not_mem_cons_of_lt (xs : List Nat) (y : Nat) (ys : List Nat)
    (h : ∀ x ∈ xs, y < x) :
    xs.filter (fun x => decide (x ∉ y :: ys)) = xs.filter (fun x => decide (x ∉ ys)) := by
  apply List.filter_congr
  intro x hx
  have := h x hx
  have hne : ¬ (x = y) := by omega
  simp [hne]

theorem Difference_go_length : ∀ (fuel : Nat) (xs ys : List Nat) (i : Nat),
    xs.Sorted (· < ·) → ys.Sorted (· < ·) → xs.length + ys.length ≤ fuel →
    (Difference.go fuel xs ys i).length = (xs.filter (fun x => decide (x ∉ ys))).length := by
  intro fuel
  induction fuel with
  | zero =>
    intro xs ys i _ _ hf
    have : xs = [] := List.length_eq_zero.mp (by omega)
    subst this
    simp [Difference.go]
  | succ fuel ih =>
    intro xs ys i hx hy hf
    cases xs with
    | nil => simp [Difference.go]
    | cons x xs =>
      have hxs := List.sorted_cons.mp hx
      cases ys with
      | nil =>
        rw [Difference.go, List.length_cons,
          ih xs [] (i + 1) hxs.2 hy (by simp only [List.length_cons] at hf; simpa using hf)]
        simp
      | cons y ys =>
        have hys := List.sorted_cons.mp hy
        simp only [List.length_cons] at hf
        rw [Difference.go]
        split_ifs with h1 h2
        · -- x < y : x is not in y :: ys
          have hnot : x ∉ y :: ys := by
            intro hm
            rcases List.mem_cons.mp hm with rfl | hm
            · omega
            · have := hys.1 x hm; omega
          rw [List.length_cons,
            ih xs (y :: ys) (i + 1) hxs.2 hy (by simp only [List.length_cons]; omega),
            List.filter_cons_of_pos (by simpa using hnot), List.length_cons]
        · -- y < x
          have hlt : y < x := h2
          rw [ih (x :: xs) ys i hx hys.2 (by simp only [List.length_cons]; omega)]
          congr 1
          symm
          apply filter_not_mem_cons_of_lt
          intro z hz
          rcases List.mem_cons.mp hz with rfl | hz
          · exact hlt
          · have := hxs.1 z hz; omega
        · -- x = y
          have hxy : x = y := by omega
          subst hxy
          rw [ih xs ys (i + 1) hxs.2 hys.2 (by omega),
            List.filter_cons_of_neg (by simp), filter_not_mem_cons_of_lt xs x ys hxs.1]

theorem Difference_length (A B : List Nat) (hA : A.Sorted (· < ·)) (hB : B.Sorted (· < ·)) :
    (Difference A B).length + (A.filter (fun x => decide (x ∈ B))).length = A.length := by
  unfold Difference
  rw [Difference_go_length _ A B 0 hA hB (le_refl _)]
  have h := @List.length_eq_length_filter_add _ A (fun x => decide (x ∈ B))
  have e : A.filter (fun x => decide (x ∉ B)) = A.filter (fun x => !decide (x ∈ B)) := by
    apply List.filter_congr
    intro x _
    simp
  rw [e]
  omega

/-- C17 (amended to `n ≤ 29`): for every two distinct parties, the number of slot indices that
their index sets have in common is `ShareSize() - DifferenceSize()`, although
`DifferenceSize` is computed from the parties 0 and 1 only. -/
theorem C17_common_slots (n t : Nat) (ht : 1 ≤ t) (htn : t < n) (hn : n ≤ 29) :
    ∃ (R : Replicator) (idx : Nat → List Nat), Replicator.ctor n t = .ok R ∧
      (∀ i, i < n → R.IndexSetFor i = .ok (idx i)) ∧
      R.DifferenceSize ≤ R.ShareSize ∧
      ∀ i j, i < n → j < n → i ≠ j →
        ((idx i).filter (fun k => decide (k ∈ idx j))).length =
          R.ShareSize - R.DifferenceSize := by
  obtain ⟨R, h1, hR⟩ := ctor_ok n t ht htn hn
  have h01 := Difference_length (slotsOf (combs n (n - t) 0) 0) (slotsOf (combs n (n - t) 0) 1)
    (slotsOf_sorted _ _) (slotsOf_sorted _ _)
  rw [← hR.difference, hR.share 0 (by omega), common_slots_count,
    countP_pair n (n - t) 0 1 (by decide) (by omega) (by omega)] at h01
  refine ⟨R, slotsOf (combs n (n - t) 0), h1, fun i hi => IndexSetFor_ok R n t hR i hi, ?_, ?_⟩
  · show R.mDifferenceSize ≤ R.mShareSize
    omega
  · intro i j hi hj hij
    rw [common_slots_count, countP_pair n (n - t) i j hij hi hj]
    show _ = R.mShareSize - R.mDifferenceSize
    omega

/-- C17, an instance: `n = 4`, `t = 1`. -/
theorem C17_witness :
    (1 ≤ 1 ∧ 1 < 4 ∧ 4 ≤ 29) ∧
    ∃ (R : Replicator) (idx : Nat → List Nat), Replicator.ctor 4 1 = .ok R ∧
      (∀ i, i < 4 → R.IndexSetFor i = .ok (idx i)) ∧
      R.DifferenceSize ≤ R.ShareSize ∧
      ∀ i j, i < 4 → j < 4 → i ≠ j →
        ((idx i).filter (fun k => decide (k ∈ idx j))).length =
          R.ShareSize - R.DifferenceSize :=
  ⟨by decide, C17_common_slots 4 1 (by decide) (by decide) (by decide)⟩

/-- C17 fails for `n = 30`, `t = 15`: the replicator cannot be constructed, so there is neither
a `ShareSize` nor a `DifferenceSize`. -/
theorem C17_counterexample :
    ¬ ∃ (R : Replicator), Replicator.ctor 30 15 = .ok R ∧
      R.DifferenceSize ≤ R.ShareSize := by
  rintro ⟨R, h, _⟩
  obtain ⟨e, he⟩ := ctor_30_15
  rw [he] at h
  cases h

theorem kPrime61_eq : Mp61.kPrime = 2 ^ 61 - 1 := by decide

theorem kPrime127_eq : Mp127.kPrime = 2 ^ 127 - 1 := by decide

/-- The bits that `a |= b >> k` adds are already set in `a`. -/
theorem or_low_bits (z k w : Nat) :
    ((z >>> k) % 2 ^ w) ||| ((z % 2 ^ w) >>> k) = (z >>> k) % 2 ^ w := by
  apply Nat.eq_of_testBit_eq
  intro i
  rw [Nat.testBit_or, Nat.testBit_shiftRight, Nat.testBit_mod_two_pow,
    Nat.testBit_mod_two_pow, Nat.testBit_shiftRight]
  by_cases h1 : i < w <;> by_cases h2 : k + i < w <;> simp [h1, h2]
  omega

/-- The two summands of `mod_mul_mersenne61` are the quotient and the remainder of the product
by `2 ^ 61`. -/
theorem fold61_eq (x y : Nat) (hx : x < Mp61.kPrime) (hy : y < Mp61.kPrime) :
    mod_mul_mersenne61.fold x y Mp61.kPrime = (x * y / 2 ^ 61, x * y % 2 ^ 61) := by
  rw [kPrime61_eq] at hx hy
  have hz : x * y < 2 ^ 122 := by
    calc x * y < 2 ^ 61 * 2 ^ 61 := Nat.mul_lt_mul'' (by omega) (by omega)
      _ = 2 ^ 122 := by norm_num
  unfold mod_mul_mersenne61.fold
  simp only [U64, U128]
  rw [Nat.mod_eq_of_lt (lt_of_lt_of_le hz (by norm_num)), or_low_bits, kPrime61_eq,
    Nat.and_pow_two_sub_one_eq_mod, Nat.shiftRight_eq_div_pow]
  have h1 : x * y / 2 ^ 61 < 2 ^ 64 := by
    rw [Nat.div_lt_iff_lt_mul (by norm_num)]
    exact lt_of_lt_of_le hz (by norm_num)
  rw [Nat.mod_eq_of_lt h1]
  congr 1
  exact Nat.mod_mod_of_dvd _ (by norm_num)

/-- Folding at a power of two: for `p = 2 ^ k - 1` and a quotient and remainder by `2 ^ k` that
add up to less than `2 * p`, one conditional subtraction reduces the sum modulo `p`. -/
theorem mersenne_fold (k z : Nat) (hk : 0 < k) (h : z / 2 ^ k + z % 2 ^ k < 2 * (2 ^ k - 1)) :
    (if z / 2 ^ k + z % 2 ^ k ≥ 2 ^ k - 1 then z / 2 ^ k + z % 2 ^ k - (2 ^ k - 1)
      else z / 2 ^ k + z % 2 ^ k) = z % (2 ^ k - 1) := by
  have h2 : 2 ≤ 2 ^ k := by
    calc 2 = 2 ^ 1 := by norm_num
      _ ≤ 2 ^ k := Nat.pow_le_pow_right (by norm_num) hk
  have hz : z = (2 ^ k - 1) * (z / 2 ^ k) + (z / 2 ^ k + z % 2 ^ k) := by
    have e := Nat.div_add_mod z (2 ^ k)
    have e2 : 2 ^ k * (z / 2 ^ k) = (2 ^ k - 1) * (z / 2 ^ k) + z / 2 ^ k := by
      have e3 : 2 ^ k = (2 ^ k - 1) + 1 := by omega
      nth_rewrite 1 [e3]
      ring
    omega
  generalize z / 2 ^ k + z % 2 ^ k = s at h hz ⊢
  have hm : z % (2 ^ k - 1) = s % (2 ^ k - 1) := by
    rw [hz, Nat.mul_add_mod]
  rw [hm]
  split
  · rw [Nat.mod_eq_sub_mod (by assumption), Nat.mod_eq_of_lt (by omega)]
  · rw [Nat.mod_eq_of_lt (by omega)]

/-- The product of two values below `2 ^ k - 1` folds to less than `2 * (2 ^ k - 1) - 2`. -/
theorem fold_bound (k x y : Nat) (hk : 3 ≤ k) (hx : x < 2 ^ k - 1) (hy : y < 2 ^ k - 1) :
    x * y / 2 ^ k + x * y % 2 ^ k + 2 < 2 * (2 ^ k - 1) := by
  have h4 : 8 ≤ 2 ^ k := by
    calc 8 = 2 ^ 3 := by norm_num
      _ ≤ 2 ^ k := Nat.pow_le_pow_right (by norm_num) hk
  have hz : x * y ≤ (2 ^ k - 2) * (2 ^ k - 2) := Nat.mul_le_mul (by omega) (by omega)
  have hq : x * y / 2 ^ k < 2 ^ k - 3 := by
    rw [Nat.div_lt_iff_lt_mul (by positivity)]
    refine lt_of_le_of_lt hz ?_
    obtain ⟨m, hm⟩ : ∃ m, 2 ^ k = m + 5 := ⟨2 ^ k - 5, by omega⟩
    rw [hm]
    simp only [show m + 5 - 2 = m + 3 by omega, show m + 5 - 3 = m + 2 by omega]
    nlinarith
  have hr : x * y % 2 ^ k < 2 ^ k := Nat.mod_lt _ (by positivity)
  omega

/-- C18: for `x, y < p = 2 ^ 61 - 1` the two summands that `mod_mul_mersenne61` folds the
product into add up to less than `2 * p` (and to a 64-bit value), so the one conditional
subtraction of `addm` suffices: `mulm(x, y, p)`, which is `Mp61::Multiply(x, y)`, returns exactly
`(x * y) mod p`, a value below `p`. -/
theorem C18_mulm_Mp61 (x y : Nat) (hx : x < Mp61.kPrime) (hy : y < Mp61.kPrime) :
    (mod_mul_mersenne61.fold x y Mp61.kPrime).1 + (mod_mul_mersenne61.fold x y Mp61.kPrime).2
        < 2 * Mp61.kPrime ∧
      (mod_mul_mersenne61.fold x y Mp61.kPrime).1 + (mod_mul_mersenne61.fold x y Mp61.kPrime).2
        < U64 ∧
      mulm_u64 x y Mp61.kPrime = (x * y) % Mp61.kPrime ∧
      mulm_u64 x y Mp61.kPrime < Mp61.kPrime ∧
      Mp61.Multiply x y = (x * y) % Mp61.kPrime := by
  have hf := fold61_eq x y hx hy
  have hb := fold_bound 61 x y (by norm_num) (kPrime61_eq ▸ hx) (kPrime61_eq ▸ hy)
  have hm : mulm_u64 x y Mp61.kPrime = (x * y) % Mp61.kPrime := by
    unfold mulm_u64 mod_mul_mersenne61 addm
    rw [hf]
    simp only [U64, kPrime61_eq]
    rw [Nat.mod_eq_of_lt (lt_trans (lt_of_le_of_lt (Nat.le_add_right _ 2) hb) (by norm_num))]
    exact mersenne_fold 61 (x * y) (by norm_num) (by omega)
  refine ⟨?_, ?_, hm, ?_, hm⟩
  · rw [hf, kPrime61_eq]
    omega
  · rw [hf]
    simp only [U64]
    exact lt_trans (lt_of_le_of_lt (Nat.le_add_right _ 2) hb) (by norm_num)
  · rw [hm]
    exact Nat.mod_lt _ (by decide)

/-- C18, an instance: two factors below `p`, one of them `p - 1`. -/
theorem C18_witness :
    (123456789123456789 < Mp61.kPrime ∧ 2305843009213693950 < Mp61.kPrime) ∧
      mulm_u64 123456789123456789 2305843009213693950 Mp61.kPrime
        = (123456789123456789 * 2305843009213693950) % Mp61.kPrime :=
  ⟨⟨by decide, by decide⟩,
    (C18_mulm_Mp61 123456789123456789 2305843009213693950 (by decide) (by decide)).2.2.1⟩

theorem limbs_aux (W ac ah al bh bl dh dl ch cl : Nat) (h4 : al + bl + dh = W * ch + cl)
    (l3 : dl < W) (l4 : cl < W) :
    (ac + ah + bh + ch) * (W * W) + ((W * ah + al) * W + (W * bh + bl) * W + (W * dh + dl)) % (W * W)
      = ac * (W * W) + ((W * ah + al) + (W * bh + bl)) * W + (W * dh + dl) := by
  have h5 : W * (al + bl + dh) = W * (W * ch + cl) := by rw [h4]
  have e : (W * ah + al) * W + (W * bh + bl) * W + (W * dh + dl)
      = W * W * (ah + bh + ch) + (cl * W + dl) := by
    ring_nf at h5 ⊢
    omega
  have lt : cl * W + dl < W * W := by
    have h6 : cl + 1 ≤ W := l4
    have h7 := Nat.mul_le_mul_right W h6
    ring_nf at h7 ⊢
    omega
  rw [e, Nat.mul_add_mod, Nat.mod_eq_of_lt lt]
  ring_nf at h5 ⊢
  omega

/-- Schoolbook multiplication in base `W`: the four partial products, recombined with the carry
of the middle column as `mul_u128` does, give the upper and the lower half of the product. -/
theorem limbs (W ac ad bc bd : Nat) (hW : 0 < W) :
    (ac + ad / W + bc / W + (ad % W + bc % W + bd / W) / W) * (W * W)
        + (ad * W + bc * W + bd) % (W * W)
      = ac * (W * W) + (ad + bc) * W + bd := by
  have h := limbs_aux W ac (ad / W) (ad % W) (bc / W) (bc % W) (bd / W) (bd % W)
    ((ad % W + bc % W + bd / W) / W) ((ad % W + bc % W + bd / W) % W)
    (Nat.div_add_mod _ W).symm (Nat.mod_lt _ hW) (Nat.mod_lt _ hW)
  rw [Nat.div_add_mod, Nat.div_add_mod, Nat.div_add_mod] at h
  exact h

/-- The upper half as `mul_u128` sums it, without the wrap-around. -/
theorem mul_u128_split (x y : Nat) :
    x * y / (2 ^ 64 * 2 ^ 64)
        = x / 2 ^ 64 * (y / 2 ^ 64) + x / 2 ^ 64 * (y % 2 ^ 64) / 2 ^ 64
          + x % 2 ^ 64 * (y / 2 ^ 64) / 2 ^ 64
          + (x / 2 ^ 64 * (y % 2 ^ 64) % 2 ^ 64 + x % 2 ^ 64 * (y / 2 ^ 64) % 2 ^ 64
              + x % 2 ^ 64 * (y % 2 ^ 64) / 2 ^ 64) / 2 ^ 64 ∧
      x * y % (2 ^ 64 * 2 ^ 64)
        = (x / 2 ^ 64 * (y % 2 ^ 64) * 2 ^ 64 + x % 2 ^ 64 * (y / 2 ^ 64) * 2 ^ 64
            + x % 2 ^ 64 * (y % 2 ^ 64)) % (2 ^ 64 * 2 ^ 64) := by
  have hW : 0 < 2 ^ 64 := by norm_num
  generalize 2 ^ 64 = W at *
  have h := limbs W (x / W * (y / W)) (x / W * (y % W)) (x % W * (y / W)) (x % W * (y % W)) hW
  have hxy : x * y = (x / W * (y / W)) * (W * W) + (x / W * (y % W) + x % W * (y / W)) * W
      + x % W * (y % W) := by
    nth_rewrite 1 [← Nat.div_add_mod x W, ← Nat.div_add_mod y W]
    ring
  rw [← hxy] at h
  have hL := Nat.mod_lt (x / W * (y % W) * W + x % W * (y / W) * W + x % W * (y % W))
    (Nat.mul_pos hW hW)
  constructor
  · rw [← h, Nat.add_comm, Nat.add_mul_div_right _ _ (Nat.mul_pos hW hW), Nat.div_eq_of_lt hL,
      Nat.zero_add]
  · rw [← h, Nat.add_comm, Nat.add_mul_mod_self_right, Nat.mod_mod]

theorem mul_u128_eq (x y : Nat) (hx : x < U128) (hy : y < U128) :
    mul_u128 x y = { high := x * y / U128, low := x * y % U128 } := by
  have e128 : U128 = 2 ^ 64 * 2 ^ 64 := by decide
  obtain ⟨hH, hL⟩ := mul_u128_split x y
  have hxy : x * y < U128 * U128 := Nat.mul_lt_mul'' hx hy
  have hHlt : x * y / (2 ^ 64 * 2 ^ 64) < 2 ^ 64 * 2 ^ 64 := by
    rw [Nat.div_lt_iff_lt_mul (by norm_num), ← e128]
    exact hxy
  rw [e128] at hx hy
  have hW : 0 < 2 ^ 64 := by norm_num
  have h4 : 3 ≤ 2 ^ 64 := by norm_num
  have ha : x / 2 ^ 64 < 2 ^ 64 := by
    rw [Nat.div_lt_iff_lt_mul hW]
    exact hx
  have hc : y / 2 ^ 64 < 2 ^ 64 := by
    rw [Nat.div_lt_iff_lt_mul hW]
    exact hy
  have hb : x % 2 ^ 64 < 2 ^ 64 := Nat.mod_lt _ hW
  have hd : y % 2 ^ 64 < 2 ^ 64 := Nat.mod_lt _ hW
  unfold mul_u128
  simp only [U64, Nat.shiftRight_eq_div_pow, Nat.shiftLeft_eq, e128]
  rw [Nat.mod_eq_of_lt ha, Nat.mod_eq_of_lt hc]
  rw [hH] at hHlt
  generalize 2 ^ 64 = W at *
  generalize x / W = a at *
  generalize x % W = b at *
  generalize y / W = c at *
  generalize y % W = d at *
  rw [Nat.mod_eq_of_lt (Nat.mul_lt_mul'' ha hc), Nat.mod_eq_of_lt (Nat.mul_lt_mul'' ha hd),
    Nat.mod_eq_of_lt (Nat.mul_lt_mul'' hb hc), Nat.mod_eq_of_lt (Nat.mul_lt_mul'' hb hd)]
  have hcar : a * d % W + b * c % W + b * d / W < W * W := by
    have h1 := Nat.mod_lt (a * d) hW
    have h2 := Nat.mod_lt (b * c) hW
    have h3 : b * d / W < W := by
      rw [Nat.div_lt_iff_lt_mul hW]
      exact Nat.mul_lt_mul'' hb hd
    have h5 := Nat.mul_le_mul_right W h4
    omega
  have hcar2 : a * d % W + b * c % W < W * W := lt_of_le_of_lt (Nat.le_add_right _ _) hcar
  have hs1 : a * c + a * d / W + b * c / W < W * W := lt_of_le_of_lt (Nat.le_add_right _ _) hHlt
  have hs2 : a * c + a * d / W < W * W := lt_of_le_of_lt (Nat.le_add_right _ _) hs1
  rw [Nat.mod_eq_of_lt hcar2, Nat.mod_eq_of_lt hcar]
  rw [Nat.mod_eq_of_lt hs2, Nat.mod_eq_of_lt hs1, Nat.mod_eq_of_lt hHlt, ← hH, hL, Nat.mod_add_mod,
    Nat.add_mod _ (b * d), ← Nat.add_mod (a * d * W), ← Nat.add_mod]

/-- The two summands of `mod_mul_mersenne127` are the quotient and the remainder of the product
by `2 ^ 127`. -/
theorem fold127_eq (x y : Nat) (hx : x < Mp127.kPrime) (hy : y < Mp127.kPrime) :
    mod_mul_mersenne127.fold x y Mp127.kPrime = (x * y / 2 ^ 127, x * y % 2 ^ 127) := by
  rw [kPrime127_eq] at hx hy
  have hz : x * y < 2 ^ 254 := by
    calc x * y < 2 ^ 127 * 2 ^ 127 := Nat.mul_lt_mul'' (by omega) (by omega)
      _ = 2 ^ 254 := by norm_num
  unfold mod_mul_mersenne127.fold
  rw [mul_u128_eq x y (lt_trans hx (by decide)) (lt_trans hy (by decide)), kPrime127_eq]
  simp only [U128, Nat.shiftLeft_eq, Nat.shiftRight_eq_div_pow, Nat.and_pow_two_sub_one_eq_mod]
  generalize x * y = z at hz ⊢
  have h1 : z / 2 ^ 128 * 2 ^ 1 % 2 ^ 128 = 2 ^ 1 * (z / 2 ^ 128) := by omega
  have h2 : z % 2 ^ 128 / 2 ^ 127 < 2 ^ 1 := by omega
  rw [h1, ← Nat.mul_add_lt_is_or h2]
  congr 1 <;> omega

/-- C19: for `x, y < p = 2 ^ 127 - 1` (and for all 128-bit values) `mul_u128(x, y)` returns
the exact product in two halves, `x * y = high * 2 ^ 128 + low` with `low < 2 ^ 128`; the sum
`a + b` of `mod_mul_mersenne127` stays below `2 ^ 128` (and below `2 * p`), so it does not wrap
around, and `mulm(x, y, p)`, which is `Mp127::Multiply(x, y)`, returns exactly `(x * y) mod p`, a
value below `p`. -/
theorem C19_mulm_Mp127 (x y : Nat) (hx : x < Mp127.kPrime) (hy : y < Mp127.kPrime) :
    x * y = (mul_u128 x y).high * 2 ^ 128 + (mul_u128 x y).low ∧
      (mul_u128 x y).low < 2 ^ 128 ∧ (mul_u128 x y).high < 2 ^ 128 ∧
      (mod_mul_mersenne127.fold x y Mp127.kPrime).1 + (mod_mul_mersenne127.fold x y Mp127.kPrime).2
        < U128 ∧
      (mod_mul_mersenne127.fold x y Mp127.kPrime).1 + (mod_mul_mersenne127.fold x y Mp127.kPrime).2
        < 2 * Mp127.kPrime ∧
      mulm_u128 x y Mp127.kPrime = (x * y) % Mp127.kPrime ∧
      mulm_u128 x y Mp127.kPrime < Mp127.kPrime ∧
      Mp127.Multiply x y = (x * y) % Mp127.kPrime := by
  have hx8 : x < U128 := lt_trans hx (by decide)
  have hy8 : y < U128 := lt_trans hy (by decide)
  have hf := fold127_eq x y hx hy
  have hb := fold_bound 127 x y (by norm_num) (kPrime127_eq ▸ hx) (kPrime127_eq ▸ hy)
  have hlt : x * y / 2 ^ 127 + x * y % 2 ^ 127 < 2 ^ 128 :=
    lt_trans (lt_of_le_of_lt (Nat.le_add_right _ 2) hb) (by norm_num)
  have hm : mulm_u128 x y Mp127.kPrime = (x * y) % Mp127.kPrime := by
    unfold mulm_u128 mod_mul_mersenne127
    rw [hf]
    simp only [U128, kPrime127_eq]
    rw [Nat.mod_eq_of_lt hlt]
    exact mersenne_fold 127 (x * y) (by norm_num) (by omega)
  rw [mul_u128_eq x y hx8 hy8]
  refine ⟨?_, ?_, ?_, ?_, ?_, hm, ?_, hm⟩
  · simp only [U128]
    exact (Nat.div_add_mod' _ _).symm
  · exact Nat.mod_lt _ (by decide)
  · simp only [U128]
    rw [Nat.div_lt_iff_lt_mul (by norm_num)]
    exact Nat.mul_lt_mul'' hx8 hy8
  · rw [hf]
    exact hlt
  · rw [hf, kPrime127_eq]
    omega
  · rw [hm]
    exact Nat.mod_lt _ (by decide)

/-- C19, an instance: two factors below `p`, one of them `p - 1`. -/
theorem C19_witness :
    (170141183460469231731687303715884105726 < Mp127.kPrime ∧
        123456789123456789123456789123456789 < Mp127.kPrime) ∧
      mulm_u128 170141183460469231731687303715884105726 123456789123456789123456789123456789
          Mp127.kPrime
        = (170141183460469231731687303715884105726 * 123456789123456789123456789123456789)
            % Mp127.kPrime :=
  ⟨⟨by decide, by decide⟩,
    (C19_mulm_Mp127 170141183460469231731687303715884105726 123456789123456789123456789123456789
      (by decide) (by decide)).2.2.2.2.2.1⟩

theorem prime_kPrime61 : Nat.Prime Mp61.kPrime := by
  rw [kPrime61_eq]
  exact lucas_lehmer_sufficiency 61 (by norm_num) (by norm_num)

theorem chk_ok (z : Int) (h1 : -S64 ≤ z) (h2 : z < S64) : chk z = .ok z := by
  unfold chk
  rw [if_pos ⟨h1, h2⟩]

/-- One round of the loop of `invp` when no operation overflows. -/
theorem invp_loop_step (fuel : Nat) (t newt r newr : Int) (h0 : newr ≠ 0)
    (hq : -S64 ≤ r.tdiv newr ∧ r.tdiv newr < S64)
    (h1 : -S64 ≤ r.tdiv newr * newt ∧ r.tdiv newr * newt < S64)
    (h2 : -S64 ≤ t - r.tdiv newr * newt ∧ t - r.tdiv newr * newt < S64)
    (h3 : -S64 ≤ r.tdiv newr * newr ∧ r.tdiv newr * newr < S64)
    (h4 : -S64 ≤ r - r.tdiv newr * newr ∧ r - r.tdiv newr * newr < S64) :
    invp.loop (fuel + 1) t newt r newr
      = invp.loop fuel newt (t - r.tdiv newr * newt) newr (r - r.tdiv newr * newr) := by
  rw [invp.loop, if_pos h0, chk_ok _ hq.1 hq.2]
  simp only [PAR_ASSIGN, chk_ok _ h1.1 h1.2, chk_ok _ h2.1 h2.2, chk_ok _ h3.1 h3.2,
    chk_ok _ h4.1 h4.2, bind, Except.bind, pure, Except.pure]

/-- Arithmetic of one round of the extended Euclidean algorithm. -/
theorem euclid_step (n a b rn mn : Nat) (ha : 0 < a) (hsum : a * rn + b * mn = n)
    (hlt : mn < rn) (hm : 0 < mn) :
    rn ≤ n ∧ b + rn / mn * a ≤ n ∧ (b + rn / mn * a) * mn + a * (rn % mn) = n ∧ a * mn < n := by
  have hdm := Nat.div_add_mod rn mn
  generalize rn / mn = q at hdm ⊢
  generalize rn % mn = m at hdm ⊢
  have h1 : rn ≤ a * rn := Nat.le_mul_of_pos_left rn ha
  have e : a * rn = a * (mn * q) + a * m := by rw [← Nat.mul_add, hdm]
  have e2 : (b + q * a) * mn = b * mn + a * (mn * q) := by ring
  have h3 : b + q * a ≤ (b + q * a) * mn := Nat.le_mul_of_pos_right _ hm
  have h4 : a * mn < a * rn := Nat.mul_lt_mul_of_pos_left hlt ha
  refine ⟨by omega, by omega, by omega, by omega⟩

/-- The invariant of the extended Euclidean loop of `invp`: with `newt = s * a`, `t = -s * b`
for a sign `s`, `a * r + b * newr = n`, coprime `r > newr ≥ 0`, and `t * v ≡ r`,
`newt * v ≡ newr` modulo `n`, the loop ends without an overflow at `r = 1`, `newr = 0`, with
`|t| < n` and `t * v ≡ 1`. -/
theorem invp_loop_ok (n v : Nat) (hn : (n : Int) < S64) :
    ∀ (fuel : Nat) (s : Int) (a b rn mn : Nat) (k k' : Int),
      (s = 1 ∨ s = -1) → 0 < a → a * rn + b * mn = n → b * rn < n → mn < rn → mn ≤ fuel →
      Nat.gcd rn mn = 1 → (-s * b) * v = rn + k * n → (s * a) * v = mn + k' * n →
      ∃ tf nf : Int, invp.loop fuel (-s * b) (s * a) rn mn = .ok (tf, nf, 1, 0) ∧
        -(n : Int) < tf ∧ tf < n ∧ ∃ kf : Int, tf * v = 1 + kf * n := by
  intro fuel
  induction fuel with
  | zero =>
    intro s a b rn mn k k' hs ha hsum hb hlt hf hg h1 h2
    have hm : mn = 0 := by omega
    subst hm
    rw [Nat.gcd_zero_right] at hg
    subst hg
    refine ⟨-s * b, s * a, ?_, ?_, ?_, k, ?_⟩
    · simp [invp.loop]
    · rcases hs with rfl | rfl <;> simp at hb ⊢ <;> omega
    · rcases hs with rfl | rfl <;> simp at hb ⊢ <;> omega
    · simpa using h1
  | succ f ih =>
    intro s a b rn mn k k' hs ha hsum hb hlt hf hg h1 h2
    by_cases hm : mn = 0
    · subst hm
      rw [Nat.gcd_zero_right] at hg
      subst hg
      refine ⟨-s * b, s * a, ?_, ?_, ?_, k, ?_⟩
      · simp [invp.loop]
      · rcases hs with rfl | rfl <;> simp at hb ⊢ <;> omega
      · rcases hs with rfl | rfl <;> simp at hb ⊢ <;> omega
      · simpa using h1
    · have hmpos : 0 < mn := Nat.pos_of_ne_zero hm
      have hdm := Nat.div_add_mod rn mn
      have hml := Nat.mod_lt rn hmpos
      have hqm : rn / mn * mn ≤ rn := Nat.div_mul_le_self rn mn
      obtain ⟨hrn, ha'n, hnew, hb'⟩ := euclid_step n a b rn mn ha hsum hlt hmpos
      have hq : rn / mn ≤ rn := Nat.div_le_self rn mn
      have hqa : rn / mn * a ≤ n := by omega
      have hg' : Nat.gcd mn (rn % mn) = 1 := by
        rw [Nat.gcd_comm, ← Nat.gcd_rec, Nat.gcd_comm]
        exact hg
      have hmod : ((rn % mn : Nat) : Int) = (rn : Int) - ((rn / mn : Nat) : Int) * (mn : Int) := by
        have e : ((mn * (rn / mn) + rn % mn : Nat) : Int) = (rn : Int) := by rw [hdm]
        rw [Nat.cast_add, Nat.cast_mul] at e
        linarith
      have hs' : (-s = 1 ∨ -s = -1) := by
        rcases hs with rfl | rfl
        · right; rfl
        · left; rfl
      have hS : S64 = 2 ^ 63 := rfl
      have e1 : -(-s) * (a : Int) = s * a := by ring
      have e2 : -s * ((b + rn / mn * a : Nat) : Int)
          = -s * b - ((rn / mn : Nat) : Int) * (s * a) := by
        push_cast
        ring
      obtain ⟨tf, nf, hloop, r1, r2, r3⟩ := ih (-s) (b + rn / mn * a) a mn (rn % mn) k'
        (k - ((rn / mn : Nat) : Int) * k') hs'
        (Nat.add_pos_right b (Nat.mul_pos (Nat.div_pos hlt.le hmpos) ha)) hnew hb' hml (by omega) hg'
        (by rw [e1]; exact h2)
        (by rw [e2, hmod]; linear_combination h1 - ((rn / mn : Nat) : Int) * h2)
      refine ⟨tf, nf, ?_, r1, r2, r3⟩
      rw [← hloop, e1, e2, hmod]
      have hnz : (mn : Int) ≠ 0 := by exact_mod_cast hm
      have hqa' : (((rn / mn * a : Nat)) : Int) ≤ n := by exact_mod_cast hqa
      have ha'n' : (((b + rn / mn * a : Nat)) : Int) ≤ n := by exact_mod_cast ha'n
      have hqm' : (((rn / mn * mn : Nat)) : Int) ≤ rn := by exact_mod_cast hqm
      have hrn' : (rn : Int) ≤ n := by exact_mod_cast hrn
      have hq' : (((rn / mn : Nat)) : Int) ≤ rn := by exact_mod_cast hq
      have hq0 : (0 : Int) ≤ ((rn / mn : Nat) : Int) := Int.natCast_nonneg _
      have hmod0 : (0 : Int) ≤ ((rn % mn : Nat) : Int) := Int.natCast_nonneg _
      rw [Nat.cast_mul] at hqa' hqm'
      rw [Nat.cast_add, Nat.cast_mul] at ha'n'
      have hb0 : (0 : Int) ≤ b := Int.natCast_nonneg _
      have ha0 : (0 : Int) ≤ a := Int.natCast_nonneg _
      have hqa0 : (0 : Int) ≤ ((rn / mn : Nat) : Int) * a := mul_nonneg hq0 ha0
      have hqm0 : (0 : Int) ≤ ((rn / mn : Nat) : Int) * mn := mul_nonneg hq0 (Int.natCast_nonneg _)
      apply invp_loop_step
      · exact hnz
      · rw [← Int.ofNat_tdiv]
        constructor <;> linarith
      · rw [← Int.ofNat_tdiv]
        rcases hs with rfl | rfl <;> constructor <;> linarith
      · rw [← Int.ofNat_tdiv]
        rcases hs with rfl | rfl <;> constructor <;> linarith
      · rw [← Int.ofNat_tdiv]
        constructor <;> linarith
      · rw [← Int.ofNat_tdiv]
        constructor <;> linarith

/-- The value that `invp` returns for the final `t` of the loop: `t + n` for a negative `t`,
else `t`. -/
theorem invp_result (n : Nat) (t : Int) (hn : (n : Int) < 2 ^ 63) (h1 : -(n : Int) < t)
    (h2 : t < n) :
    ((toU (if t < 0 then toS ((toU t + n) % U64) else t) : Nat) : Int)
      = if t < 0 then t + n else t := by
  unfold toU toS U64 S64
  split <;> omega

/-- For `n` below `2 ^ 63` and `v` coprime to `n` with `0 < v < n`, `invp(v, n)` returns the
inverse of `v` modulo `n`; the loop ends at `r = 1`. -/
theorem invp_ok (n v : Nat) (hn : (n : Int) < 2 ^ 63) (hv : 0 < v) (hvn : v < n)
    (hg : Nat.gcd n v = 1) :
    ∃ t, invp v n = .ok t ∧ 0 < t ∧ t < n ∧ (v * t) % n = 1 ∧
      ∃ tf nf : Int, invp.loop v 0 1 (toS n) (toS v) = .ok (tf, nf, 1, 0) := by
  have hSn : toS n = n := by
    unfold toS S64
    rw [if_pos hn]
  have hSv : toS v = v := by
    unfold toS S64
    rw [if_pos (by omega)]
  obtain ⟨tf, nf, hloop, r1, r2, kf, r3⟩ := invp_loop_ok n v hn v 1 1 0 n v (-1) 0 (Or.inl rfl)
    (by omega) (by omega) (by omega) hvn (le_refl v) hg (by push_cast; ring) (by push_cast; ring)
  have hloop' : invp.loop v 0 1 (toS n) (toS v) = .ok (tf, nf, 1, 0) := by
    rw [hSn, hSv, ← hloop]
    congr 1
  have hres := invp_result n tf hn r1 r2
  have htf : tf ≠ 0 := by
    intro h0
    rw [h0] at r3
    have hn2 : (2 : Int) ≤ n := by omega
    rcases le_or_lt 0 kf with hk | hk
    · nlinarith
    · nlinarith
  refine ⟨toU (if tf < 0 then toS ((toU tf + n) % U64) else tf), ?_, ?_, ?_, ?_, tf, nf, hloop'⟩
  · unfold invp
    rw [if_neg (by omega), hloop']
    rfl
  · have : (0 : Int) < ((toU (if tf < 0 then toS ((toU tf + n) % U64) else tf) : Nat) : Int) := by
      rw [hres]
      split <;> omega
    exact_mod_cast this
  · have : ((toU (if tf < 0 then toS ((toU tf + n) % U64) else tf) : Nat) : Int) < n := by
      rw [hres]
      split <;> omega
    exact_mod_cast this
  · have : (((v * toU (if tf < 0 then toS ((toU tf + n) % U64) else tf) : Nat)) : Int) % (n : Int)
        = 1 := by
      rw [Nat.cast_mul, hres]
      have hone : (1 : Int) % (n : Int) = 1 := Int.emod_eq_of_lt (by omega) (by omega)
      split
      · have e : (v : Int) * (tf + n) = 1 + (kf + v) * n := by linear_combination r3
        rw [e, Int.add_mul_emod_self, hone]
      · have e : (v : Int) * tf = 1 + kf * n := by linear_combination r3
        rw [e, Int.add_mul_emod_self, hone]
    exact_mod_cast this

/-- C20: for a reduced argument `v < p = 2 ^ 61 - 1`, `Mp61::Invert(v)`, which is `invp`
with signed 64-bit intermediates, raises `std::logic_error` exactly when `v` is 0; for
`0 < v < p` it returns `t` with `0 < t < p` and `(v * t) mod p = 1`, no signed operation
overflows on the way, and the loop ends at `r = 1`, so the test `r != 1` for a non-invertible
non-zero element never fires. -/
theorem C20_Invert_Mp61 (v : Nat) (hv : v < Mp61.kPrime) :
    (Mp61.Invert v = .error .logic_error ↔ v = 0) ∧
      (0 < v → ∃ t, Mp61.Invert v = .ok t ∧ 0 < t ∧ t < Mp61.kPrime ∧
        (v * t) % Mp61.kPrime = 1 ∧
        ∃ tf nf : Int, invp.loop v 0 1 (toS Mp61.kPrime) (toS v) = .ok (tf, nf, 1, 0)) := by
  have hpos : ∀ w, 0 < w → w < Mp61.kPrime → ∃ t, Mp61.Invert w = .ok t ∧ 0 < t ∧
      t < Mp61.kPrime ∧ (w * t) % Mp61.kPrime = 1 ∧
      ∃ tf nf : Int, invp.loop w 0 1 (toS Mp61.kPrime) (toS w) = .ok (tf, nf, 1, 0) := by
    intro w hw hwp
    have hg : Nat.gcd Mp61.kPrime w = 1 :=
      (Nat.Prime.coprime_iff_not_dvd prime_kPrime61).2
        (fun hd => absurd (Nat.le_of_dvd hw hd) (by omega))
    exact invp_ok Mp61.kPrime w (by decide) hw hwp hg
  refine ⟨⟨?_, ?_⟩, fun h => hpos v h hv⟩
  · intro he
    by_contra h0
    obtain ⟨t, ht, _⟩ := hpos v (Nat.pos_of_ne_zero h0) hv
    rw [he] at ht
    cases ht
  · intro h0
    subst h0
    rfl

/-- C20, an instance: the inverse of `3`. -/
theorem C20_witness :
    3 < Mp61.kPrime ∧ ∃ t, Mp61.Invert 3 = .ok t ∧ 0 < t ∧ t < Mp61.kPrime ∧
      (3 * t) % Mp61.kPrime = 1 ∧
      ∃ tf nf : Int, invp.loop 3 0 1 (toS Mp61.kPrime) (toS 3) = .ok (tf, nf, 1, 0) :=
  ⟨by decide, (C20_Invert_Mp61 3 (by decide)).2 (by decide)⟩

theorem leValue_store (v : Nat) (h : v < 2 ^ 64) : leValue (store_u64 v) = v := by
  unfold store_u64
  simp only [List.range, List.range.loop, List.map, leValue]
  omega

theorem store_leValue (b : List Nat) (h8 : b.length = 8) (hb : IsBytes b) :
    store_u64 (leValue b) = b := by
  match b, h8 with
  | [b0, b1, b2, b3, b4, b5, b6, b7], _ =>
    have h0 := hb b0 (by simp)
    have h1 := hb b1 (by simp)
    have h2 := hb b2 (by simp)
    have h3 := hb b3 (by simp)
    have h4 := hb b4 (by simp)
    have h5 := hb b5 (by simp)
    have h6 := hb b6 (by simp)
    have h7 := hb b7 (by simp)
    unfold store_u64
    simp only [List.range, List.range.loop, List.map, leValue]
    refine congrArg₂ _ (by omega) (congrArg₂ _ (by omega) (congrArg₂ _ (by omega)
      (congrArg₂ _ (by omega) (congrArg₂ _ (by omega) (congrArg₂ _ (by omega)
      (congrArg₂ _ (by omega) (congrArg₂ _ (by omega) rfl)))))))

theorem leValue_lt (b : List Nat) (hb : IsBytes b) : leValue b < 256 ^ b.length := by
  induction b with
  | nil => simp [leValue]
  | cons x xs ih =>
    have hx := hb x (List.mem_cons_self x xs)
    have := ih (fun y hy => hb y (List.mem_cons_of_mem x hy))
    simp only [leValue, List.length_cons, pow_succ]
    omega

theorem store_length (v : Nat) : (store_u64 v).length = 8 := by
  unfold store_u64
  simp

theorem store_IsBytes (v : Nat) : IsBytes (store_u64 v) := by
  intro x hx
  unfold store_u64 at hx
  obtain ⟨i, _, rfl⟩ := List.mem_map.mp hx
  exact Nat.mod_lt _ (by norm_num)

theorem Fp61_ToBytes (x : Fp61) : FieldBytes.ToBytes x = store_u64 (ZMod.val x) := rfl

theorem Fp61_FromBytes (b : List Nat) :
    (FieldBytes.FromBytes b : Fp61) = ((load_u64 b : Nat) : Fp61) := rfl

theorem Fp61_ByteSize : FieldBytes.ByteSize Fp61 = 8 := rfl

/-- The field element read from a buffer has the value that `FpElement::FromBytes` computes. -/
theorem Fp61_val_FromBytes (b : List Nat) :
    ZMod.val (FieldBytes.FromBytes b : Fp61) = FpElement.FromBytes b := by
  rw [Fp61_FromBytes, ZMod.val_natCast]
  rfl

/-- Reading back the bytes of a field element, whatever follows them in the buffer. -/
theorem Fp61_FromBytes_ToBytes (x : Fp61) (rest : List Nat) :
    (FieldBytes.FromBytes (FieldBytes.ToBytes x ++ rest) : Fp61) = x := by
  rw [Fp61_FromBytes, Fp61_ToBytes]
  unfold load_u64
  rw [List.take_left' (store_length _), leValue_store _ (lt_trans (ZMod.val_lt x) (by decide))]
  exact ZMod.natCast_zmod_val x

/-- C21 (amended to buffers whose value is below `p`): for a buffer `b` of 8 bytes that holds,
lowest byte first, a value below `p = 2 ^ 61 - 1`, writing `FromBytes(b)` back with `ToBytes`
gives `b` again.  For every buffer of 8 bytes the bytes written are those of the value of `b`
reduced modulo `p`, and the class `Field` of the protocols reads and writes the same values. -/
theorem C21_ToBytes_FromBytes (b : List Nat) (h8 : b.length = FpElement.ByteSize)
    (hb : IsBytes b) :
    FpElement.ToBytes (FpElement.FromBytes b) = store_u64 (leValue b % Mp61.kPrime) ∧
      (FieldBytes.ToBytes (FieldBytes.FromBytes b : Fp61))
        = FpElement.ToBytes (FpElement.FromBytes b) ∧
      (leValue b < Mp61.kPrime → FpElement.ToBytes (FpElement.FromBytes b) = b) := by
  have ht : b.take 8 = b := List.take_of_length_le (by rw [h8]; exact le_refl _)
  have e : FpElement.ToBytes (FpElement.FromBytes b) = store_u64 (leValue b % Mp61.kPrime) := by
    unfold FpElement.ToBytes FpElement.FromBytes Mp61.Reduce load_u64
    rw [ht]
  refine ⟨e, ?_, ?_⟩
  · rw [Fp61_ToBytes, Fp61_val_FromBytes]
    rfl
  · intro hlt
    rw [e, Nat.mod_eq_of_lt hlt]
    exact store_leValue b h8 hb

/-- C21, an instance: the buffer `1, 2, ..., 8`. -/
theorem C21_witness :
    ([1, 2, 3, 4, 5, 6, 7, 8] : List Nat).length = FpElement.ByteSize ∧
      IsBytes [1, 2, 3, 4, 5, 6, 7, 8] ∧
      FpElement.ToBytes (FpElement.FromBytes [1, 2, 3, 4, 5, 6, 7, 8])
        = [1, 2, 3, 4, 5, 6, 7, 8] :=
  ⟨rfl, by decide,
    (C21_ToBytes_FromBytes [1, 2, 3, 4, 5, 6, 7, 8] rfl (by decide)).2.2 (by decide)⟩

/-- C21 fails for the buffer of eight bytes `255`: its value `2 ^ 64 - 1` is reduced to `7` by
the constructor of the element, and `ToBytes` writes `7, 0, 0, 0, 0, 0, 0, 0`. -/
theorem C21_counterexample :
    (List.replicate 8 255).length = FpElement.ByteSize ∧ IsBytes (List.replicate 8 255) ∧
      FpElement.ToBytes (FpElement.FromBytes (List.replicate 8 255)) = [7, 0, 0, 0, 0, 0, 0, 0] ∧
      FpElement.ToBytes (FpElement.FromBytes (List.replicate 8 255)) ≠ List.replicate 8 255 := by
  refine ⟨rfl, by decide, by decide, by decide⟩

section bytes

variable {F : Type} [FieldBytes F]

theorem flatMap_ToBytes_length (hlen : ∀ x : F, (FieldBytes.ToBytes x).length = FieldBytes.ByteSize F)
    (v : List F) :
    (v.flatMap FieldBytes.ToBytes).length = v.length * FieldBytes.ByteSize F := by
  induction v with
  | nil => simp
  | cons x xs ih =>
    rw [List.flatMap_cons, List.length_append, ih, hlen, List.length_cons]
    ring

theorem flatMap_ToBytes_drop (hlen : ∀ x : F, (FieldBytes.ToBytes x).length = FieldBytes.ByteSize F)
    (v : List F) (i : Nat) :
    (v.flatMap FieldBytes.ToBytes).drop (i * FieldBytes.ByteSize F)
      = (v.drop i).flatMap FieldBytes.ToBytes := by
  induction v generalizing i with
  | nil => simp
  | cons x xs ih =>
    cases i with
    | zero => simp
    | succ i =>
      rw [List.flatMap_cons, List.drop_succ_cons, ← ih i, Nat.succ_mul, Nat.add_comm,
        ← hlen x, List.drop_append]

theorem writeAt_append (pre rest bytes : List Nat) (h : bytes.length ≤ rest.length) :
    writeAt (pre ++ rest) pre.length bytes = .ok (pre ++ bytes ++ rest.drop bytes.length) := by
  unfold writeAt
  rw [if_pos (by rw [List.length_append]; omega), List.take_left, List.drop_append]

/-- Reading a vector back from the place where its bytes lie. -/
theorem vector_FromBytes_ok
    (hlen : ∀ x : F, (FieldBytes.ToBytes x).length = FieldBytes.ByteSize F)
    (hrt : ∀ (x : F) (rest : List Nat), FieldBytes.FromBytes (FieldBytes.ToBytes x ++ rest) = x)
    (pre tail : List Nat) (v : List F) :
    vector.FromBytes (pre ++ v.flatMap FieldBytes.ToBytes ++ tail) pre.length v.length
      = .ok v := by
  have hdrop : ∀ i, i < v.length →
      (pre ++ v.flatMap FieldBytes.ToBytes ++ tail).drop (pre.length + i * FieldBytes.ByteSize F)
        = FieldBytes.ToBytes (v.getD i (FieldBytes.FromBytes [])) ++
          ((v.drop (i + 1)).flatMap FieldBytes.ToBytes ++ tail) := by
    intro i hi
    rw [List.append_assoc, List.drop_append, List.drop_append_of_le_length
      (by rw [flatMap_ToBytes_length hlen]; exact Nat.mul_le_mul_right _ (le_of_lt hi)),
      flatMap_ToBytes_drop hlen, List.drop_eq_getElem_cons hi, List.flatMap_cons,
      List.append_assoc]
    simp [List.getD_eq_getElem?_getD, List.getElem?_eq_getElem hi]
  unfold vector.FromBytes
  rw [allOk_map _ _ (fun i => v.getD i (FieldBytes.FromBytes []))]
  · congr 1
    apply List.ext_getElem (by simp)
    intro i h1 h2
    simp [List.getD_eq_getElem?_getD, List.getElem?_eq_getElem h2]
  · intro i hi
    have hi' : i < v.length := List.mem_range.mp hi
    unfold readElement
    rw [if_pos, hdrop i hi', hrt]
    rw [List.length_append, List.length_append, flatMap_ToBytes_length hlen]
    have := Nat.mul_le_mul_right (FieldBytes.ByteSize F) (Nat.succ_le_of_lt hi')
    rw [Nat.succ_mul] at this
    omega

/-- The loop of `SharesToBytes` writes the shares one after the other from `offset` on. -/
theorem SharesToBytes_fold
    (hlen : ∀ x : F, (FieldBytes.ToBytes x).length = FieldBytes.ByteSize F)
    (R : Replicator) : ∀ (shares : List (List F)) (pre rest : List Nat),
    (∀ s ∈ shares, s.length = R.ShareSize) →
    (shares.flatMap (fun s => s.flatMap FieldBytes.ToBytes)).length ≤ rest.length →
    shares.foldlM (SharesToBytes.step R) (pre ++ rest, pre.length)
      = .ok (pre ++ shares.flatMap (fun s => s.flatMap FieldBytes.ToBytes) ++
          rest.drop (shares.flatMap (fun s => s.flatMap FieldBytes.ToBytes)).length,
        pre.length + shares.length * R.ShareSizeBytes F) := by
  intro shares
  induction shares with
  | nil => intro pre rest _ _; simp; rfl
  | cons s ss ih =>
    intro pre rest hS hb
    rw [List.flatMap_cons, List.length_append] at hb
    have hs : (s.flatMap FieldBytes.ToBytes).length = R.ShareSizeBytes F := by
      rw [flatMap_ToBytes_length hlen, hS s (List.mem_cons_self s ss)]
      rfl
    rw [List.foldlM_cons]
    have h1 : SharesToBytes.step R (pre ++ rest, pre.length) s
        = .ok ((pre ++ s.flatMap FieldBytes.ToBytes) ++ rest.drop (R.ShareSizeBytes F),
          (pre ++ s.flatMap FieldBytes.ToBytes).length) := by
      unfold SharesToBytes.step Replicator.ShareToBytes vector.ToBytes
      simp only
      rw [writeAt_append _ _ _ (by omega), hs, List.length_append, hs]
    rw [h1]
    show List.foldlM _ _ ss = _
    rw [ih _ _ (fun x hx => hS x (List.mem_cons_of_mem s hx))
      (by rw [List.length_drop]; omega)]
    rw [List.flatMap_cons, List.length_append, List.length_append, hs, List.drop_drop,
      List.length_cons]
    have e2 : pre.length + R.ShareSizeBytes F + ss.length * R.ShareSizeBytes F
        = pre.length + (ss.length + 1) * R.ShareSizeBytes F := by ring
    rw [e2]
    simp only [List.append_assoc]

/-- The loop of `SharesFromBytes` reads back the shares that lie from `offset` on. -/
theorem SharesFromBytes_loop
    (hlen : ∀ x : F, (FieldBytes.ToBytes x).length = FieldBytes.ByteSize F)
    (hrt : ∀ (x : F) (rest : List Nat), FieldBytes.FromBytes (FieldBytes.ToBytes x ++ rest) = x)
    (R : Replicator) : ∀ (shares : List (List F)) (pre tail : List Nat) (acc : List (List F)),
    (∀ s ∈ shares, s.length = R.ShareSize) →
    SharesFromBytes.loop R
        (pre ++ shares.flatMap (fun s => s.flatMap FieldBytes.ToBytes) ++ tail)
        shares.length pre.length acc
      = .ok (acc ++ shares) := by
  intro shares
  induction shares with
  | nil => intro pre tail acc _; simp [SharesFromBytes.loop]
  | cons s ss ih =>
    intro pre tail acc hS
    have hs : (s.flatMap FieldBytes.ToBytes).length = R.ShareSizeBytes F := by
      rw [flatMap_ToBytes_length hlen, hS s (List.mem_cons_self s ss)]
      rfl
    have hbuf : pre ++ (s :: ss).flatMap (fun s => s.flatMap FieldBytes.ToBytes) ++ tail
        = pre ++ s.flatMap FieldBytes.ToBytes ++
          (ss.flatMap (fun s => s.flatMap FieldBytes.ToBytes) ++ tail) := by
      rw [List.flatMap_cons]
      simp only [List.append_assoc]
    rw [List.length_cons, SharesFromBytes.loop]
    have h1 : (R.ShareFromBytes
        (pre ++ (s :: ss).flatMap (fun s => s.flatMap FieldBytes.ToBytes) ++ tail) pre.length
          : Except Fault (List F)) = .ok s := by
      unfold Replicator.ShareFromBytes
      rw [hbuf, ← hS s (List.mem_cons_self s ss)]
      exact vector_FromBytes_ok hlen hrt _ _ s
    rw [h1]
    simp only
    have hbuf2 : pre ++ (s :: ss).flatMap (fun s => s.flatMap FieldBytes.ToBytes) ++ tail
        = (pre ++ s.flatMap FieldBytes.ToBytes) ++
          ss.flatMap (fun s => s.flatMap FieldBytes.ToBytes) ++ tail := by
      rw [List.flatMap_cons]
      simp only [List.append_assoc]
    have hoff : pre.length + R.ShareSizeBytes F = (pre ++ s.flatMap FieldBytes.ToBytes).length := by
      rw [List.length_append, hs]
    rw [hbuf2, hoff, ih _ _ _ (fun x hx => hS x (List.mem_cons_of_mem s hx))]
    simp

end bytes

theorem wireBytes_eq (shares : List (List Fp61)) :
    wireBytes shares = shares.flatMap (fun s => s.flatMap FieldBytes.ToBytes) := rfl

theorem wireBytes_length (R : Replicator) (shares : List (List Fp61))
    (hS : ∀ s ∈ shares, s.length = R.ShareSize) :
    (wireBytes shares).length = shares.length * R.ShareSizeBytes Fp61 := by
  rw [wireBytes_eq]
  induction shares with
  | nil => simp
  | cons s ss ih =>
    rw [List.flatMap_cons, List.length_append, ih (fun x hx => hS x (List.mem_cons_of_mem s hx)),
      flatMap_ToBytes_length (fun _ => store_length _), hS s (List.mem_cons_self s ss),
      List.length_cons]
    unfold Replicator.ShareSizeBytes
    ring

/-- C22: for a list of shares of `ShareSize` elements each and a buffer with room for them,
`SharesToBytes` writes the shares one after the other, every element as the 8 bytes of its
value with the lowest byte first, and leaves the rest of the buffer as it was;
`SharesFromBytes` applied to the buffer written returns the list of shares. -/
theorem C22_SharesFromBytes_SharesToBytes (R : Replicator) (shares : List (List Fp61))
    (buffer : List Nat) (hS : ∀ s ∈ shares, s.length = R.ShareSize)
    (hb : shares.length * R.ShareSizeBytes Fp61 ≤ buffer.length) :
    ∃ written, R.SharesToBytes shares buffer = .ok written ∧
      written = wireBytes shares ++ buffer.drop (shares.length * R.ShareSizeBytes Fp61) ∧
      (wireBytes shares).length = shares.length * (R.ShareSize * FieldBytes.ByteSize Fp61) ∧
      FieldBytes.ByteSize Fp61 = 8 ∧
      R.SharesFromBytes written shares.length = .ok shares := by
  have hlen : ∀ x : Fp61, (FieldBytes.ToBytes x).length = FieldBytes.ByteSize Fp61 :=
    fun _ => store_length _
  have hw := wireBytes_length R shares hS
  have h1 := SharesToBytes_fold hlen R shares [] buffer hS (by rw [← wireBytes_eq, hw]; exact hb)
  rw [← wireBytes_eq, hw] at h1
  refine ⟨_, ?_, rfl, hw, rfl, ?_⟩
  · unfold Replicator.SharesToBytes
    rw [show (buffer, 0) = (([] : List Nat) ++ buffer, ([] : List Nat).length) from rfl, h1]
    rfl
  · have h2 := SharesFromBytes_loop hlen Fp61_FromBytes_ToBytes R shares []
      (buffer.drop (shares.length * R.ShareSizeBytes Fp61)) [] hS
    unfold Replicator.SharesFromBytes
    rw [wireBytes_eq]
    exact h2

/-- C22, an instance: two shares of three elements for `n = 4`, `t = 1` and a buffer of 50
bytes. -/
theorem C22_witness :
    ((∀ s ∈ ([[1, 2, 3], [4, 5, 6]] : List (List Fp61)), s.length = sampleReplicator.ShareSize) ∧
      ([[1, 2, 3], [4, 5, 6]] : List (List Fp61)).length * sampleReplicator.ShareSizeBytes Fp61
        ≤ (List.replicate 50 9).length) ∧
    ∃ written, sampleReplicator.SharesToBytes ([[1, 2, 3], [4, 5, 6]] : List (List Fp61))
        (List.replicate 50 9) = .ok written ∧
      written = wireBytes [[1, 2, 3], [4, 5, 6]] ++ (List.replicate 50 9).drop
        (([[1, 2, 3], [4, 5, 6]] : List (List Fp61)).length *
          sampleReplicator.ShareSizeBytes Fp61) ∧
      (wireBytes [[1, 2, 3], [4, 5, 6]]).length = ([[1, 2, 3], [4, 5, 6]] : List (List Fp61)).length
        * (sampleReplicator.ShareSize * FieldBytes.ByteSize Fp61) ∧
      FieldBytes.ByteSize Fp61 = 8 ∧
      sampleReplicator.SharesFromBytes written
        ([[1, 2, 3], [4, 5, 6]] : List (List Fp61)).length
          = .ok ([[1, 2, 3], [4, 5, 6]] : List (List Fp61)) :=
  have h1 : ∀ s ∈ ([[1, 2, 3], [4, 5, 6]] : List (List Fp61)),
      s.length = sampleReplicator.ShareSize := by decide!
  have h2 : ([[1, 2, 3], [4, 5, 6]] : List (List Fp61)).length *
      sampleReplicator.ShareSizeBytes Fp61 ≤ (List.replicate 50 9).length := by decide!
  ⟨⟨h1, h2⟩, C22_SharesFromBytes_SharesToBytes sampleReplicator _ _ h1 h2⟩

theorem find_eq_none_iff (l : List Nat) (x : Nat) : find l x = none ↔ x ∉ l := by
  constructor
  · intro h hm
    induction l with
    | nil => simp at hm
    | cons y ys ih =>
      unfold find at h
      by_cases e : y = x
      · rw [if_pos e] at h
        cases h
      · rw [if_neg e] at h
        rcases List.mem_cons.mp hm with rfl | hm'
        · exact e rfl
        · cases hf : find ys x with
          | none => exact ih hf hm'
          | some i => rw [hf] at h; cases h
  · exact find_none l x

/-- The parties outside a subset `c` of `n - 2 t` parties: there are `2 t` of them. -/
theorem outside_length (c : List Nat) (n : Nat) (hc : c.Nodup) (hb : ∀ x ∈ c, x < n) :
    ((List.range n).filter (fun p => find c p = none)).length = n - c.length := by
  have e : (List.range n).filter (fun p => find c p = none)
      = (List.range n).filter (fun p => ! decide (p ∈ c)) := by
    apply List.filter_congr
    intro p _
    by_cases h : p ∈ c
    · have : find c p ≠ none := fun h0 => (find_eq_none_iff c p).mp h0 h
      simp [h, this]
    · simp [h, find_none c p h]
  have h1 := @List.length_eq_length_filter_add _ (List.range n) (fun p => decide (p ∈ c))
  rw [length_filter_range_mem c n hc hb, List.length_range] at h1
  rw [e]
  omega

/-- The table that the loop of `mTableRec` builds: the entry of the local slot `k` holds the
parties outside the subsets of all the slots `0, ..., k`. -/
theorem tableRec_spec (DR : Replicator) (n t id : Nat) (hDR : DR.WF n (2 * t)) (h2t : 2 * t < n)
    (hid : id < n) :
    tableRec id n DR = .ok ((List.range DR.ShareSize).map (recEntrySpec n t id)) := by
  have hS := hDR.share id hid
  obtain ⟨st, hst, hinv⟩ := foldlM_range_inv (tableRecStep id n DR)
    (fun k st => st = ((List.range k).flatMap (fun j =>
          (List.range n).filter (fun p => find (slotSet n t id j) p = none)),
        (List.range k).map (recEntrySpec n t id)))
    DR.ShareSize ([], []) rfl
    (fun k st hk hi => by
      have hk' : k < DR.mShareSize := hk
      obtain ⟨hx, _⟩ := slot_lt (combs n (n - 2 * t) 0) id k (by rw [hS]; exact hk')
      obtain ⟨c1, _, _⟩ := comb_facts n (n - 2 * t) _ hx
      subst hi
      unfold tableRecStep
      rw [IndexSetFor_ok DR n (2 * t) hDR id hid]
      simp only
      rw [getE_ok_getD _ k 0 (by rw [hS]; exact hk')]
      simp only
      rw [Combination_ok DR n (2 * t) hDR _ hx]
      simp only
      rw [getE_ok_getD _ 0 0 (by rw [c1]; omega)]
      refine ⟨_, rfl, ?_⟩
      simp only [List.range_succ, List.flatMap_append, List.map_append, List.flatMap_singleton,
        List.map_singleton, List.flatMap_nil, List.append_nil, List.flatMap_cons, recEntrySpec,
        slotSet])
  unfold tableRec
  rw [hst, hinv]

/-- The table `mTableRec` of a constructed manipulator is the one that the loop builds from
its double-degree replicator. -/
theorem ctor_tableRec (id d n : Nat) (M : ShrManipulator) (h : ShrManipulator.ctor id d n = .ok M) :
    tableRec id n M.mDoubleReplicator = .ok M.mTableRec := by
  unfold ShrManipulator.ctor at h
  cases h1 : Replicator.ctor n d with
  | error e => rw [h1] at h; cases h
  | ok R =>
    rw [h1] at h
    simp only at h
    cases h2 : Replicator.ctor n ((2 * d) % SIZE) with
    | error e => rw [h2] at h; cases h
    | ok DR =>
      rw [h2] at h
      simp only at h
      cases h3 : IndexForConstantOperations id R with
      | error e => rw [h3] at h; cases h
      | ok ix =>
        rw [h3] at h
        simp only at h
        cases h4 : tableMult id n d R DR with
        | error e => rw [h4] at h; cases h
        | ok tm =>
          rw [h4] at h
          simp only at h
          cases h5 : tableRec id n DR with
          | error e => rw [h5] at h; cases h
          | ok tr =>
            rw [h5] at h
            simp only at h
            cases h
            exact h5

theorem flatMap_range_length {α : Type} (f : Nat → List α) (c : Nat) :
    ∀ k, (∀ j, j < k → (f j).length = c) → ((List.range k).flatMap f).length = c * k := by
  intro k
  induction k with
  | zero => intro _; simp
  | succ k ih =>
    intro h
    rw [List.range_succ, List.flatMap_append, List.length_append,
      ih (fun j hj => h j (by omega))]
    simp only [List.flatMap_cons, List.flatMap_nil, List.append_nil]
    rw [h k (by omega)]
    ring

/-- In a strictly increasing list a member is the first element exactly when it is the
smallest. -/
theorem head_iff_least (c : List Nat) (x : Nat) (hs : c.Sorted (· < ·)) (hx : x ∈ c) :
    x = c.getD 0 0 ↔ ∀ y ∈ c, x ≤ y := by
  cases c with
  | nil => simp at hx
  | cons h tl =>
    have hlt : ∀ y ∈ tl, h < y := (List.sorted_cons.mp hs).1
    simp only [List.getD_cons_zero]
    constructor
    · rintro rfl y hy
      rcases List.mem_cons.mp hy with rfl | hy'
      · exact le_refl _
      · exact le_of_lt (hlt y hy')
    · intro hmin
      rcases List.mem_cons.mp hx with rfl | hx'
      · rfl
      · have := hmin h (List.mem_cons_self h tl)
        have := hlt x hx'
        omega

/-- C23, the behaviour of the code: the variable `entry` of `ShrManipulator::Init` is declared
before the loop and its `party_set` is never cleared, so the entry of the local slot `k` of
`mTableRec` holds the parties outside the subsets of all the slots `0, ..., k`, one slot after
the other: `2 t (k + 1)` parties instead of `2 t`.  The flag is `VALUE` exactly when the party
is the smallest member of the subset of slot `k`. -/
theorem C23_party_set_accumulates (n t id : Nat) (ht : 1 ≤ t) (h2t : 2 * t < n) (hn : n ≤ 30)
    (hid : id < n) :
    ∃ (M : ShrManipulator) (S : Nat → List Nat), ShrManipulator.ctor id t n = .ok M ∧
      M.mTableRec.length = M.mDoubleReplicator.ShareSize ∧
      ∀ k, k < M.mDoubleReplicator.ShareSize →
        (∃ idx g, M.mDoubleReplicator.IndexSetFor id = .ok idx ∧ getE idx k = .ok g ∧
          M.mDoubleReplicator.Combination g = .ok (S k)) ∧
        (S k).length = n - 2 * t ∧
        ∃ e, getE M.mTableRec k = .ok e ∧
          e.party_set = (List.range (k + 1)).flatMap (fun j =>
            (List.range n).filter (fun p => decide (p ∉ S j))) ∧
          e.party_set.length = 2 * t * (k + 1) ∧
          (e.value_or_hash = RecType.VALUE ↔ (id ∈ S k ∧ ∀ x ∈ S k, id ≤ x)) := by
  obtain ⟨M, hM, hWF, _, _⟩ := ShrManipulator_ctor_ok id t n ht h2t hn hid
  have hDR := hWF.drep
  have hS := hDR.share id hid
  have htab := ctor_tableRec id t n M hM
  rw [tableRec_spec M.mDoubleReplicator n t id hDR h2t hid] at htab
  have htab' := (Except.ok.inj htab).symm
  refine ⟨M, slotSet n t id, hM, ?_, ?_⟩
  · rw [htab', List.length_map, List.length_range]
  · intro k hk
    have hk' : k < M.mDoubleReplicator.mShareSize := hk
    have hfacts : ∀ j, j < M.mDoubleReplicator.mShareSize →
        (slotsOf (combs n (n - 2 * t) 0) id).getD j 0 < (combs n (n - 2 * t) 0).length ∧
        id ∈ slotSet n t id j ∧ (slotSet n t id j).length = n - 2 * t ∧
        (slotSet n t id j).Sorted (· < ·) ∧ ∀ q ∈ slotSet n t id j, q < n := by
      intro j hj
      obtain ⟨hx, hmem⟩ := slot_lt (combs n (n - 2 * t) 0) id j (by rw [hS]; exact hj)
      obtain ⟨c1, c2, c3⟩ := comb_facts n (n - 2 * t) _ hx
      exact ⟨hx, hmem, c1, c2, c3⟩
    obtain ⟨hx, hmem, c1, c2, c3⟩ := hfacts k hk'
    refine ⟨⟨_, _, IndexSetFor_ok M.mDoubleReplicator n (2 * t) hDR id hid,
      getE_ok_getD _ k 0 (by rw [hS]; exact hk'),
      Combination_ok M.mDoubleReplicator n (2 * t) hDR _ hx⟩, c1, ?_⟩
    have hlen : k < M.mTableRec.length := by
      rw [htab', List.length_map, List.length_range]
      exact hk
    have hget : M.mTableRec[k] = recEntrySpec n t id k := by
      simp only [htab', List.getElem_map, List.getElem_range]
    have hfilter : ∀ j, (List.range n).filter (fun p => find (slotSet n t id j) p = none)
        = (List.range n).filter (fun p => decide (p ∉ slotSet n t id j)) := by
      intro j
      apply List.filter_congr
      intro p _
      simp only [find_eq_none_iff]
    refine ⟨_, getE_ok _ k hlen, ?_, ?_, ?_⟩
    · rw [hget]
      simp only [recEntrySpec, hfilter]
    · rw [hget]
      simp only [recEntrySpec]
      apply flatMap_range_length
      intro j hj
      obtain ⟨_, _, d1, d2, d3⟩ := hfacts j (by omega)
      rw [outside_length _ n (sorted_nodup _ d2) d3, d1]
      omega
    · rw [hget]
      simp only [recEntrySpec]
      rw [← head_iff_least _ id c2 hmem]
      constructor
      · intro h
        refine ⟨hmem, ?_⟩
        by_contra hne
        rw [if_neg hne] at h
        cases h
      · rintro ⟨_, e⟩
        rw [if_pos e]

/-- The loop of the first branch of `PrepareLinearCombinations` adds the two linear
combinations to the compressed values. -/
theorem own_fold {F : Type} [CommRing F] {G : Type} (c : Check F G)
    (h1 : c.mCheckData.counter ≤ c.mRandomCoefficients.length)
    (h2 : c.mCheckData.counter ≤ c.mCheckData.shares_sent_to_p1.length)
    (h3 : c.mCheckData.counter ≤ c.mCheckData.values_recv_from_p1.length) :
    ∃ cd, (List.range c.mCheckData.counter).foldlM (PrepareLinearCombinations.own c)
        c.mCompressedCD = .ok cd ∧
      cd.shares_sent_to_p1 = c.mCompressedCD.shares_sent_to_p1 +
        ∑ mu in Finset.range c.mCheckData.counter,
          c.mRandomCoefficients.getD mu 0 * c.mCheckData.shares_sent_to_p1.getD mu 0 ∧
      cd.values_recv_from_p1 = c.mCompressedCD.values_recv_from_p1 +
        ∑ mu in Finset.range c.mCheckData.counter,
          c.mRandomCoefficients.getD mu 0 * c.mCheckData.values_recv_from_p1.getD mu 0 ∧
      cd.shares_recv_by_p1 = c.mCompressedCD.shares_recv_by_p1 ∧
      cd.msgs = c.mCompressedCD.msgs := by
  obtain ⟨cd, hcd, i1, i2, i3, i4⟩ := foldlM_range_inv (PrepareLinearCombinations.own c)
    (fun k cd => cd.shares_sent_to_p1 = c.mCompressedCD.shares_sent_to_p1 +
        ∑ mu in Finset.range k,
          c.mRandomCoefficients.getD mu 0 * c.mCheckData.shares_sent_to_p1.getD mu 0 ∧
      cd.values_recv_from_p1 = c.mCompressedCD.values_recv_from_p1 +
        ∑ mu in Finset.range k,
          c.mRandomCoefficients.getD mu 0 * c.mCheckData.values_recv_from_p1.getD mu 0 ∧
      cd.shares_recv_by_p1 = c.mCompressedCD.shares_recv_by_p1 ∧
      cd.msgs = c.mCompressedCD.msgs)
    c.mCheckData.counter c.mCompressedCD
    ⟨by simp, by simp, rfl, rfl⟩
    (fun k cd hk ⟨j1, j2, j3, j4⟩ => by
      unfold PrepareLinearCombinations.own
      rw [getE_ok_getD _ k 0 (by omega), getE_ok_getD _ k 0 (by omega)]
      simp only
      rw [getE_ok_getD _ k 0 (by omega)]
      refine ⟨_, rfl, ?_, ?_, j3, j4⟩
      · simp only [Finset.sum_range_succ, j1, add_assoc]
      · simp only [Finset.sum_range_succ, j2, add_assoc])
  exact ⟨cd, hcd, i1, i2, i3, i4⟩

/-- C24, the behaviour of the code: the test of `PrepareLinearCombinations` is
`0 < mId < 2 * mThreshold - 1`.  A party with `0 < mId < 2 t - 1` adds the two linear
combinations to its compressed values; the parties `2 t - 1` and `2 t`, which also satisfy
`0 < mId < 2 t + 1`, are left out and their compressed values stay as they were (zero after
the constructor). -/
theorem C24_guard_leaves_out_two_parties {F : Type} [CommRing F] {G : Type} (c : Check F G)
    (ht : 1 ≤ c.mThreshold)
    (hs : c.mThreshold < 2 ^ 31) (hpos : 0 < c.mId) (hlt : c.mId < 2 * c.mThreshold + 1)
    (h1 : c.mCheckData.counter ≤ c.mRandomCoefficients.length)
    (h2 : c.mCheckData.counter ≤ c.mCheckData.shares_sent_to_p1.length)
    (h3 : c.mCheckData.counter ≤ c.mCheckData.values_recv_from_p1.length) :
    ∃ c', c.PrepareLinearCombinations = .ok c' ∧
      c'.mCompressedCD.shares_sent_to_p1 = c.mCompressedCD.shares_sent_to_p1 +
        (if c.mId + 1 < 2 * c.mThreshold then
          ∑ mu in Finset.range c.mCheckData.counter,
            c.mRandomCoefficients.getD mu 0 * c.mCheckData.shares_sent_to_p1.getD mu 0
        else 0) ∧
      c'.mCompressedCD.values_recv_from_p1 = c.mCompressedCD.values_recv_from_p1 +
        (if c.mId + 1 < 2 * c.mThreshold then
          ∑ mu in Finset.range c.mCheckData.counter,
            c.mRandomCoefficients.getD mu 0 * c.mCheckData.values_recv_from_p1.getD mu 0
        else 0) := by
  have hb : ((2 * c.mThreshold) % SIZE + SIZE - 1) % SIZE = 2 * c.mThreshold - 1 := by
    unfold SIZE
    omega
  unfold Check.PrepareLinearCombinations
  rw [hb]
  by_cases hg : c.mId + 1 < 2 * c.mThreshold
  · rw [if_pos ⟨hpos, by omega⟩, if_pos hg, if_pos hg]
    obtain ⟨cd, hcd, i1, i2, _, _⟩ := own_fold c h1 h2 h3
    rw [hcd]
    exact ⟨_, rfl, i1, i2⟩
  · rw [if_neg (fun h => hg (by omega)), if_neg (by omega), if_neg hg, if_neg hg]
    exact ⟨c, rfl, by simp, by simp⟩

/-- C24, an instance: party 1 of `n = 4`, `t = 1` with the transcript of one multiplication.
Its compressed values stay zero. -/
theorem C24_witness :
    (1 ≤ (sampleCheck 1 [[1, 2, 3], [4, 5, 6], [7, 8, 9]]).mThreshold ∧
      (sampleCheck 1 [[1, 2, 3], [4, 5, 6], [7, 8, 9]]).mThreshold < 2 ^ 31 ∧
      0 < (sampleCheck 1 [[1, 2, 3], [4, 5, 6], [7, 8, 9]]).mId ∧
      (sampleCheck 1 [[1, 2, 3], [4, 5, 6], [7, 8, 9]]).mId <
        2 * (sampleCheck 1 [[1, 2, 3], [4, 5, 6], [7, 8, 9]]).mThreshold + 1 ∧
      (sampleCheck 1 [[1, 2, 3], [4, 5, 6], [7, 8, 9]]).mCheckData.counter ≤
        (sampleCheck 1 [[1, 2, 3], [4, 5, 6], [7, 8, 9]]).mRandomCoefficients.length ∧
      (sampleCheck 1 [[1, 2, 3], [4, 5, 6], [7, 8, 9]]).mCheckData.counter ≤
        (sampleCheck 1 [[1, 2, 3], [4, 5, 6], [7, 8, 9]]).mCheckData.shares_sent_to_p1.length ∧
      (sampleCheck 1 [[1, 2, 3], [4, 5, 6], [7, 8, 9]]).mCheckData.counter ≤
        (sampleCheck 1 [[1, 2, 3], [4, 5, 6], [7, 8, 9]]).mCheckData.values_recv_from_p1.length) ∧
    ∃ c', (sampleCheck 1 [[1, 2, 3], [4, 5, 6], [7, 8, 9]]).PrepareLinearCombinations = .ok c' ∧
      c'.mCompressedCD.shares_sent_to_p1 =
        (sampleCheck 1 [[1, 2, 3], [4, 5, 6], [7, 8, 9]]).mCompressedCD.shares_sent_to_p1 +
        (if (sampleCheck 1 [[1, 2, 3], [4, 5, 6], [7, 8, 9]]).mId + 1 <
            2 * (sampleCheck 1 [[1, 2, 3], [4, 5, 6], [7, 8, 9]]).mThreshold then
          ∑ mu in Finset.range (sampleCheck 1 [[1, 2, 3], [4, 5, 6], [7, 8, 9]]).mCheckData.counter,
            (sampleCheck 1 [[1, 2, 3], [4, 5, 6], [7, 8, 9]]).mRandomCoefficients.getD mu 0 *
              (sampleCheck 1 [[1, 2, 3], [4, 5, 6], [7, 8, 9]]).mCheckData.shares_sent_to_p1.getD
                mu 0
        else 0) ∧
      c'.mCompressedCD.values_recv_from_p1 =
        (sampleCheck 1 [[1, 2, 3], [4, 5, 6], [7, 8, 9]]).mCompressedCD.values_recv_from_p1 +
        (if (sampleCheck 1 [[1, 2, 3], [4, 5, 6], [7, 8, 9]]).mId + 1 <
            2 * (sampleCheck 1 [[1, 2, 3], [4, 5, 6], [7, 8, 9]]).mThreshold then
          ∑ mu in Finset.range (sampleCheck 1 [[1, 2, 3], [4, 5, 6], [7, 8, 9]]).mCheckData.counter,
            (sampleCheck 1 [[1, 2, 3], [4, 5, 6], [7, 8, 9]]).mRandomCoefficients.getD mu 0 *
              (sampleCheck 1 [[1, 2, 3], [4, 5, 6], [7, 8, 9]]).mCheckData.values_recv_from_p1.getD
                mu 0
        else 0) :=
  ⟨⟨by decide!, by decide!, by decide!, by decide!, by decide!, by decide!, by decide!⟩,
    C24_guard_leaves_out_two_parties (sampleCheck 1 [[1, 2, 3], [4, 5, 6], [7, 8, 9]])
      (by decide!) (by decide!) (by decide!) (by decide!) (by decide!) (by decide!) (by decide!)⟩

/-- The check of party 1 and of party 2 for `n = 4`, `t = 1` on a transcript with the share `5`
sent and the value `9` received: the coefficient is not zero, the compressed values are. -/
theorem sample_linear_combinations :
    (sampleCheck 1 [[1, 2, 3], [4, 5, 6], [7, 8, 9]]).mRandomCoefficients
      = [54503355711825422] ∧
    ((sampleCheck 1 [[1, 2, 3], [4, 5, 6], [7, 8, 9]]).PrepareLinearCombinations.toOption.map
      (fun c => (c.mCompressedCD.shares_sent_to_p1, c.mCompressedCD.values_recv_from_p1)))
      = some (0, 0) ∧
    ((sampleCheck 2 [[1, 2, 3], [4, 5, 6], [7, 8, 9]]).PrepareLinearCombinations.toOption.map
      (fun c => (c.mCompressedCD.shares_sent_to_p1, c.mCompressedCD.values_recv_from_p1)))
      = some (0, 0) ∧
    (54503355711825422 * 5 : Fp61) ≠ 0 ∧ (54503355711825422 * 9 : Fp61) ≠ 0 :=
  ⟨by decide!, by decide!, by decide!, by decide!, by decide!⟩

/-- A property of the state that every successful turn keeps holds after a successful loop. -/
theorem foldlM_keeps {σ α : Type} (f : σ → α → Except Fault σ) (P : σ → Prop) :
    ∀ (l : List α), (∀ x ∈ l, ∀ st st', P st → f st x = .ok st' → P st') →
    ∀ st st', P st → l.foldlM f st = .ok st' → P st' := by
  intro l
  induction l with
  | nil =>
    intro _ st st' h0 h
    cases h
    exact h0
  | cons x xs ih =>
    intro hstep st st' h0 h
    rw [List.foldlM_cons] at h
    cases h1 : f st x with
    | error e => rw [h1] at h; cases h
    | ok st1 =>
      rw [h1] at h
      exact ih (fun y hy => hstep y (List.mem_cons_of_mem x hy)) st1 st'
        (hstep x (List.mem_cons_self x xs) st st1 h0 h1) h

theorem hash_keeps_zero {F : Type} [CommRing F] (msgs : List (List F)) (t shr_id : Nat)
    (d d' : List (List F)) (r : Nat) (h0 : ∀ l ∈ d, ∀ x ∈ l, x = 0)
    (h : PrepareMsgs.hash msgs t shr_id d r = .ok d') : ∀ l ∈ d', ∀ x ∈ l, x = 0 := by
  unfold PrepareMsgs.hash at h
  cases hb : PrepareMsgs.batched msgs t shr_id with
  | error e => rw [hb] at h; cases h
  | ok b =>
    rw [hb] at h
    simp only at h
    cases hg : getE d r with
    | error e => rw [hg] at h; cases h
    | ok old =>
      rw [hg] at h
      simp only at h
      cases h
      have hold : old ∈ d := by
        unfold getE at hg
        cases hq : d.get? r with
        | none => rw [hq] at hg; cases hg
        | some y =>
          rw [hq] at hg
          cases hg
          exact List.get?_mem hq
      intro l hl x hx
      rcases List.mem_or_eq_of_mem_set hl with hl' | rfl
      · exact h0 l hl' x hx
      · rcases List.mem_append.mp hx with hx' | hx'
        · exact h0 old hold x hx'
        · simpa using hx'

/-- C25 (amended: the element sent is the placeholder `Field(0)`, no hash is computed): in
`PrepareMsgs` the element appended to `mDigestsToSend` for a slot with the flag `HASH` is
`Field(0)`; the payload of the slot is collected and not used.  So after the call every element
of `mDigestsToSend` is zero, whatever the payloads. -/
theorem C25_digests_are_zero {F : Type} [CommRing F] [DecidableEq F] {G : Type}
    (c c' : Check F G) (h : c.PrepareMsgs = .ok c') (h0 : AllZero c.mDigestsToSend) :
    AllZero c'.mDigestsToSend := by
  unfold AllZero at h0 ⊢
  unfold Check.PrepareMsgs at h
  cases h1 : (List.range c.mCheckData.counter).foldlM
      (fun msgs mult_idx => (List.range (2 * c.mThreshold + 1)).foldlM
        (PrepareMsgs.compress c mult_idx) msgs) c.mCompressedCD.msgs with
  | error e => rw [h1] at h; cases h
  | ok msgs =>
    rw [h1] at h
    simp only at h
    cases h2 : (List.range c.mManipulator.mDoubleReplicator.ShareSize).foldlM
        (PrepareMsgs.slot c msgs) (c.mValuesToSend, c.mDigestsToSend) with
    | error e => rw [h2] at h; cases h
    | ok st =>
      rw [h2] at h
      simp only at h
      cases h
      simp only
      refine foldlM_keeps (PrepareMsgs.slot c msgs)
        (fun st => ∀ l ∈ st.2, ∀ x ∈ l, x = 0) _ ?_ _ st h0 h2
      intro shr_id _ s s' hs hstep
      unfold PrepareMsgs.slot at hstep
      cases he : getE c.mManipulator.mTableRec shr_id with
      | error e => rw [he] at hstep; cases hstep
      | ok entry =>
        rw [he] at hstep
        simp only at hstep
        cases hv : entry.value_or_hash with
        | VALUE =>
          rw [hv] at hstep
          simp only at hstep
          cases hf : entry.party_set.foldlM (PrepareMsgs.value msgs c.mThreshold shr_id) s.1 with
          | error e => rw [hf] at hstep; cases hstep
          | ok v =>
            rw [hf] at hstep
            cases hstep
            exact hs
        | HASH =>
          rw [hv] at hstep
          simp only at hstep
          cases hf : entry.party_set.foldlM (PrepareMsgs.hash msgs c.mThreshold shr_id) s.2 with
          | error e => rw [hf] at hstep; cases hstep
          | ok d =>
            rw [hf] at hstep
            cases hstep
            exact foldlM_keeps (PrepareMsgs.hash msgs c.mThreshold shr_id)
              (fun d => ∀ l ∈ d, ∀ x ∈ l, x = 0) _
              (fun r _ d1 d2 hd hh => hash_keeps_zero msgs _ _ d1 d2 r hd hh) _ d hs hf

/-- C25, an instance: party 1 of `n = 4`, `t = 1` with the transcript of one multiplication. -/
theorem C25_witness :
    ((sampleCheck 1 [[1, 2, 3], [4, 5, 6], [7, 8, 9]]).PrepareMsgs
        = .ok (sampleCheckMsgs 1 [[1, 2, 3], [4, 5, 6], [7, 8, 9]]) ∧
      AllZero (sampleCheck 1 [[1, 2, 3], [4, 5, 6], [7, 8, 9]]).mDigestsToSend) ∧
    AllZero (sampleCheckMsgs 1 [[1, 2, 3], [4, 5, 6], [7, 8, 9]]).mDigestsToSend :=
  have hs : (match (sampleCheck 1 [[1, 2, 3], [4, 5, 6], [7, 8, 9]]).PrepareMsgs with
      | .ok _ => true
      | .error _ => false) = true := by decide!
  have h1 : (sampleCheck 1 [[1, 2, 3], [4, 5, 6], [7, 8, 9]]).PrepareMsgs
      = .ok (sampleCheckMsgs 1 [[1, 2, 3], [4, 5, 6], [7, 8, 9]]) := by
    unfold sampleCheckMsgs
    revert hs
    generalize (sampleCheck 1 [[1, 2, 3], [4, 5, 6], [7, 8, 9]]).PrepareMsgs = r
    intro hs
    cases r with
    | ok c => rfl
    | error e => cases hs
  have h2 : AllZero (sampleCheck 1 [[1, 2, 3], [4, 5, 6], [7, 8, 9]]).mDigestsToSend := by
    decide!
  ⟨⟨h1, h2⟩, C25_digests_are_zero _ _ h1 h2⟩

/-- Two transcripts of party 1 for `n = 4`, `t = 1` that differ in the payload of slot 0: the
payloads of slot 0 differ, the digests sent to the parties 2 and 3 are the same, one zero each. -/
theorem sample_digests :
    (sampleCheckMsgs 1 [[1, 2, 3], [4, 5, 6], [7, 8, 9]]).mDigestsToSend = [[], [], [0], [0]] ∧
    (sampleCheckMsgs 1 [[2, 2, 3], [4, 5, 6], [7, 8, 9]]).mDigestsToSend = [[], [], [0], [0]] ∧
    (sampleManipulator 1).mTableRec.map (fun e => e.value_or_hash)
      = [RecType.HASH, RecType.VALUE, RecType.VALUE] ∧
    (sampleCheckMsgs 1 [[1, 2, 3], [4, 5, 6], [7, 8, 9]]).mCompressedCD.msgs.map
        (fun row => row.getD 0 0)
      ≠ (sampleCheckMsgs 1 [[2, 2, 3], [4, 5, 6], [7, 8, 9]]).mCompressedCD.msgs.map
        (fun row => row.getD 0 0) :=
  ⟨by decide!, by decide!, by decide!, by decide!⟩

/-- C25, where the claim fails as stated: party 1 of `n = 4`, `t = 1`, whose slot 0 has the flag
`HASH`, on two transcripts whose batched payloads of slot 0 differ.  `PrepareMsgs` returns on
both and appends the same element `0` for the receiver 2.  So whatever function `H` of the
payload tells the two payloads apart, the elements appended are not the digests `H(payload)`. -/
theorem C25_counterexample :
    (sampleManipulator 1).mTableRec.map (fun e => e.value_or_hash)
      = [RecType.HASH, RecType.VALUE, RecType.VALUE] ∧
    (match (sampleCheck 1 [[1, 2, 3], [4, 5, 6], [7, 8, 9]]).PrepareMsgs with
      | .ok _ => true
      | .error _ => false) = true ∧
    (match (sampleCheck 1 [[2, 2, 3], [4, 5, 6], [7, 8, 9]]).PrepareMsgs with
      | .ok _ => true
      | .error _ => false) = true ∧
    (sampleCheckMsgs 1 [[1, 2, 3], [4, 5, 6], [7, 8, 9]]).mCompressedCD.msgs.map
        (fun row => row.getD 0 0)
      = [54503355711825422, 218013422847301688, 381523489982777954] ∧
    (sampleCheckMsgs 1 [[2, 2, 3], [4, 5, 6], [7, 8, 9]]).mCompressedCD.msgs.map
        (fun row => row.getD 0 0)
      = [109006711423650844, 218013422847301688, 381523489982777954] ∧
    (sampleCheckMsgs 1 [[1, 2, 3], [4, 5, 6], [7, 8, 9]]).mDigestsToSend.getD 2 [] = [0] ∧
    (sampleCheckMsgs 1 [[2, 2, 3], [4, 5, 6], [7, 8, 9]]).mDigestsToSend.getD 2 [] = [0] ∧
    ∀ H : List Fp61 → Fp61,
      H [54503355711825422, 218013422847301688, 381523489982777954] ≠
        H [109006711423650844, 218013422847301688, 381523489982777954] →
      ¬ ((sampleCheckMsgs 1 [[1, 2, 3], [4, 5, 6], [7, 8, 9]]).mDigestsToSend.getD 2 [] =
            [H [54503355711825422, 218013422847301688, 381523489982777954]] ∧
          (sampleCheckMsgs 1 [[2, 2, 3], [4, 5, 6], [7, 8, 9]]).mDigestsToSend.getD 2 [] =
            [H [109006711423650844, 218013422847301688, 381523489982777954]]) := by
  have d1 : (sampleCheckMsgs 1 [[1, 2, 3], [4, 5, 6], [7, 8, 9]]).mDigestsToSend.getD 2 [] =
      [0] := by decide!
  have d2 : (sampleCheckMsgs 1 [[2, 2, 3], [4, 5, 6], [7, 8, 9]]).mDigestsToSend.getD 2 [] =
      [0] := by decide!
  refine ⟨by decide!, by decide!, by decide!, by decide!, by decide!, d1, d2, ?_⟩
  rintro H hne ⟨h1, h2⟩
  rw [d1] at h1
  rw [d2] at h2
  apply hne
  have e1 := List.head_eq_of_cons_eq h1
  have e2 := List.head_eq_of_cons_eq h2
  rw [← e1, ← e2]

/-- C23, an instance: party 1 of `n = 4`, `t = 1`. -/
theorem C23_witness :
    (1 ≤ 1 ∧ 2 * 1 < 4 ∧ 4 ≤ 30 ∧ 1 < 4) ∧
    ∃ (M : ShrManipulator) (S : Nat → List Nat), ShrManipulator.ctor 1 1 4 = .ok M ∧
      M.mTableRec.length = M.mDoubleReplicator.ShareSize ∧
      ∀ k, k < M.mDoubleReplicator.ShareSize →
        (∃ idx g, M.mDoubleReplicator.IndexSetFor 1 = .ok idx ∧ getE idx k = .ok g ∧
          M.mDoubleReplicator.Combination g = .ok (S k)) ∧
        (S k).length = 4 - 2 * 1 ∧
        ∃ e, getE M.mTableRec k = .ok e ∧
          e.party_set = (List.range (k + 1)).flatMap (fun j =>
            (List.range 4).filter (fun p => decide (p ∉ S j))) ∧
          e.party_set.length = 2 * 1 * (k + 1) ∧
          (e.value_or_hash = RecType.VALUE ↔ (1 ∈ S k ∧ ∀ x ∈ S k, 1 ≤ x)) :=
  ⟨by decide, C23_party_set_accumulates 4 1 1 (by decide) (by decide) (by decide) (by decide)⟩

/-- The table `mTableRec` of party 1 for `n = 4`, `t = 1`, whose double-degree slots are the
subsets `{0, 1}`, `{1, 2}` and `{1, 3}`: the second entry names the parties `2, 3, 0, 3` and
the third one the parties `2, 3, 0, 3, 0, 2`. -/
theorem sample_tableRec :
    (sampleManipulator 1).mTableRec =
      [{ value_or_hash := RecType.HASH, party_set := [2, 3] },
       { value_or_hash := RecType.VALUE, party_set := [2, 3, 0, 3] },
       { value_or_hash := RecType.VALUE, party_set := [2, 3, 0, 3, 0, 2] }] ∧
    (List.range 3).map (slotSet 4 1 1) = [[0, 1], [1, 2], [1, 3]] := by
  constructor
  · decide!
  · decide!

/-- The effect of `AddConstant` on the share of one party: the parties `0, ..., n - t - 1`,
which hold the slot 0, add the constant to their first element, the other parties return the
share as it is. -/
theorem AddConstant_changes {F : Type} [CommRing F] (M : ShrManipulator) (n t pid : Nat)
    (hM : M.WF pid t n) (ht : t < n) (a : List F)
    (ha : a.length = M.mReplicator.ShareSize) (c : F) (hc : c ≠ 0) :
    ∃ out, M.AddConstant a c = .ok out ∧ (out ≠ a ↔ pid < n - t) ∧
      out = if pid < n - t then a.set 0 (a.getD 0 0 + c) else a := by
  have hpos : 0 < a.length := by
    rw [ha]
    show 0 < M.mReplicator.mShareSize
    rw [hM.rep.share_choose]
    exact Nat.choose_pos (by omega)
  unfold ShrManipulator.AddConstant
  rw [hM.indexConst]
  by_cases h : pid < n - t
  · rw [if_pos h, if_neg (by decide), if_pos h]
    unfold updateAt
    rw [show (0 : Int).toNat = 0 from rfl, getE_ok_getD a 0 0 hpos]
    refine ⟨_, rfl, ?_, rfl⟩
    constructor
    · intro _
      exact h
    · intro _ heq
      have h0 := congrArg (fun l => l.getD 0 0) heq
      simp only at h0
      rw [getD_set_scalar a 0 0 _ hpos, if_pos rfl] at h0
      exact hc (by simpa using h0)
  · rw [if_neg h, if_pos rfl, if_neg h]
    exact ⟨a, rfl, by simp [h], rfl⟩

/-- The parties of `n = 3 t + 1` and the constant operation, for the thresholds whose binomial
coefficients fit 64 bits. -/
theorem AddConstant_family {F : Type} [CommRing F] (t : Nat) (ht : 1 ≤ t) (ht11 : t ≤ 11)
    (c : F) (hc : c ≠ 0) :
    ∃ R, Replicator.ctor (3 * t + 1) t = .ok R ∧
      (∀ i, i < 3 * t + 1 → ∃ M, ShrManipulator.ctor i t (3 * t + 1) = .ok M ∧
        ∀ a : List F, a.length = R.ShareSize →
          ∃ out, M.AddConstant a c = .ok out ∧ (out ≠ a ↔ i < 2 * t + 1) ∧
            out = if i < 2 * t + 1 then a.set 0 (a.getD 0 0 + c) else a) ∧
      ((List.range (3 * t + 1)).filter (fun i => decide (i < 2 * t + 1))).length = 2 * t + 1 := by
  have hex := BinomExact_family t ht11
  obtain ⟨R, hR, _⟩ := ctor_ok_exact (3 * t + 1) t ht (by omega) hex.1
  refine ⟨R, hR, ?_, ?_⟩
  · intro i hi
    obtain ⟨M, hM, hWF, hrep, _⟩ := ShrManipulator_ctor_ok_exact i t (3 * t + 1) ht (by omega)
      hex hi
    have hRM : M.mReplicator = R := by
      rw [hR] at hrep
      exact (Except.ok.inj hrep).symm
    refine ⟨M, hM, ?_⟩
    intro a ha
    obtain ⟨out, h1, h2, h3⟩ := AddConstant_changes M (3 * t + 1) t i hWF (by omega) a
      (by rw [hRM]; exact ha) c hc
    have e : 3 * t + 1 - t = 2 * t + 1 := by omega
    rw [e] at h2 h3
    exact ⟨out, h1, h2, h3⟩
  · have e : (List.range (3 * t + 1)).filter (fun i => decide (i < 2 * t + 1))
        = List.range (2 * t + 1) := by
      have h3 : 3 * t + 1 = (2 * t + 1) + t := by omega
      rw [h3, List.range_add, List.filter_append]
      have h1 : (List.range (2 * t + 1)).filter (fun i => decide (i < 2 * t + 1))
          = List.range (2 * t + 1) := by
        rw [List.filter_eq_self]
        intro x hx
        simpa using List.mem_range.mp hx
      have h2 : ((List.range t).map (fun x => 2 * t + 1 + x)).filter
          (fun i => decide (i < 2 * t + 1)) = [] := by
        rw [List.filter_eq_nil_iff]
        intro x hx
        obtain ⟨y, _, rfl⟩ := List.mem_map.mp hx
        simp
      rw [h1, h2, List.append_nil]
    rw [e, List.length_range]

/-- C26 (amended to `2 t + 1` parties and `t ≤ 11`): for `n = 3 t + 1` and a constant
`c ≠ 0`, the parties `0, ..., 2 t`, which all hold a copy of slot 0, return from
`AddConstant(a, c)` the share `a` with `c` added to its first element, a share different from
`a`; the parties `2 t + 1, ..., 3 t` return `a` unchanged.  So exactly `2 t + 1` of the `n`
parties return a share different from `a`. -/
theorem C26_AddConstant_parties {F : Type} [CommRing F] (t : Nat) (ht : 1 ≤ t) (ht11 : t ≤ 11)
    (c : F) (hc : c ≠ 0) :
    ∃ R, Replicator.ctor (3 * t + 1) t = .ok R ∧
      (∀ i, i < 3 * t + 1 → ∃ M, ShrManipulator.ctor i t (3 * t + 1) = .ok M ∧
        ∀ a : List F, a.length = R.ShareSize →
          ∃ out, M.AddConstant a c = .ok out ∧ (out ≠ a ↔ i < 2 * t + 1) ∧
            out = if i < 2 * t + 1 then a.set 0 (a.getD 0 0 + c) else a) ∧
      ((List.range (3 * t + 1)).filter (fun i => decide (i < 2 * t + 1))).length = 2 * t + 1 :=
  AddConstant_family t ht ht11 c hc

/-- C26, an instance: `n = 4`, `t = 1` and the constant `1`. -/
theorem C26_witness :
    (1 ≤ 1 ∧ 1 ≤ 11 ∧ (1 : Fp61) ≠ 0) ∧
    ∃ R, Replicator.ctor (3 * 1 + 1) 1 = .ok R ∧
      (∀ i, i < 3 * 1 + 1 → ∃ M, ShrManipulator.ctor i 1 (3 * 1 + 1) = .ok M ∧
        ∀ a : List Fp61, a.length = R.ShareSize →
          ∃ out, M.AddConstant a 1 = .ok out ∧ (out ≠ a ↔ i < 2 * 1 + 1) ∧
            out = if i < 2 * 1 + 1 then a.set 0 (a.getD 0 0 + 1) else a) ∧
      ((List.range (3 * 1 + 1)).filter (fun i => decide (i < 2 * 1 + 1))).length = 2 * 1 + 1 :=
  ⟨⟨by decide, by decide, by decide⟩,
    C26_AddConstant_parties 1 (by decide) (by decide) (1 : Fp61) (by decide)⟩

/-- C26 fails for `n = 4`, `t = 1`: the parties 0 and 1 both return a share different from the
share `a` they are given, so more than one party does.  And for `t = 12`, `n = 37` no party can
construct its manipulator, because the 64-bit evaluation of `Binom(37, 24)` wraps around. -/
theorem C26_counterexample :
    (∃ (R : Replicator) (M0 M1 : ShrManipulator) (a out0 out1 : List Fp61),
      Replicator.ctor 4 1 = .ok R ∧ a.length = R.ShareSize ∧
      ShrManipulator.ctor 0 1 4 = .ok M0 ∧ ShrManipulator.ctor 1 1 4 = .ok M1 ∧
      M0.AddConstant a 1 = .ok out0 ∧ M1.AddConstant a 1 = .ok out1 ∧
      out0 ≠ a ∧ out1 ≠ a) ∧
    (¬ ∃ M, ShrManipulator.ctor 0 12 37 = .ok M) := by
  constructor
  · obtain ⟨R, hR, hall, _⟩ := AddConstant_family 1 (by decide) (by decide) (1 : Fp61)
      (by decide)
    obtain ⟨M0, h0, g0⟩ := hall 0 (by decide)
    obtain ⟨M1, h1, g1⟩ := hall 1 (by decide)
    obtain ⟨o0, a0, b0, _⟩ := g0 (List.replicate R.ShareSize 0) (List.length_replicate _ _)
    obtain ⟨o1, a1, b1, _⟩ := g1 (List.replicate R.ShareSize 0) (List.length_replicate _ _)
    exact ⟨R, M0, M1, _, o0, o1, hR, List.length_replicate _ _, h0, h1, a0, a1,
      b0.mpr (by decide), b1.mpr (by decide)⟩
  · rintro ⟨M, hM⟩
    obtain ⟨e, he⟩ := ShrManipulator_ctor_error 0 12 37 ctor_37_24
    rw [he] at hM
    cases hM

/-- The inner loop of `ReconstructionStep` sums the column `mult_id` of the first `2 t + 1`
rows. -/
theorem value_sum {F : Type} [CommRing F] (rows : List (List F)) (t mult_id : Nat)
    (hlen : 2 * t + 1 ≤ rows.length)
    (hrows : ∀ i, i < 2 * t + 1 → mult_id < (rows.getD i []).length) :
    ReconstructionStep.value rows t mult_id
      = .ok (∑ i in Finset.range (2 * t + 1), (rows.getD i []).getD mult_id 0) := by
  obtain ⟨v, h1, h2⟩ := foldlM_range_inv (ReconstructionStep.add rows mult_id)
    (fun k v => v = ∑ i in Finset.range k, (rows.getD i []).getD mult_id 0) (2 * t + 1) 0
    (by simp)
    (fun k v hk hv => by
      refine ⟨v + (rows.getD k []).getD mult_id 0, ?_, ?_⟩
      · unfold ReconstructionStep.add
        rw [getE_ok_getD rows k [] (by omega)]
        simp only
        rw [getE_ok_getD _ mult_id 0 (hrows k hk)]
      · show v + _ = _
        rw [Finset.sum_range_succ, hv])
  unfold ReconstructionStep.value
  rw [h1, h2]

/-- C27: in `ReconstructionStep`, with the `mCount` shares of each of the parties
`0, ..., 2 t` in `mSharesRecvByP1`, the party computes for every multiplication `mu` the sum
`e_mu` of the shares received from the parties `0, ..., 2 t`, stores the vector
`(e_0, ..., e_{M-1})` in `mValuesSentFromP1` and appends this same vector once to its channel
to every party with id below `n - t`, itself included; the channels to the parties from
`n - t` on and the channels of the other senders stay as they were.  For party 0 the sender
is `mId = 0`. -/
theorem C27_ReconstructionStep {F : Type} [CommRing F] [DecidableEq F] [FieldBytes F]
    {G : Type} [PRG G] (m : Mult F G) (net : Net F) (_ht : m.mThreshold ≤ m.mSize)
    (hlen : 2 * m.mThreshold + 1 ≤ m.mSharesRecvByP1.length)
    (hrows : ∀ i, i < 2 * m.mThreshold + 1 → m.mCount ≤ (m.mSharesRecvByP1.getD i []).length) :
    ∃ (e : List F) (m' : Mult F G) (net' : Net F),
      m.ReconstructionStep net = .ok (m', net') ∧ e.length = m.mCount ∧
      (∀ mu, mu < m.mCount → e.getD mu 0 =
        ∑ i in Finset.range (2 * m.mThreshold + 1), (m.mSharesRecvByP1.getD i []).getD mu 0) ∧
      m'.mValuesSentFromP1 = e ∧
      (∀ r, r < m.mSize - m.mThreshold → net' m.mId r = net m.mId r ++ e) ∧
      (∀ r, m.mSize - m.mThreshold ≤ r → net' m.mId r = net m.mId r) ∧
      (∀ s r, s ≠ m.mId → net' s r = net s r) := by
  have hv : allOk ((List.range m.mCount).map
      (ReconstructionStep.value m.mSharesRecvByP1 m.mThreshold)) =
      .ok ((List.range m.mCount).map (fun mu =>
        ∑ i in Finset.range (2 * m.mThreshold + 1), (m.mSharesRecvByP1.getD i []).getD mu 0)) :=
    allOk_map _ _ _ (fun mu hmu => value_sum _ _ mu hlen
      (fun i hi => lt_of_lt_of_le (List.mem_range.mp hmu) (hrows i hi)))
  unfold Mult.ReconstructionStep
  rw [hv]
  refine ⟨_, _, _, rfl, by simp, ?_, rfl, ?_, ?_, ?_⟩
  · intro mu hmu
    rw [List.getD_eq_getElem _ _ (by simpa using hmu)]
    simp
  · intro r hr
    rw [foldl_Send, if_pos ⟨rfl, hr⟩]
  · intro r hr
    rw [foldl_Send, if_neg (by omega)]
  · intro s r hs
    rw [foldl_Send, if_neg (fun h => hs h.1)]

/-- C27, an instance: party 0 of `n = 4`, `t = 1` with two multiplications and the shares
`1, 2`, `3, 4` and `5, 6` received: it sends `9, 12` to the parties 0, 1 and 2. -/
theorem C27_witness :
    (sampleReceived.mThreshold ≤ sampleReceived.mSize ∧
      2 * sampleReceived.mThreshold + 1 ≤ sampleReceived.mSharesRecvByP1.length ∧
      ∀ i, i < 2 * sampleReceived.mThreshold + 1 →
        sampleReceived.mCount ≤ (sampleReceived.mSharesRecvByP1.getD i []).length) ∧
    ∃ (e : List Fp61) (m' : Mult Fp61 CounterPRG) (net' : Net Fp61),
      sampleReceived.ReconstructionStep Net.empty = .ok (m', net') ∧
      e.length = sampleReceived.mCount ∧
      (∀ mu, mu < sampleReceived.mCount → e.getD mu 0 =
        ∑ i in Finset.range (2 * sampleReceived.mThreshold + 1),
          (sampleReceived.mSharesRecvByP1.getD i []).getD mu 0) ∧
      m'.mValuesSentFromP1 = e ∧
      (∀ r, r < sampleReceived.mSize - sampleReceived.mThreshold →
        net' sampleReceived.mId r = Net.empty sampleReceived.mId r ++ e) ∧
      (∀ r, sampleReceived.mSize - sampleReceived.mThreshold ≤ r →
        net' sampleReceived.mId r = Net.empty sampleReceived.mId r) ∧
      (∀ s r, s ≠ sampleReceived.mId → net' s r = Net.empty s r) :=
  have h1 : sampleReceived.mThreshold ≤ sampleReceived.mSize := by decide!
  have h2 : 2 * sampleReceived.mThreshold + 1 ≤ sampleReceived.mSharesRecvByP1.length := by
    decide!
  have h3 : ∀ i, i < 2 * sampleReceived.mThreshold + 1 →
      sampleReceived.mCount ≤ (sampleReceived.mSharesRecvByP1.getD i []).length := by decide!
  ⟨⟨h1, h2, h3⟩, C27_ReconstructionStep sampleReceived Net.empty h1 h2 h3⟩

/-- The values that party 0 reconstructs in the sample: `1 + 3 + 5` and `2 + 4 + 6`, sent on
its channels to the parties 0, 1 and 2 and not on the channel to party 3. -/
theorem sample_reconstruction :
    (sampleReceived.ReconstructionStep Net.empty).toOption.map
        (fun r => (r.1.mValuesSentFromP1, r.2 0 0, r.2 0 1, r.2 0 2, r.2 0 3))
      = some ([9, 12], [9, 12], [9, 12], [9, 12], []) := by
  decide!

/-- The divisor of `Binom` after `e` turns of the loop is `e!` on 64 bits. -/
theorem Binom_loop_snd (m : Nat) : ∀ e, (Binom.loop m e).2 = e.factorial % SIZE := by
  intro e
  induction e with
  | zero => rfl
  | succ i ih =>
    show ((Binom.loop m i).2 * (i + 1)) % SIZE = _
    rw [ih, Nat.factorial_succ, Nat.mod_mul_mod, Nat.mul_comm]

theorem factorial_65 : Nat.factorial 65 % SIZE = 9223372036854775808 := by
  unfold SIZE
  decide

theorem factorial_66 : Nat.factorial 66 % SIZE = 0 := by
  unfold SIZE
  decide

theorem factorial_mod_ne_zero (e : Nat) (h : e ≤ 65) : e.factorial % SIZE ≠ 0 := by
  intro h0
  have h1 : SIZE ∣ e.factorial := Nat.dvd_of_mod_eq_zero h0
  have h2 : SIZE ∣ Nat.factorial 65 := dvd_trans h1 (Nat.factorial_dvd_factorial h)
  have h3 := Nat.mod_eq_zero_of_dvd h2
  rw [factorial_65] at h3
  cases h3

theorem factorial_mod_eq_zero (e : Nat) (h : 66 ≤ e) : e.factorial % SIZE = 0 :=
  Nat.mod_eq_zero_of_dvd
    (dvd_trans (Nat.dvd_of_mod_eq_zero factorial_66) (Nat.factorial_dvd_factorial h))

/-- For `k ≤ 65` the division that ends `Binom(m, k)` has a divisor other than zero. -/
theorem divisor_small (m k : Nat) (hk : k ≤ 65) : Binom.divisor m k ≠ 0 := by
  unfold Binom.divisor
  simp only
  rw [Binom_loop_snd]
  apply factorial_mod_ne_zero
  split <;> omega

/-- For `m < k`, `66 ≤ k < 2 ^ 63` the loop of `Binom(m, k)` runs `k` times and the division
that ends it divides by zero. -/
theorem divisor_large (m k : Nat) (hm : m < SIZE) (hmk : m < k ∨ m = SIZE - 1) (h66 : 66 ≤ k)
    (hk : k < 2 ^ 63) : Binom.divisor m k = 0 := by
  unfold Binom.divisor
  simp only
  rw [Binom_loop_snd]
  apply factorial_mod_eq_zero
  unfold SIZE at hm hmk ⊢
  split <;> omega

/-- The constructor with a threshold `t ≤ 65` that is zero or not below `n`. -/
theorem ctor_invalid (n t : Nat) (ht : t ≤ 65) (h : n ≤ t ∨ t = 0) :
    Replicator.ctor n t = .error Fault.invalid_argument := by
  rw [ctor_of_divisors n t (divisor_small _ t ht) (divisor_small n t ht)]
  by_cases h1 : n ≤ t
  · rw [if_pos h1]
  · rw [if_neg h1, if_pos (h.resolve_left h1)]

/-- The arguments that `CreateReplicator(n)` hands to the constructor. -/
theorem CreateReplicator_eq (n : Nat) (h : n < 2 ^ 31) :
    CreateReplicator n = Replicator.ctor n ((n - 1) / 3) := by
  unfold CreateReplicator
  rw [if_neg (by omega)]
  have e1 : ((n : Int) % 2 ^ 64).toNat = n := by omega
  have e2 : ((((n : Int) - 1).tdiv 3) % 2 ^ 64).toNat = (n - 1) / 3 := by
    cases n with
    | zero => rfl
    | succ k =>
      have : ((k + 1 : Nat) : Int) - 1 = (k : Int) := by omega
      rw [this, show (3 : Int) = ((3 : Nat) : Int) from rfl, ← Int.ofNat_tdiv]
      simp only [Nat.add_sub_cancel]
      omega
  rw [e1, e2]

/-- C29, the behaviour of the code: the member initialisers of `Replicator(n, t)` call
`Binom(n - 1, t)` before the body tests `t >= n`.  For `66 <= t < 2 ^ 63` and `t >= n` the
loop of `Binom` runs `t` times, its divisor `t!` is zero on 64 bits and the call divides by
zero, so no `std::invalid_argument` is thrown; `Replicator(10, 66)` is such a call.  For
`t <= 65` the constructor throws `std::invalid_argument` whenever `t >= n`, and
`CreateReplicator(n)` fails so for `0 <= n < 4` and succeeds with threshold `(n - 1) / 3` for
`4 <= n <= 16`. -/
theorem C29_ctor_divides_by_zero :
    Replicator.ctor 10 66 = .error Fault.division_by_zero ∧
    (∀ n t, n ≤ t → 66 ≤ t → t < 2 ^ 63 →
      Replicator.ctor n t = .error Fault.division_by_zero) ∧
    (∀ n t, n ≤ t → t ≤ 65 → Replicator.ctor n t = .error Fault.invalid_argument) ∧
    (∀ n : Nat, n < 4 → CreateReplicator n = .error Fault.invalid_argument) ∧
    (∀ n : Nat, 4 ≤ n → n ≤ 16 →
      ∃ R, CreateReplicator n = .ok R ∧ R.mSize = n ∧ R.mThreshold = (n - 1) / 3) := by
  have hlarge : ∀ n t, n ≤ t → 66 ≤ t → t < 2 ^ 63 →
      Replicator.ctor n t = .error Fault.division_by_zero := by
    intro n t hnt h66 ht
    apply ctor_of_zero_divisor
    left
    apply divisor_large _ t (Nat.mod_lt _ (by unfold SIZE; norm_num)) _ h66 ht
    unfold SIZE
    omega
  refine ⟨hlarge 10 66 (by decide) (by decide) (by decide), hlarge, ?_, ?_, ?_⟩
  · intro n t hnt ht
    exact ctor_invalid n t ht (Or.inl hnt)
  · intro n hn
    rw [CreateReplicator_eq n (by omega)]
    exact ctor_invalid n _ (by omega) (Or.inr (by omega))
  · intro n h4 h16
    rw [CreateReplicator_eq n (by omega)]
    obtain ⟨R, hR, hWF⟩ := ctor_ok n ((n - 1) / 3) (by omega) (by omega) (by omega)
    exact ⟨R, hR, hWF.size, hWF.threshold⟩

/-- C29, an instance: `Replicator(5, 7)` throws `std::invalid_argument` and `Replicator(5, 70)`
divides by zero. -/
theorem C29_witness :
    Replicator.ctor 5 7 = .error Fault.invalid_argument ∧
      Replicator.ctor 5 70 = .error Fault.division_by_zero :=
  ⟨C29_ctor_divides_by_zero.2.2.1 5 7 (by decide) (by decide),
    C29_ctor_divides_by_zero.2.1 5 70 (by decide) (by decide) (by decide)⟩

/-- The loop of `TCPConnector::Recv` when the peer disconnects after some calls of `read` that
delivered fewer bytes than asked for: the loop is left by `break`. -/
theorem Recv_loop_disconnect (c : TCPConnector) (size : Nat) (eof : ReadCall)
    (rest : List ReadCall) (heof : eof.n = 0) :
    ∀ (pre : List ReadCall) (buffer : List Nat) (rem offset : Nat),
    (∀ r ∈ pre, 0 < r.n ∧ r.data.length = r.n.toNat) →
    (pre.map (fun r => r.n.toNat)).sum < rem → rem < SIZE → offset + rem ≤ buffer.length →
    buffer.length < SIZE →
    ∃ buffer', buffer'.length = buffer.length ∧
      (TCPConnector.Recv.loop c size (pre ++ eof :: rest) buffer rem offset).connector = c ∧
      (TCPConnector.Recv.loop c size (pre ++ eof :: rest) buffer rem offset).reads = rest ∧
      (TCPConnector.Recv.loop c size (pre ++ eof :: rest) buffer rem offset).result
        = .ok (toS size, buffer') := by
  intro pre
  induction pre with
  | nil =>
    intro buffer rem offset _ hsum _ _ _
    simp only [List.map_nil, List.sum_nil] at hsum
    refine ⟨buffer, rfl, ?_⟩
    simp only [List.nil_append, TCPConnector.Recv.loop]
    rw [if_pos hsum, if_pos heof]
    exact ⟨rfl, rfl, rfl⟩
  | cons r pre ih =>
    intro buffer rem offset hpre hsum hrem hbuf hsize
    obtain ⟨hr1, hr2⟩ := hpre r (List.mem_cons_self r pre)
    simp only [List.map_cons, List.sum_cons] at hsum
    have hn : r.n.toNat ≤ rem := by omega
    have hw : writeAt buffer offset r.data
        = .ok (buffer.take offset ++ r.data ++ buffer.drop (offset + r.data.length)) := by
      unfold writeAt
      rw [if_pos (by omega)]
    have hrem' : (rem + SIZE - r.n.toNat % SIZE) % SIZE = rem - r.n.toNat := by
      unfold SIZE at hrem ⊢
      omega
    have hoff' : (offset + r.n.toNat) % SIZE = offset + r.n.toNat := by
      unfold SIZE at hrem hsize ⊢
      omega
    have hlen : (buffer.take offset ++ r.data ++ buffer.drop (offset + r.data.length)).length
        = buffer.length := by
      simp only [List.length_append, List.length_take, List.length_drop]
      omega
    obtain ⟨b', hb1, hb2, hb3, hb4⟩ := ih
      (buffer.take offset ++ r.data ++ buffer.drop (offset + r.data.length))
      (rem - r.n.toNat) (offset + r.n.toNat)
      (fun x hx => hpre x (List.mem_cons_of_mem r hx)) (by omega) (by omega)
      (by rw [hlen]; omega) (by rw [hlen]; exact hsize)
    refine ⟨b', hb1.trans hlen, ?_⟩
    simp only [List.cons_append, TCPConnector.Recv.loop]
    rw [if_pos (by omega), if_neg (by omega), if_neg (by omega), hw]
    simp only
    rw [hrem', hoff']
    exact ⟨hb2, hb3, hb4⟩

/-- C30, the behaviour of the code: when `read` returns 0 before `size` bytes have arrived,
after any number of calls that delivered fewer than `size` bytes in all, the loop of
`TCPConnector::Recv` is left by `break` and the call returns `size`: the state of the
connector is what it was, not `ERROR`, nothing is thrown, and `size` bytes are reported although
fewer were read. -/
theorem C30_Recv_disconnect (c : TCPConnector) (pre rest : List ReadCall) (eof : ReadCall)
    (buffer : List Nat) (size : Nat) (heof : eof.n = 0)
    (hpre : ∀ r ∈ pre, 0 < r.n ∧ r.data.length = r.n.toNat)
    (hsum : (pre.map (fun r => r.n.toNat)).sum < size) (hbuf : size ≤ buffer.length)
    (hsize : buffer.length < 2 ^ 63) :
    ∃ buffer', buffer'.length = buffer.length ∧
      (c.Recv (pre ++ eof :: rest) buffer size).connector = c ∧
      (c.Recv (pre ++ eof :: rest) buffer size).reads = rest ∧
      (c.Recv (pre ++ eof :: rest) buffer size).result = .ok ((size : Int), buffer') := by
  have hS : toS size = (size : Int) := by
    unfold toS S64
    rw [if_pos (by omega)]
  obtain ⟨b', h1, h2, h3, h4⟩ := Recv_loop_disconnect c size eof rest heof pre buffer size 0 hpre
    hsum (by unfold SIZE; omega) (by omega) (by unfold SIZE; omega)
  rw [hS] at h4
  exact ⟨b', h1, h2, h3, h4⟩

/-- C30, an instance: a call for 4 bytes on an active connector; `read` delivers the two bytes
`7, 8` and then returns 0.  The call returns 4 and the connector stays active. -/
theorem C30_witness :
    ((⟨0, []⟩ : ReadCall).n = 0 ∧
      (∀ r ∈ [(⟨2, [7, 8]⟩ : ReadCall)], 0 < r.n ∧ r.data.length = r.n.toNat) ∧
      ([(⟨2, [7, 8]⟩ : ReadCall)].map (fun r => r.n.toNat)).sum < 4 ∧
      4 ≤ [0, 0, 0, 0].length ∧ [0, 0, 0, 0].length < 2 ^ 63) ∧
    ∃ buffer', buffer'.length = [0, 0, 0, 0].length ∧
      ((⟨Connector.State.eActive, 3⟩ : TCPConnector).Recv
          ([⟨2, [7, 8]⟩] ++ ⟨0, []⟩ :: []) [0, 0, 0, 0] 4).connector
        = ⟨Connector.State.eActive, 3⟩ ∧
      ((⟨Connector.State.eActive, 3⟩ : TCPConnector).Recv
          ([⟨2, [7, 8]⟩] ++ ⟨0, []⟩ :: []) [0, 0, 0, 0] 4).reads = [] ∧
      ((⟨Connector.State.eActive, 3⟩ : TCPConnector).Recv
          ([⟨2, [7, 8]⟩] ++ ⟨0, []⟩ :: []) [0, 0, 0, 0] 4).result = .ok ((4 : Nat), buffer') :=
  have h1 : (⟨0, []⟩ : ReadCall).n = 0 := rfl
  have h2 : ∀ r ∈ [(⟨2, [7, 8]⟩ : ReadCall)], 0 < r.n ∧ r.data.length = r.n.toNat := by decide
  have h3 : ([(⟨2, [7, 8]⟩ : ReadCall)].map (fun r => r.n.toNat)).sum < 4 := by decide
  have h4 : 4 ≤ [0, 0, 0, 0].length := by decide
  have h5 : [0, 0, 0, 0].length < 2 ^ 63 := by decide
  ⟨⟨h1, h2, h3, h4, h5⟩,
    C30_Recv_disconnect ⟨Connector.State.eActive, 3⟩ [⟨2, [7, 8]⟩] [] ⟨0, []⟩ [0, 0, 0, 0] 4
      h1 h2 h3 h4 h5⟩

/-- The sample call evaluated: the buffer holds the two bytes read and two bytes that were
never received, and the call reports 4 bytes; when `read` fails the connector is put in the
`ERROR` state and the call throws. -/
theorem sample_Recv :
    (((⟨Connector.State.eActive, 3⟩ : TCPConnector).Recv [⟨2, [7, 8]⟩, ⟨0, []⟩] [0, 0, 0, 0]
        4).result.toOption = some (4, [7, 8, 0, 0])) ∧
    (((⟨Connector.State.eActive, 3⟩ : TCPConnector).Recv [⟨2, [7, 8]⟩, ⟨0, []⟩] [0, 0, 0, 0]
        4).connector.mState = Connector.State.eActive) ∧
    (((⟨Connector.State.eActive, 3⟩ : TCPConnector).Recv [⟨2, [7, 8]⟩, ⟨-1, []⟩] [0, 0, 0, 0]
        4).connector.mState = Connector.State.eError) ∧
    (((⟨Connector.State.eActive, 3⟩ : TCPConnector).Recv [⟨2, [7, 8]⟩, ⟨-1, []⟩] [0, 0, 0, 0]
        4).result.toOption = none) := by
  refine ⟨by decide, by decide, by decide, by decide⟩

/-- C32: `ValidateN` accepts every `n`.  The asserted condition is `n > 3 || n < 17`, which
holds for every number, so the assertion never fails: not for `n < 4` (`0` and `3` are
returned) and not for `n > 16` (`17` and `1000` are returned). -/
theorem C32_ValidateN_accepts_all :
    (∀ n, ValidateN n = .ok n) ∧
      ValidateN 0 = .ok 0 ∧ ValidateN 3 = .ok 3 ∧ ValidateN 17 = .ok 17 ∧
      ValidateN 1000 = .ok 1000 := by
  have h : ∀ n, ValidateN n = .ok n := by
    intro n
    unfold ValidateN
    rw [if_pos (by omega)]
  exact ⟨h, h 0, h 3, h 17, h 1000⟩

/-- The word built from a full block depends on the first two bytes of the block only. -/
theorem Hash_word_two_bytes (p q : List Nat) (h0 : p.getD 0 0 = q.getD 0 0)
    (h1 : p.getD 1 0 = q.getD 1 0) : Hash.word p = Hash.word q := by
  unfold Hash.word
  rw [h0, h1]

/-- A fresh hash object absorbs a block of eight bytes as the word of `Hash.word`. -/
theorem Update_block (b0 b1 b2 b3 b4 b5 b6 b7 : Nat) :
    Hash.ctor.Update [b0, b1, b2, b3, b4, b5, b6, b7] =
      Hash.ctor.absorb (Hash.word [b0, b1, b2, b3, b4, b5, b6, b7]) := by
  have e : (8 &&& 7 : Nat) = 0 := by decide
  simp [Hash.Update, Hash.ctor, Hash.words, Hash.save, e]

/-- Two blocks of eight bytes with the same first two bytes take a fresh hash object to the
same state. -/
theorem Update_block_two_bytes (b0 b1 b2 b3 b4 b5 b6 b7 c2 c3 c4 c5 c6 c7 : Nat) :
    Hash.ctor.Update [b0, b1, b2, b3, b4, b5, b6, b7] =
      Hash.ctor.Update [b0, b1, c2, c3, c4, c5, c6, c7] := by
  rw [Update_block b0 b1 b2 b3 b4 b5 b6 b7, Update_block b0 b1 c2 c3 c4 c5 c6 c7]
  exact congrArg Hash.ctor.absorb
    (Hash_word_two_bytes [b0, b1, b2, b3, b4, b5, b6, b7] [b0, b1, c2, c3, c4, c5, c6, c7]
      rfl rfl)

/-- The digest after the bytes `01 .. 08` were handed over in two calls: the SHA3-256 value of
these eight bytes. -/
theorem sample_digest_two_calls :
    ((Hash.ctor.Update [1, 2, 3]).Update [4, 5, 6, 7, 8]).Finalize.1 =
      [201, 255, 184, 249, 215, 235, 193, 173, 188, 188, 49, 108, 254, 224, 52, 203,
       161, 88, 183, 198, 201, 60, 52, 100, 42, 11, 132, 41, 102, 106, 61, 16] := by
  decide!

/-- The digest after the bytes `01 .. 08` were handed over in one call: the SHA3-256 value of
`01 02 02 02 02 02 02 02`. -/
theorem sample_digest_one_call :
    (Hash.ctor.Update ([1, 2, 3] ++ [4, 5, 6, 7, 8])).Finalize.1 =
      [249, 250, 106, 187, 125, 125, 29, 55, 97, 32, 181, 22, 217, 135, 97, 140,
       176, 146, 79, 224, 155, 158, 16, 214, 204, 198, 180, 23, 178, 156, 73, 212] := by
  decide!

/-- C39: `Update` depends on how the input is cut into calls.  The loop over full words
builds its word from `p[0]` and seven copies of `p[1]`, so a fresh object absorbs the block
`01 02 03 04 05 06 07 08` as the word `0x0202020202020201`, and any two blocks with the same
first two bytes leave the same state behind.  The same eight bytes handed over in two calls
(three bytes, then five) go through `mSaved` byte by byte and are absorbed as
`0x0807060504030201`.  The two states differ, and so do the two digests. -/
theorem C39_Update_depends_on_chunks :
    (Hash.ctor.Update ([1, 2, 3] ++ [4, 5, 6, 7, 8])).mState.getD 0 0 = 0x0202020202020201 ∧
    ((Hash.ctor.Update [1, 2, 3]).Update [4, 5, 6, 7, 8]).mState.getD 0 0 =
      0x0807060504030201 ∧
    (Hash.ctor.Update [1, 2, 3]).Update [4, 5, 6, 7, 8] ≠
      Hash.ctor.Update ([1, 2, 3] ++ [4, 5, 6, 7, 8]) ∧
    ((Hash.ctor.Update [1, 2, 3]).Update [4, 5, 6, 7, 8]).Finalize.1 ≠
      (Hash.ctor.Update ([1, 2, 3] ++ [4, 5, 6, 7, 8])).Finalize.1 ∧
    (∀ b0 b1 b2 b3 b4 b5 b6 b7 c2 c3 c4 c5 c6 c7 : Nat,
      Hash.ctor.Update [b0, b1, b2, b3, b4, b5, b6, b7] =
        Hash.ctor.Update [b0, b1, c2, c3, c4, c5, c6, c7]) := by
  have h1 : (Hash.ctor.Update ([1, 2, 3] ++ [4, 5, 6, 7, 8])).mState.getD 0 0 =
      0x0202020202020201 := by decide!
  have h2 : ((Hash.ctor.Update [1, 2, 3]).Update [4, 5, 6, 7, 8]).mState.getD 0 0 =
      0x0807060504030201 := by decide!
  have h3 : (Hash.ctor.Update [1, 2, 3]).Update [4, 5, 6, 7, 8] ≠
      Hash.ctor.Update ([1, 2, 3] ++ [4, 5, 6, 7, 8]) := by
    intro h
    rw [h, h1] at h2
    exact absurd h2 (by decide)
  have h4 : ((Hash.ctor.Update [1, 2, 3]).Update [4, 5, 6, 7, 8]).Finalize.1 ≠
      (Hash.ctor.Update ([1, 2, 3] ++ [4, 5, 6, 7, 8])).Finalize.1 := by
    rw [sample_digest_two_calls, sample_digest_one_call]
    decide
  exact ⟨h1, h2, h3, h4, Update_block_two_bytes⟩

/-- When a list of calls succeeds as a whole, every call of the list has succeeded and its
result stands at the same position. -/
theorem allOk_inv {α β : Type} (f : α → Except Fault β) :
    ∀ (l : List α) (r : List β), allOk (l.map f) = .ok r →
      r.length = l.length ∧ ∀ i x, l.get? i = some x → ∃ y, r.get? i = some y ∧ f x = .ok y := by
  intro l
  induction l with
  | nil =>
    intro r h
    simp only [List.map_nil, allOk, Except.ok.injEq] at h
    subst h
    exact ⟨rfl, fun i x hx => by simp at hx⟩
  | cons a l ih =>
    intro r h
    simp only [List.map_cons, allOk] at h
    cases ha : f a with
    | error e => rw [ha] at h; simp at h
    | ok y0 =>
      rw [ha] at h
      simp only at h
      cases hl : allOk (l.map f) with
      | error e => rw [hl] at h; simp at h
      | ok r0 =>
        rw [hl] at h
        simp only [Except.ok.injEq] at h
        subst h
        obtain ⟨h1, h2⟩ := ih r0 hl
        refine ⟨by simp [h1], ?_⟩
        intro i x hx
        cases i with
        | zero =>
          simp only [List.get?_cons_zero, Option.some.injEq] at hx
          subst hx
          exact ⟨y0, rfl, ha⟩
        | succ i =>
          simp only [List.get?_cons_succ] at hx
          obtain ⟨y, hy1, hy2⟩ := h2 i x hx
          exact ⟨y, by simpa using hy1, hy2⟩

theorem toU_natCast (k : Nat) (hk : k < U64) : toU (k : Int) = k := by
  unfold toU
  unfold U64 at hk
  omega

theorem toInt32_small (x : Nat) (hx : x < 2 ^ 31) : toInt32 x = x := by
  unfold toInt32
  have : x % 2 ^ 32 = x := Nat.mod_eq_of_lt (by omega)
  rw [this, if_pos hx]

/-- A port that went through the conversion to `int` and is accepted by `invalid_port` was
not changed by the conversion, when the sum stayed below `2 ^ 32`. -/
theorem toInt32_valid (x : Nat) (hx : x < 2 ^ 32) (h : invalid_port (toInt32 x) = false) :
    toInt32 x = x ∧ 1025 ≤ x ∧ x ≤ 65536 := by
  unfold invalid_port toInt32 at h
  have e : x % 2 ^ 32 = x := Nat.mod_eq_of_lt hx
  rw [e] at h
  unfold toInt32
  rw [e]
  simp only [Bool.or_eq_false_iff, decide_eq_false_iff_not, not_lt] at h
  split_ifs at h ⊢ with hlt
  · omega
  · omega

/-- The port that `port_picker` computes for the pair of a server `s` and a client `c`. -/
theorem port_picker_eq (b : Int) (hb : invalid_port b = false) (n s c : Nat) (hn : n ≤ 2 ^ 31)
    (hs : s < 2 ^ 31) (hc : c < 2 ^ 31) :
    port_picker b s n true c = toInt32 (b.toNat + (s * n + c)) ∧
      port_picker b c n false s = toInt32 (b.toNat + (s * n + c)) := by
  unfold invalid_port at hb
  simp only [Bool.or_eq_false_iff, decide_eq_false_iff_not, not_lt] at hb
  have hbU : toU b = b.toNat := by
    unfold toU
    omega
  have hsn : s * n ≤ 2 ^ 31 * 2 ^ 31 := Nat.mul_le_mul (le_of_lt hs) hn
  have h1 : (s * n + c) % U64 = s * n + c := Nat.mod_eq_of_lt (by unfold U64; omega)
  have h2 : (b.toNat + (s * n + c)) % U64 = b.toNat + (s * n + c) :=
    Nat.mod_eq_of_lt (by unfold U64; omega)
  unfold port_picker
  simp only [if_true, Bool.false_eq_true, if_false]
  rw [hbU, toU_natCast s (by unfold U64; omega), toU_natCast c (by unfold U64; omega), h1, h2]
  exact ⟨rfl, rfl⟩

/-- The connector that party `id` makes for a peer with a smaller identifier. -/
theorem connector_client (system : String → Int) (id i : Nat) (gp : Bool → Int → Int)
    (ips : List String) (hid : id < 2 ^ 31) (hi : i < id) (y : Connector)
    (h : create_tcp_channels.connector system (id : Int) gp ips i = .ok y) :
    invalid_port (gp false (i : Int)) = false ∧
      ∃ ip, y = Connector.TCPClientConnector (gp false (i : Int)) ip := by
  unfold create_tcp_channels.connector at h
  rw [toInt32_small i (by omega)] at h
  rw [if_neg (by omega), if_pos (by omega)] at h
  simp only at h
  cases hip : getE ips i with
  | error e => rw [hip] at h; simp at h
  | ok ip =>
    rw [hip] at h
    simp only at h
    unfold TCPClientConnector.ctor at h
    cases hv : invalid_port (gp false (i : Int)) with
    | true => rw [hv] at h; simp at h
    | false =>
      rw [hv] at h
      simp only [Bool.false_eq_true, if_false] at h
      refine ⟨rfl, ip, ?_⟩
      cases hr : read_hostname system ip with
      | error e => rw [hr] at h; simp at h
      | ok r =>
        rw [hr] at h
        simp only at h
        split_ifs at h
        simp only [Except.ok.injEq] at h
        exact h.symm

/-- The connector that party `id` makes for a peer with a larger identifier. -/
theorem connector_server (system : String → Int) (id i : Nat) (gp : Bool → Int → Int)
    (ips : List String) (hi31 : i < 2 ^ 31) (hi : id < i) (y : Connector)
    (h : create_tcp_channels.connector system (id : Int) gp ips i = .ok y) :
    invalid_port (gp true (i : Int)) = false ∧
      y = Connector.TCPServerConnector (gp true (i : Int)) := by
  unfold create_tcp_channels.connector at h
  rw [toInt32_small i hi31] at h
  rw [if_neg (by omega), if_neg (by omega)] at h
  simp only at h
  unfold TCPServerConnector.ctor at h
  cases hv : invalid_port (gp true (i : Int)) with
  | true => rw [hv] at h; simp at h
  | false =>
    rw [hv] at h
    simp only [Bool.false_eq_true, if_false, Except.ok.injEq] at h
    exact ⟨rfl, h.symm⟩

/-- The connector that party `id` makes for itself. -/
theorem connector_local (system : String → Int) (id : Nat) (gp : Bool → Int → Int)
    (ips : List String) (hid : id < 2 ^ 31) :
    create_tcp_channels.connector system (id : Int) gp ips id = .ok Connector.LocalConnector := by
  unfold create_tcp_channels.connector
  rw [toInt32_small id hid, if_pos rfl]

/-- What a successful `Build` of a TCP network returns: the channels that
`create_tcp_channels` made with the port picker of the builder. -/
theorem Build_channels (system : String → Int) (bld : Network.Builder) (net : Network)
    (id : Int) (n : Nat) (hid : bld.mLocalPeerId = some id) (hn : bld.mSize = some n)
    (h : bld.Build system = .ok net) :
    ∃ ips, create_tcp_channels system id n
      (port_picker (bld.mBasePort.getD Network.kBasePort) id n) ips = .ok net.mChannels := by
  unfold Network.Builder.Build at h
  rw [hid, hn] at h
  simp only at h
  cases ht : bld.mTransportType with
  | none => rw [ht] at h; simp at h
  | some ttype =>
    rw [ht] at h
    simp only at h
    split_ifs at h with h1 h2
    · simp only at h
      refine ⟨List.replicate n "0.0.0.0", ?_⟩
      cases hc : create_tcp_channels system id n
          (port_picker (bld.mBasePort.getD Network.kBasePort) id n)
          (List.replicate n "0.0.0.0") with
      | error e => rw [hc] at h; simp at h
      | ok ch =>
        rw [hc] at h
        simp only [Except.ok.injEq] at h
        rw [← h]
    · cases hips : bld.mIps with
      | none => rw [hips] at h; simp at h
      | some ips =>
        rw [hips] at h
        simp only at h
        refine ⟨ips, ?_⟩
        cases hc : create_tcp_channels system id n
            (port_picker (bld.mBasePort.getD Network.kBasePort) id n) ips with
        | error e => rw [hc] at h; simp at h
        | ok ch =>
          rw [hc] at h
          simp only [Except.ok.injEq] at h
          rw [← h]

theorem range_get? (n i : Nat) (h : i < n) : (List.range n).get? i = some i := by
  simp [List.get?_eq_getElem?, List.getElem?_range h]

/-- Distinct pairs `i < j < n` get distinct offsets `i * n + j`. -/
theorem pair_offset_inj (n i j i' j' : Nat) (hj : j < n) (hj' : j' < n)
    (h : i' * n + j' = i * n + j) : i' = i ∧ j' = j := by
  have hn : 0 < n := by omega
  have h1 : (i' * n + j') / n = i' := by
    rw [Nat.add_comm, Nat.add_mul_div_right _ _ hn, Nat.div_eq_of_lt hj', Nat.zero_add]
  have h2 : (i * n + j) / n = i := by
    rw [Nat.add_comm, Nat.add_mul_div_right _ _ hn, Nat.div_eq_of_lt hj, Nat.zero_add]
  have e : i' = i := by rw [← h1, ← h2, h]
  subst e
  exact ⟨rfl, by omega⟩

/-- C40: let two parties `i < j < n` build their TCP networks of `n` parties with the same
base port `b` (a port that `BasePort` accepts, or the default), and let both calls of `Build`
succeed; `n` is at most `2 ^ 31`, so that every identifier is an `int`.  Then party `i` holds
a server connector for `j` and party `j` a client connector for `i`, both with the port
`b + i * n + j`, which lies in the range of `invalid_port`; each party's connector to itself
is a local connector; each party has `n` channels; and no other pair `i' < j' < n` is given
this port. -/
theorem C40_tcp_ports (system : String → Int) (n i j : Nat) (b : Int)
    (bi bj : Network.Builder) (neti netj : Network)
    (hn : n ≤ 2 ^ 31) (hij : i < j) (hjn : j < n) (hb : invalid_port b = false)
    (hi1 : bi.mLocalPeerId = some (i : Int)) (hi2 : bi.mSize = some n)
    (hi3 : bi.mBasePort.getD Network.kBasePort = b)
    (hj1 : bj.mLocalPeerId = some (j : Int)) (hj2 : bj.mSize = some n)
    (hj3 : bj.mBasePort.getD Network.kBasePort = b)
    (hbi : bi.Build system = .ok neti) (hbj : bj.Build system = .ok netj) :
    neti.mChannels.get? j = some (Connector.TCPServerConnector (b + i * n + j)) ∧
    (∃ ip, netj.mChannels.get? i = some (Connector.TCPClientConnector (b + i * n + j) ip)) ∧
    neti.mChannels.get? i = some Connector.LocalConnector ∧
    netj.mChannels.get? j = some Connector.LocalConnector ∧
    neti.mChannels.length = n ∧ netj.mChannels.length = n ∧
    1025 ≤ b + i * n + j ∧ b + i * n + j ≤ 65536 ∧
    ∀ i' j' : Nat, i' < j' → j' < n → (b + i' * n + j' : Int) = b + i * n + j →
      i' = i ∧ j' = j := by
  obtain ⟨ipsi, hci⟩ := Build_channels system bi neti i n hi1 hi2 hbi
  obtain ⟨ipsj, hcj⟩ := Build_channels system bj netj j n hj1 hj2 hbj
  rw [hi3] at hci
  rw [hj3] at hcj
  unfold create_tcp_channels at hci hcj
  obtain ⟨leni, geti⟩ := allOk_inv _ _ _ hci
  obtain ⟨lenj, getj⟩ := allOk_inv _ _ _ hcj
  rw [List.length_range] at leni lenj
  have hb' := hb
  unfold invalid_port at hb'
  simp only [Bool.or_eq_false_iff, decide_eq_false_iff_not, not_lt] at hb'
  -- party `j` and peer `0`
  obtain ⟨y0, _, hy0⟩ := getj 0 0 (range_get? n 0 (by omega))
  obtain ⟨v0, _⟩ := connector_client system j 0 _ ipsj (by omega) (by omega) y0 hy0
  rw [(port_picker_eq b hb n 0 j hn (by omega) (by omega)).2] at v0
  obtain ⟨_, _, w0⟩ := toInt32_valid _ (by omega) v0
  -- the sum for the pair stays below `2 ^ 32`
  have hS : b.toNat + (i * n + j) < 2 ^ 32 := by
    rcases Nat.eq_zero_or_pos i with hz | hpos
    · subst hz; omega
    · obtain ⟨y1, _, hy1⟩ := getj 1 1 (range_get? n 1 (by omega))
      obtain ⟨v1, _⟩ := connector_client system j 1 _ ipsj (by omega) (by omega) y1 hy1
      rw [(port_picker_eq b hb n 1 j hn (by omega) (by omega)).2] at v1
      obtain ⟨_, _, w1⟩ := toInt32_valid _ (by omega) v1
      have hin : i * n ≤ 64511 * 64511 := Nat.mul_le_mul (by omega) (by omega)
      omega
  -- party `j` and peer `i`
  obtain ⟨yc, gc, hyc⟩ := getj i i (range_get? n i (by omega))
  obtain ⟨vc, ip, ec⟩ := connector_client system j i _ ipsj (by omega) hij yc hyc
  rw [(port_picker_eq b hb n i j hn (by omega) (by omega)).2] at vc ec
  obtain ⟨t1, t2, t3⟩ := toInt32_valid _ hS vc
  have eS : ((b.toNat + (i * n + j) : Nat) : Int) = b + i * n + j := by
    push_cast
    rw [Int.toNat_of_nonneg (by omega)]
    ring
  rw [t1, eS] at ec
  -- party `i` and peer `j`
  obtain ⟨ys, gs, hys⟩ := geti j j (range_get? n j hjn)
  obtain ⟨_, es⟩ := connector_server system i j _ ipsi (by omega) hij ys hys
  rw [(port_picker_eq b hb n i j hn (by omega) (by omega)).1, t1, eS] at es
  -- the two local connectors
  obtain ⟨yi, gi, hyi⟩ := geti i i (range_get? n i (by omega))
  rw [connector_local system i _ ipsi (by omega)] at hyi
  obtain ⟨yj, gj, hyj⟩ := getj j j (range_get? n j hjn)
  rw [connector_local system j _ ipsj (by omega)] at hyj
  simp only [Except.ok.injEq] at hyi hyj
  refine ⟨by rw [gs, es], ⟨ip, by rw [gc, ec]⟩, by rw [gi, hyi], by rw [gj, hyj], leni, lenj,
    by omega, by omega, ?_⟩
  intro i' j' _ hj' h
  apply pair_offset_inj n i j i' j' hjn hj'
  have : ((i' * n + j' : Nat) : Int) = ((i * n + j : Nat) : Int) := by
    push_cast
    omega
  exact_mod_cast this

/-- The sample builders are those of `CreateWithLocalParties`, and their networks are the
sample networks. -/
theorem sample_networks :
    CreateWithLocalParties (fun _ => 1) 1 4 6677 = (sampleBuilder 1).Build (fun _ => 1) ∧
    CreateWithLocalParties (fun _ => 1) 2 4 6677 = (sampleBuilder 2).Build (fun _ => 1) ∧
    (sampleBuilder 1).Build (fun _ => 1) = .ok sampleNetwork1 ∧
    (sampleBuilder 2).Build (fun _ => 1) = .ok sampleNetwork2 :=
  ⟨rfl, rfl, rfl, rfl⟩

/-- C40, an instance: the parties 1 and 2 of four, built as `CreateWithLocalParties` does
with the base port 6677 of the front ends; the port of the pair is `6677 + 1 * 4 + 2`. -/
theorem C40_witness :
    sampleNetwork1.mChannels.get? 2 =
        some (Connector.TCPServerConnector (6677 + ((1 : Nat) : Int) * ((4 : Nat) : Int) +
          ((2 : Nat) : Int))) ∧
    (∃ ip, sampleNetwork2.mChannels.get? 1 =
        some (Connector.TCPClientConnector (6677 + ((1 : Nat) : Int) * ((4 : Nat) : Int) +
          ((2 : Nat) : Int)) ip)) ∧
    sampleNetwork1.mChannels.get? 1 = some Connector.LocalConnector ∧
    sampleNetwork2.mChannels.get? 2 = some Connector.LocalConnector ∧
    sampleNetwork1.mChannels.length = 4 ∧ sampleNetwork2.mChannels.length = 4 ∧
    1025 ≤ (6677 : Int) + ((1 : Nat) : Int) * ((4 : Nat) : Int) + ((2 : Nat) : Int) ∧
    (6677 : Int) + ((1 : Nat) : Int) * ((4 : Nat) : Int) + ((2 : Nat) : Int) ≤ 65536 ∧
    ∀ i' j' : Nat, i' < j' → j' < 4 →
      ((6677 : Int) + (i' : Int) * ((4 : Nat) : Int) + (j' : Int) : Int) =
        6677 + ((1 : Nat) : Int) * ((4 : Nat) : Int) + ((2 : Nat) : Int) → i' = 1 ∧ j' = 2 :=
  C40_tcp_ports (fun _ => 1) 4 1 2 6677 (sampleBuilder 1) (sampleBuilder 2)
    sampleNetwork1 sampleNetwork2 (by decide) (by decide) (by decide) (by decide)
    rfl rfl rfl rfl rfl rfl rfl rfl

/-- For reduced factors `Mp61::Multiply` returns the product modulo `p`. -/
theorem Mp61_Multiply_eq (x y : Nat) (hx : x < Mp61.kPrime) (hy : y < Mp61.kPrime) :
    Mp61.Multiply x y = (x * y) % Mp61.kPrime := by
  have hf := fold61_eq x y hx hy
  have hb := fold_bound 61 x y (by norm_num) (kPrime61_eq ▸ hx) (kPrime61_eq ▸ hy)
  unfold Mp61.Multiply mulm_u64 mod_mul_mersenne61 addm
  rw [hf]
  simp only [U64, kPrime61_eq]
  rw [Nat.mod_eq_of_lt (lt_trans (lt_of_le_of_lt (Nat.le_add_right _ 2) hb) (by norm_num))]
  exact mersenne_fold 61 (x * y) (by norm_num) (by omega)

/-- For a reduced operand other than zero `Mp61::Invert` returns the inverse modulo `p`. -/
theorem Mp61_Invert_ok (v : Nat) (hv : 0 < v) (hvp : v < Mp61.kPrime) :
    ∃ t, Mp61.Invert v = .ok t ∧ t < Mp61.kPrime ∧ (v * t) % Mp61.kPrime = 1 := by
  have hg : Nat.gcd Mp61.kPrime v = 1 :=
    (Nat.Prime.coprime_iff_not_dvd prime_kPrime61).2
      (fun hd => absurd (Nat.le_of_dvd hv hd) (by omega))
  obtain ⟨t, h1, _, h3, h4, _⟩ := invp_ok Mp61.kPrime v (by decide) hv hvp hg
  exact ⟨t, h1, h3, h4⟩

theorem Mp61_Add_eq (x y : Nat) (hx : x < Mp61.kPrime) (hy : y < Mp61.kPrime) :
    Mp61.Add x y < Mp61.kPrime ∧ Mp61.Add x y = (x + y) % Mp61.kPrime := by
  rw [kPrime61_eq] at hx hy
  unfold Mp61.Add addm
  simp only [U64, kPrime61_eq]
  rw [Nat.mod_eq_of_lt (by omega : x + y < 2 ^ 64)]
  split_ifs with h
  · refine ⟨by omega, ?_⟩
    have : x + y = (x + y - (2 ^ 61 - 1)) + (2 ^ 61 - 1) := by omega
    rw [this, Nat.add_mod_right, Nat.mod_eq_of_lt (by omega)]
    omega
  · exact ⟨by omega, (Nat.mod_eq_of_lt (by omega)).symm⟩

theorem Mp61_Subtract_eq (x y : Nat) (hx : x < Mp61.kPrime) (hy : y < Mp61.kPrime) :
    Mp61.Subtract x y < Mp61.kPrime ∧
      Mp61.Subtract x y = (x + Mp61.kPrime - y) % Mp61.kPrime := by
  rw [kPrime61_eq] at hx hy
  unfold Mp61.Subtract subm
  simp only [U64, kPrime61_eq]
  split_ifs with h
  · rw [Nat.mod_eq_of_lt (by omega : x + (2 ^ 61 - 1) < 2 ^ 64)]
    have e : x + (2 ^ 61 - 1) + 2 ^ 64 - y = (x + (2 ^ 61 - 1) - y) + 2 ^ 64 := by omega
    rw [e, Nat.add_mod_right, Nat.mod_eq_of_lt (by omega : x + (2 ^ 61 - 1) - y < 2 ^ 64)]
    exact ⟨by omega, (Nat.mod_eq_of_lt (by omega)).symm⟩
  · have e : x + 2 ^ 64 - y = (x - y) + 2 ^ 64 := by omega
    rw [e, Nat.add_mod_right, Nat.mod_eq_of_lt (by omega : x - y < 2 ^ 64)]
    refine ⟨by omega, ?_⟩
    have e2 : x + (2 ^ 61 - 1) - y = (x - y) + (2 ^ 61 - 1) := by omega
    rw [e2, Nat.add_mod_right, Nat.mod_eq_of_lt (by omega)]

theorem Mp61_Negate_eq (x : Nat) (hx : x < Mp61.kPrime) :
    Mp61.Negate x < Mp61.kPrime ∧ Mp61.Negate x = (Mp61.kPrime - x) % Mp61.kPrime := by
  rw [kPrime61_eq] at hx
  unfold Mp61.Negate neg
  simp only [U64, kPrime61_eq]
  split_ifs with h
  · have e : 2 ^ 61 - 1 + 2 ^ 64 - x = (2 ^ 61 - 1 - x) + 2 ^ 64 := by omega
    rw [e, Nat.add_mod_right, Nat.mod_eq_of_lt (by omega : 2 ^ 61 - 1 - x < 2 ^ 64)]
    exact ⟨by omega, (Nat.mod_eq_of_lt (by omega)).symm⟩
  · have hx0 : x = 0 := by omega
    subst hx0
    exact ⟨by norm_num, by norm_num⟩

/-- C38 (amended: `Invert` for operands other than zero): an element of `FpElement<Mp61>`,
given by its member `mValue`, is below `p` after construction from a 64-bit value, from a
string and by `FromBytes`; for operands `x, y` below `p` the results of `+=`, `-=`, `*=` and
`Negate` are below `p` and are the sum, the difference, the product and the negative in the
integers modulo `p`; for `x` other than zero `Invert` returns a value below `p` whose product
with `x` is one modulo `p`; and `Equal`, which compares the two members, holds exactly when
the operands are the same residue. -/
theorem C38_reduced_representative (x y value : Nat) (value_string : List Int)
    (buffer : List Nat) (hx : x < Mp61.kPrime) (hy : y < Mp61.kPrime) :
    (FpElement.ctor value < Mp61.kPrime ∧ ((FpElement.ctor value : Nat) : Fp61) = value) ∧
    FpElement.ctor_string value_string < Mp61.kPrime ∧
    FpElement.FromBytes buffer < Mp61.kPrime ∧
    (FpElement.add_assign x y < Mp61.kPrime ∧
      ((FpElement.add_assign x y : Nat) : Fp61) = (x : Fp61) + (y : Fp61)) ∧
    (FpElement.sub_assign x y < Mp61.kPrime ∧
      ((FpElement.sub_assign x y : Nat) : Fp61) = (x : Fp61) - (y : Fp61)) ∧
    (FpElement.mul_assign x y < Mp61.kPrime ∧
      ((FpElement.mul_assign x y : Nat) : Fp61) = (x : Fp61) * (y : Fp61)) ∧
    (FpElement.Negate x < Mp61.kPrime ∧ ((FpElement.Negate x : Nat) : Fp61) = -(x : Fp61)) ∧
    (x ≠ 0 → ∃ t, FpElement.Invert x = .ok t ∧ t < Mp61.kPrime ∧
      (x : Fp61) * (t : Fp61) = 1) ∧
    (FpElement.Equal x y = true ↔ (x : Fp61) = (y : Fp61)) := by
  have hp : Mp61.kPrime = p61 := kPrime61_eq
  have hpos : 0 < Mp61.kPrime := by decide
  have hzero : ((Mp61.kPrime : Nat) : Fp61) = 0 := by
    rw [hp]; exact ZMod.natCast_self p61
  refine ⟨⟨Nat.mod_lt _ hpos, ?_⟩, Nat.mod_lt _ hpos, Nat.mod_lt _ hpos, ?_, ?_, ?_, ?_, ?_, ?_⟩
  · unfold FpElement.ctor Mp61.Reduce
    rw [hp]
    exact ZMod.natCast_mod value p61
  · obtain ⟨h1, h2⟩ := Mp61_Add_eq x y hx hy
    refine ⟨h1, ?_⟩
    unfold FpElement.add_assign
    rw [h2, hp, ZMod.natCast_mod, Nat.cast_add]
  · obtain ⟨h1, h2⟩ := Mp61_Subtract_eq x y hx hy
    refine ⟨h1, ?_⟩
    unfold FpElement.sub_assign
    rw [h2]
    have e : ((((x + Mp61.kPrime - y) % Mp61.kPrime : Nat)) : Fp61) =
        ((x + Mp61.kPrime - y : Nat) : Fp61) := by
      rw [hp]; exact ZMod.natCast_mod _ p61
    rw [e, Nat.cast_sub (by omega), Nat.cast_add, hzero, add_zero]
  · refine ⟨?_, ?_⟩
    · unfold FpElement.mul_assign
      rw [Mp61_Multiply_eq x y hx hy]
      exact Nat.mod_lt _ hpos
    · unfold FpElement.mul_assign
      rw [Mp61_Multiply_eq x y hx hy, hp, ZMod.natCast_mod, Nat.cast_mul]
  · obtain ⟨h1, h2⟩ := Mp61_Negate_eq x hx
    refine ⟨h1, ?_⟩
    unfold FpElement.Negate
    rw [h2]
    have e : ((((Mp61.kPrime - x) % Mp61.kPrime : Nat)) : Fp61) =
        ((Mp61.kPrime - x : Nat) : Fp61) := by
      rw [hp]; exact ZMod.natCast_mod _ p61
    rw [e, Nat.cast_sub (by omega), hzero, zero_sub]
  · intro hx0
    obtain ⟨t, h1, h2, h3⟩ := Mp61_Invert_ok x (by omega) hx
    refine ⟨t, h1, h2, ?_⟩
    have : (((x * t) % Mp61.kPrime : Nat) : Fp61) = ((1 : Nat) : Fp61) := by rw [h3]
    rw [hp, ZMod.natCast_mod, Nat.cast_mul, Nat.cast_one] at this
    exact this
  · unfold FpElement.Equal Mp61.Equal
    rw [decide_eq_true_iff, ZMod.natCast_eq_natCast_iff']
    rw [← hp, Nat.mod_eq_of_lt hx, Nat.mod_eq_of_lt hy]

/-- C38, an instance: the operands `p - 1` and `5`, the 64-bit value `2 ^ 64 - 1`, the string
"123" and a buffer of eight bytes `0xFF`. -/
theorem C38_witness :
    (FpElement.ctor (2 ^ 64 - 1) < Mp61.kPrime ∧
      ((FpElement.ctor (2 ^ 64 - 1) : Nat) : Fp61) = ((2 ^ 64 - 1 : Nat) : Fp61)) ∧
    FpElement.ctor_string [49, 50, 51] < Mp61.kPrime ∧
    FpElement.FromBytes (List.replicate 8 255) < Mp61.kPrime ∧
    (FpElement.add_assign 2305843009213693950 5 < Mp61.kPrime ∧
      ((FpElement.add_assign 2305843009213693950 5 : Nat) : Fp61) =
        ((2305843009213693950 : Nat) : Fp61) + ((5 : Nat) : Fp61)) ∧
    (FpElement.sub_assign 2305843009213693950 5 < Mp61.kPrime ∧
      ((FpElement.sub_assign 2305843009213693950 5 : Nat) : Fp61) =
        ((2305843009213693950 : Nat) : Fp61) - ((5 : Nat) : Fp61)) ∧
    (FpElement.mul_assign 2305843009213693950 5 < Mp61.kPrime ∧
      ((FpElement.mul_assign 2305843009213693950 5 : Nat) : Fp61) =
        ((2305843009213693950 : Nat) : Fp61) * ((5 : Nat) : Fp61)) ∧
    (FpElement.Negate 2305843009213693950 < Mp61.kPrime ∧
      ((FpElement.Negate 2305843009213693950 : Nat) : Fp61) =
        -((2305843009213693950 : Nat) : Fp61)) ∧
    (2305843009213693950 ≠ 0 → ∃ t, FpElement.Invert 2305843009213693950 = .ok t ∧
      t < Mp61.kPrime ∧ ((2305843009213693950 : Nat) : Fp61) * (t : Fp61) = 1) ∧
    (FpElement.Equal 2305843009213693950 5 = true ↔
      ((2305843009213693950 : Nat) : Fp61) = ((5 : Nat) : Fp61)) :=
  C38_reduced_representative 2305843009213693950 5 (2 ^ 64 - 1) [49, 50, 51]
    (List.replicate 8 255) (by decide) (by decide)

/-- C38, where the claim fails: zero is a reduced operand, and `Invert` throws
`std::logic_error` for it instead of returning a value. -/
theorem C38_counterexample :
    0 < Mp61.kPrime ∧ FpElement.Invert 0 = .error Fault.logic_error ∧
      ¬ ∃ t, FpElement.Invert 0 = .ok t := by
  have h : FpElement.Invert 0 = .error Fault.logic_error := rfl
  refine ⟨by decide, h, ?_⟩
  rintro ⟨t, ht⟩
  rw [h] at ht
  cases ht

theorem count_getD_set {F : Type} [DecidableEq F] (red : List (List F)) (idx : Nat) (v x : F)
    (i : Nat) (h : idx < red.length) :
    ((red.set idx (red.getD idx [] ++ [v])).getD i []).count x =
      (red.getD i []).count x + (if idx = i ∧ v = x then 1 else 0) := by
  by_cases hi : idx = i
  · subst hi
    rw [getD_set_same _ _ _ _ h, List.count_append]
    by_cases hv : v = x
    · subst hv; simp
    · simp [List.count_cons, hv]
  · rw [getD_set_ne' _ _ _ _ _ (Ne.symm hi)]
    simp [hi]

theorem inner_count {F : Type} [CommRing F] [DecidableEq F] (R : Replicator)
    (sh : List (List F)) (n S A : Nat) (lkf : Nat → List Nat) (hf : Fits R sh n S A lkf)
    (p : Nat) (hp : p < n) :
    ∀ (J : List Nat) (red : List (List F)), (∀ j ∈ J, j < S) → red.length = A →
    ∃ red', J.foldlM (ComputeRedundantAddShares.step R sh p) red = .ok red' ∧ red'.length = A ∧
      ∀ i x, (red'.getD i []).count x = (red.getD i []).count x +
        J.countP (fun j => decide ((lkf p).getD j 0 = i ∧ (sh.getD p []).getD j 0 = x)) := by
  intro J
  induction J with
  | nil => intro red _ hred; exact ⟨red, rfl, hred, by simp⟩
  | cons j J ih =>
    intro red hJ hred
    obtain ⟨h1, h2⟩ := step_ok R sh n S A lkf hf p j hp (hJ j (List.mem_cons_self j J)) red hred
    obtain ⟨red', e1, e2, e3⟩ := ih _ (fun x hx => hJ x (List.mem_cons_of_mem j hx))
      (show (red.set ((lkf p).getD j 0)
        (red.getD ((lkf p).getD j 0) [] ++ [(sh.getD p []).getD j 0])).length = A by
        simpa using hred)
    refine ⟨red', ?_, e2, ?_⟩
    · rw [List.foldlM_cons, h1]
      exact e1
    · intro i x
      rw [e3 i x, count_getD_set red _ _ x i h2, List.countP_cons]
      simp only [decide_eq_true_eq]
      omega

theorem outer_count {F : Type} [CommRing F] [DecidableEq F] (R : Replicator)
    (sh : List (List F)) (n S A : Nat) (lkf : Nat → List Nat) (hf : Fits R sh n S A lkf) :
    ∀ (Ps : List Nat) (red : List (List F)), (∀ p ∈ Ps, p < n) → red.length = A →
    ∃ red', Ps.foldlM (ComputeRedundantAddShares.inner R sh) red = .ok red' ∧ red'.length = A ∧
      ∀ i x, (red'.getD i []).count x = (red.getD i []).count x +
        (Ps.map (copiesOf lkf sh S i x)).sum := by
  intro Ps
  induction Ps with
  | nil => intro red _ hred; exact ⟨red, rfl, hred, by simp⟩
  | cons p Ps ih =>
    intro red hP hred
    have hp : p < n := hP p (List.mem_cons_self p Ps)
    obtain ⟨red1, a1, a2, a3⟩ := inner_count R sh n S A lkf hf p hp (List.range S) red
      (fun j hj => List.mem_range.mp hj) hred
    obtain ⟨red', e1, e2, e3⟩ := ih red1 (fun x hx => hP x (List.mem_cons_of_mem p hx)) a2
    refine ⟨red', ?_, e2, ?_⟩
    · rw [List.foldlM_cons]
      have : ComputeRedundantAddShares.inner R sh red p = .ok red1 := by
        unfold ComputeRedundantAddShares.inner
        rw [hf.shareSize]
        exact a1
      rw [this]
      exact e1
    · intro i x
      rw [e3 i x, a3 i x, List.map_cons, List.sum_cons]
      unfold copiesOf
      omega

theorem nat_sum_range (f : Nat → Nat) (n : Nat) :
    ((List.range n).map f).sum = ∑ i in Finset.range n, f i := by
  induction n with
  | zero => simp
  | succ n ih =>
    rw [List.range_succ, List.map_append, List.sum_append, ih, Finset.sum_range_succ]
    simp

/-- The gather of `ComputeRedundantAddShares`, with multiplicities: the copies of slot `i`
hold the value `x` as often as the shares hold it at the positions of slot `i`. -/
theorem CRAS_count {F : Type} [CommRing F] [DecidableEq F] (R : Replicator)
    (sh : List (List F)) (n S A : Nat) (lkf : Nat → List Nat) (hf : Fits R sh n S A lkf) :
    ∃ red, R.ComputeRedundantAddShares sh = .ok red ∧ red.length = A ∧
      ∀ i x, (red.getD i []).count x = ∑ p in Finset.range n, copiesOf lkf sh S i x p := by
  obtain ⟨red, h1, h2, h3⟩ := outer_count R sh n S A lkf hf (List.range n)
    (List.replicate A []) (fun p hp => List.mem_range.mp hp) (by simp)
  refine ⟨red, ?_, h2, ?_⟩
  · unfold Replicator.ComputeRedundantAddShares
    rw [hf.size, hf.additive]
    exact h1
  · intro i x
    rw [h3 i x, nat_sum_range]
    have : ((List.replicate A ([] : List F)).getD i []).count x = 0 := by
      by_cases hi : i < A
      · simp [List.getD_eq_getElem?_getD, hi]
      · simp [List.getD_eq_getElem?_getD, List.getElem?_replicate, hi]
    rw [this, Nat.zero_add]

theorem map_getD_range_nat (l : List Nat) :
    (List.range l.length).map (fun j => l.getD j 0) = l := by
  apply List.ext_getElem (by simp)
  intro i h1 h2
  simp [List.getD_eq_getElem?_getD, List.getElem?_eq_getElem h2]

/-- The number of positions of a list that hold `i` is its number of occurrences. -/
theorem countP_index (l : List Nat) (i : Nat) :
    (List.range l.length).countP (fun j => decide (l.getD j 0 = i)) = l.count i := by
  conv_rhs => rw [← map_getD_range_nat l]
  rw [List.count, List.countP_map]
  apply List.countP_congr
  intro j _
  simp

/-- A share holds at most one copy of a slot, and none of a slot outside its index set. -/
theorem copiesOf_le {F : Type} [CommRing F] [DecidableEq F] (L : List (List Nat))
    (sh : List (List F)) (i : Nat) (x : F) (p : Nat) :
    copiesOf (slotsOf L) sh (slotsOf L p).length i x p ≤
      if p ∈ L.getD i [] then 1 else 0 := by
  have h1 : copiesOf (slotsOf L) sh (slotsOf L p).length i x p ≤ (slotsOf L p).count i := by
    rw [← countP_index]
    unfold copiesOf
    apply List.countP_mono_left
    intro j _ hj
    simp only [decide_eq_true_eq] at hj ⊢
    exact hj.1
  have h2 : (slotsOf L p).count i ≤ 1 :=
    List.nodup_iff_count_le_one.mp (slotsOf_nodup L p) i
  split_ifs with hm
  · omega
  · have : (slotsOf L p).count i = 0 := by
      rw [List.count_eq_zero]
      intro hin
      exact hm ((mem_slotsOf L p i).mp hin).2
    omega

/-- The share that an honest party holds of a dealt sharing has the dealt value at every
position of slot `i`, and exactly one such position when the party is in the subset of the
slot. -/
theorem copiesOf_honest {F : Type} [CommRing F] [DecidableEq F] (L : List (List Nat)) (n : Nat)
    (adds : List F) (sh : List (List F)) (i : Nat) (hi : i < L.length) (x : F) (p : Nat)
    (hp : p < n) (hsh : sh.getD p [] = (dealt L n adds).getD p []) :
    copiesOf (slotsOf L) sh (slotsOf L p).length i x p =
      if x = adds.getD i 0 ∧ p ∈ L.getD i [] then 1 else 0 := by
  have hcongr : copiesOf (slotsOf L) sh (slotsOf L p).length i x p =
      (List.range (slotsOf L p).length).countP
        (fun j => decide ((slotsOf L p).getD j 0 = i ∧ adds.getD i 0 = x)) := by
    unfold copiesOf
    apply List.countP_congr
    intro j hj
    simp only [decide_eq_true_eq]
    rw [hsh, dealt_getD_getD L n adds p j hp (List.mem_range.mp hj)]
    constructor
    · rintro ⟨a, b⟩; exact ⟨a, by rw [← a]; exact b⟩
    · rintro ⟨a, b⟩; exact ⟨a, by rw [a]; exact b⟩
  rw [hcongr]
  by_cases hx : x = adds.getD i 0
  · subst hx
    have : (List.range (slotsOf L p).length).countP
        (fun j => decide ((slotsOf L p).getD j 0 = i ∧ adds.getD i 0 = adds.getD i 0)) =
        (List.range (slotsOf L p).length).countP
          (fun j => decide ((slotsOf L p).getD j 0 = i)) := by
      apply List.countP_congr
      intro j _
      simp
    rw [this, countP_index]
    by_cases hm : p ∈ L.getD i []
    · rw [if_pos ⟨rfl, hm⟩]
      exact List.count_eq_one_of_mem (slotsOf_nodup L p) ((mem_slotsOf L p i).mpr ⟨hi, hm⟩)
    · rw [if_neg (fun h => hm h.2), List.count_eq_zero]
      intro hin
      exact hm ((mem_slotsOf L p i).mp hin).2
  · rw [if_neg (fun h => hx h.1)]
    rw [List.countP_eq_zero]
    intro j _
    simp only [decide_eq_true_eq, not_and]
    intro _ h
    exact hx h.symm

/-- A value that occurs more often than every other value is the most frequent one. -/
theorem mostFrequent_majority {F : Type} [CommRing F] [DecidableEq F] (l : List F) (a : F)
    (ha : a ∈ l) (h : ∀ w ∈ l, w ≠ a → l.count w < l.count a) : mostFrequent l = .ok a := by
  have hfilter : l.dedup.filter (fun v =>
      l.all (fun w => decide (l.count w ≤ l.count v))) = l.dedup.filter (fun v => v == a) := by
    apply List.filter_congr
    intro v hv
    have hvl : v ∈ l := List.mem_dedup.mp hv
    by_cases hva : v = a
    · subst hva
      simp only [beq_self_eq_true, List.all_eq_true, decide_eq_true_eq]
      intro w hw
      by_cases hwv : w = v
      · rw [hwv]
      · exact le_of_lt (h w hw hwv)
    · have h1 : (v == a) = false := by simpa using hva
      rw [h1, List.all_eq_false]
      refine ⟨a, ha, ?_⟩
      simp only [decide_eq_true_eq, not_le]
      exact h v hvl hva
  unfold mostFrequent
  rw [hfilter, List.filter_beq, List.count_dedup, if_pos ha]
  rfl

theorem fold_ErrorCorrection {F : Type} [CommRing F] [DecidableEq F] (red : List (List F))
    (adds : List F) (A : Nat) (hlen : red.length = A)
    (h : ∀ i, i < A → mostFrequent (red.getD i []) = .ok (adds.getD i 0)) :
    ∀ (I : List Nat) (acc : F), (∀ i ∈ I, i < A) →
    I.foldlM (ErrorCorrection.body red) acc =
      .ok (acc + (I.map (fun i => adds.getD i 0)).sum) := by
  intro I
  induction I with
  | nil => intro acc _; simp [pure, Except.pure]
  | cons i I ih =>
    intro acc hI
    have hi := hI i (List.mem_cons_self i I)
    have hstep : ErrorCorrection.body red acc i = .ok (acc + adds.getD i 0) := by
      unfold ErrorCorrection.body
      rw [getE_ok_getD red i [] (by omega)]
      simp only
      rw [h i hi]
    rw [List.foldlM_cons, hstep]
    show List.foldlM _ _ I = _
    rw [ih _ (fun j hj => hI j (List.mem_cons_of_mem i hj)), List.map_cons, List.sum_cons,
      add_assoc]

/-- When at most `t` of the parties hold something else than their share of a dealt sharing
and `3 t < n`, the dealt value of every slot is the most frequent one among the copies that
`ComputeRedundantAddShares` gathers. -/
theorem tampered_majority {F : Type} [CommRing F] [DecidableEq F] (R : Replicator) (n t : Nat)
    (hR : R.WF n t) (h3t : 3 * t < n) (adds : List F) (B : Finset Nat) (hB : B.card ≤ t)
    (sh : List (List F)) (hlen : sh.length = n)
    (hrows : ∀ p, p < n → (sh.getD p []).length = R.mShareSize)
    (hhon : ∀ p, p < n → p ∉ B →
      sh.getD p [] = (dealt (combs n (n - t) 0) n adds).getD p []) :
    ∃ red, R.ComputeRedundantAddShares sh = .ok red ∧
      red.length = (combs n (n - t) 0).length ∧
      ∀ i, i < (combs n (n - t) 0).length →
        mostFrequent (red.getD i []) = .ok (adds.getD i 0) := by
  obtain ⟨red, h1, h2, h3⟩ := CRAS_count R sh n R.mShareSize _ _ (WF_Fits R n t hR sh hlen hrows)
  refine ⟨red, h1, h2, ?_⟩
  intro i hi
  obtain ⟨c1, c2, c3⟩ := comb_facts n (n - t) i hi
  have hS : ∀ x p, p < n →
      copiesOf (slotsOf (combs n (n - t) 0)) sh R.mShareSize i x p =
        copiesOf (slotsOf (combs n (n - t) 0)) sh
          (slotsOf (combs n (n - t) 0) p).length i x p := by
    intro x p hp
    rw [hR.share p hp]
  have hBsum : ∑ p in Finset.range n, (if p ∈ B then 1 else 0) ≤ t := by
    rw [Finset.sum_boole]
    simp only [Nat.cast_id]
    exact le_trans (Finset.card_le_card (fun p hp => (Finset.mem_filter.mp hp).2)) hB
  have hcsum : ∑ p in Finset.range n,
      (if p ∈ (combs n (n - t) 0).getD i [] then 1 else 0) = n - t := by
    rw [Finset.sum_boole]
    simp only [Nat.cast_id]
    have : (Finset.range n).filter (fun p => p ∈ (combs n (n - t) 0).getD i []) =
        ((combs n (n - t) 0).getD i []).toFinset := by
      ext p
      simp only [Finset.mem_filter, Finset.mem_range, List.mem_toFinset]
      exact ⟨fun h => h.2, fun h => ⟨c3 p h, h⟩⟩
    rw [this, List.toFinset_card_of_nodup (sorted_nodup _ c2), c1]
  -- the dealt value has at least `n - 2 t` copies
  have hgood : n - t ≤ (red.getD i []).count (adds.getD i 0) + t := by
    have key : ∑ p in Finset.range n,
        (if p ∈ (combs n (n - t) 0).getD i [] then 1 else 0) ≤
        ∑ p in Finset.range n,
          (copiesOf (slotsOf (combs n (n - t) 0)) sh R.mShareSize i (adds.getD i 0) p +
            (if p ∈ B then 1 else 0)) := by
      apply Finset.sum_le_sum
      intro p hp
      have hp' := Finset.mem_range.mp hp
      by_cases hb : p ∈ B
      · rw [if_pos hb]
        split_ifs <;> omega
      · rw [if_neg hb, hS _ p hp', copiesOf_honest _ n adds sh i hi _ p hp' (hhon p hp' hb)]
        by_cases hm : p ∈ (combs n (n - t) 0).getD i []
        · rw [if_pos hm, if_pos ⟨rfl, hm⟩]
        · rw [if_neg hm]; omega
    rw [Finset.sum_add_distrib, hcsum, ← h3 i (adds.getD i 0)] at key
    omega
  -- every other value has at most `t` copies
  have hbad : ∀ x, x ≠ adds.getD i 0 → (red.getD i []).count x ≤ t := by
    intro x hx
    rw [h3 i x]
    refine le_trans ?_ hBsum
    apply Finset.sum_le_sum
    intro p hp
    have hp' := Finset.mem_range.mp hp
    by_cases hb : p ∈ B
    · rw [if_pos hb, hS _ p hp']
      refine le_trans (copiesOf_le _ sh i x p) ?_
      split_ifs <;> omega
    · rw [if_neg hb, hS _ p hp', copiesOf_honest _ n adds sh i hi _ p hp' (hhon p hp' hb),
        if_neg (fun h => hx h.1)]
  apply mostFrequent_majority
  · apply List.count_pos_iff.mp
    omega
  · intro w _ hw
    have := hbad w hw
    omega

theorem descFactorial_39_12 : ∀ m, m ≤ 39 → ∀ e, e ≤ 12 → m.descFactorial e < SIZE := by
  decide

theorem Binom_39_12 (m k : Nat) (hm : m ≤ 39) (hk : k ≤ m) (h : min k (m - k) ≤ 12) :
    Binom m k = Nat.choose m k :=
  Binom_eq_choose m k (by unfold SIZE; omega) hk (descFactorial_39_12 m hm _ h)

theorem choose_third : ∀ n, n ≤ 37 → ∀ t, t ≤ 12 →
    n.descFactorial t / t.factorial ≤ INT_MAX := by
  decide

/-- For `n ≤ 37` and `3 t < n` the replicator gets exact sizes, and the number of its
combinations fits an `int`. -/
theorem BinomExact_third (n t : Nat) (h3t : 3 * t < n) (hn : n ≤ 37) : BinomExact n t :=
  ⟨by omega, Binom_39_12 n t (by omega) (by omega) (by omega),
    Binom_39_12 (n - 1) t (by omega) (by omega) (by omega),
    by rw [Nat.choose_eq_descFactorial_div_factorial]; exact choose_third n hn t (by omega)⟩

theorem choose_38_12 : Nat.choose 38 12 = 2707475148 := by
  rw [Nat.choose_eq_descFactorial_div_factorial]
  decide

theorem ctor_38_12 : ∃ e, Replicator.ctor 38 12 = .error e :=
  ctor_int_overflow 38 12 (by decide) (by decide) (by rw [choose_38_12]; decide)

theorem Binom_40_13 : Binom 40 13 = 183740010 := by decide

theorem choose_40_13 : Nat.choose 40 13 = 12033222880 := by
  rw [Nat.choose_eq_descFactorial_div_factorial]
  decide

theorem ctor_40_13 : ∃ e, Replicator.ctor 40 13 = .error e :=
  ctor_overflow 40 13 (by decide) (by decide) (by rw [Binom_40_13, choose_40_13]; decide)

/-- C31 (amended to `t ≥ 1` and `n ≤ 37`; `ErrorCorrection` is modelled from the spec): for
`3 t < n`, every secret `s` and every set `B` of at most `t` parties, when the shares of the
parties in `B` are replaced by arbitrary shares, `ErrorCorrection` returns `s`: in every slot
the dealt value has more copies than any other value, so the majority vote has no tie. -/
theorem C31_ErrorCorrection {F : Type} [CommRing F] [DecidableEq F] [FieldBytes F]
    {G : Type} [PRG G]
    (n t : Nat) (ht : 1 ≤ t) (h3t : 3 * t < n) (hn : n ≤ 37) (s : F) (prg : G) :
    ∃ R shares prg', Replicator.ctor n t = .ok R ∧ R.Share s prg = .ok (shares, prg') ∧
      ∀ (B : Finset Nat) (shares' : List (List F)), B.card ≤ t → shares'.length = n →
        (∀ p, p < n → (shares'.getD p []).length = R.ShareSize) →
        (∀ p, p < n → p ∉ B → shares'.getD p [] = shares.getD p []) →
        R.ErrorCorrection shares' = .ok s := by
  obtain ⟨R, h1, hR⟩ := ctor_ok_exact n t ht (by omega) (BinomExact_third n t h3t hn)
  obtain ⟨adds, prg', a1, a2, a3⟩ :=
    Share_ok R n t hR (additive_ne_zero R n t hR (by omega)) s prg
  refine ⟨R, _, prg', h1, a3, ?_⟩
  intro B shares' hB hlen hrows hhon
  obtain ⟨red, r1, r2, r3⟩ := tampered_majority R n t hR h3t adds B hB shares' hlen hrows hhon
  unfold Replicator.ErrorCorrection
  rw [r1]
  simp only
  rw [hR.additive, fold_ErrorCorrection red adds _ r2 r3 _ 0
    (fun i hi => List.mem_range.mp hi), ← a1, map_getD_range, zero_add, a2]

/-- C31, an instance: `n = 4`, `t = 1`, the secret 5. -/
theorem C31_witness :
    (1 ≤ 1 ∧ 3 * 1 < 4 ∧ 4 ≤ 37) ∧
    ∃ R shares prg', Replicator.ctor 4 1 = .ok R ∧
      R.Share (5 : Fp61) ({ pos := 0 } : CounterPRG) = .ok (shares, prg') ∧
      ∀ (B : Finset Nat) (shares' : List (List Fp61)), B.card ≤ 1 → shares'.length = 4 →
        (∀ p, p < 4 → (shares'.getD p []).length = R.ShareSize) →
        (∀ p, p < 4 → p ∉ B → shares'.getD p [] = shares.getD p []) →
        R.ErrorCorrection shares' = .ok 5 :=
  ⟨by decide, @C31_ErrorCorrection Fp61 _ _ _ CounterPRG _ 4 1 (by decide) (by decide) (by decide)
    (5 : Fp61) ({ pos := 0 } : CounterPRG)⟩

/-- C31, where the claim fails as stated: `12 < 38 / 3`, and `Replicator(38, 12)` cannot be
constructed, because the number `C(38, 12) = 2707475148` of its combinations is larger than
`INT_MAX` and the `int` counter `share_idx` of `Init` overflows.  For `13 < 40 / 3` the 64-bit
evaluation of `Binom(40, 13)` wraps around.  And `0 < 4 / 3`, but the constructor refuses the
threshold 0. -/
theorem C31_counterexample :
    (3 * 12 < 38 ∧ Nat.choose 38 12 = 2707475148 ∧ INT_MAX = 2147483647 ∧
      ¬ ∃ R, Replicator.ctor 38 12 = .ok R) ∧
    (3 * 13 < 40 ∧ Binom 40 13 = 183740010 ∧ Nat.choose 40 13 = 12033222880 ∧
      ¬ ∃ R, Replicator.ctor 40 13 = .ok R) ∧
    (3 * 0 < 4 ∧ Replicator.ctor 4 0 = .error Fault.invalid_argument) := by
  refine ⟨⟨by decide, choose_38_12, by decide, ?_⟩,
    ⟨by decide, Binom_40_13, choose_40_13, ?_⟩, by decide, ?_⟩
  · rintro ⟨R, hR⟩
    obtain ⟨e, he⟩ := ctor_38_12
    rw [he] at hR
    cases hR
  · rintro ⟨R, hR⟩
    obtain ⟨e, he⟩ := ctor_40_13
    rw [he] at hR
    cases hR
  · rw [ctor_of_divisors 4 0 (by decide) (by decide), if_neg (by decide), if_pos (by decide)]

/-- The model of `ErrorCorrection` on explicit shares for `n = 4`, `t = 1`: the slot values
are 10, 20, 30, 40, and the share of party 2 is replaced by `7 8 9`. -/
theorem sample_ErrorCorrection :
    (sampleReplicator.ErrorCorrection
      ([[10, 20, 30], [10, 20, 40], [7, 8, 9], [20, 30, 40]] : List (List Fp61))).toOption =
      some 100 ∧
    (sampleReplicator.ErrorDetection
      ([[10, 20, 30], [10, 20, 40], [7, 8, 9], [20, 30, 40]] : List (List Fp61))).toOption =
      none := by
  constructor <;> decide!

theorem randStep_uniform {F : Type} [CommRing F] [DecidableEq F] [FieldBytes F] {G : Type}
    [PRG G] (S T k u : Nat) (g : G) (v : F) (st : GenState F G) (hk : k < S) (hu : u < T)
    (hv : v = FieldBytes.FromBytes (PRG.Next g (FieldBytes.ByteSize F)).1)
    (h : GenUniform S T k u g v st) (h0 : u = 0 → st.rep_share.getD k 0 = 0) :
    ∃ st', GenRandomShare.randStep k st u = .ok st' ∧ GenUniform S T k (u + 1) g v st' := by
  obtain ⟨st', e1, i1⟩ := randStep_inv S T k u st hk hu h.inv h0
  have e1' : (st.rep_add_shares.getD u []).length = k := by
    rw [h.inv.addrows u hu, if_neg (lt_irrefl u)]
  have e2 := randStep_ok k u st (by rw [h.inv.prgs]; exact hu)
    (by rw [h.inv.prgrows u hu]; exact hk) (by rw [h.inv.adds]; exact hu) e1'
    (by rw [h.inv.share]; exact hk)
  have hg : (st.mRandPRGs.getD u []).getD k PRG.init = g :=
    h.fresh u k hu hk (Or.inr ⟨rfl, le_refl u⟩)
  rw [hg, ← hv] at e2
  rw [e2] at e1
  simp only [Except.ok.injEq] at e1
  refine ⟨st', e2.trans (congrArg _ e1), i1, ?_, ?_⟩
  · intro u' j hu' hj hc
    rw [← e1]
    simp only
    by_cases huu : u' = u
    · subst huu
      rw [getD_set_same _ _ _ _ (by rw [h.inv.prgs]; exact hu')]
      have hjk : k < j := by omega
      rw [getD_set_ne' _ _ _ _ _ (by omega : j ≠ k)]
      exact h.fresh u' j hu' hj (Or.inl hjk)
    · rw [getD_set_ne' _ _ _ _ _ huu]
      exact h.fresh u' j hu' hj (by omega)
  · intro u' j hu' hj
    rw [← e1]
    simp only
    by_cases huu : u' = u
    · subst huu
      rw [getD_set_same _ _ _ _ (by rw [h.inv.adds]; exact hu')]
      rw [if_pos (by omega)] at hj
      by_cases hjk : j = k
      · subst hjk
        have := getD_append_last (st.rep_add_shares.getD u' []) v
        rw [e1'] at this
        exact this
      · rw [getD_append_left _ _ j (by rw [e1']; omega)]
        exact h.drawn u' j hu' (by rw [if_neg (lt_irrefl u')]; omega)
    · rw [getD_set_ne' _ _ _ _ _ huu]
      apply h.drawn u' j hu'
      by_cases hlt : u' < u
      · rw [if_pos hlt]; rw [if_pos (by omega)] at hj; exact hj
      · rw [if_neg hlt]; rw [if_neg (by omega)] at hj; exact hj

theorem shareStep_uniform {F : Type} [CommRing F] [DecidableEq F] [FieldBytes F] {G : Type}
    [PRG G] (S t k : Nat) (g : G) (v : F) (st : GenState F G) (hk : k < S)
    (hv : v = FieldBytes.FromBytes (PRG.Next g (FieldBytes.ByteSize F)).1)
    (h : GenUniform S (2 * t + 1) k 0 g v st) :
    ∃ st', GenRandomShare.shareStep t st k = .ok st' ∧
      GenUniform S (2 * t + 1) (k + 1) 0 g v st' := by
  unfold GenRandomShare.shareStep
  rw [if_pos (by rw [h.inv.share]; exact hk)]
  have hz : (st.rep_share.set k 0).getD k 0 = 0 :=
    getD_set_same _ _ _ _ (by rw [h.inv.share]; exact hk)
  obtain ⟨st', h1, h2, _⟩ := foldlM_range_inv (GenRandomShare.randStep k)
    (fun u (s : GenState F G) =>
      GenUniform S (2 * t + 1) k u g v s ∧ (u = 0 → s.rep_share.getD k 0 = 0))
    (2 * t + 1) ({ st with rep_share := st.rep_share.set k 0 } : GenState F G)
    ⟨⟨⟨by simp only [List.length_set]; exact h.inv.share, h.inv.adds, h.inv.addrows,
        h.inv.prgs, h.inv.prgrows,
        fun j hj => by
          show (st.rep_share.set k 0).getD j 0 = _
          rw [getD_set_ne' _ _ _ _ _ (by omega : j ≠ k)]
          exact h.inv.done j hj,
        Or.inl rfl⟩, h.fresh, h.drawn⟩, fun _ => hz⟩
    (fun u s hu hI => by
      obtain ⟨s', a1, a2⟩ := randStep_uniform S (2 * t + 1) k u g v s hk hu hv hI.1 hI.2
      exact ⟨s', a1, a2, fun h0 => by omega⟩)
  refine ⟨st', h1, ⟨?_, ?_, ?_⟩⟩
  · constructor
    · exact h2.inv.share
    · exact h2.inv.adds
    · intro w hw
      rw [h2.inv.addrows w hw, if_pos hw, if_neg (Nat.not_lt_zero w)]
    · exact h2.inv.prgs
    · exact h2.inv.prgrows
    · intro j hj
      by_cases hjk : j = k
      · subst hjk
        rcases h2.inv.part with hz' | hp
        · omega
        · exact hp
      · exact h2.inv.done j (by omega)
    · exact Or.inl rfl
  · intro u' j hu' hj hc
    exact h2.fresh u' j hu' hj (by omega)
  · intro u' j hu' hj
    rw [if_neg (Nat.not_lt_zero u')] at hj
    exact h2.drawn u' j hu' (by rw [if_pos hu']; exact hj)

theorem ownLoop_uniform {F : Type} [CommRing F] [DecidableEq F] [FieldBytes F] {G : Type}
    [PRG G] (A : Nat) (g : G) (v : F)
    (hv : v = FieldBytes.FromBytes (PRG.Next g (FieldBytes.ByteSize F)).1) :
    ∃ own : F × List G,
      (List.range A).foldlM GenRandomShare.ownStep ((0 : F), List.replicate A g) = .ok own ∧
      own.1 = (A : F) * v := by
  obtain ⟨own, h1, h2, _, _⟩ := foldlM_range_inv GenRandomShare.ownStep
    (fun k (s : F × List G) => s.1 = (k : F) * v ∧ s.2.length = A ∧
      ∀ j, k ≤ j → j < A → s.2.getD j PRG.init = g) A ((0 : F), List.replicate A g)
    ⟨by simp, by simp, fun j _ hj => by
      simp [List.getD_eq_getElem?_getD, List.getElem?_replicate, hj]⟩
    (fun k s hk hI => by
      obtain ⟨i1, i2, i3⟩ := hI
      unfold GenRandomShare.ownStep
      rw [getE_ok_getD s.2 k PRG.init (by rw [i2]; exact hk)]
      refine ⟨_, rfl, ?_, by simp only [List.length_set]; exact i2, ?_⟩
      · simp only
        rw [i1, i3 k (le_refl k) hk, ← hv]
        push_cast
        ring
      · intro j hkj hj
        simp only
        rw [getD_set_ne' _ _ _ _ _ (by omega : j ≠ k)]
        exact i3 j (by omega) hj)
  exact ⟨own, h1, h2⟩

theorem eq_replicate_of_getD {α : Type} (l : List α) (n : Nat) (a d : α) (hlen : l.length = n)
    (h : ∀ j, j < n → l.getD j d = a) : l = List.replicate n a := by
  apply List.ext_getElem (by simp [hlen])
  intro j h1 h2
  have := h j (by omega)
  rw [List.getD_eq_getElem _ _ h1] at this
  simp [this]

/-- The random share that `GenRandomShare` returns when every generator of the correlator is
in the state `g`, whose first field element is `v`. -/
theorem GenRandomShare_uniform {F : Type} [CommRing F] [DecidableEq F] [FieldBytes F]
    {G : Type} [PRG G] (id : Nat) (R : Replicator) (g : G) (v : F)
    (hv : v = FieldBytes.FromBytes (PRG.Next g (FieldBytes.ByteSize F)).1) :
    ∃ c', (uniformCorrelator id R g).GenRandomShare =
      .ok (({ rep_share := List.replicate R.ShareSize (((2 * R.mThreshold + 1 : Nat) : F) * v)
              add_share := if id < 2 * R.mThreshold + 1 then (R.AdditiveShareSize : F) * v
                           else 0
              rep_add_shares := List.replicate (2 * R.mThreshold + 1)
                (List.replicate R.ShareSize v) } : RandomShare F), c') := by
  have hown : ∃ own : F × List G,
      (if id < 2 * R.mThreshold + 1 then
        (List.range R.AdditiveShareSize).foldlM GenRandomShare.ownStep
          ((0 : F), List.replicate R.AdditiveShareSize g)
      else .ok ((0 : F), List.replicate R.AdditiveShareSize g)) = .ok own ∧
      own.1 = if id < 2 * R.mThreshold + 1 then (R.AdditiveShareSize : F) * v else 0 := by
    by_cases hid : id < 2 * R.mThreshold + 1
    · rw [if_pos hid, if_pos hid]
      exact ownLoop_uniform _ g v hv
    · rw [if_neg hid, if_neg hid]
      exact ⟨_, rfl, rfl⟩
  obtain ⟨own, o1, o2⟩ := hown
  obtain ⟨st, s1, s2⟩ := foldlM_range_inv (GenRandomShare.shareStep R.mThreshold)
    (fun k (s : GenState F G) => GenUniform R.ShareSize (2 * R.mThreshold + 1) k 0 g v s)
    R.ShareSize
    ({ rep_share := List.replicate R.ShareSize 0
       rep_add_shares := List.replicate (2 * R.mThreshold + 1) []
       mRandPRGs := List.replicate (2 * R.mThreshold + 1) (List.replicate R.ShareSize g) } :
      GenState F G)
    ⟨⟨by simp, by simp, fun w hw => by
        simp [List.getD_eq_getElem?_getD, List.getElem?_replicate, hw],
      by simp, fun w hw => by
        simp [List.getD_eq_getElem?_getD, List.getElem?_replicate, hw],
      fun j hj => by omega, Or.inl rfl⟩,
     fun u' j hu' hj _ => by
        simp [List.getD_eq_getElem?_getD, List.getElem?_replicate, hu', hj],
     fun u' j _ hj => by
        rw [if_neg (Nat.not_lt_zero u')] at hj
        omega⟩
    (fun k s hk hI => shareStep_uniform _ R.mThreshold k g v s hk hv hI)
  have hrows : st.rep_add_shares =
      List.replicate (2 * R.mThreshold + 1) (List.replicate R.ShareSize v) := by
    apply eq_replicate_of_getD _ _ _ [] s2.inv.adds
    intro u hu
    apply eq_replicate_of_getD _ _ _ 0
    · rw [s2.inv.addrows u hu, if_neg (Nat.not_lt_zero u)]
    · intro j hj
      exact s2.drawn u j hu (by rw [if_neg (Nat.not_lt_zero u)]; exact hj)
  have hshare : st.rep_share =
      List.replicate R.ShareSize (((2 * R.mThreshold + 1 : Nat) : F) * v) := by
    apply eq_replicate_of_getD _ _ _ 0 s2.inv.share
    intro j hj
    rw [s2.inv.done j hj]
    have : ∀ u ∈ Finset.range (2 * R.mThreshold + 1),
        (st.rep_add_shares.getD u []).getD j 0 = v := fun u hu =>
      s2.drawn u j (Finset.mem_range.mp hu) (by rw [if_neg (Nat.not_lt_zero u)]; exact hj)
    rw [Finset.sum_congr rfl this, Finset.sum_const, Finset.card_range, nsmul_eq_mul]
  refine ⟨{ uniformCorrelator id R g with mOwnPRGs := own.2, mRandPRGs := st.mRandPRGs }, ?_⟩
  unfold Correlator.GenRandomShare
  simp only [uniformCorrelator]
  rw [o1]
  simp only
  rw [s1]
  simp only
  rw [hrows, hshare, o2]

/-- Shares that hold the same value at every position are the shares dealt from slots that all
carry this value. -/
theorem dealt_replicate {F : Type} [CommRing F] (R : Replicator) (n t : Nat) (hR : R.WF n t)
    (w : F) :
    (List.range n).map (fun _ => List.replicate R.mShareSize w) =
      dealt (combs n (n - t) 0) n (List.replicate (combs n (n - t) 0).length w) := by
  unfold dealt
  apply List.map_congr_left
  intro p hp
  symm
  apply eq_replicate_of_getD _ _ _ 0
  · rw [List.length_map, hR.share p (List.mem_range.mp hp)]
  · intro j hj
    have hj' : j < (slotsOf (combs n (n - t) 0) p).length := by
      rw [hR.share p (List.mem_range.mp hp)]; exact hj
    have hlt := (slot_lt (combs n (n - t) 0) p j hj').1
    simp only [List.getD_eq_getElem?_getD, List.getElem?_map, List.getElem?_eq_getElem hj',
      Option.map_some', Option.getD_some]
    rw [List.getElem?_replicate, if_pos]
    · rfl
    · have := (slot_lt (combs n (n - t) 0) p j hj').1
      rw [List.getD_eq_getElem _ _ hj'] at this
      exact this

/-- Embeds `ErrorDetection` on `n` shares that hold the value `w` at every position returns `w` once
per additive slot. -/
theorem ErrorDetection_replicate {F : Type} [CommRing F] [DecidableEq F] (R : Replicator)
    (n t : Nat) (hR : R.WF n t) (ht : t < n) (w : F) :
    R.ErrorDetection ((List.range n).map (fun _ => List.replicate R.mShareSize w)) =
      .ok ((R.mAdditiveShareSize : F) * w) := by
  rw [dealt_replicate R n t hR w,
    ErrorDetection_dealt R n t hR ht _ (List.length_replicate _ _), List.sum_replicate,
    nsmul_eq_mul, hR.additive]

theorem ctor_WF (n t : Nat) (ht : 1 ≤ t) (htn : t < n) (hex : BinomExact n t) (R : Replicator)
    (h : Replicator.ctor n t = .ok R) : R.WF n t := by
  obtain ⟨R', h1, hR⟩ := ctor_ok_exact n t ht htn hex
  rw [h] at h1
  simp only [Except.ok.injEq] at h1
  rw [h1]
  exact hR

/-- C33 (amended to `n ≤ 30`, `t ≥ 1`, `2 t < n`): the replicator is constructed; let every
generator of every correlator be in the same state `g` (for the default state these are the
correlators that the constructor builds).  Then every party's call of `GenRandomShare`
returns; `ErrorDetection` accepts the `n` values `rep_share` and returns some `r`; the values
`add_share` of the parties `0 .. 2t` add up to `r`; and for every `u ≤ 2t`, `ErrorDetection`
on the parties' `rep_add_shares[u]` returns the `add_share` of party `u`. -/
theorem C33_default_correlators {F : Type} [CommRing F] [DecidableEq F] [FieldBytes F]
    {G : Type} [PRG G] (n t : Nat) (ht : 1 ≤ t) (h2t : 2 * t < n) (hn : n ≤ 30)
    (g : G) :
    ∃ (R : Replicator) (rs : Nat → RandomShare F) (r : F),
      Replicator.ctor n t = .ok R ∧
      (∀ i, (Correlator.ctor i R : Correlator G) = uniformCorrelator i R PRG.init) ∧
      (∀ i, i < n → ∃ c', (uniformCorrelator i R g).GenRandomShare = .ok (rs i, c')) ∧
      R.ErrorDetection ((List.range n).map (fun i => (rs i).rep_share)) = .ok r ∧
      ∑ i in Finset.range (2 * t + 1), (rs i).add_share = r ∧
      ∀ u, u ≤ 2 * t →
        R.ErrorDetection ((List.range n).map (fun j => (rs j).rep_add_shares.getD u [])) =
          .ok (rs u).add_share := by
  obtain ⟨R, hctor, hR⟩ := ctor_ok_exact n t ht (by omega) (BinomExact_pairs n t h2t hn).1
  have hT : R.mThreshold = t := hR.threshold
  refine ⟨R, fun i =>
    { rep_share := List.replicate R.ShareSize (((2 * R.mThreshold + 1 : Nat) : F) *
        FieldBytes.FromBytes (PRG.Next g (FieldBytes.ByteSize F)).1)
      add_share := if i < 2 * R.mThreshold + 1 then
          (R.AdditiveShareSize : F) * FieldBytes.FromBytes (PRG.Next g (FieldBytes.ByteSize F)).1
        else 0
      rep_add_shares := List.replicate (2 * R.mThreshold + 1)
        (List.replicate R.ShareSize
          (FieldBytes.FromBytes (PRG.Next g (FieldBytes.ByteSize F)).1)) },
    (R.mAdditiveShareSize : F) * (((2 * R.mThreshold + 1 : Nat) : F) *
      FieldBytes.FromBytes (PRG.Next g (FieldBytes.ByteSize F)).1),
    hctor, fun i => rfl, fun i _ => GenRandomShare_uniform i R g _ rfl, ?_, ?_, ?_⟩
  · exact ErrorDetection_replicate R n t hR (by omega) _
  · simp only
    rw [← hT]
    have : ∀ i ∈ Finset.range (2 * R.mThreshold + 1),
        (if i < 2 * R.mThreshold + 1 then
          (R.AdditiveShareSize : F) *
            FieldBytes.FromBytes (PRG.Next g (FieldBytes.ByteSize F)).1
        else 0) = (R.AdditiveShareSize : F) *
            FieldBytes.FromBytes (PRG.Next g (FieldBytes.ByteSize F)).1 := fun i hi => by
      rw [if_pos (Finset.mem_range.mp hi)]
    rw [Finset.sum_congr rfl this, Finset.sum_const, Finset.card_range, nsmul_eq_mul]
    unfold Replicator.AdditiveShareSize
    ring
  · intro u hu
    simp only
    have hlt : u < 2 * R.mThreshold + 1 := by omega
    have hrow : (List.replicate (2 * R.mThreshold + 1) (List.replicate R.ShareSize
        (FieldBytes.FromBytes (PRG.Next g (FieldBytes.ByteSize F)).1 : F))).getD u [] =
        List.replicate R.ShareSize
          (FieldBytes.FromBytes (PRG.Next g (FieldBytes.ByteSize F)).1) := by
      simp [List.getD_eq_getElem?_getD, List.getElem?_replicate, hlt]
    rw [hrow, if_pos hlt]
    exact ErrorDetection_replicate R n t hR (by omega) _

/-- C33, an instance: `n = 4`, `t = 1`, the field of `Mp61` and freshly constructed
generators. -/
theorem C33_witness :
    (1 ≤ 1 ∧ 2 * 1 < 4 ∧ 4 ≤ 30) ∧
    ∃ (R : Replicator) (rs : Nat → RandomShare Fp61) (r : Fp61),
      Replicator.ctor 4 1 = .ok R ∧
      (∀ i, (Correlator.ctor i R : Correlator CounterPRG) = uniformCorrelator i R PRG.init) ∧
      (∀ i, i < 4 → ∃ c', (uniformCorrelator i R (PRG.init : CounterPRG)).GenRandomShare =
        .ok (rs i, c')) ∧
      R.ErrorDetection ((List.range 4).map (fun i => (rs i).rep_share)) = .ok r ∧
      ∑ i in Finset.range (2 * 1 + 1), (rs i).add_share = r ∧
      ∀ u, u ≤ 2 * 1 →
        R.ErrorDetection ((List.range 4).map (fun j => (rs j).rep_add_shares.getD u [])) =
          .ok (rs u).add_share :=
  ⟨by decide, @C33_default_correlators Fp61 _ _ _ CounterPRG _ 4 1 (by decide) (by decide)
    (by decide) PRG.init⟩

/-- C33, where the claim fails as stated.  For `n = 31`, `t = 14` the 64-bit evaluation of
`Binom(31, 14)` wraps around, the constructor of the replicator fails, and there is no
replicator from which the 31 correlators could be built.  For `n = 4`, `t = 2` the parties
`0 .. 2t` are five parties, of which only four exist: the replicator and the four default
correlators are built, `GenRandomShare` returns for each, `ErrorDetection` accepts the four
values `rep_share` and returns `r`, and the four values `add_share` do not add up to `r`. -/
theorem C33_counterexample :
    (1 ≤ 14 ∧ 2 * 14 < 31 ∧ Binom 31 14 = 53584616 ∧ Nat.choose 31 14 = 265182525 ∧
      ¬ ∃ (R : Replicator) (rs : RandomShare Fp61) (c : Correlator CounterPRG),
        Replicator.ctor 31 14 = .ok R ∧
        (Correlator.ctor 0 R : Correlator CounterPRG).GenRandomShare = .ok (rs, c)) ∧
    ((Replicator.ctor 4 2).toOption = some sampleReplicator42 ∧
      (∀ i, i < 4 →
        (match ((Correlator.ctor i sampleReplicator42 : Correlator CounterPRG).GenRandomShare :
            Except Fault (RandomShare Fp61 × Correlator CounterPRG)) with
          | .ok _ => true
          | .error _ => false) = true) ∧
      (sampleReplicator42.ErrorDetection
        ((List.range 4).map (fun i => (sampleGen42 i).rep_share))).toOption =
          some 1635100671354762660 ∧
      (sampleGen42 0).add_share + (sampleGen42 1).add_share + (sampleGen42 2).add_share +
        (sampleGen42 3).add_share = 1308080537083810128 ∧
      (1308080537083810128 : Fp61) ≠ 1635100671354762660) := by
  refine ⟨⟨by decide, by decide, Binom_31_14, choose_31_14, ?_⟩,
    by decide!, by decide!, by decide!, by decide!, by decide⟩
  rintro ⟨R, _, _, hR, _⟩
  obtain ⟨e, he⟩ := ctor_31_14
  rw [he] at hR
  cases hR

/-- The random shares of the freshly constructed correlators for `n = 4`, `t = 1`: the four
values `rep_share` are equal, and the values `add_share` are equal for the parties 0, 1, 2 and
zero for party 3. -/
theorem sample_random_shares :
    (sampleGen 0).1.rep_share = (sampleGen 1).1.rep_share ∧
    (sampleGen 1).1.rep_share = (sampleGen 2).1.rep_share ∧
    (sampleGen 2).1.rep_share = (sampleGen 3).1.rep_share ∧
    (sampleGen 0).1.add_share = (sampleGen 1).1.add_share ∧
    (sampleGen 1).1.add_share = (sampleGen 2).1.add_share ∧
    (sampleGen 3).1.add_share = 0 ∧
    (sampleReplicator.ErrorDetection
      ((List.range 4).map (fun i => (sampleGen i).1.rep_share))).toOption =
      some ((sampleGen 0).1.add_share + (sampleGen 1).1.add_share +
        (sampleGen 2).1.add_share) := by
  refine ⟨?_, ?_, ?_, ?_, ?_, ?_, ?_⟩ <;> decide!

theorem mem_table_iff (n t pid S : Nat) (e : MultEntry) :
    e ∈ ((List.range S).flatMap (fun a =>
      (List.range S).map (fun b => entrySpec n t pid a b))).filterMap id ↔
    ∃ a b, a < S ∧ b < S ∧ entrySpec n t pid a b = some e := by
  constructor
  · exact mem_table n t pid S e
  · rintro ⟨a, b, ha, hb, h⟩
    rw [List.mem_filterMap]
    refine ⟨entrySpec n t pid a b, ?_, h⟩
    rw [List.mem_flatMap]
    exact ⟨a, List.mem_range.mpr ha, List.mem_map.mpr ⟨b, List.mem_range.mpr hb, rfl⟩⟩

theorem getD_take_zero (l : List Nat) (k : Nat) (hk : 0 < k) :
    (l.take k).getD 0 0 = l.getD 0 0 := by
  cases l with
  | nil => simp
  | cons x xs =>
    cases k with
    | zero => omega
    | succ k => simp

/-- What `ComputeIndexForDoubleMultiplication(a, b)` returns for a well-formed manipulator:
the position of the target slot in the index set of the party, or `-1`. -/
theorem ComputeIndex_ok (M : ShrManipulator) (n t pid a b : Nat) (hM : M.WF pid t n)
    (h2t : 2 * t < n) (hid : pid < n) (ha : a < M.mReplicator.mShareSize)
    (hb : b < M.mReplicator.mShareSize) :
    M.ComputeIndexForDoubleMultiplication a b =
      .ok (match find (slotsOf (combs n (n - 2 * t) 0) pid)
          (destSlot n t ((slotsOf (combs n (n - t) 0) pid).getD a 0)
            ((slotsOf (combs n (n - t) 0) pid).getD b 0)) with
        | some idx => (idx : Int)
        | none => -1) := by
  have hS := hM.rep.share pid hid
  obtain ⟨hx, _⟩ := slot_lt (combs n (n - t) 0) pid a (by rw [hS]; exact ha)
  obtain ⟨hy, _⟩ := slot_lt (combs n (n - t) 0) pid b (by rw [hS]; exact hb)
  unfold ShrManipulator.ComputeIndexForDoubleMultiplication
  rw [hM.party, hM.parties, hM.threshold, firstCommon_ok _ n t pid a b hM.rep h2t hid ha hb]
  simp only
  rw [RevComb_ok _ n (2 * t) hM.drep _ (destSet_mem n t _ _ h2t hx hy)]
  simp only
  rw [IndexSetFor_ok _ n (2 * t) hM.drep pid hid]
  simp only
  unfold destSlot
  cases find (slotsOf (combs n (n - 2 * t) 0) pid)
      (slotIndex (combs n (n - 2 * t) 0)
        (destSet n t ((slotsOf (combs n (n - t) 0) pid).getD a 0)
          ((slotsOf (combs n (n - t) 0) pid).getD b 0))) <;> rfl

/-- C34 (amended to `n ≤ 30`, `t ≥ 1`, `2 t < n`): the manipulator of party `id` is
constructed; let `is` be its index set for threshold `t` and `dis` its index set for threshold
`2t`.  For local indexes `a, b` let `D` be the first `n - 2t` common members of the subsets of
the slots `is[a]` and `is[b]`; its first element is the least common member.  When `id` is in
`D`, `ComputeIndexForDoubleMultiplication(a, b)` returns the position `idx` in `dis` of the
slot whose subset is `D`, and `mTableMult` holds the entry `(a, b, idx, min)`, which is its
only entry for `(a, b)`.  When `id` is not in `D`, the call returns `-1` and the table has no
entry for `(a, b)`.  Every entry of the table belongs to a pair of local indexes. -/
theorem C34_multiplication_index (id t n : Nat) (ht : 1 ≤ t) (h2t : 2 * t < n) (hid : id < n)
    (hn : n ≤ 30) :
    ∃ (M : ShrManipulator) (is dis : List Nat),
      ShrManipulator.ctor id t n = .ok M ∧
      M.mReplicator.IndexSetFor id = .ok is ∧ M.mDoubleReplicator.IndexSetFor id = .ok dis ∧
      is.length = M.mReplicator.ShareSize ∧
      (∀ e ∈ M.mTableMult,
        e.src_a < M.mReplicator.ShareSize ∧ e.src_b < M.mReplicator.ShareSize) ∧
      ∀ a b, a < M.mReplicator.ShareSize → b < M.mReplicator.ShareSize →
        ∃ SetA SetB D : List Nat,
          M.mReplicator.Combination (is.getD a 0) = .ok SetA ∧
          M.mReplicator.Combination (is.getD b 0) = .ok SetB ∧
          D = (SetA.filter (fun q => decide (q ∈ SetB))).take (n - 2 * t) ∧
          D.length = n - 2 * t ∧
          (∀ q ∈ SetA, q ∈ SetB → D.getD 0 0 ≤ q) ∧
          (id ∈ D → ∃ idx : Nat,
            M.ComputeIndexForDoubleMultiplication a b = .ok (idx : Int) ∧
            idx < dis.length ∧
            M.mDoubleReplicator.Combination (dis.getD idx 0) = .ok D ∧
            ({ src_a := a, src_b := b, dest_c := idx, first_party := D.getD 0 0 } : MultEntry)
              ∈ M.mTableMult ∧
            ∀ e ∈ M.mTableMult, e.src_a = a → e.src_b = b →
              e = { src_a := a, src_b := b, dest_c := idx, first_party := D.getD 0 0 }) ∧
          (id ∉ D → M.ComputeIndexForDoubleMultiplication a b = .ok (-1) ∧
            ∀ e ∈ M.mTableMult, ¬ (e.src_a = a ∧ e.src_b = b)) := by
  obtain ⟨M, hM, hW, _, _⟩ := ShrManipulator_ctor_ok_exact id t n ht h2t
    (BinomExact_pairs n t h2t hn) hid
  have hS := hW.rep.share id hid
  refine ⟨M, slotsOf (combs n (n - t) 0) id, slotsOf (combs n (n - 2 * t) 0) id, hM,
    IndexSetFor_ok _ n t hW.rep id hid, IndexSetFor_ok _ n (2 * t) hW.drep id hid, hS, ?_, ?_⟩
  · intro e he
    rw [hW.tableMult] at he
    obtain ⟨a, b, ha, hb, hab⟩ := mem_table n t id _ e he
    obtain ⟨e1, e2, _⟩ := entrySpec_some n t id a b h2t (by rw [hS]; exact ha)
      (by rw [hS]; exact hb) e hab
    rw [e1, e2]
    exact ⟨ha, hb⟩
  · intro a b ha hb
    have ha' : a < (slotsOf (combs n (n - t) 0) id).length := by rw [hS]; exact ha
    have hb' : b < (slotsOf (combs n (n - t) 0) id).length := by rw [hS]; exact hb
    obtain ⟨hx, _⟩ := slot_lt (combs n (n - t) 0) id a ha'
    obtain ⟨hy, _⟩ := slot_lt (combs n (n - t) 0) id b hb'
    obtain ⟨c1, c2, c3⟩ := common_facts n t _ _ h2t hx hy
    obtain ⟨hd1, hd2⟩ := destSlot_spec n t _ _ h2t hx hy
    have hD : destSet n t ((slotsOf (combs n (n - t) 0) id).getD a 0)
        ((slotsOf (combs n (n - t) 0) id).getD b 0) =
        (((combs n (n - t) 0).getD ((slotsOf (combs n (n - t) 0) id).getD a 0) []).filter
          (fun q => decide (q ∈ (combs n (n - t) 0).getD
            ((slotsOf (combs n (n - t) 0) id).getD b 0) []))).take (n - 2 * t) := rfl
    have hlen := ((mem_combs _ _ _ _).mp (destSet_mem n t _ _ h2t hx hy)).1
    have hci := ComputeIndex_ok M n t id a b hW h2t hid ha hb
    have hspec : ∀ e, e ∈ M.mTableMult → e.src_a = a → e.src_b = b →
        entrySpec n t id a b = some e := by
      intro e he h1 h2
      rw [hW.tableMult] at he
      obtain ⟨a', b', ha1, hb1, hab⟩ := mem_table n t id _ e he
      obtain ⟨e1, e2, _⟩ := entrySpec_some n t id a' b' h2t (by rw [hS]; exact ha1)
        (by rw [hS]; exact hb1) e hab
      rw [← h1, ← h2, e1, e2]
      exact hab
    refine ⟨_, _, _, Combination_ok _ n t hW.rep _ hx, Combination_ok _ n t hW.rep _ hy,
      hD, hlen, ?_, ?_, ?_⟩
    · intro q hqa hqb
      have hq : q ∈ common (combs n (n - t) 0) ((slotsOf (combs n (n - t) 0) id).getD a 0)
          ((slotsOf (combs n (n - t) 0) id).getD b 0) := (mem_common _ _ _ q).mpr ⟨hqa, hqb⟩
      have hne : 0 < (common (combs n (n - t) 0) ((slotsOf (combs n (n - t) 0) id).getD a 0)
          ((slotsOf (combs n (n - t) 0) id).getD b 0)).length := by omega
      have hmem : (common (combs n (n - t) 0) ((slotsOf (combs n (n - t) 0) id).getD a 0)
          ((slotsOf (combs n (n - t) 0) id).getD b 0)).getD 0 0 ∈
          common (combs n (n - t) 0) ((slotsOf (combs n (n - t) 0) id).getD a 0)
            ((slotsOf (combs n (n - t) 0) id).getD b 0) := by
        rw [List.getD_eq_getElem _ _ hne]
        exact List.getElem_mem _
      have := (head_iff_least _ _ c1 hmem).mp rfl q hq
      unfold destSet
      rw [getD_take_zero _ _ (by omega)]
      exact this
    · intro hin
      have hslot : destSlot n t ((slotsOf (combs n (n - t) 0) id).getD a 0)
          ((slotsOf (combs n (n - t) 0) id).getD b 0) ∈ slotsOf (combs n (n - 2 * t) 0) id :=
        (mem_slotsOf _ _ _).mpr ⟨hd1, by rw [hd2]; exact hin⟩
      obtain ⟨j, hj, hjl, hjd⟩ := find_mem_nodup _ _ (slotsOf_nodup _ _) hslot
      have hentry : entrySpec n t id a b = some
          { src_a := a, src_b := b, dest_c := j
            first_party := (destSet n t ((slotsOf (combs n (n - t) 0) id).getD a 0)
              ((slotsOf (combs n (n - t) 0) id).getD b 0)).getD 0 0 } := by
        unfold entrySpec
        simp only
        rw [if_pos hin, hj]
        rfl
      refine ⟨j, ?_, hjl, ?_, ?_, ?_⟩
      · rw [hci, hj]
      · rw [hjd, ← hd2]
        exact Combination_ok _ n (2 * t) hW.drep _ hd1
      · rw [hW.tableMult, mem_table_iff]
        exact ⟨a, b, ha, hb, hentry⟩
      · intro e he h1 h2
        have := hspec e he h1 h2
        rw [hentry] at this
        exact (Option.some.inj this).symm
    · intro hout
      have hslot : destSlot n t ((slotsOf (combs n (n - t) 0) id).getD a 0)
          ((slotsOf (combs n (n - t) 0) id).getD b 0) ∉ slotsOf (combs n (n - 2 * t) 0) id := by
        intro hm
        have := ((mem_slotsOf _ _ _).mp hm).2
        rw [hd2] at this
        exact hout this
      refine ⟨by rw [hci, find_none _ _ hslot], ?_⟩
      rintro e he ⟨h1, h2⟩
      have := hspec e he h1 h2
      unfold entrySpec at this
      simp only at this
      rw [if_neg hout] at this
      cases this

/-- C34, an instance: party 1 of `n = 4`, `t = 1`. -/
theorem C34_witness :
    (1 ≤ 1 ∧ 2 * 1 < 4 ∧ 1 < 4 ∧ 4 ≤ 30) ∧
    ∃ (M : ShrManipulator) (is dis : List Nat),
      ShrManipulator.ctor 1 1 4 = .ok M ∧
      M.mReplicator.IndexSetFor 1 = .ok is ∧ M.mDoubleReplicator.IndexSetFor 1 = .ok dis ∧
      is.length = M.mReplicator.ShareSize ∧
      (∀ e ∈ M.mTableMult,
        e.src_a < M.mReplicator.ShareSize ∧ e.src_b < M.mReplicator.ShareSize) ∧
      ∀ a b, a < M.mReplicator.ShareSize → b < M.mReplicator.ShareSize →
        ∃ SetA SetB D : List Nat,
          M.mReplicator.Combination (is.getD a 0) = .ok SetA ∧
          M.mReplicator.Combination (is.getD b 0) = .ok SetB ∧
          D = (SetA.filter (fun q => decide (q ∈ SetB))).take (4 - 2 * 1) ∧
          D.length = 4 - 2 * 1 ∧
          (∀ q ∈ SetA, q ∈ SetB → D.getD 0 0 ≤ q) ∧
          (1 ∈ D → ∃ idx : Nat,
            M.ComputeIndexForDoubleMultiplication a b = .ok (idx : Int) ∧
            idx < dis.length ∧
            M.mDoubleReplicator.Combination (dis.getD idx 0) = .ok D ∧
            ({ src_a := a, src_b := b, dest_c := idx, first_party := D.getD 0 0 } : MultEntry)
              ∈ M.mTableMult ∧
            ∀ e ∈ M.mTableMult, e.src_a = a → e.src_b = b →
              e = { src_a := a, src_b := b, dest_c := idx, first_party := D.getD 0 0 }) ∧
          (1 ∉ D → M.ComputeIndexForDoubleMultiplication a b = .ok (-1) ∧
            ∀ e ∈ M.mTableMult, ¬ (e.src_a = a ∧ e.src_b = b)) :=
  ⟨by decide, C34_multiplication_index 1 1 4 (by decide) (by decide) (by decide)
    (by decide)⟩

/-- C34, where the claim fails as stated: for `n = 31`, `t = 14` the 64-bit evaluation of
`Binom(31, 14)` wraps around and no party can construct its manipulator, so there is no
object whose `ComputeIndexForDoubleMultiplication` or `mTableMult` the claim could be about.
For `n = 4`, `t = 2` the constructor of the manipulator asks for the replicator of threshold
`2 t = 4`, which the constructor of the replicator refuses. -/
theorem C34_counterexample :
    ((1 ≤ 14 ∧ 2 * 14 < 31 ∧ 2 < 31) ∧
      ¬ ∃ (M : ShrManipulator) (idx : Int),
        ShrManipulator.ctor 2 14 31 = .ok M ∧
        M.ComputeIndexForDoubleMultiplication 0 0 = .ok idx) ∧
    ((1 ≤ 2 ∧ 2 < 4) ∧
      ¬ ∃ (M : ShrManipulator) (idx : Int),
        ShrManipulator.ctor 2 2 4 = .ok M ∧
        M.ComputeIndexForDoubleMultiplication 0 0 = .ok idx) := by
  refine ⟨⟨by decide, ?_⟩, by decide, ?_⟩
  · rintro ⟨M, _, hM, _⟩
    obtain ⟨e, he⟩ := ShrManipulator_ctor_error_left 2 14 31 ctor_31_14
    rw [he] at hM
    cases hM
  · rintro ⟨M, _, hM, _⟩
    obtain ⟨e, he⟩ := ShrManipulator_ctor_error 2 2 4 ⟨Fault.invalid_argument, by
      rw [ctor_of_divisors 4 (2 * 2 % SIZE) (by decide) (by decide), if_pos (by decide)]⟩
    rw [he] at hM
    cases hM

/-- The values that the test "Multiplication indexes" of test_shr.cc requires, for the four
manipulators of `n = 4`, `t = 1`. -/
theorem sample_multiplication_indexes :
    ((sampleManipulator 0).ComputeIndexForDoubleMultiplication 0 1).toOption = some 0 ∧
    ((sampleManipulator 1).ComputeIndexForDoubleMultiplication 0 1).toOption = some 0 ∧
    ((sampleManipulator 0).ComputeIndexForDoubleMultiplication 0 0).toOption = some 0 ∧
    ((sampleManipulator 1).ComputeIndexForDoubleMultiplication 0 0).toOption = some 0 ∧
    ((sampleManipulator 2).ComputeIndexForDoubleMultiplication 0 0).toOption = some (-1) ∧
    ((sampleManipulator 0).ComputeIndexForDoubleMultiplication 0 2).toOption = some 1 ∧
    ((sampleManipulator 2).ComputeIndexForDoubleMultiplication 0 1).toOption = some 0 ∧
    ((sampleManipulator 1).ComputeIndexForDoubleMultiplication 1 2).toOption = some 2 ∧
    ((sampleManipulator 3).ComputeIndexForDoubleMultiplication 0 2).toOption = some 1 ∧
    (sampleManipulator 2).mTableMult =
      [⟨0, 1, 0, 0⟩, ⟨0, 2, 1, 1⟩, ⟨1, 0, 0, 0⟩, ⟨1, 1, 0, 0⟩, ⟨1, 2, 2, 2⟩, ⟨2, 0, 1, 1⟩,
       ⟨2, 1, 2, 2⟩, ⟨2, 2, 1, 1⟩] := by
  refine ⟨?_, ?_, ?_, ?_, ?_, ?_, ?_, ?_, ?_, ?_⟩ <;> decide!

/-- C35 (amended to `n ≤ 30`): for `t ≥ 1`, `2t < n` and `id < n` the constructor
`ShrManipulator(id, t, n)` returns, and the loop that fills `mTableMult` returns the table it
holds.  For every pair of local slot indexes `a, b` the members of `S_a` that `Intersection`
reports are the common members of `S_a` and `S_b`, there are at least `n - 2t` of them, so
`resize(n - 2t)` is a truncation, the truncated set is a key of `mRevComb` of the second
replicator (the key of that very subset), and the loop body returns for the pair. -/
theorem C35_table_never_faults (id t n : Nat) (ht : 1 ≤ t) (h2t : 2 * t < n) (hid : id < n)
    (hn : n ≤ 30) :
    ∃ (M : ShrManipulator) (is : List Nat),
      ShrManipulator.ctor id t n = .ok M ∧
      tableMult id n t M.mReplicator M.mDoubleReplicator = .ok M.mTableMult ∧
      M.mReplicator.IndexSetFor id = .ok is ∧ is.length = M.mReplicator.ShareSize ∧
      ∀ a b, a < M.mReplicator.ShareSize → b < M.mReplicator.ShareSize →
        ∃ (SetA SetB inter : List Nat) (key : Nat) (entry : Option MultEntry),
          M.mReplicator.Combination (is.getD a 0) = .ok SetA ∧
          M.mReplicator.Combination (is.getD b 0) = .ok SetB ∧
          allOk ((Intersection SetA SetB).map (fun i => getE SetA i)) = .ok inter ∧
          (∀ q, q ∈ inter ↔ q ∈ SetA ∧ q ∈ SetB) ∧
          n - 2 * t ≤ inter.length ∧
          resize inter (n - 2 * t) = inter.take (n - 2 * t) ∧
          firstCommon id n t M.mReplicator a b = .ok (inter.take (n - 2 * t)) ∧
          M.mDoubleReplicator.RevComb (inter.take (n - 2 * t)) = .ok key ∧
          M.mDoubleReplicator.Combination key = .ok (inter.take (n - 2 * t)) ∧
          tableMultEntry id n t M.mReplicator M.mDoubleReplicator a b = .ok entry := by
  obtain ⟨M, hM, hW, _, _⟩ := ShrManipulator_ctor_ok_exact id t n ht h2t
    (BinomExact_pairs n t h2t hn) hid
  have hS := hW.rep.share id hid
  refine ⟨M, slotsOf (combs n (n - t) 0) id, hM, ?_, IndexSetFor_ok _ n t hW.rep id hid, hS, ?_⟩
  · rw [tableMult_ok _ _ n t id hW.rep hW.drep h2t hid, hW.tableMult]
  · intro a b ha hb
    have ha' : a < (slotsOf (combs n (n - t) 0) id).length := by rw [hS]; exact ha
    have hb' : b < (slotsOf (combs n (n - t) 0) id).length := by rw [hS]; exact hb
    obtain ⟨hx, _⟩ := slot_lt (combs n (n - t) 0) id a ha'
    obtain ⟨hy, _⟩ := slot_lt (combs n (n - t) 0) id b hb'
    obtain ⟨_, a2, _⟩ := comb_facts n (n - t) _ hx
    obtain ⟨_, b2, _⟩ := comb_facts n (n - t) _ hy
    obtain ⟨_, _, c3⟩ := common_facts n t _ _ h2t hx hy
    obtain ⟨hd1, hd2⟩ := destSlot_spec n t _ _ h2t hx hy
    have hlen : n - 2 * t ≤ (((combs n (n - t) 0).getD
        ((slotsOf (combs n (n - t) 0) id).getD a 0) []).filter
          (fun q => decide (q ∈ (combs n (n - t) 0).getD
            ((slotsOf (combs n (n - t) 0) id).getD b 0) []))).length := by
      simpa [common] using c3
    refine ⟨_, _, _, _, _, Combination_ok _ n t hW.rep _ hx, Combination_ok _ n t hW.rep _ hy,
      Intersection_elems _ _ a2 b2, ?_, hlen, resize_take _ _ hlen,
      firstCommon_ok _ n t id a b hW.rep h2t hid ha hb,
      RevComb_ok _ n (2 * t) hW.drep _ (destSet_mem n t _ _ h2t hx hy), ?_,
      tableMultEntry_ok _ _ n t id a b hW.rep hW.drep h2t hid ha hb⟩
    · intro q
      simp [List.mem_filter]
    · have := Combination_ok _ n (2 * t) hW.drep _ hd1
      rw [hd2] at this
      exact this

/-- C35, an instance: party 2 of `n = 5`, `t = 2`. -/
theorem C35_witness :
    (1 ≤ 2 ∧ 2 * 2 < 5 ∧ 2 < 5 ∧ 5 ≤ 30) ∧
    ∃ (M : ShrManipulator) (is : List Nat),
      ShrManipulator.ctor 2 2 5 = .ok M ∧
      tableMult 2 5 2 M.mReplicator M.mDoubleReplicator = .ok M.mTableMult ∧
      M.mReplicator.IndexSetFor 2 = .ok is ∧ is.length = M.mReplicator.ShareSize ∧
      ∀ a b, a < M.mReplicator.ShareSize → b < M.mReplicator.ShareSize →
        ∃ (SetA SetB inter : List Nat) (key : Nat) (entry : Option MultEntry),
          M.mReplicator.Combination (is.getD a 0) = .ok SetA ∧
          M.mReplicator.Combination (is.getD b 0) = .ok SetB ∧
          allOk ((Intersection SetA SetB).map (fun i => getE SetA i)) = .ok inter ∧
          (∀ q, q ∈ inter ↔ q ∈ SetA ∧ q ∈ SetB) ∧
          5 - 2 * 2 ≤ inter.length ∧
          resize inter (5 - 2 * 2) = inter.take (5 - 2 * 2) ∧
          firstCommon 2 5 2 M.mReplicator a b = .ok (inter.take (5 - 2 * 2)) ∧
          M.mDoubleReplicator.RevComb (inter.take (5 - 2 * 2)) = .ok key ∧
          M.mDoubleReplicator.Combination key = .ok (inter.take (5 - 2 * 2)) ∧
          tableMultEntry 2 5 2 M.mReplicator M.mDoubleReplicator a b = .ok entry :=
  ⟨by decide, C35_table_never_faults 2 2 5 (by decide) (by decide) (by decide)
    (by decide)⟩

/-- C35, where the claim fails as stated: `t = 14`, `n = 31`, `id = 1` satisfy `t ≥ 1`,
`2t < n` and `id < n`, but the constructor `ShrManipulator(1, 14, 31)` fails: the 64-bit
evaluation of `Binom(31, 14)` wraps around and the first replicator cannot be built, so no
multiplication table is built either. -/
theorem C35_counterexample :
    (1 ≤ 14 ∧ 2 * 14 < 31 ∧ 1 < 31) ∧
      (∃ e, ShrManipulator.ctor 1 14 31 = .error e) ∧
      ¬ ∃ (R DR : Replicator) (T : List MultEntry),
        Replicator.ctor 31 14 = .ok R ∧ tableMult 1 31 14 R DR = .ok T := by
  refine ⟨by decide, ShrManipulator_ctor_error_left 1 14 31 ctor_31_14, ?_⟩
  rintro ⟨R, _, _, hR, _⟩
  obtain ⟨e, he⟩ := ctor_31_14
  rw [he] at hR
  cases hR

theorem getD_replicate_scalar {F : Type} [CommRing F] (S d : Nat) :
    (List.replicate S (0 : F)).getD d 0 = 0 := by
  by_cases hd : d < S
  · have hl : d < (List.replicate S (0 : F)).length := by simpa using hd
    rw [List.getD_eq_getElem _ _ hl, List.getElem_replicate]
  · have hl : (List.replicate S (0 : F)).length ≤ d := by simpa using hd
    rw [List.getD_eq_default _ _ hl]

theorem getD_replicate_zero {F : Type} [CommRing F] (k S u d : Nat) :
    ((List.replicate k (List.replicate S (0 : F))).getD u []).getD d 0 = 0 := by
  by_cases hu : u < k
  · have hl : u < (List.replicate k (List.replicate S (0 : F))).length := by simpa using hu
    have e : (List.replicate k (List.replicate S (0 : F))).getD u [] = List.replicate S 0 := by
      rw [List.getD_eq_getElem _ _ hl, List.getElem_replicate]
    rw [e, getD_replicate_scalar]
  · have hl : (List.replicate k (List.replicate S (0 : F))).length ≤ u := by simpa using hu
    have e : (List.replicate k (List.replicate S (0 : F))).getD u [] = [] :=
      List.getD_eq_default _ _ hl
    rw [e]
    rfl

theorem sum_rows {F : Type} [CommRing F] (g : MultEntry → F) (k : Nat) :
    ∀ (E : List MultEntry), (∀ e ∈ E, e.first_party < k) →
    ∑ u in Finset.range k, (E.map (fun e => if e.first_party = u then g e else 0)).sum =
      (E.map g).sum := by
  intro E
  induction E with
  | nil => intro _; simp
  | cons e E ih =>
    intro h
    simp only [List.map_cons, List.sum_cons]
    rw [Finset.sum_add_distrib, ih (fun e' he' => h e' (List.mem_cons_of_mem e he')),
      Finset.sum_ite_eq, if_pos (Finset.mem_range.mpr (h e (List.mem_cons_self e E)))]

/-- The loop of `MultiplyToAddAndMsgs` returns; the cell `msgs[u][d]` grows by the products of
the entries with `first_party = u` and `dest_c = d`, and nothing else changes. -/
theorem fold_AddAndMsgs_cells {F : Type} [CommRing F] (pid S : Nat) (xs ys : List F) :
    ∀ (E : List MultEntry) (c : F) (msgs : List (List F)),
    (∀ e ∈ E, e.src_a < xs.length ∧ e.src_b < ys.length ∧ e.first_party < msgs.length ∧
      e.dest_c < S) →
    (∀ row ∈ msgs, row.length = S) →
    ∃ out, E.foldlM (MultiplyToAddAndMsgs.step pid xs ys) ⟨c, msgs⟩ = .ok out ∧
      out.add_share = c + (E.map (fun e => termAdd xs ys pid (some e))).sum ∧
      out.msgs.length = msgs.length ∧ (∀ row ∈ out.msgs, row.length = S) ∧
      ∀ u d, (out.msgs.getD u []).getD d 0 = (msgs.getD u []).getD d 0 +
        (E.map (fun e => if e.first_party = u then termDD xs ys d (some e) else 0)).sum := by
  intro E
  induction E with
  | nil =>
    intro c msgs _ hrow
    exact ⟨⟨c, msgs⟩, rfl, by simp, rfl, hrow, by simp⟩
  | cons e E ih =>
    intro c msgs h hrow
    obtain ⟨h1, h2, h3, h4⟩ := h e (List.mem_cons_self e E)
    have hr : (msgs.getD e.first_party []).length = S :=
      hrow _ (by rw [List.getD_eq_getElem _ _ h3]; exact List.getElem_mem h3)
    obtain ⟨out, o1, o2, o3, o4, o5⟩ :=
      ih (if pid = e.first_party then c + xs.getD e.src_a 0 * ys.getD e.src_b 0 else c)
      (msgs.set e.first_party ((msgs.getD e.first_party []).set e.dest_c
        ((msgs.getD e.first_party []).getD e.dest_c 0 + xs.getD e.src_a 0 * ys.getD e.src_b 0)))
      (fun e' he' => by
        obtain ⟨a1, a2, a3, a4⟩ := h e' (List.mem_cons_of_mem e he')
        exact ⟨a1, a2, by rw [List.length_set]; exact a3, a4⟩)
      (fun row hr' => by
        rcases List.mem_or_eq_of_mem_set hr' with h' | h'
        · exact hrow row h'
        · rw [h', List.length_set]; exact hr)
    refine ⟨out, ?_, ?_, by rw [o3, List.length_set], o4, ?_⟩
    · rw [List.foldlM_cons, AddAndMsgs_step pid xs ys e c msgs h1 h2 h3 (by rw [hr]; exact h4)]
      exact o1
    · rw [o2, List.map_cons, List.sum_cons]
      unfold termAdd
      simp only
      split_ifs <;> ring
    · intro u d
      rw [o5 u d, List.map_cons, List.sum_cons]
      by_cases hu : e.first_party = u
      · rw [if_pos hu, ← hu, getD_set_same _ _ _ _ h3,
          getD_set_scalar _ _ _ _ (by rw [hr]; exact h4)]
        unfold termDD
        simp only
        by_cases hd : e.dest_c = d
        · rw [if_pos hd, if_pos hd, hd]; ring
        · rw [if_neg hd, if_neg hd]; ring
      · rw [if_neg hu, getD_set_ne' _ _ _ _ _ (fun h' => hu h'.symm)]
        ring

/-- C36 (amended to `n ≤ 30`, `t ≥ 1`, `2 t < n`): the manipulator `M` of party `id` is
constructed, and every entry of its table has `first_party ≤ 2t`.  For a `Mult` object of the
party that holds `M`, shares `a`, `b` of `ShareSize` elements and any random share `r` the
call `MultiplyToAddAndMsgs(a, b, r)` returns: `msgs` has `2t + 1` rows of the length of a
degree-`2t` share, the cell `msgs[u][d]` is the sum of the products `a[src_a] * b[src_b]` of
the entries with `first_party = u` and `dest_c = d` (so only rows `first_party` are written),
the rows sum slot by slot to `MultiplyToDoubleDegree(a, b)`, and `add_share` is
`MultiplyToAdditive(a, b) - r.add_share`. -/
theorem C36_MultiplyToAddAndMsgs {F : Type} [CommRing F] [DecidableEq F] [FieldBytes F]
    {G : Type} [PRG G] (id t n : Nat) (ht : 1 ≤ t) (h2t : 2 * t < n) (hid : id < n)
    (hn : n ≤ 30) :
    ∃ M : ShrManipulator, ShrManipulator.ctor id t n = .ok M ∧
      (∀ e ∈ M.mTableMult, e.first_party ≤ 2 * t) ∧
      ∀ (m : Mult F G) (a b : List F) (r : RandomShare F),
        m.mManipulator = M → m.mId = id → m.mThreshold = t →
        a.length = M.mReplicator.ShareSize → b.length = M.mReplicator.ShareSize →
        ∃ (out : AddAndMsgs F) (dd : List F) (add : F),
          m.MultiplyToAddAndMsgs a b r =
            .ok (out, { m with mRandomShares := m.mRandomShares ++ [r] }) ∧
          M.MultiplyToDoubleDegree a b = .ok dd ∧
          M.MultiplyToAdditive a b = .ok add ∧
          dd.length = M.mDoubleReplicator.ShareSize ∧
          out.msgs.length = 2 * t + 1 ∧
          (∀ row ∈ out.msgs, row.length = M.mDoubleReplicator.ShareSize) ∧
          (∀ u d, (out.msgs.getD u []).getD d 0 =
            (M.mTableMult.map (fun e =>
              if e.first_party = u then termDD a b d (some e) else 0)).sum) ∧
          (∀ d, ∑ u in Finset.range (2 * t + 1), (out.msgs.getD u []).getD d 0 = dd.getD d 0) ∧
          out.add_share = add - r.add_share := by
  obtain ⟨M, hM, hW, _, _⟩ := ShrManipulator_ctor_ok_exact id t n ht h2t
    (BinomExact_pairs n t h2t hn) hid
  have hS := hW.rep.share id hid
  have hSD := hW.drep.share id hid
  have hfp : ∀ e ∈ M.mTableMult, e.first_party ≤ 2 * t := by
    intro e he
    rw [hW.tableMult] at he
    exact table_first_party n t id _ h2t hS.symm e he
  refine ⟨M, hM, hfp, ?_⟩
  intro m a b r hm hmid hmt hla hlb
  have hent : ∀ e ∈ M.mTableMult, e.src_a < a.length ∧ e.src_b < b.length ∧
      e.dest_c < M.mDoubleReplicator.ShareSize := by
    intro e he
    rw [hW.tableMult] at he
    obtain ⟨x, y, hx, hy, hxy⟩ := mem_table n t id _ e he
    obtain ⟨e1, e2, e3⟩ := entrySpec_some n t id x y h2t (by rw [hS]; exact hx)
      (by rw [hS]; exact hy) e hxy
    rw [hla, hlb, e1, e2]
    refine ⟨hx, hy, ?_⟩
    unfold Replicator.ShareSize
    rw [← hSD]; exact e3
  obtain ⟨out, o1, o2, o3, o4, o5⟩ := fold_AddAndMsgs_cells id M.mDoubleReplicator.ShareSize a b
    M.mTableMult 0
    (List.replicate (2 * t + 1) (List.replicate M.mDoubleReplicator.ShareSize 0))
    (fun e he => by
      obtain ⟨a1, a2, a3⟩ := hent e he
      have := hfp e he
      exact ⟨a1, a2, by rw [List.length_replicate]; omega, a3⟩)
    (fun row hrow => by rw [List.eq_of_mem_replicate hrow, List.length_replicate])
  obtain ⟨dd, d1, d2, d3⟩ := fold_MultDD a b M.mTableMult
    (List.replicate M.mDoubleReplicator.ShareSize 0)
    (fun e he => by
      obtain ⟨a1, a2, a3⟩ := hent e he
      exact ⟨a1, a2, by rw [List.length_replicate]; exact a3⟩)
  have hadd := fold_MultAdd id a b M.mTableMult 0 (fun e he => ⟨(hent e he).1, (hent e he).2.1⟩)
  have hcell : ∀ u d, (out.msgs.getD u []).getD d 0 =
      (M.mTableMult.map (fun e =>
        if e.first_party = u then termDD a b d (some e) else 0)).sum := by
    intro u d
    rw [o5 u d, getD_replicate_zero, zero_add]
  refine ⟨{ out with add_share := out.add_share - r.add_share }, dd,
    0 + (M.mTableMult.map (fun e => termAdd a b id (some e))).sum, ?_, d1, ?_, ?_, ?_, o4,
    hcell, ?_, ?_⟩
  · unfold Mult.MultiplyToAddAndMsgs
    simp only [hm, hmid, hmt]
    rw [o1]
  · unfold ShrManipulator.MultiplyToAdditive
    rw [hW.party]
    exact hadd
  · rw [d2, List.length_replicate]
  · show out.msgs.length = _
    rw [o3, List.length_replicate]
  · intro d
    show ∑ u in Finset.range (2 * t + 1), (out.msgs.getD u []).getD d 0 = _
    rw [Finset.sum_congr rfl (fun u _ => hcell u d),
      sum_rows (fun e => termDD a b d (some e)) (2 * t + 1) M.mTableMult
        (fun e he => by have := hfp e he; omega),
      d3 d]
    rw [getD_replicate_scalar, zero_add]
  · show out.add_share - r.add_share = _
    rw [o2]

/-- C36, an instance: party 1 of `n = 4`, `t = 1`, over the field of `2^61 - 1` elements. -/
theorem C36_witness :
    (1 ≤ 1 ∧ 2 * 1 < 4 ∧ 1 < 4 ∧ 4 ≤ 30) ∧
    ∃ M : ShrManipulator, ShrManipulator.ctor 1 1 4 = .ok M ∧
      (∀ e ∈ M.mTableMult, e.first_party ≤ 2 * 1) ∧
      ∀ (m : Mult Fp61 CounterPRG) (a b : List Fp61) (r : RandomShare Fp61),
        m.mManipulator = M → m.mId = 1 → m.mThreshold = 1 →
        a.length = M.mReplicator.ShareSize → b.length = M.mReplicator.ShareSize →
        ∃ (out : AddAndMsgs Fp61) (dd : List Fp61) (add : Fp61),
          m.MultiplyToAddAndMsgs a b r =
            .ok (out, { m with mRandomShares := m.mRandomShares ++ [r] }) ∧
          M.MultiplyToDoubleDegree a b = .ok dd ∧
          M.MultiplyToAdditive a b = .ok add ∧
          dd.length = M.mDoubleReplicator.ShareSize ∧
          out.msgs.length = 2 * 1 + 1 ∧
          (∀ row ∈ out.msgs, row.length = M.mDoubleReplicator.ShareSize) ∧
          (∀ u d, (out.msgs.getD u []).getD d 0 =
            (M.mTableMult.map (fun e =>
              if e.first_party = u then termDD a b d (some e) else 0)).sum) ∧
          (∀ d, ∑ u in Finset.range (2 * 1 + 1), (out.msgs.getD u []).getD d 0 = dd.getD d 0) ∧
          out.add_share = add - r.add_share :=
  ⟨by decide, @C36_MultiplyToAddAndMsgs Fp61 _ _ _ CounterPRG _ 1 1 4 (by decide) (by decide)
    (by decide) (by decide)⟩

/-- C36, where the claim fails as stated: for `n = 31`, `t = 14` the 64-bit evaluation of
`Binom(31, 14)` wraps around and no party can construct its manipulator, so no party has a
`Mult` object on which `MultiplyToAddAndMsgs` could be called.  For `n = 4`, `t = 2` the
constructor of the manipulator asks for the replicator of threshold `2 t = 4`, which the
constructor of the replicator refuses. -/
theorem C36_counterexample :
    ((1 ≤ 14 ∧ 2 * 14 < 31 ∧ 3 < 31) ∧
      ¬ ∃ (M : ShrManipulator) (m : Mult Fp61 CounterPRG) (a b : List Fp61)
          (r : RandomShare Fp61) (out : AddAndMsgs Fp61 × Mult Fp61 CounterPRG),
        ShrManipulator.ctor 3 14 31 = .ok M ∧ m.mManipulator = M ∧
        m.MultiplyToAddAndMsgs a b r = .ok out) ∧
    ((1 ≤ 2 ∧ 2 < 4 ∧ 3 < 4) ∧
      ¬ ∃ (M : ShrManipulator) (m : Mult Fp61 CounterPRG) (a b : List Fp61)
          (r : RandomShare Fp61) (out : AddAndMsgs Fp61 × Mult Fp61 CounterPRG),
        ShrManipulator.ctor 3 2 4 = .ok M ∧ m.mManipulator = M ∧
        m.MultiplyToAddAndMsgs a b r = .ok out) := by
  refine ⟨⟨by decide, ?_⟩, by decide, ?_⟩
  · rintro ⟨M, _, _, _, _, _, hM, _⟩
    obtain ⟨e, he⟩ := ShrManipulator_ctor_error_left 3 14 31 ctor_31_14
    rw [he] at hM
    cases hM
  · rintro ⟨M, _, _, _, _, _, hM, _⟩
    obtain ⟨e, he⟩ := ShrManipulator_ctor_error 3 2 4 ⟨Fault.invalid_argument, by
      rw [ctor_of_divisors 4 (2 * 2 % SIZE) (by decide) (by decide), if_pos (by decide)]⟩
    rw [he] at hM
    cases hM

/-- Party 1 of `n = 4`, `t = 1` on the shares `[1, 2, 3]` and `[4, 5, 6]` with a random share
whose additive part is `7`: the rows of `msgs` are `[27, 0, 0]`, `[0, 36, 27]` and
`[0, 0, 0]`, their sum is the result `[27, 36, 27]` of `MultiplyToDoubleDegree`, and
`add_share` is `63 - 7`. -/
theorem sample_MultiplyToAddAndMsgs :
    (((Mult.ctor 1 4 sampleReplicator (sampleManipulator 1) (Correlator.ctor 1 sampleReplicator)
        (CheckData.ctor 1) : Mult Fp61 CounterPRG).MultiplyToAddAndMsgs [1, 2, 3] [4, 5, 6]
          ⟨[], 7, []⟩).toOption.map (fun p => (p.1.add_share, p.1.msgs))) =
      some (56, [[27, 0, 0], [0, 36, 27], [0, 0, 0]]) ∧
    ((sampleManipulator 1).MultiplyToDoubleDegree ([1, 2, 3] : List Fp61) [4, 5, 6]).toOption =
      some [27, 36, 27] ∧
    ((sampleManipulator 1).MultiplyToAdditive ([1, 2, 3] : List Fp61) [4, 5, 6]).toOption =
      some 63 := by
  refine ⟨?_, ?_, ?_⟩ <;> decide!

/-- C37 (amended to `n ≤ 30` and `2 t < n`): the manipulator `M` of party `id` is
constructed, and for every share `a` of
`ShareSize` elements and every constant `c`: if `id < n - t` then `AddConstant(a, c)` returns
`a` with `a[0] + c` at local index 0 and every other element as in `a`; if `id ≥ n - t` it
returns `a`.  So for `c ≠ 0` the result differs from `a` exactly when `id < n - t`.  These are
the parties that hear from the reconstructing party: `ReconstructionStep` of a party with the
same `n` and `t` appends its values to its channel to `id` exactly when `id < n - t`, and the
first part of `OutputStep` of party `id` reads `mCount` values from the channel of party 0
when `id < n - t` and takes `mCount` zeros without touching the network otherwise. -/
theorem C37_AddConstant_recipients {F : Type} [CommRing F] [DecidableEq F] [FieldBytes F]
    {G : Type} [PRG G] (id t n : Nat) (ht : 1 ≤ t) (h2t : 2 * t < n) (hid : id < n)
    (hn : n ≤ 30) :
    ∃ M : ShrManipulator, ShrManipulator.ctor id t n = .ok M ∧
      (∀ (a : List F) (c : F), a.length = M.mReplicator.ShareSize →
        0 < a.length ∧
        (id < n - t → ∃ out, M.AddConstant a c = .ok out ∧ out.length = a.length ∧
          out.getD 0 0 = a.getD 0 0 + c ∧ ∀ j, j ≠ 0 → out.getD j 0 = a.getD j 0) ∧
        (n - t ≤ id → M.AddConstant a c = .ok a) ∧
        (c ≠ 0 → ∃ out, M.AddConstant a c = .ok out ∧ (out ≠ a ↔ id < n - t))) ∧
      (∀ (m0 m1 : Mult F G) (net net1 : Net F), m0.mSize = n → m0.mThreshold = t →
        m0.ReconstructionStep net = .ok (m1, net1) →
        net1 m0.mId id =
          if id < n - t then net m0.mId id ++ m1.mValuesSentFromP1 else net m0.mId id) ∧
      (∀ (m : Mult F G) (net : Net F), m.mId = id → m.mSize = n → m.mThreshold = t →
        (n - t ≤ id → OutputStep.recv m net =
          .ok ({ m with mValuesRecvFromP1 := List.replicate m.mCount 0 }, net)) ∧
        (id < n - t → ∀ values net1, net.Recv id 0 m.mCount = .ok (values, net1) →
          ∃ m1, OutputStep.recv m net = .ok (m1, net1) ∧ m1.mValuesRecvFromP1 = values)) := by
  obtain ⟨M, hM, hW, _, _⟩ := ShrManipulator_ctor_ok_exact id t n ht h2t
    (BinomExact_pairs n t h2t hn) hid
  refine ⟨M, hM, ?_, ?_, ?_⟩
  · intro a c ha
    have hpos : 0 < a.length := by
      rw [ha]
      show 0 < M.mReplicator.mShareSize
      rw [hW.rep.share_choose]
      exact Nat.choose_pos (by omega)
    refine ⟨hpos, ?_, ?_, ?_⟩
    · intro h
      refine ⟨a.set 0 (a.getD 0 0 + c), ?_, List.length_set _ _ _, ?_, ?_⟩
      · unfold ShrManipulator.AddConstant
        rw [hW.indexConst, if_pos h, if_neg (by decide)]
        unfold updateAt
        rw [show (0 : Int).toNat = 0 from rfl, getE_ok_getD a 0 0 hpos]
      · rw [getD_set_scalar a 0 0 _ hpos, if_pos rfl]
      · intro j hj
        rw [getD_set_scalar a 0 j _ hpos, if_neg (fun h' => hj h'.symm)]
    · intro h
      have hn : ¬ id < n - t := by omega
      unfold ShrManipulator.AddConstant
      rw [hW.indexConst, if_neg hn, if_pos rfl]
    · intro hc
      obtain ⟨out, h1, h2, _⟩ := AddConstant_changes M n t id hW (by omega) a ha c hc
      exact ⟨out, h1, h2⟩
  · intro m0 m1 net net1 hn hthr hrun
    unfold Mult.ReconstructionStep at hrun
    cases hv : allOk ((List.range m0.mCount).map
        (ReconstructionStep.value m0.mSharesRecvByP1 m0.mThreshold)) with
    | error e => rw [hv] at hrun; cases hrun
    | ok values =>
      rw [hv] at hrun
      simp only [Except.ok.injEq, Prod.mk.injEq] at hrun
      obtain ⟨e1, e2⟩ := hrun
      rw [← e2, ← e1, foldl_Send, hn, hthr]
      by_cases h : id < n - t
      · rw [if_pos ⟨rfl, h⟩, if_pos h]
      · rw [if_neg (fun h' => h h'.2), if_neg h]
  · intro m net hmid hn hthr
    constructor
    · intro h
      unfold OutputStep.recv
      rw [hmid, hn, hthr, if_neg (by omega)]
    · intro h values net1 hrecv
      unfold OutputStep.recv
      rw [hmid, hn, hthr, if_pos h, hrecv]
      exact ⟨_, rfl, rfl⟩

/-- C37, an instance: party 2 of `n = 4`, `t = 1`, over the field of `2^61 - 1` elements. -/
theorem C37_witness :
    (1 ≤ 1 ∧ 2 * 1 < 4 ∧ 2 < 4 ∧ 4 ≤ 30) ∧
    ∃ M : ShrManipulator, ShrManipulator.ctor 2 1 4 = .ok M ∧
      (∀ (a : List Fp61) (c : Fp61), a.length = M.mReplicator.ShareSize →
        0 < a.length ∧
        (2 < 4 - 1 → ∃ out, M.AddConstant a c = .ok out ∧ out.length = a.length ∧
          out.getD 0 0 = a.getD 0 0 + c ∧ ∀ j, j ≠ 0 → out.getD j 0 = a.getD j 0) ∧
        (4 - 1 ≤ 2 → M.AddConstant a c = .ok a) ∧
        (c ≠ 0 → ∃ out, M.AddConstant a c = .ok out ∧ (out ≠ a ↔ 2 < 4 - 1))) ∧
      (∀ (m0 m1 : Mult Fp61 CounterPRG) (net net1 : Net Fp61), m0.mSize = 4 →
        m0.mThreshold = 1 → m0.ReconstructionStep net = .ok (m1, net1) →
        net1 m0.mId 2 =
          if 2 < 4 - 1 then net m0.mId 2 ++ m1.mValuesSentFromP1 else net m0.mId 2) ∧
      (∀ (m : Mult Fp61 CounterPRG) (net : Net Fp61), m.mId = 2 → m.mSize = 4 →
        m.mThreshold = 1 →
        (4 - 1 ≤ 2 → OutputStep.recv m net =
          .ok ({ m with mValuesRecvFromP1 := List.replicate m.mCount 0 }, net)) ∧
        (2 < 4 - 1 → ∀ values net1, net.Recv 2 0 m.mCount = .ok (values, net1) →
          ∃ m1, OutputStep.recv m net = .ok (m1, net1) ∧ m1.mValuesRecvFromP1 = values)) :=
  ⟨by decide, @C37_AddConstant_recipients Fp61 _ _ _ CounterPRG _ 2 1 4 (by decide) (by decide)
    (by decide) (by decide)⟩

/-- C37 fails for `n = 4`, `t = 2`, a pair with `1 ≤ t < n`: the constructor of the
manipulator asks for the replicator of threshold `2 t = 4`, which the constructor of the
replicator refuses, so no party has a manipulator whose `AddConstant` could be called.  It
also fails for `n = 31`, `t = 14`, where the 64-bit evaluation of `Binom(31, 14)` wraps
around. -/
theorem C37_counterexample :
    (1 ≤ 2 ∧ 2 < 4 ∧ 1 < 4 ∧
      ¬ ∃ (M : ShrManipulator) (a out : List Fp61) (c : Fp61),
        ShrManipulator.ctor 1 2 4 = .ok M ∧ M.AddConstant a c = .ok out) ∧
    (1 ≤ 14 ∧ 14 < 31 ∧ 1 < 31 ∧
      ¬ ∃ (M : ShrManipulator) (a out : List Fp61) (c : Fp61),
        ShrManipulator.ctor 1 14 31 = .ok M ∧ M.AddConstant a c = .ok out) := by
  refine ⟨⟨by decide, by decide, by decide, ?_⟩, ⟨by decide, by decide, by decide, ?_⟩⟩
  · rintro ⟨M, _, _, _, hM, _⟩
    obtain ⟨e, he⟩ := ShrManipulator_ctor_error 1 2 4 ⟨Fault.invalid_argument, by
      rw [ctor_of_divisors 4 (2 * 2 % SIZE) (by decide) (by decide), if_pos (by decide)]⟩
    rw [he] at hM
    cases hM
  · rintro ⟨M, _, _, _, hM, _⟩
    obtain ⟨e, he⟩ := ShrManipulator_ctor_error_left 1 14 31 ctor_31_14
    rw [he] at hM
    cases hM

/-- The four parties of `n = 4`, `t = 1` add the constant `5` to the share `[1, 2, 3]`: the
parties 0, 1 and 2 change the first element, party 3 returns the share as it is. -/
theorem sample_AddConstant :
    (List.range 4).map (fun i =>
        ((sampleManipulator i).AddConstant ([1, 2, 3] : List Fp61) 5).toOption) =
      [some [6, 2, 3], some [6, 2, 3], some [6, 2, 3], some [1, 2, 3]] := by
  decide!

end frn
